import Mathlib

/-!
# Tree buffers (`treebuffer.c`): a shallow embedding and its verification

The C program keeps a rooted tree whose nodes live on the heap and are linked
through intrusive, circular, doubly linked lists with sentinels.  The embedding
below keeps the heap explicit:

* an address is a natural number, `0` is the null pointer;
* every field of `struct Node` is a map from addresses to values
  (`parent`, `children`, `ll`, `rl`, ...), so `x->children` is `t.children x`;
* `alloc` is the allocator's table of `Node`s that are `malloc`ed and not yet
  `free`d;
* `t->active` and `t->to_delete` (two `malloc`ed sentinel cells) sit at the
  fixed addresses `s_active` and `s_to_delete`; the three stack sentinels of
  `gc` sit at `sentinel_a`, `sentinel_b`, `sentinel_c`;
* every function returns `Except Fault _`: a failed `assert`, the use of a
  pointer that is null, freed or was never allocated, and a loop that does not
  come to an end are faults;
* the `M`, `MM`, ... bookkeeping of `t->mems` and the lines printed to the
  statistics file are part of the state.

The table `alloc` holds the nodes the tree owns.  A node the client has made
and not yet handed over cannot be reached from the tree, so in the trees of
`Reach` a node is made by `tb_make_node` in the step that hands it to
`tb_add_child`; `tb_expand`, whose children are all made before the call, is
related to these steps by `tb_expand_eq`.  A script names a node by its
address, and a new node gets an address that no earlier node of the script had.

The C `int`s are modelled by unbounded integers: `children`, `depth`,
`active_count`, `node_count` and `mems` would need about `2^31` nodes or
memory references to overflow.
-/

namespace TreeBuffers

/-- The four reclamation algorithms, `enum algo` of `treebuffer.h`. -/
inductive algo where
  | tb_naive
  | tb_gc
  | tb_amortized
  | tb_real_time
  deriving DecidableEq, Repr

export algo (tb_naive tb_gc tb_amortized tb_real_time)

/-- What stops an execution of the C code. -/
inductive Fault where
  /-- An `assert` failed. -/
  | assertion
  /-- A pointer that is null, freed or never allocated was dereferenced or freed. -/
  | bad_pointer
  /-- A loop ran longer than any traversal of an intact list can. -/
  | diverges
  deriving DecidableEq, Repr

/-- One line of the statistics file: `"S %d\n"`, `"TA %d\n"`, `"TD %d\n"`,
`"TH %d\n"`, `"TF %d\n"`. -/
inductive Line where
  | S (delta : Int)
  | TA (mems : Int)
  | TD (mems : Int)
  | TH (mems : Int)
  | TF (mems : Int)
  deriving DecidableEq, Repr

/-- Address of the sentinel cell `t->active`. -/
abbrev s_active : Nat := 1
/-- Address of the sentinel cell `t->to_delete`. -/
abbrev s_to_delete : Nat := 2
/-- Address of the local `sentinel_a` of `gc`. -/
abbrev sentinel_a : Nat := 3
/-- Address of the local `sentinel_b` of `gc`. -/
abbrev sentinel_b : Nat := 4
/-- Address of the local `sentinel_c` of `gc`. -/
abbrev sentinel_c : Nat := 5

/-- The heap of `Node`s, one map per field of `struct Node`, and the table of
live allocations. -/
structure Mem where
  parent : Nat → Nat
  children : Nat → Int
  ll : Nat → Nat
  rl : Nat → Nat
  depth : Nat → Int
  representant : Nat → Nat
  active_count : Nat → Int
  seen : Nat → Bool
  active : Nat → Bool
  data : Nat → Int
  alloc : List Nat

/-- The scalar fields of `struct Tree` together with the heap it works on.
`statistics_file` tells whether a sink is attached, `output` is what has been
written to it. -/
structure Tree extends Mem where
  history : Nat
  algo : algo
  statistics_file : Bool
  output : List Line
  node_count : Int
  last_gc_node_count : Int
  mems : Int

/-- Pointwise update of a field map: `upd f a v` is `f` after `a->f = v`. -/
def upd {β : Type} (f : Nat → β) (a : Nat) (v : β) : Nat → β :=
  fun x => if x = a then v else f x

/-- The heap before any `malloc`. -/
def Mem.empty : Mem :=
  { parent := fun _ => 0, children := fun _ => 0, ll := fun _ => 0, rl := fun _ => 0,
    depth := fun _ => 0, representant := fun _ => 0, active_count := fun _ => 0,
    seen := fun _ => false, active := fun _ => false, data := fun _ => 0, alloc := [] }

/-- The addresses `malloc` may hand out for a `Node`: not null, not a sentinel. -/
def is_node (p : Nat) : Prop := 6 ≤ p

instance (p : Nat) : Decidable (is_node p) := by unfold is_node; infer_instance

/-- A pointer that may be dereferenced: a live `Node` or a sentinel cell. -/
def valid (m : Mem) (p : Nat) : Prop := p ∈ m.alloc ∨ (1 ≤ p ∧ p ≤ 5)

instance (m : Mem) (p : Nat) : Decidable (valid m p) := by unfold valid; infer_instance

/-- Guard put before the first use of `p->...`. -/
def deref (t : Tree) (p : Nat) : Except Fault Unit :=
  if valid t.toMem p then .ok () else .error .bad_pointer

/-- Model of `assert (b)`. -/
def c_assert (b : Prop) [Decidable b] : Except Fault Unit :=
  if b then .ok () else .error .assertion

/-- Model of `t->mems += k` (the macros `M`, `MM`, `MMM`, `MMMM`). -/
def M (k : Int) (t : Tree) : Tree := { t with mems := t.mems + k }

/-- Model of `free(x)`. -/
def free (t : Tree) (x : Nat) : Except Fault Tree :=
  if x ∈ t.alloc then .ok { t with alloc := t.alloc.erase x } else .error .bad_pointer

/-- Model of `tb_start_collecting_statistics`. -/
def tb_start_collecting_statistics (t : Tree) : Except Fault Tree := do
  c_assert (t.statistics_file = false)
  pure { t with statistics_file := true }

/-- Model of `tb_stop_collecting_statistics`. -/
def tb_stop_collecting_statistics (t : Tree) : Tree :=
  { t with statistics_file := false }

/-- Model of `print_statistic`: appends a line when a sink is attached. -/
def print_statistic (t : Tree) (l : Line) : Tree :=
  if t.statistics_file then { t with output := t.output ++ [l] } else t

/-- Model of `tb_make_node`: `r` is the address `malloc` returns. -/
def tb_make_node (m : Mem) (r : Nat) (data : Int) : Mem :=
  { parent := upd m.parent r 0
    children := upd m.children r 0
    ll := upd m.ll r r
    rl := upd m.rl r r
    depth := upd m.depth r (-1)
    representant := upd m.representant r 0
    active_count := upd m.active_count r 0
    seen := upd m.seen r false
    active := upd m.active r true
    data := upd m.data r data
    alloc := r :: m.alloc }

/-- Model of `tb_get_data`. -/
def tb_get_data (m : Mem) (x : Nat) : Int := m.data x

/-- Model of `tb_initialize`, run on the heap `m` that holds `root`. -/
def tb_initialize (history : Nat) (a : algo) (root : Nat) (m : Mem) : Except Fault Tree := do
  c_assert (root ≠ 0)
  c_assert (history > 0)
  if ¬ valid m root then .error .bad_pointer else
  let m := { m with ll := upd (upd m.ll s_active root) root s_active,
                    rl := upd (upd m.rl s_active root) root s_active }
  let m := { m with depth := upd m.depth root 0,
                    representant := upd m.representant root root,
                    active_count := upd m.active_count root 1 }
  c_assert (m.active root = true)
  let m := { m with ll := upd m.ll s_to_delete s_to_delete,
                    rl := upd m.rl s_to_delete s_to_delete }
  pure { toMem := m, history := history, algo := a, statistics_file := false, output := [],
         node_count := 1, last_gc_node_count := 1, mems := 0 }

/-- Model of `cut_parent`. In `x->ll->rl = x->rl->ll = x` the inner assignment
is done first. -/
def cut_parent (t : Tree) (y : Nat) : Except Fault Tree := do
  deref t y
  let x := t.parent y
  let t := M 1 t
  let t ← (if x ≠ 0 then do
      deref t x
      let t := M 1 { t with children := upd t.children x (t.children x - 1) }
      if t.children x = 0 then
        let t := M 1 t
        if t.active x = false then do
          c_assert (t.ll x = x)
          c_assert (t.rl x = x)
          let t := M 2 { t with ll := upd t.ll x s_to_delete }
          let t := M 3 { t with rl := upd t.rl x (t.rl s_to_delete) }
          deref t (t.rl x)
          let t := { t with ll := upd t.ll (t.rl x) x }
          deref t (t.ll x)
          let t := M 4 { t with rl := upd t.rl (t.ll x) x }
          pure t
        else pure t
      else pure t
    else pure t)
  pure (M 1 { t with parent := upd t.parent y 0 })

/-- Model of `delete_one`. -/
def delete_one (t : Tree) : Except Fault Tree := do
  let x := t.rl s_to_delete
  let t := M 2 t
  let t := M 1 t
  if x = s_to_delete then pure t else do
  c_assert (t.algo = tb_real_time)
  deref t x
  deref t (t.ll x)
  let t := M 3 { t with rl := upd t.rl (t.ll x) (t.rl x) }
  deref t (t.rl x)
  let t := M 3 { t with ll := upd t.ll (t.rl x) (t.ll x) }
  let t := M 2 { t with ll := upd t.ll x x, rl := upd t.rl x x }
  let t ← cut_parent t x
  let t ← free t x
  let t := M 1 t
  pure (print_statistic t (.S (-1)))

/-- The loop `while (t->to_delete->rl != t->to_delete) delete_one(t);`. -/
def delete_loop : Nat → Tree → Except Fault Tree
  | 0, _ => .error .diverges
  | fuel + 1, t =>
    if t.rl s_to_delete ≠ s_to_delete then do
      let t ← delete_one t
      delete_loop fuel t
    else pure t

/-- Model of `delete` for a non-null tree. The three final `free`s of the
sentinels and of the `Tree` itself leave the `Node` heap as it is. Every turn
of the loop frees a node, so it is given one turn more than there are nodes. -/
def delete (t : Tree) : Except Fault Tree := do
  c_assert (t.mems = 0)
  let L := t.ll s_active
  let t := M 2 t
  let R := t.rl s_active
  let t := M 2 t
  deref t R
  let t := M 2 { t with ll := upd t.ll R s_to_delete }
  deref t L
  let t := M 3 { t with rl := upd t.rl L (t.rl s_to_delete) }
  deref t (t.rl s_active)
  deref t (t.ll (t.rl s_active))
  let t := M 6 { t with rl := upd t.rl (t.ll (t.rl s_active)) (t.rl s_active) }
  deref t (t.ll s_active)
  deref t (t.rl (t.ll s_active))
  let t := M 6 { t with ll := upd t.ll (t.rl (t.ll s_active)) (t.ll s_active) }
  let t := M 5 { t with ll := upd t.ll s_active s_active, rl := upd t.rl s_active s_active }
  let t ← delete_loop (t.alloc.length + 1) t
  let t := print_statistic t (.TF t.mems)
  pure { t with mems := 0 }

/-- Model of `gc_todo_parent`. -/
def gc_todo_parent (t : Tree) (y : Nat) (todo : Nat) : Except Fault Tree := do
  c_assert (y ≠ 0)
  deref t y
  let x := t.parent y
  let t := M 1 t
  if x = 0 then pure t else do
  deref t x
  let t := M 1 t
  if t.seen x then pure t else do
  let t := M 1 { t with seen := upd t.seen x true }
  let t := M 1 { t with ll := upd t.ll x todo }
  deref t todo
  let t := M 2 { t with rl := upd t.rl x (t.rl todo) }
  deref t (t.rl x)
  let t := { t with ll := upd t.ll (t.rl x) x }
  deref t (t.ll x)
  let t := M 4 { t with rl := upd t.rl (t.ll x) x }
  pure t

mutual
/-- Model of `gc_node`; the first argument bounds the depth of the recursion
through `gc_parent`. -/
def gc_node : Nat → Tree → Nat → Except Fault Tree
  | 0, _, _ => .error .diverges
  | fuel + 1, t, x => do
    c_assert (x ≠ 0)
    deref t x
    c_assert (t.seen x = false)
    c_assert (t.active x = false)
    c_assert (t.children x = 0)
    let t ← gc_parent fuel t x
    let t ← free t x
    let t := if t.algo = tb_amortized then M 1 { t with node_count := t.node_count - 1 } else t
    pure (print_statistic t (.S (-1)))
/-- Model of `gc_parent`. -/
def gc_parent : Nat → Tree → Nat → Except Fault Tree
  | 0, _, _ => .error .diverges
  | fuel + 1, t, y => do
    c_assert (y ≠ 0)
    deref t y
    let x := t.parent y
    let t := M 1 t
    let t := M 1 { t with parent := upd t.parent y 0 }
    if x ≠ 0 then do
      deref t x
      let t := M 1 { t with children := upd t.children x (t.children x - 1) }
      if t.children x = 0 then
        let t := M 1 t
        if t.seen x = false then gc_node fuel t x else pure t
      else pure t
    else pure t
end

/-- The loop `for (n = first; (c mems, n != s); (M, n = n->rl)) body(n);`
started at `n`. -/
def for_rl (body : Tree → Nat → Except Fault Tree) (c : Int) (s : Nat) :
    Nat → Tree → Nat → Except Fault Tree
  | 0, _, _ => .error .diverges
  | fuel + 1, t, n =>
    let t := M c t
    if n = s then pure t else do
      let t ← body t n
      deref t n
      for_rl body c s fuel (M 1 t) (t.rl n)

/-- The loop `for (p = first; p != (c mems, s); p = q) { q = p->rl, M; body(p); }`
started at `p`. -/
def for_rl_saved (body : Tree → Nat → Except Fault Tree) (c : Int) (s : Nat) :
    Nat → Tree → Nat → Except Fault Tree
  | 0, _, _ => .error .diverges
  | fuel + 1, t, p =>
    let t := M c t
    if p = s then pure t else do
      deref t p
      let q := t.rl p
      let t ← body (M 1 t) p
      for_rl_saved body c s fuel t q

/-- The loop `for (int layer = 2; (MM, layer < t->history && todo != todo->rl); ++layer)`
of `gc`; `k` bounds the number of turns, `fuel` the length of a list
traversal. Returns the tree and the final values of `now` and `todo`. -/
def gc_layers (fuel : Nat) (middle : Nat) :
    Nat → Nat → Tree → Nat → Nat → Except Fault (Tree × Nat × Nat)
  | 0, _, _, _, _ => .error .diverges
  | k + 1, layer, t, now, todo =>
    let t := M 2 t
    if layer < t.history ∧ todo ≠ t.rl todo then do
      let tmp := now
      let now := todo
      let todo := tmp
      let t ← for_rl (fun t n => gc_todo_parent t n todo) 0 now fuel (M 1 t) (t.rl now)
      -- Move |now| content into |middle|.
      let nl := t.ll now
      let t := M 1 t
      let nr := t.rl now
      let t := M 1 t
      deref t nr
      let t := M 1 { t with ll := upd t.ll nr middle }
      deref t nl
      let t := M 2 { t with rl := upd t.rl nl (t.rl middle) }
      deref t (t.rl now)
      deref t (t.ll (t.rl now))
      let t := M 4 { t with rl := upd t.rl (t.ll (t.rl now)) (t.rl now) }
      deref t (t.ll now)
      deref t (t.rl (t.ll now))
      let t := M 4 { t with ll := upd t.ll (t.rl (t.ll now)) (t.ll now) }
      let t := M 2 { t with ll := upd t.ll now now, rl := upd t.rl now now }
      gc_layers fuel middle k (layer + 1) t now todo
    else pure (t, now, todo)

/-- Model of `gc`. A list traversal is given one turn more than there are
nodes at the start of the sweep; the recursion of `gc_node` and `gc_parent`,
which takes two calls per node, twice as many. -/
def gc (t : Tree) : Except Fault Tree := do
  c_assert (t.algo = tb_gc ∨ t.algo = tb_amortized)
  let fuel := t.alloc.length + 1
  let calls := 2 * fuel
  let t ← for_rl (fun t n => do deref t n; pure (M 1 { t with seen := upd t.seen n true }))
    1 s_active fuel (M 2 t) (t.rl s_active)
  let now := sentinel_a
  let todo := sentinel_b
  let middle := sentinel_c
  let t := M 2 { t with ll := upd t.ll middle middle, rl := upd t.rl middle middle }
  let t := M 2 { t with ll := upd t.ll now now, rl := upd t.rl now now }
  let t := M 2 { t with ll := upd t.ll todo todo, rl := upd t.rl todo todo }
  let t ← for_rl (fun t n => gc_todo_parent t n todo) 1 s_active fuel (M 2 t) (t.rl s_active)
  let (t, now, todo) ← gc_layers fuel middle t.history 2 t now todo
  let t ← for_rl (fun t n => gc_parent calls t n) 0 todo fuel (M 1 t) (t.rl todo)
  let t ← for_rl_saved (fun t p => gc_node calls t p) 1 s_to_delete fuel (M 2 t) (t.rl s_to_delete)
  let t := M 5 { t with ll := upd t.ll s_to_delete s_to_delete,
                        rl := upd t.rl s_to_delete s_to_delete }
  c_assert (t.ll now = now)
  c_assert (t.rl now = now)
  let t ← for_rl (fun t n => do deref t n; pure (M 1 { t with seen := upd t.seen n false }))
    0 todo fuel (M 1 t) (t.rl todo)
  let t ← for_rl (fun t n => do deref t n; pure (M 1 { t with seen := upd t.seen n false }))
    0 middle fuel (M 1 t) (t.rl middle)
  let t ← for_rl (fun t n => do deref t n; pure (M 1 { t with seen := upd t.seen n false }))
    1 s_active fuel (M 2 t) (t.rl s_active)
  let t ← for_rl_saved (fun t p => do
      deref t p; pure (M 2 { t with ll := upd t.ll p p, rl := upd t.rl p p }))
    0 todo fuel (M 1 t) (t.rl todo)
  let t ← for_rl_saved (fun t p => do
      deref t p; pure (M 2 { t with ll := upd t.ll p p, rl := upd t.rl p p }))
    0 middle fuel (M 1 t) (t.rl middle)
  if t.algo = tb_amortized then
    pure (M 2 { t with last_gc_node_count := t.node_count })
  else pure t

/-- Model of `tb_add_child`. -/
def tb_add_child (t : Tree) (parent child : Nat) : Except Fault Tree := do
  c_assert (t.mems = 0)
  c_assert (parent ≠ 0)
  c_assert (child ≠ 0)
  deref t child
  let t := M 1 { t with parent := upd t.parent child parent }
  deref t parent
  let t := M 1 { t with children := upd t.children parent (t.children parent + 1) }
  let t := M 2 { t with ll := upd t.ll child s_active }
  let t := M 3 { t with rl := upd t.rl child (t.rl s_active) }
  deref t (t.rl child)
  let t := { t with ll := upd t.ll (t.rl child) child }
  deref t (t.ll child)
  let t := M 4 { t with rl := upd t.rl (t.ll child) child }
  let t ← (if t.algo = tb_amortized then do
      let t := M 2 { t with node_count := t.node_count + 1 }
      if t.node_count ≥ 2 * t.last_gc_node_count then gc t else pure t
    else if t.algo = tb_real_time then do
      let t ← delete_one t
      deref t child
      deref t parent
      let t := M 2 { t with depth := upd t.depth child (t.depth parent + 1) }
      let t := M 2 t
      let t ← (if Int.tmod (t.depth child) t.history = 0 then
          pure { t with representant := upd t.representant child child }
        else do
          let t := M 1 t
          pure { t with representant := upd t.representant child (t.representant parent) })
      let t := M 1 t
      deref t (t.representant child)
      let r := t.representant child
      pure (M 2 { t with active_count := upd t.active_count r (t.active_count r + 1) })
    else pure t)
  let t := print_statistic t (.S 1)
  let t := print_statistic t (.TA t.mems)
  pure { t with mems := 0 }

/-- Model of `tb_deactivate`. -/
def tb_deactivate (t : Tree) (n : Nat) : Except Fault Tree := do
  c_assert (t.mems = 0)
  c_assert (n ≠ 0)
  deref t n
  c_assert (t.active n = true)
  let t := { t with active := upd t.active n false }
  deref t (t.ll n)
  let t := M 3 { t with rl := upd t.rl (t.ll n) (t.rl n) }
  deref t (t.rl n)
  let t := M 3 { t with ll := upd t.ll (t.rl n) (t.ll n) }
  let t := M 2 { t with ll := upd t.ll n n, rl := upd t.rl n n }
  let t := M 1 t
  let t ← (if t.children n = 0 then do
      let t := M 2 { t with ll := upd t.ll n s_to_delete }
      let t := M 3 { t with rl := upd t.rl n (t.rl s_to_delete) }
      deref t (t.rl n)
      let t := { t with ll := upd t.ll (t.rl n) n }
      deref t (t.ll n)
      pure (M 4 { t with rl := upd t.rl (t.ll n) n })
    else pure t)
  let t ← (if t.algo = tb_gc then gc t else pure t)
  let t ← (if t.algo = tb_real_time then do
      c_assert (t.representant n ≠ 0)
      deref t n
      deref t (t.representant n)
      let r := t.representant n
      let t := M 2 { t with active_count := upd t.active_count r (t.active_count r - 1) }
      if t.active_count r = 0 then cut_parent t (t.representant n) else pure t
    else pure t)
  let t := print_statistic t (.TD t.mems)
  pure { t with mems := 0 }

/-- Model of `tb_expand`; the list is the content of the array `children`, which
the loop reads up to its first `0`. Running off the end of the array is a
fault. -/
def tb_expand (t : Tree) (parent : Nat) : List Nat → Except Fault Tree
  | [] => .error .bad_pointer
  | n :: children =>
    if n = 0 then tb_deactivate t parent else do
      let t ← tb_add_child t parent n
      tb_expand t parent children

/-- The loop `while (node && h--) { *ancestors++ = node, M; node = node->parent, M; }`
of `tb_history`; returns the cells written to `ancestors`. -/
def history_loop : Nat → Tree → Nat → Except Fault (Tree × List Nat)
  | 0, t, _ => pure (t, [])
  | h + 1, t, node =>
    if node = 0 then pure (t, []) else do
      deref t node
      let (t', rest) ← history_loop h (M 2 t) (t.parent node)
      pure (t', node :: rest)

/-- Model of `tb_history`; the second component is what is written to
`ancestors`, the closing `0` included. -/
def tb_history (t : Tree) (node : Nat) : Except Fault (Tree × List Nat) := do
  c_assert (t.mems = 0)
  deref t node
  c_assert (t.active node = true)
  let h := t.history
  let t := M 1 t
  let (t, out) ← history_loop h t node
  let t := M 1 t
  let t := print_statistic t (.TH t.mems)
  pure ({ t with mems := 0 }, out ++ [0])

/-- Model of `tb_active`. -/
def tb_active (t : Tree) : Nat :=
  if t.rl s_active = s_active then 0 else t.rl s_active

/-- Model of `tb_next_active`. -/
def tb_next_active (t : Tree) (n : Nat) : Except Fault Nat := do
  c_assert (n ≠ 0)
  deref t n
  c_assert (t.active n = true)
  if t.rl n = s_active then pure 0 else pure (t.rl n)

/-- The intended use `for (n = tb_active(t); n; n = tb_next_active(t, n))`,
started at `n`, collecting the nodes visited. -/
def frontier_from : Nat → Tree → Nat → Except Fault (List Nat)
  | 0, _, _ => .error .diverges
  | fuel + 1, t, n =>
    if n = 0 then pure [] else do
      let n' ← tb_next_active t n
      let rest ← frontier_from fuel t n'
      pure (n :: rest)

/-- The frontier as a client enumerates it. -/
def frontier (t : Tree) : Except Fault (List Nat) :=
  frontier_from (t.alloc.length + 1) t (tb_active t)

/-- The cells `a, x₁, …, xₖ, b` are doubly linked in this order. -/
def Linked (ll rl : Nat → Nat) : Nat → List Nat → Nat → Prop
  | a, [], b => rl a = b ∧ ll b = a
  | a, x :: xs, b => (rl a = x ∧ ll x = a) ∧ Linked ll rl x xs b

/-- The circular list with sentinel `s` holds exactly `xs`, in this order. -/
def DLL (ll rl : Nat → Nat) (s : Nat) (xs : List Nat) : Prop :=
  (s :: xs).Nodup ∧ Linked ll rl s xs s

/-- The last of the cells `x, xs`. -/
def last1 : Nat → List Nat → Nat
  | x, [] => x
  | _, y :: ys => last1 y ys

/-- Head insertion on the heap. -/
def Mem.push (m : Mem) (s x : Nat) : Mem :=
  { m with ll := upd (upd m.ll x s) (m.rl s) x, rl := upd (upd m.rl x (m.rl s)) s x }

/-- Removal from a list on the heap. -/
def Mem.unlink (m : Mem) (n : Nat) : Mem :=
  { m with ll := upd (upd m.ll (m.rl n) (m.ll n)) n n, rl := upd (upd m.rl (m.ll n) (m.rl n)) n n }

/-- The number of live nodes whose `parent` is `p`. -/
def nchildren (m : Mem) (p : Nat) : Nat := m.alloc.countP (fun q => decide (m.parent q = p))

/-- The structure the heap has whenever no operation is under way: `F` is the
content of the list `t->active`, `D` that of `t->to_delete`. -/
structure Wf (m : Mem) (F D : List Nat) : Prop where
  dllF : DLL m.ll m.rl s_active F
  dllD : DLL m.ll m.rl s_to_delete D
  nodup : m.alloc.Nodup
  node : ∀ p ∈ m.alloc, 6 ≤ p
  subF : ∀ p ∈ F, p ∈ m.alloc
  act : ∀ p ∈ m.alloc, (m.active p = true ↔ p ∈ F)
  del : ∀ p, p ∈ D ↔ (p ∈ m.alloc ∧ m.active p = false ∧ m.children p = 0)
  single : ∀ p ∈ m.alloc, p ∉ F → p ∉ D → m.ll p = p ∧ m.rl p = p
  par : ∀ p ∈ m.alloc, m.parent p = 0 ∨ m.parent p ∈ m.alloc
  cnt : ∀ p ∈ m.alloc, m.children p = (nchildren m p : Int)
  seen : ∀ p ∈ m.alloc, m.seen p = false
  acyc : ∃ rk : Nat → Nat, ∀ p ∈ m.alloc, m.parent p ≠ 0 → rk (m.parent p) < rk p

/-- The heap after the common part of `tb_add_child`. -/
def Mem.link_child (m : Mem) (parent child : Nat) : Mem :=
  Mem.push { m with parent := upd m.parent child parent,
                    children := upd m.children parent (m.children parent + 1) } s_active child

/-- The heap after `tb_make_node` and the common part of `tb_add_child`. -/
def Mem.add_child (m : Mem) (parent child : Nat) (data : Int) : Mem :=
  Mem.link_child (tb_make_node m child data) parent child

/-- The heap after the common part of `tb_deactivate`. -/
def Mem.deactivate (m : Mem) (n : Nat) : Mem :=
  let m1 := Mem.unlink { m with active := upd m.active n false } n
  if m.children n = 0 then Mem.push m1 s_to_delete n else m1

/-- The content of `t->to_delete` after the common part of `tb_deactivate`. -/
def deact_D (m : Mem) (n : Nat) (D : List Nat) : List Nat :=
  if m.children n = 0 then n :: D else D

/-- The shape of the heap while the node `e` has been taken off `t->to_delete`
and is not yet freed: as `Wf`, but `e` need not be on the list `D`. -/
structure WfX (m : Mem) (F D : List Nat) (e : Nat) : Prop where
  dllF : DLL m.ll m.rl s_active F
  dllD : DLL m.ll m.rl s_to_delete D
  nodup : m.alloc.Nodup
  node : ∀ p ∈ m.alloc, 6 ≤ p
  subF : ∀ p ∈ F, p ∈ m.alloc
  act : ∀ p ∈ m.alloc, (m.active p = true ↔ p ∈ F)
  del : ∀ p, p ≠ e → (p ∈ D ↔ (p ∈ m.alloc ∧ m.active p = false ∧ m.children p = 0))
  eD : e ∉ D
  single : ∀ p ∈ m.alloc, p ∉ F → p ∉ D → m.ll p = p ∧ m.rl p = p
  par : ∀ p ∈ m.alloc, m.parent p = 0 ∨ m.parent p ∈ m.alloc
  cnt : ∀ p ∈ m.alloc, m.children p = (nchildren m p : Int)
  seen : ∀ p ∈ m.alloc, m.seen p = false
  acyc : ∃ rk : Nat → Nat, ∀ p ∈ m.alloc, m.parent p ≠ 0 → rk (m.parent p) < rk p

/-- Whether `cut_parent` on `y` puts the parent of `y` on `t->to_delete`. -/
def cut_pushes (m : Mem) (y : Nat) : Prop :=
  m.parent y ≠ 0 ∧ m.children (m.parent y) - 1 = 0 ∧ m.active (m.parent y) = false

instance (m : Mem) (y : Nat) : Decidable (cut_pushes m y) := by unfold cut_pushes; infer_instance

/-- The heap after `cut_parent`. -/
def Mem.cut (m : Mem) (y : Nat) : Mem :=
  let x := m.parent y
  let m1 := if x ≠ 0 then { m with children := upd m.children x (m.children x - 1) } else m
  let m2 := if cut_pushes m y then Mem.push m1 s_to_delete x else m1
  { m2 with parent := upd m2.parent y 0 }

/-- The content of `t->to_delete` after `cut_parent`. -/
def cut_D (m : Mem) (y : Nat) (D : List Nat) : List Nat :=
  if cut_pushes m y then m.parent y :: D else D

/-- The memory references `cut_parent` counts. -/
def cut_mems (m : Mem) (y : Nat) : Int :=
  if m.parent y = 0 then 2
  else if m.children (m.parent y) - 1 ≠ 0 then 3
  else if m.active (m.parent y) = true then 4 else 13

/-- The heap after `delete_one` has taken `x` off `t->to_delete` and freed it. -/
def Mem.delete_one (m : Mem) (x : Nat) : Mem :=
  let m1 := (Mem.unlink m x).cut x
  { m1 with alloc := m1.alloc.erase x }

/-- The bookkeeping of the real-time algorithm. It holds for every live node
but `e`, the node `tb_add_child` is linking in (`0` when there is none). -/
structure RT (m : Mem) (H : Nat) (F : List Nat) (e : Nat) : Prop where
  leaf : ∀ p ∈ m.alloc, p ≠ e → m.parent p ≠ e ∨ m.parent p = 0
  depth_nonneg : ∀ p ∈ m.alloc, p ≠ e → 0 ≤ m.depth p
  depth_parent : ∀ p ∈ m.alloc, p ≠ e → m.parent p ≠ 0 → m.depth p = m.depth (m.parent p) + 1
  rep_self : ∀ p ∈ m.alloc, p ≠ e → Int.tmod (m.depth p) H = 0 → m.representant p = p
  rep_parent : ∀ p ∈ m.alloc, p ≠ e → Int.tmod (m.depth p) H ≠ 0 →
    m.parent p ≠ 0 ∧ m.representant p = m.representant (m.parent p)
  count : ∀ r ∈ m.alloc, r ≠ e →
    m.active_count r = (F.countP (fun f => decide (m.representant f = r)) : Nat)

/-- The heap after the real-time part of `tb_add_child` that follows `delete_one`. -/
def Mem.set_rep (m : Mem) (H : Nat) (parent child : Nat) : Mem :=
  let m1 := { m with depth := upd m.depth child (m.depth parent + 1) }
  let m2 := if Int.tmod (m1.depth child) H = 0 then
      { m1 with representant := upd m1.representant child child }
    else { m1 with representant := upd m1.representant child (m1.representant parent) }
  let r := m2.representant child
  { m2 with active_count := upd m2.active_count r (m2.active_count r + 1) }

/-- The heap after the real-time part of `tb_deactivate`. -/
def Mem.drop_rep (m : Mem) (n : Nat) : Mem :=
  let r := m.representant n
  let m1 := { m with active_count := upd m.active_count r (m.active_count r - 1) }
  if m1.active_count r = 0 then m1.cut r else m1

/-- The heap after the call of `delete_one` in `tb_add_child`, when the list
`t->to_delete` holds `D`. -/
def Mem.reclaim (m : Mem) : List Nat → Mem
  | [] => m
  | x :: _ => m.delete_one x

/-- The content of `t->to_delete` after the call of `delete_one` in `tb_add_child`. -/
def reclaim_D (m : Mem) : List Nat → List Nat
  | [] => []
  | x :: D => cut_D (m.unlink x) x D

/-- The content of `t->to_delete` after the real-time part of `tb_deactivate`. -/
def drop_D (m : Mem) (n : Nat) (D : List Nat) : List Nat :=
  if m.active_count (m.representant n) - 1 = 0 then cut_D m (m.representant n) D else D

/-- The memory references the real-time part of `tb_deactivate` counts. -/
def drop_mems (m : Mem) (n : Nat) : Int :=
  if m.active_count (m.representant n) - 1 = 0 then 2 + cut_mems m (m.representant n) else 2

/-- The nodes `p, parent p, parent (parent p), …`, at most `h` of them, up to
the first whose `parent` is null. -/
def anc (par : Nat → Nat) : Nat → Nat → List Nat
  | 0, _ => []
  | h + 1, p => if p = 0 then [] else p :: anc par h (par p)

/-- What `tb_add_child` and `tb_deactivate` do after their tail: the statistics line. -/
def finish (t : Tree) (l : Int → Line) : Tree :=
  { print_statistic t (l t.mems) with mems := 0 }

/-- What every operation leaves as it is. -/
structure Same (t t' : Tree) : Prop where
  history : t'.history = t.history
  algo : t'.algo = t.algo
  stats : t'.statistics_file = t.statistics_file

/-- What `tb_add_child` guarantees besides the shape of the heap. -/
structure AddOK (t t' : Tree) (p c : Nat) (d : Int) (F : List Nat) : Prop where
  same : Same t t'
  data : t'.data = upd t.data c d
  sub : ∀ q ∈ t'.alloc, q = c ∨ q ∈ t.alloc
  hist_old : ∀ f ∈ F, anc t'.parent t.history f = anc t.parent t.history f
  hist_new : anc t'.parent t.history c = c :: anc t.parent (t.history - 1) p

/-- What `tb_deactivate` guarantees besides the shape of the heap. -/
structure DeactOK (t t' : Tree) (n : Nat) (F : List Nat) : Prop where
  same : Same t t'
  data : t'.data = t.data
  sub : ∀ q ∈ t'.alloc, q ∈ t.alloc
  hist : ∀ f ∈ F.erase n, anc t'.parent t.history f = anc t.parent t.history f

/-- What holds of a tree between two operations: `F` is the frontier, `D` the
content of `t->to_delete`. -/
structure Inv (t : Tree) (F D : List Nat) : Prop where
  wf : Wf t.toMem F D
  hist : 0 < t.history
  mems : t.mems = 0
  rt : t.algo = tb_real_time → RT t.toMem t.history F 0
  am : t.algo = tb_amortized → t.node_count = t.alloc.length ∧ 1 ≤ t.last_gc_node_count ∧
    t.node_count < 2 * t.last_gc_node_count
  mark : t.algo = tb_gc → D = []

/-- What `tb_deactivate` does after its common part. -/
def deactivate_tail (t : Tree) (n : Nat) : Except Fault Tree := do
  let t ← (if t.algo = tb_gc then gc t else pure t)
  let t ← (if t.algo = tb_real_time then do
      c_assert (t.representant n ≠ 0)
      deref t n
      deref t (t.representant n)
      let r := t.representant n
      let t := M 2 { t with active_count := upd t.active_count r (t.active_count r - 1) }
      if t.active_count r = 0 then cut_parent t (t.representant n) else pure t
    else pure t)
  let t := print_statistic t (.TD t.mems)
  pure { t with mems := 0 }

/-- What `tb_add_child` does after its common part. -/
def add_child_tail (t : Tree) (parent child : Nat) : Except Fault Tree := do
  let t ← (if t.algo = tb_amortized then do
      let t := M 2 { t with node_count := t.node_count + 1 }
      if t.node_count ≥ 2 * t.last_gc_node_count then gc t else pure t
    else if t.algo = tb_real_time then do
      let t ← delete_one t
      deref t child
      deref t parent
      let t := M 2 { t with depth := upd t.depth child (t.depth parent + 1) }
      let t := M 2 t
      let t ← (if Int.tmod (t.depth child) t.history = 0 then
          pure { t with representant := upd t.representant child child }
        else do
          let t := M 1 t
          pure { t with representant := upd t.representant child (t.representant parent) })
      let t := M 1 t
      deref t (t.representant child)
      let r := t.representant child
      pure (M 2 { t with active_count := upd t.active_count r (t.active_count r + 1) })
    else pure t)
  let t := print_statistic t (.S 1)
  let t := print_statistic t (.TA t.mems)
  pure { t with mems := 0 }

/-- What `gc` never changes. -/
structure GcSame (t0 t : Tree) : Prop where
  history : t.history = t0.history
  algo : t.algo = t0.algo
  stats : t.statistics_file = t0.statistics_file
  last : t.last_gc_node_count = t0.last_gc_node_count
  active : t.active = t0.active
  data : t.data = t0.data
  depth : t.depth = t0.depth
  representant : t.representant = t0.representant
  active_count : t.active_count = t0.active_count

/-- The state of the mark phase of `gc`, started on `t0`. `F` and `D` are the
frontier and the content of `t->to_delete`; `Mid`, `Nw` and `Td` the content of
the lists `middle`, `now` and `todo`; `lv` is the layer in which a node was
marked, `l` the layer of the nodes of `todo`, and `Pr` holds the nodes whose
parent has been looked at. -/
structure Bfs (t0 t : Tree) (F D Mid Nw Td : List Nat) (now todo : Nat) (lv : Nat → Nat)
    (l : Nat) (Pr : List Nat) : Prop where
  same : GcSame t0 t
  parent : t.parent = t0.parent
  children : t.children = t0.children
  alloc : t.alloc = t0.alloc
  output : t.output = t0.output
  node_count : t.node_count = t0.node_count
  sent : (now = 3 ∧ todo = 4) ∨ (now = 4 ∧ todo = 3)
  dllF : DLL t.ll t.rl s_active F
  dllD : DLL t.ll t.rl s_to_delete D
  dllM : DLL t.ll t.rl sentinel_c Mid
  dllN : DLL t.ll t.rl now Nw
  dllT : DLL t.ll t.rl todo Td
  nodup : (F ++ Mid ++ Nw ++ Td).Nodup
  sub : ∀ p ∈ F ++ Mid ++ Nw ++ Td, p ∈ t0.alloc
  seen : ∀ p ∈ t0.alloc, (t.seen p = true ↔ p ∈ F ++ Mid ++ Nw ++ Td)
  single : ∀ p ∈ t0.alloc, p ∉ F ++ Mid ++ Nw ++ Td → p ∉ D → t.ll p = p ∧ t.rl p = p
  lpos : 1 ≤ l
  lvF : ∀ p ∈ F, lv p = 0
  lvM : ∀ p ∈ Mid, 1 ≤ lv p ∧ lv p < l
  lvN : ∀ p ∈ Nw, 1 ≤ lv p ∧ lv p + 1 = l
  lvT : ∀ p ∈ Td, lv p = l
  wit : ∀ p ∈ Mid ++ Nw ++ Td, ∃ c ∈ F ++ Mid ++ Nw, t0.parent c = p ∧ lv c + 1 = lv p
  proc : ∀ q ∈ Pr, t0.parent q = 0 ∨
    (t0.parent q ∈ F ++ Mid ++ Nw ++ Td ∧ lv (t0.parent q) ≤ lv q + 1)
  prsub : ∀ q ∈ Pr, q ∈ F ++ Mid ++ Nw

/-- The heap after the content of `now`, which is `x :: xs`, has been moved
into `middle`. -/
def Mem.splice (m : Mem) (now x : Nat) (xs : List Nat) : Mem :=
  { m with ll := upd (upd (upd m.ll x sentinel_c) (m.rl sentinel_c) (last1 x xs)) now now
           rl := upd (upd (upd m.rl (last1 x xs) (m.rl sentinel_c)) sentinel_c x) now now }

/-- The end of a turn of the layer loop of `gc`: the content of `now` is moved
into `middle`, and the loop goes on. -/
def gc_layers_move (fuel k layer : Nat) (t : Tree) (now todo : Nat) :
    Except Fault (Tree × Nat × Nat) := do
  let nl := t.ll now
  let t := M 1 t
  let nr := t.rl now
  let t := M 1 t
  deref t nr
  let t := M 1 { t with ll := upd t.ll nr sentinel_c }
  deref t nl
  let t := M 2 { t with rl := upd t.rl nl (t.rl sentinel_c) }
  deref t (t.rl now)
  deref t (t.ll (t.rl now))
  let t := M 4 { t with rl := upd t.rl (t.ll (t.rl now)) (t.rl now) }
  deref t (t.ll now)
  deref t (t.rl (t.ll now))
  let t := M 4 { t with ll := upd t.ll (t.rl (t.ll now)) (t.ll now) }
  let t := M 2 { t with ll := upd t.ll now now, rl := upd t.rl now now }
  gc_layers fuel sentinel_c k (layer + 1) t now todo

/-- The body of the loops of `gc` that set or clear the mark `seen`. -/
def set_seen (b : Bool) (t : Tree) (n : Nat) : Except Fault Tree := do
  deref t n
  pure (M 1 { t with seen := upd t.seen n b })

/-- The body of the loops of `gc` that empty a scratch list. -/
def self_link (t : Tree) (p : Nat) : Except Fault Tree := do
  deref t p
  pure (M 2 { t with ll := upd t.ll p p, rl := upd t.rl p p })

/-- The three scratch lists of `gc` are made empty. -/
def gc_scratch (t : Tree) : Tree :=
  let now := sentinel_a
  let todo := sentinel_b
  let middle := sentinel_c
  let t := M 2 { t with ll := upd t.ll middle middle, rl := upd t.rl middle middle }
  let t := M 2 { t with ll := upd t.ll now now, rl := upd t.rl now now }
  M 2 { t with ll := upd t.ll todo todo, rl := upd t.rl todo todo }

/-- The mark phase of `gc`: the frontier and the nodes of the next layers are
marked and put on the scratch lists. -/
def gc_mark (fuel : Nat) (t : Tree) : Except Fault (Tree × Nat × Nat) := do
  let t ← for_rl (set_seen true) 1 s_active fuel (M 2 t) (t.rl s_active)
  let t := gc_scratch t
  let t ← for_rl (fun t n => gc_todo_parent t n sentinel_b) 1 s_active fuel (M 2 t) (t.rl s_active)
  gc_layers fuel sentinel_c t.history 2 t sentinel_a sentinel_b

/-- The sweep phase of `gc`: the links out of the last layer are cut and the
nodes of `t->to_delete` are freed, with the ancestors they were the last
child of. -/
def gc_sweep (fuel calls : Nat) (t : Tree) (now todo : Nat) : Except Fault Tree := do
  let t ← for_rl (fun t n => gc_parent calls t n) 0 todo fuel (M 1 t) (t.rl todo)
  let t ← for_rl_saved (fun t p => gc_node calls t p) 1 s_to_delete fuel (M 2 t) (t.rl s_to_delete)
  let t := M 5 { t with ll := upd t.ll s_to_delete s_to_delete,
                        rl := upd t.rl s_to_delete s_to_delete }
  c_assert (t.ll now = now)
  c_assert (t.rl now = now)
  pure t

/-- The end of `gc`: the marks are cleared and the scratch lists emptied. -/
def gc_finish (fuel : Nat) (t : Tree) (todo : Nat) : Except Fault Tree := do
  let middle := sentinel_c
  let t ← for_rl (set_seen false) 0 todo fuel (M 1 t) (t.rl todo)
  let t ← for_rl (set_seen false) 0 middle fuel (M 1 t) (t.rl middle)
  let t ← for_rl (set_seen false) 1 s_active fuel (M 2 t) (t.rl s_active)
  let t ← for_rl_saved self_link 0 todo fuel (M 1 t) (t.rl todo)
  let t ← for_rl_saved self_link 0 middle fuel (M 1 t) (t.rl middle)
  if t.algo = tb_amortized then
    pure (M 2 { t with last_gc_node_count := t.node_count })
  else pure t

/-- The number of live nodes that have a parent. -/
def nz (m : Mem) : Nat := m.alloc.countP (fun q => decide (m.parent q ≠ 0))

/-- The state of the sweep phase of `gc`, started on `tb`: `T` is the last
layer of the mark phase, `P` holds the nodes that wait to be freed. -/
structure Sweep (tb t : Tree) (T P : List Nat) : Prop where
  same : GcSame tb t
  seen : t.seen = tb.seen
  ll : t.ll = tb.ll
  rl : t.rl = tb.rl
  nodup : t.alloc.Nodup
  sub : ∀ p ∈ t.alloc, p ∈ tb.alloc
  node : ∀ p ∈ t.alloc, 6 ≤ p
  keep : ∀ p ∈ tb.alloc, tb.seen p = true → p ∈ t.alloc
  act : ∀ p ∈ t.alloc, t.seen p = false → t.active p = false
  par : ∀ p ∈ t.alloc, t.parent p = 0 ∨ (t.parent p = tb.parent p ∧ t.parent p ∈ t.alloc)
  kept : ∀ p ∈ t.alloc, t.seen p = true → p ∉ T → t.parent p = tb.parent p
  cnt : ∀ p ∈ t.alloc, t.children p = (nchildren t.toMem p : Int)
  pend : ∀ p, p ∈ P ↔ (p ∈ t.alloc ∧ t.seen p = false ∧ t.children p = 0)
  am : t.algo = tb_amortized → t.node_count = t.alloc.length

/-- What `gc` guarantees, started on `t0` with the frontier `F`. -/
structure GcPost (t0 t : Tree) (F : List Nat) : Prop where
  wf : Wf t.toMem F []
  same : Same t0 t
  data : t.data = t0.data
  sub : ∀ q ∈ t.alloc, q ∈ t0.alloc
  hist : ∀ f ∈ F, anc t.parent t0.history f = anc t0.parent t0.history f
  kept : ∀ q, q ∈ t.alloc ↔ ∃ f ∈ F, q ∈ anc t0.parent (max (t0.history - 1) 1 + 1) f
  am : t0.algo = tb_amortized →
    t.node_count = t.alloc.length ∧ t.last_gc_node_count = t.node_count
  cut : ∀ q ∈ t.alloc, (∀ f ∈ F, q ∉ anc t0.parent (max (t0.history - 1) 1) f) → t.parent q = 0
  keep : ∀ q ∈ t.alloc, (∃ f ∈ F, q ∈ anc t0.parent (max (t0.history - 1) 1) f) →
    t.parent q = t0.parent q

/-- The trees a client can build, with the list of the nodes that have been
added and not yet deactivated, the last added first. A node is made by
`tb_make_node` when it is handed to the tree. -/
inductive Reach : Tree → List Nat → Prop where
  | init {H : Nat} {a : algo} {r : Nat} {d : Int} {t : Tree} : 0 < H → 6 ≤ r →
      tb_initialize H a r (tb_make_node Mem.empty r d) = .ok t → Reach t [r]
  | add_child {t t' : Tree} {F : List Nat} {p c : Nat} {d : Int} : Reach t F → p ∈ F →
      c ∉ t.alloc → 6 ≤ c →
      tb_add_child { t with toMem := tb_make_node t.toMem c d } p c = .ok t' → Reach t' (c :: F)
  | deactivate {t t' : Tree} {F : List Nat} {n : Nat} : Reach t F → n ∈ F →
      tb_deactivate t n = .ok t' → Reach t' (F.erase n)
  | history {t t' : Tree} {F : List Nat} {n : Nat} {out : List Nat} : Reach t F → n ∈ F →
      tb_history t n = .ok (t', out) → Reach t' F
  | start {t t' : Tree} {F : List Nat} : Reach t F →
      tb_start_collecting_statistics t = .ok t' → Reach t' F
  | stop {t : Tree} {F : List Nat} : Reach t F → Reach (tb_stop_collecting_statistics t) F

/-- A tree is reachable when a client can build it. -/
def Reachable (t : Tree) : Prop := ∃ F, Reach t F

/-- The node `d` parent links above `n` has no parent: `n` lies `d` edges
below the root. -/
def IsDist (par : Nat → Nat) (n d : Nat) : Prop :=
  (∀ k, k ≤ d → par^[k] n ≠ 0) ∧ par^[d + 1] n = 0

/-- The operations of a client. -/
inductive Op where
  | add_child (p c : Nat) (d : Int)
  | deactivate (n : Nat)
  | history (n : Nat)
  deriving DecidableEq

/-- What a client observes of an operation: the nodes `tb_history` has written
and their data, and the frontier as enumerated after the operation. -/
structure Obs where
  hist : List Nat
  data : List Int
  front : List Nat
  deriving DecidableEq

/-- One operation, with what the client observes of it. -/
def step (t : Tree) : Op → Except Fault (Tree × Obs)
  | .add_child p c d => do
    let t ← tb_add_child { t with toMem := tb_make_node t.toMem c d } p c
    let f ← frontier t
    pure (t, ⟨[], [], f⟩)
  | .deactivate n => do
    let t ← tb_deactivate t n
    let f ← frontier t
    pure (t, ⟨[], [], f⟩)
  | .history n => do
    let (t, out) ← tb_history t n
    let f ← frontier t
    pure (t, ⟨out, out.dropLast.map (tb_get_data t.toMem), f⟩)

/-- A sequence of operations, with what the client observes. -/
def run (t : Tree) : List Op → Except Fault (Tree × List Obs)
  | [] => pure (t, [])
  | o :: os => do
    let (t, b) ← step t o
    let (t, bs) ← run t os
    pure (t, b :: bs)

/-- A sequence of operations on a fresh tree. -/
def script (H : Nat) (a : algo) (r : Nat) (d : Int) (os : List Op) :
    Except Fault (Tree × List Obs) := do
  let t ← tb_initialize H a r (tb_make_node Mem.empty r d)
  run t os

/-- The preconditions of a sequence of operations: `F` holds the nodes that are
active, `U` the nodes used so far. A parent is active, a child is new, the node
of `deactivate` and `history` is active. -/
def respects : List Nat → List Nat → List Op → Bool
  | _, _, [] => true
  | F, U, .add_child p c _ :: os =>
    decide (p ∈ F) && decide (c ∉ U) && decide (6 ≤ c) && respects (c :: F) (c :: U) os
  | F, U, .deactivate n :: os => decide (n ∈ F) && respects (F.erase n) U os
  | F, U, .history n :: os => decide (n ∈ F) && respects F U os

/-- The nodes that are active after a sequence of operations, the last added first. -/
def live : List Nat → List Op → List Nat
  | F, [] => F
  | F, .add_child _ c _ :: os => live (c :: F) os
  | F, .deactivate n :: os => live (F.erase n) os
  | F, .history _ :: os => live F os

/-- The trees `tn` and `ta` have been built by the same operations, `tn` under
the naive algorithm: `F` holds the active nodes, `U` the nodes used so far. -/
structure Sim (tn ta : Tree) (F U : List Nat) : Prop where
  invn : ∃ D, Inv tn F D
  inva : ∃ D, Inv ta F D
  naive : tn.algo = tb_naive
  hist : ta.history = tn.history
  data : ta.data = tn.data
  chain : ∀ f ∈ F, anc ta.parent tn.history f = anc tn.parent tn.history f
  sub : ∀ q ∈ ta.alloc, q ∈ tn.alloc
  ids : ∀ q, q ∈ tn.alloc ↔ q ∈ U

/-- The nodes used by a sequence of operations, after those of `U`. -/
def used : List Nat → List Op → List Nat
  | U, [] => U
  | U, .add_child _ c _ :: os => used (c :: U) os
  | U, _ :: os => used U os

/-- The tree of a computation that has returned one. -/
def get_tree (e : Except Fault Tree) : Tree :=
  match e with
  | .ok t => t
  | .error _ => { toMem := Mem.empty, history := 0, algo := tb_naive, statistics_file := false,
                  output := [], node_count := 0, last_gc_node_count := 0, mems := 0 }

/-! ## Trees for the examples

The nodes of the examples are `10`, `11`, `12` and `13`, with data `0`. -/

/-- A naive tree with history 3 and the root `10`. -/
def nx0 : Tree := get_tree ( tb_initialize 3 tb_naive 10 (tb_make_node Mem.empty 10 0))

/-- The node `11` added below `10`. -/
def nx1 : Tree := get_tree (tb_add_child { nx0 with toMem := tb_make_node nx0.toMem 11 0 } 10 11)

/-- The node `12` added below `11`: the chain `10 - 11 - 12`. -/
def nx2 : Tree := get_tree (tb_add_child { nx1 with toMem := tb_make_node nx1.toMem 12 0 } 11 12)

/-- A naive tree with history 1 and the root `10`. -/
def hx0 : Tree := get_tree ( tb_initialize 1 tb_naive 10 (tb_make_node Mem.empty 10 0))

/-- The node `11` added below `10`. -/
def hx1 : Tree := get_tree (tb_add_child { hx0 with toMem := tb_make_node hx0.toMem 11 0 } 10 11)

/-- A tree of the mark algorithm with history 1 and the root `10`. -/
def gx0 : Tree := get_tree ( tb_initialize 1 tb_gc 10 (tb_make_node Mem.empty 10 0))

/-- The node `11` added below `10`. -/
def gx1 : Tree := get_tree (tb_add_child { gx0 with toMem := tb_make_node gx0.toMem 11 0 } 10 11)

/-- A tree of the amortized algorithm with history 1 and the root `10`. -/
def ax0 : Tree := get_tree ( tb_initialize 1 tb_amortized 10 (tb_make_node Mem.empty 10 0))

/-- A real-time tree with history 4 and the root `10`. -/
def rx0 : Tree := get_tree ( tb_initialize 4 tb_real_time 10 (tb_make_node Mem.empty 10 0))

/-- The node `11` added below `10`. -/
def rx1 : Tree := get_tree (tb_add_child { rx0 with toMem := tb_make_node rx0.toMem 11 0 } 10 11)

/-- The node `12` added below `10`. -/
def rx2 : Tree := get_tree (tb_add_child { rx1 with toMem := tb_make_node rx1.toMem 12 0 } 10 12)

/-- The node `13` added below `10`. -/
def rx3 : Tree := get_tree (tb_add_child { rx2 with toMem := tb_make_node rx2.toMem 13 0 } 10 13)

/-- The root deactivated: the tree after `expand 10 [11, 12, 13]`. -/
def rx4 : Tree := get_tree (tb_deactivate rx3 10)

/-- The real-time tree `rx0` and the nodes `11`, `12`, `13`, made and not yet added. -/
def rx0_made : Tree :=
  { rx0 with toMem := tb_make_node (tb_make_node (tb_make_node rx0.toMem 11 0) 12 0) 13 0 }

/-- A real-time tree with history 2 and the root `10`. -/
def ux0 : Tree := get_tree ( tb_initialize 2 tb_real_time 10 (tb_make_node Mem.empty 10 0))

/-- The node `11` added below `10`. -/
def ux1 : Tree := get_tree (tb_add_child { ux0 with toMem := tb_make_node ux0.toMem 11 0 } 10 11)

/-- The node `11` deactivated. -/
def ux2 : Tree := get_tree (tb_deactivate ux1 11)

/-! ## Bounds, workloads and more trees for the examples -/

/-- A bound on the memory references one operation of the real-time algorithm
reports, for the history `H`: `tb_add_child` reports at most `44`,
`tb_deactivate` at most `33` and `tb_history` at most `2 * H + 2`. -/
def op_bound (H : Nat) : Int := 2 * (H : Int) + 44

/-- The heap after `tb_make_node` has been called for every node of the list,
with the data `d`: the array of children a client makes before `tb_expand`. -/
def make_nodes (m : Mem) (d : Int) : List Nat → Mem
  | [] => m
  | c :: cs => make_nodes (tb_make_node m c d) d cs

/-- The real-time tree `rx0` with a statistics file attached. -/
def sx0 : Tree := get_tree (tb_start_collecting_statistics rx0)

/-- The amortized tree `ax0` with the node `11` added below `10`. -/
def ax1 : Tree := get_tree (tb_add_child { ax0 with toMem := tb_make_node ax0.toMem 11 0 } 10 11)

/-! ## The chain workload

The nodes of the chain are named by their addresses: the root is `10`, the node
`i` of the workload is `10 + i`. -/

/-- One operation of a client, without the enumeration of the frontier. -/
def exec (t : Tree) : Op → Except Fault Tree
  | .add_child p c d => tb_add_child { t with toMem := tb_make_node t.toMem c d } p c
  | .deactivate n => tb_deactivate t n
  | .history n => do
    let (t, _) ← tb_history t n
    pure t

/-- A sequence of operations; returns the last tree and the number of owned
nodes after each operation. -/
def live_counts (t : Tree) : List Op → Except Fault (Tree × List Nat)
  | [] => pure (t, [])
  | o :: os => do
    let t ← exec t o
    let (t', ls) ← live_counts t os
    pure (t', t.alloc.length :: ls)

/-- The chain workload from the node `i` on, `N` rounds: a new node `i + 1` is
added below `i`, then `i` is deactivated. -/
def chain (i : Nat) : Nat → List Op
  | 0 => []
  | N + 1 => .add_child i (i + 1) 0 :: .deactivate i :: chain (i + 1) N

/-- The chain workload on a fresh real-time tree with history 2 and the root
`10`: the number of owned nodes after each of the `2 * N` operations. -/
def chain_counts (N : Nat) : Except Fault (List Nat) := do
  let t ← tb_initialize 2 tb_real_time 10 (tb_make_node Mem.empty 10 0)
  let (_, ls) ← live_counts t (chain 10 N)
  pure ls

/-- The chain workload after an even number of rounds, at least four: the
frontier is `b + 4`, the list `t->to_delete` holds `b + 1`, and the owned nodes
are `b`, ..., `b + 4`, in two pieces `b + 4 → b + 3 → b + 2` and `b + 1 → b`. -/
structure ChainEven (b : Nat) (t : Tree) : Prop where
  inv : Inv t [b + 4] [b + 1]
  algo : t.algo = tb_real_time
  hist : t.history = 2
  alloc : t.alloc = [b + 4, b + 3, b + 2, b + 1, b]
  p4 : t.parent (b + 4) = b + 3
  p3 : t.parent (b + 3) = b + 2
  p2 : t.parent (b + 2) = 0
  p1 : t.parent (b + 1) = b
  p0 : t.parent b = 0
  c4 : t.children (b + 4) = 0
  c3 : t.children (b + 3) = 1
  c2 : t.children (b + 2) = 1
  c1 : t.children (b + 1) = 0
  c0 : t.children b = 1
  dn : 0 ≤ t.depth (b + 4)
  dm : t.depth (b + 4) % 2 = 0
  r4 : t.representant (b + 4) = b + 4
  n4 : t.active_count (b + 4) = 1

/-- The chain workload after `b + 5` has been added to a tree of `ChainEven`:
the node `b + 1` has been freed and `b` put on `t->to_delete`. -/
structure ChainEvenMid (b : Nat) (t : Tree) : Prop where
  inv : Inv t [b + 5, b + 4] [b]
  algo : t.algo = tb_real_time
  hist : t.history = 2
  alloc : t.alloc = [b + 5, b + 4, b + 3, b + 2, b]
  p5 : t.parent (b + 5) = b + 4
  p4 : t.parent (b + 4) = b + 3
  p3 : t.parent (b + 3) = b + 2
  p2 : t.parent (b + 2) = 0
  p0 : t.parent b = 0
  c5 : t.children (b + 5) = 0
  c4 : t.children (b + 4) = 1
  c3 : t.children (b + 3) = 1
  c2 : t.children (b + 2) = 1
  c0 : t.children b = 0
  dn : 0 ≤ t.depth (b + 5)
  dm : t.depth (b + 5) % 2 = 1
  r5 : t.representant (b + 5) = b + 4
  r4 : t.representant (b + 4) = b + 4
  n4 : t.active_count (b + 4) = 2

/-- The chain workload after an odd number of rounds, at least five: the
frontier is `b + 5`, the list `t->to_delete` holds `b`, and the owned nodes are
`b` and the path `b + 5 → b + 4 → b + 3 → b + 2`. -/
structure ChainOdd (b : Nat) (t : Tree) : Prop where
  inv : Inv t [b + 5] [b]
  algo : t.algo = tb_real_time
  hist : t.history = 2
  alloc : t.alloc = [b + 5, b + 4, b + 3, b + 2, b]
  p5 : t.parent (b + 5) = b + 4
  p4 : t.parent (b + 4) = b + 3
  p3 : t.parent (b + 3) = b + 2
  p2 : t.parent (b + 2) = 0
  p0 : t.parent b = 0
  c5 : t.children (b + 5) = 0
  c4 : t.children (b + 4) = 1
  c3 : t.children (b + 3) = 1
  c2 : t.children (b + 2) = 1
  c0 : t.children b = 0
  dn : 0 ≤ t.depth (b + 5)
  dm : t.depth (b + 5) % 2 = 1
  r5 : t.representant (b + 5) = b + 4
  n4 : t.active_count (b + 4) = 1

/-- The chain workload after `b + 6` has been added to a tree of `ChainOdd`:
the node `b` has been freed, the list `t->to_delete` is empty, and the owned
nodes are the path `b + 6 → b + 5 → b + 4 → b + 3 → b + 2`. -/
structure ChainOddMid (b : Nat) (t : Tree) : Prop where
  inv : Inv t [b + 6, b + 5] []
  algo : t.algo = tb_real_time
  hist : t.history = 2
  alloc : t.alloc = [b + 6, b + 5, b + 4, b + 3, b + 2]
  p6 : t.parent (b + 6) = b + 5
  p5 : t.parent (b + 5) = b + 4
  p4 : t.parent (b + 4) = b + 3
  p3 : t.parent (b + 3) = b + 2
  p2 : t.parent (b + 2) = 0
  c6 : t.children (b + 6) = 0
  c5 : t.children (b + 5) = 1
  c4 : t.children (b + 4) = 1
  c3 : t.children (b + 3) = 1
  c2 : t.children (b + 2) = 1
  dn : 0 ≤ t.depth (b + 6)
  dm : t.depth (b + 6) % 2 = 0
  r6 : t.representant (b + 6) = b + 6
  r5 : t.representant (b + 5) = b + 4
  n6 : t.active_count (b + 6) = 1
  n4 : t.active_count (b + 4) = 1

/-- The tree of the chain workload after its first `k` operations. -/
def chain_tree (k : Nat) : Tree :=
  get_tree (( tb_initialize 2 tb_real_time 10 (tb_make_node Mem.empty 10 0)).bind
    (fun t => (live_counts t ((chain 10 4).take k)).map (fun r => r.1)))

/-- The tree of the chain workload after four rounds. -/
def cx4 : Tree := chain_tree 8

/-! # Theorems -/

/-! ## The sentinel addresses -/

@[simp] theorem s_active_eq : s_active = 1 := rfl
@[simp] theorem s_to_delete_eq : s_to_delete = 2 := rfl
@[simp] theorem sentinel_a_eq : sentinel_a = 3 := rfl
@[simp] theorem sentinel_b_eq : sentinel_b = 4 := rfl
@[simp] theorem sentinel_c_eq : sentinel_c = 5 := rfl

/-! ## Field maps -/

@[simp] theorem upd_same {β : Type} (f : Nat → β) (a : Nat) (v : β) : upd f a v a = v := by
  simp [upd]

theorem upd_ne {β : Type} (f : Nat → β) {a x : Nat} (v : β) (h : x ≠ a) : upd f a v x = f x := by
  simp [upd, h]

theorem upd_apply {β : Type} (f : Nat → β) (a x : Nat) (v : β) :
    upd f a v x = if x = a then v else f x := rfl

/-! ## Intrusive circular lists -/

theorem Linked.linked_congr {ll rl ll' rl' : Nat → Nat} : ∀ {xs : List Nat} {a b : Nat},
    (∀ p ∈ a :: xs, rl' p = rl p) → (∀ p ∈ xs ++ [b], ll' p = ll p) →
    Linked ll rl a xs b → Linked ll' rl' a xs b
  | [], a, b, hr, hl, h => by
    simp only [Linked] at h ⊢
    rw [hr a (by simp), hl b (by simp)]; exact h
  | x :: xs, a, b, hr, hl, h => by
    simp only [Linked] at h ⊢
    refine ⟨⟨?_, ?_⟩, Linked.linked_congr (fun p hp => hr p ?_) (fun p hp => hl p ?_) h.2⟩
    · rw [hr a (by simp)]; exact h.1.1
    · rw [hl x (by simp)]; exact h.1.2
    · exact List.mem_cons_of_mem _ hp
    · simpa using Or.inr (by simpa using hp)

theorem Linked.append {ll rl : Nat → Nat} : ∀ {xs ys : List Nat} {a y b : Nat},
    Linked ll rl a (xs ++ y :: ys) b ↔ Linked ll rl a xs y ∧ Linked ll rl y ys b
  | [], ys, a, y, b => by simp [Linked]
  | x :: xs, ys, a, y, b => by
    have ih := @Linked.append ll rl xs ys x y b
    show ((rl a = x ∧ ll x = a) ∧ Linked ll rl x (xs ++ y :: ys) b) ↔
      ((rl a = x ∧ ll x = a) ∧ Linked ll rl x xs y) ∧ Linked ll rl y ys b
    rw [ih]; tauto

/-- The successor of the last cell before `b`. -/
theorem Linked.linked_rl_mem {ll rl : Nat → Nat} : ∀ {xs : List Nat} {a b : Nat},
    Linked ll rl a xs b → ∀ p ∈ a :: xs, rl p ∈ xs ++ [b]
  | [], a, b, h, p, hp => by
    simp only [Linked] at h
    simp at hp; subst hp; simp [h.1]
  | x :: xs, a, b, h, p, hp => by
    simp only [Linked] at h
    rcases List.mem_cons.1 hp with rfl | hp
    · simp [h.1.1]
    · have := Linked.linked_rl_mem h.2 p hp
      simp at this ⊢; tauto

theorem Linked.linked_ll_mem {ll rl : Nat → Nat} : ∀ {xs : List Nat} {a b : Nat},
    Linked ll rl a xs b → ∀ p ∈ xs ++ [b], ll p ∈ a :: xs
  | [], a, b, h, p, hp => by
    simp only [Linked] at h
    simp at hp; subst hp; simp [h.2]
  | x :: xs, a, b, h, p, hp => by
    simp only [Linked] at h
    have hp' : p = x ∨ p ∈ xs ++ [b] := by simpa using hp
    rcases hp' with rfl | hp
    · simp [h.1.2]
    · have := Linked.linked_ll_mem h.2 p hp
      simp at this ⊢; tauto

theorem DLL.dll_congr {ll rl ll' rl' : Nat → Nat} {s : Nat} {xs : List Nat}
    (h : DLL ll rl s xs) (hr : ∀ p ∈ s :: xs, rl' p = rl p) (hl : ∀ p ∈ s :: xs, ll' p = ll p) :
    DLL ll' rl' s xs :=
  ⟨h.1, Linked.linked_congr hr (fun p hp => hl p (by simp at hp ⊢; tauto)) h.2⟩

theorem DLL.nil {ll rl : Nat → Nat} {s : Nat} (hr : rl s = s) (hl : ll s = s) : DLL ll rl s [] :=
  ⟨by simp, by simp [Linked, hr, hl]⟩

theorem DLL.dll_rl_mem {ll rl : Nat → Nat} {s : Nat} {xs : List Nat} (h : DLL ll rl s xs) :
    ∀ p ∈ s :: xs, rl p ∈ s :: xs := fun p hp => by
  have := Linked.linked_rl_mem h.2 p hp
  simp at this ⊢; tauto

theorem DLL.dll_ll_mem {ll rl : Nat → Nat} {s : Nat} {xs : List Nat} (h : DLL ll rl s xs) :
    ∀ p ∈ s :: xs, ll p ∈ s :: xs := fun p hp => by
  have := Linked.linked_ll_mem h.2 p (by simp at hp ⊢; tauto)
  simpa using this

theorem DLL.rl_head {ll rl : Nat → Nat} {s : Nat} {xs : List Nat} (h : DLL ll rl s xs) :
    rl s = xs.headD s := by
  cases xs with
  | nil => exact h.2.1
  | cons x xs => exact h.2.1.1

/-- The cell after `x` in the list `as ++ x :: bs` is the head of `bs`, or the sentinel. -/
theorem DLL.rl_next {ll rl : Nat → Nat} {s x : Nat} {as bs : List Nat}
    (h : DLL ll rl s (as ++ x :: bs)) : rl x = bs.headD s := by
  have := (Linked.append.1 h.2).2
  cases bs with
  | nil => exact this.1
  | cons b bs => exact this.1.1

theorem DLL.ll_prev {ll rl : Nat → Nat} {s x : Nat} {as bs : List Nat}
    (h : DLL ll rl s (as ++ x :: bs)) : ll x = as.getLastD s := by
  have h1 := (Linked.append.1 h.2).1
  clear h
  induction as generalizing s with
  | nil => exact h1.2
  | cons a as ih =>
    simp only [List.cons_append, Linked] at h1
    rw [List.getLastD_cons]
    exact ih h1.2

theorem DLL.eq_nil_of_rl {ll rl : Nat → Nat} {s : Nat} {xs : List Nat} (h : DLL ll rl s xs)
    (hr : rl s = s) : xs = [] := by
  cases xs with
  | nil => rfl
  | cons x xs =>
    have : rl s = x := h.2.1.1
    have hn := h.1
    rw [hr] at this
    simp [this] at hn

/-- Head insertion, the four assignments
`x->ll = s; x->rl = s->rl; x->ll->rl = x->rl->ll = x`. -/
theorem DLL.push {ll rl : Nat → Nat} {s x : Nat} {xs : List Nat} (h : DLL ll rl s xs)
    (hx : x ∉ s :: xs) :
    DLL (upd (upd ll x s) (rl s) x) (upd (upd rl x (rl s)) s x) s (x :: xs) := by
  obtain ⟨hn, hl⟩ := h
  have hxs : x ≠ s := fun e => hx (by simp [e])
  refine ⟨?_, ?_⟩
  · rw [List.nodup_cons] at hn ⊢
    refine ⟨?_, List.nodup_cons.2 ⟨fun hm => hx (List.mem_cons_of_mem _ hm), hn.2⟩⟩
    simp only [List.mem_cons, not_or]
    exact ⟨fun e => hxs e.symm, hn.1⟩
  · cases xs with
    | nil =>
      simp only [Linked] at hl ⊢
      simp [upd_apply, hl.1, hxs, Ne.symm hxs]
    | cons y ys =>
      simp only [Linked] at hl ⊢
      have hxy : x ≠ y := fun e => hx (by simp [e])
      have hsy : s ≠ y := fun e => by simp [e] at hn
      refine ⟨⟨by simp, ?_⟩, ⟨?_, ?_⟩, ?_⟩
      · rw [hl.1.1]; simp [upd_apply, hxy]
      · rw [hl.1.1]; simp [upd_apply, hxs]
      · rw [hl.1.1]; simp
      · refine Linked.linked_congr (fun p hp => ?_) (fun p hp => ?_) hl.2
        · have hpx : p ≠ x := fun e => hx (by rw [← e]; exact List.mem_cons_of_mem _ hp)
          have hps : p ≠ s := fun e => by
            rw [e] at hp; exact (List.nodup_cons.1 hn).1 hp
          simp [upd_apply, hpx, hps]
        · have hp' : p ∈ ys ∨ p = s := by simpa using hp
          have hpx : p ≠ x := by
            rintro rfl; rcases hp' with h1 | h1
            · exact hx (by simp [h1])
            · exact hxs h1
          have hpy : p ≠ y := by
            rintro rfl; rcases hp' with h1 | h1
            · have := (List.nodup_cons.1 (List.nodup_cons.1 hn).2).1; exact this h1
            · exact hsy h1.symm
          rw [hl.1.1]; simp [upd_apply, hpx, hpy]

theorem Linked.linked_unlink {ll rl : Nat → Nat} {n b : Nat} {ys : List Nat} :
    ∀ {xs : List Nat} {a : Nat}, (a :: (xs ++ n :: ys)).Nodup → b ∉ xs ++ n :: ys →
    Linked ll rl a (xs ++ n :: ys) b →
    Linked (upd (upd ll (rl n) (ll n)) n n) (upd (upd rl (ll n) (rl n)) n n) a (xs ++ ys) b
  | [], a, hn, hb, h => by
    simp only [List.nil_append, Linked] at h
    obtain ⟨⟨h1, h2⟩, h3⟩ := h
    simp only [List.nil_append, List.nodup_cons, List.mem_cons, not_or] at hn hb
    obtain ⟨⟨han, hays⟩, hnys, hys⟩ := hn
    obtain ⟨hbn, hbys⟩ := hb
    cases ys with
    | nil =>
      simp only [Linked] at h3 ⊢
      simp [upd_apply, h3.1, h2, han, hbn]
    | cons y ys =>
      simp only [Linked] at h3 ⊢
      obtain ⟨⟨h4, h5⟩, h6⟩ := h3
      simp only [List.mem_cons, not_or, List.nodup_cons] at hays hnys hys hbys
      refine ⟨⟨?_, ?_⟩, ?_⟩
      · simp [upd_apply, h2, h4, han]
      · simp [upd_apply, h2, h4, Ne.symm hnys.1]
      · refine Linked.linked_congr (fun p hp => ?_) (fun p hp => ?_) h6
        · have hpn : p ≠ n := by rintro rfl; simp at hp; tauto
          have hpa : p ≠ a := by rintro rfl; simp at hp; tauto
          simp [upd_apply, h2, hpn, hpa]
        · have hp' : p ∈ ys ∨ p = b := by simpa using hp
          have hpn : p ≠ n := by rintro rfl; rcases hp' with h | h <;> [exact hnys.2 h; exact hbn h.symm]
          have hpy : p ≠ y := by rintro rfl; rcases hp' with h | h <;> [exact hys.1 h; exact hbys.1 h.symm]
          simp [upd_apply, h4, hpn, hpy]
  | x :: xs, a, hn, hb, h => by
    simp only [List.cons_append, Linked] at h ⊢
    obtain ⟨⟨h1, h2⟩, h3⟩ := h
    have hn' : (x :: (xs ++ n :: ys)).Nodup := (List.nodup_cons.1 hn).2
    have hb' : b ∉ xs ++ n :: ys := fun hm => hb (List.mem_cons_of_mem _ hm)
    have hax : a ∉ x :: (xs ++ n :: ys) := (List.nodup_cons.1 hn).1
    have hlm : ll n ∈ x :: xs := Linked.linked_ll_mem (Linked.append.1 h3).1 n (by simp)
    have hrm : rl n ∈ ys ++ [b] := Linked.linked_rl_mem (Linked.append.1 h3).2 n (by simp)
    refine ⟨⟨?_, ?_⟩, Linked.linked_unlink hn' hb' h3⟩
    · have han : a ≠ n := by rintro rfl; simp at hax
      have hal : a ≠ ll n := by
        intro e; rw [← e] at hlm
        exact hax (by simp at hlm ⊢; tauto)
      simp [upd_apply, han, hal, h1]
    · have hxn : x ≠ n := by rintro rfl; simp at hn'
      have hxr : x ≠ rl n := by
        intro e; rw [← e] at hrm
        have hrm' : x ∈ ys ∨ x = b := by simpa using hrm
        rcases hrm' with h | h
        · simp at hn'; tauto
        · exact hb (by simp [h])
      simp [upd_apply, hxn, hxr, h2]

/-- Removal of `n`, the assignments
`n->ll->rl = n->rl; n->rl->ll = n->ll; n->ll = n->rl = n`. -/
theorem DLL.dll_unlink {ll rl : Nat → Nat} {s n : Nat} {xs ys : List Nat}
    (h : DLL ll rl s (xs ++ n :: ys)) :
    DLL (upd (upd ll (rl n) (ll n)) n n) (upd (upd rl (ll n) (rl n)) n n) s (xs ++ ys) := by
  refine ⟨?_, Linked.linked_unlink h.1 (List.nodup_cons.1 h.1).1 h.2⟩
  have := h.1
  simp only [List.nodup_cons, List.nodup_append, List.mem_append, List.mem_cons, not_or,
    List.disjoint_cons_right] at this ⊢
  tauto

/-! ## Counting children -/

theorem countP_congr_mem {l : List Nat} {P Q : Nat → Bool} (h : ∀ q ∈ l, P q = Q q) :
    l.countP P = l.countP Q := by
  induction l with
  | nil => rfl
  | cons a l ih =>
    simp only [List.countP_cons, h a (List.mem_cons_self _ _)]
    rw [ih (fun q hq => h q (List.mem_cons_of_mem _ hq))]

theorem countP_upd_eq {l : List Nat} {par : Nat → Nat} {y v p : Nat} (hn : l.Nodup) (hy : y ∈ l) :
    l.countP (fun q => decide (upd par y v q = p)) + (if par y = p then 1 else 0) =
      l.countP (fun q => decide (par q = p)) + (if v = p then 1 else 0) := by
  induction l with
  | nil => simp at hy
  | cons a l ih =>
    rw [List.nodup_cons] at hn
    rcases List.mem_cons.1 hy with rfl | hy
    · have : l.countP (fun q => decide (upd par y v q = p)) = l.countP (fun q => decide (par q = p)) :=
        countP_congr_mem (fun q hq => by
          have : q ≠ y := fun e => hn.1 (e ▸ hq)
          simp [upd_apply, this])
      simp only [List.countP_cons, this, upd_same]
      by_cases h1 : par y = p <;> by_cases h2 : v = p <;> simp [h1, h2]
    · have hay : a ≠ y := fun e => hn.1 (e ▸ hy)
      have := ih hn.2 hy
      simp only [List.countP_cons, upd_apply, hay, if_false] at this ⊢
      omega

theorem countP_erase_eq {l : List Nat} {P : Nat → Bool} {x : Nat} (hn : l.Nodup) (hx : x ∈ l) :
    (l.erase x).countP P + (if P x then 1 else 0) = l.countP P := by
  induction l with
  | nil => simp at hx
  | cons a l ih =>
    rw [List.nodup_cons] at hn
    by_cases hax : a = x
    · subst hax
      simp [List.countP_cons]
    · have hx' : x ∈ l := by
        rcases List.mem_cons.1 hx with h | h
        · exact absurd h.symm hax
        · exact h
      have := ih hn.2 hx'
      rw [List.erase_cons_tail (by simpa using hax)]
      simp only [List.countP_cons]
      omega

theorem countP_eq_zero_of {l : List Nat} {P : Nat → Bool} (h : ∀ q ∈ l, P q = false) :
    l.countP P = 0 := by
  rw [List.countP_eq_zero]
  intro q hq; simp [h q hq]

/-! ## The shape of the heap between two operations -/

theorem Wf.wf_subD {m : Mem} {F D : List Nat} (h : Wf m F D) : ∀ p ∈ D, p ∈ m.alloc :=
  fun p hp => ((h.del p).1 hp).1

theorem Wf.wf_disj {m : Mem} {F D : List Nat} (h : Wf m F D) : ∀ p ∈ F, p ∉ D := fun p hF hD => by
  have h1 := (h.act p (h.subF p hF)).2 hF
  have h2 := ((h.del p).1 hD).2.1
  rw [h1] at h2; exact absurd h2 (by simp)

theorem Wf.valid_F {m : Mem} {F D : List Nat} (h : Wf m F D) : ∀ p ∈ s_active :: F, valid m p := by
  intro p hp
  rcases List.mem_cons.1 hp with rfl | hp
  · right; decide
  · left; exact h.subF p hp

theorem Wf.valid_D {m : Mem} {F D : List Nat} (h : Wf m F D) : ∀ p ∈ s_to_delete :: D, valid m p := by
  intro p hp
  rcases List.mem_cons.1 hp with rfl | hp
  · right; decide
  · left; exact h.wf_subD p hp

theorem Wf.wf_add_child {m : Mem} {F D : List Nat} (h : Wf m F D) {p c : Nat} (d : Int)
    (hp : p ∈ F) (hc : c ∉ m.alloc) (hc6 : 6 ≤ c) : Wf (m.add_child p c d) (c :: F) D := by
  have hpa : p ∈ m.alloc := h.subF p hp
  have hpc : p ≠ c := fun e => hc (e ▸ hpa)
  have hcF : c ∉ s_active :: F := by
    simp only [List.mem_cons, not_or]
    exact ⟨by simp; omega, fun hm => hc (h.subF c hm)⟩
  have hcD : c ∉ s_to_delete :: D := by
    simp only [List.mem_cons, not_or]
    exact ⟨by simp; omega, fun hm => hc (h.wf_subD c hm)⟩
  have hparc : ∀ q ∈ m.alloc, m.parent q ≠ c := fun q hq e => by
    rcases h.par q hq with h0 | h1
    · omega
    · exact hc (e ▸ h1)
  have hF0 : DLL (upd m.ll c c) (upd m.rl c c) s_active F :=
    h.dllF.dll_congr (fun q hq => upd_ne _ _ (fun e => hcF (e ▸ hq)))
      (fun q hq => upd_ne _ _ (fun e => hcF (e ▸ hq)))
  have hrs : upd m.rl c c s_active = m.rl s_active := upd_ne _ _ (by simp; omega)
  have hc1 : (1 : Nat) ≠ c := by omega
  constructor
  · simpa [Mem.add_child, Mem.link_child, Mem.push, tb_make_node] using hF0.push hcF
  · refine h.dllD.dll_congr (fun q hq => ?_) (fun q hq => ?_)
    · have h1 : q ≠ c := fun e => hcD (e ▸ hq)
      have h2 : q ≠ s_active := by
        rintro rfl
        rcases List.mem_cons.1 hq with h5 | h5
        · exact absurd h5 (by decide)
        · have := h.node _ (h.wf_subD _ h5); simp at this
      simp [Mem.add_child, Mem.link_child, Mem.push, tb_make_node, upd_apply, h1, h2]
    · have h1 : q ≠ c := fun e => hcD (e ▸ hq)
      have h2 : q ≠ m.rl s_active := by
        intro e
        have := h.dllF.dll_rl_mem s_active (by simp)
        rw [← e] at this
        rcases List.mem_cons.1 this with h3 | h3 <;> rcases List.mem_cons.1 hq with h4 | h4
        · rw [h3] at h4; exact absurd h4 (by decide)
        · have := h.node _ (h.wf_subD _ h4); rw [h3] at this; simp at this
        · have := h.node _ (h.subF _ h3); rw [h4] at this; simp at this
        · exact h.wf_disj _ h3 h4
      simp [Mem.add_child, Mem.link_child, Mem.push, tb_make_node, upd_apply, h1, h2, hrs, hc1]
  · simpa [Mem.add_child, Mem.link_child, Mem.push, tb_make_node] using ⟨hc, h.nodup⟩
  · intro q hq
    simp only [Mem.add_child, Mem.link_child, Mem.push, tb_make_node, List.mem_cons] at hq
    rcases hq with rfl | hq
    · exact hc6
    · exact h.node q hq
  · intro q hq
    simp only [Mem.add_child, Mem.link_child, Mem.push, tb_make_node, List.mem_cons] at hq ⊢
    rcases hq with rfl | hq
    · exact Or.inl rfl
    · exact Or.inr (h.subF q hq)
  · intro q hq
    simp only [Mem.add_child, Mem.link_child, Mem.push, tb_make_node, List.mem_cons] at hq ⊢
    rcases hq with rfl | hq
    · simp
    · have : q ≠ c := fun e => hc (e ▸ hq)
      simp [upd_apply, this, h.act q hq]
  · intro q
    simp only [Mem.add_child, Mem.link_child, Mem.push, tb_make_node, List.mem_cons]
    rw [h.del q]
    by_cases hqc : q = c
    · subst hqc; simp [hc]
    · by_cases hqp : q = p
      · subst hqp
        simp [upd_apply, hqc, (h.act q hpa).2 hp]
      · simp [upd_apply, hqc, hqp]
  · intro q hq hqF hqD
    simp only [Mem.add_child, Mem.link_child, Mem.push, tb_make_node, List.mem_cons, not_or] at hq hqF ⊢
    rcases hq with rfl | hq
    · exact absurd rfl hqF.1
    · have h1 := h.single q hq hqF.2 hqD
      have h2 : q ≠ s_active := fun e => by have := h.node q hq; rw [e] at this; simp at this
      have h3 : q ≠ m.rl s_active := by
        intro e
        have := h.dllF.dll_rl_mem s_active (by simp)
        rw [← e] at this
        rcases List.mem_cons.1 this with h3 | h3
        · exact h2 h3
        · exact hqF.2 h3
      simp [upd_apply, hqF.1, h2, h3, h1, hrs, hc1]
  · intro q hq
    simp only [Mem.add_child, Mem.link_child, Mem.push, tb_make_node, List.mem_cons] at hq ⊢
    rcases hq with rfl | hq
    · simp [hpa]
    · have : q ≠ c := fun e => hc (e ▸ hq)
      rcases h.par q hq with h0 | h1
      · simp [upd_apply, this, h0]
      · simp [upd_apply, this, h1]
  · intro q hq
    simp only [Mem.add_child, Mem.link_child, Mem.push, tb_make_node, List.mem_cons, nchildren] at hq ⊢
    have e1 : ∀ r, List.countP (fun q => decide (upd (upd m.parent c 0) c p q = r)) m.alloc
        = List.countP (fun q => decide (m.parent q = r)) m.alloc := fun r =>
      countP_congr_mem (fun x hx => by
        have : x ≠ c := fun e => hc (e ▸ hx)
        simp [upd_apply, this])
    simp only [List.countP_cons, e1, upd_same]
    rcases hq with rfl | hq
    · have := countP_eq_zero_of (l := m.alloc) (P := fun x => decide (m.parent x = q))
        (fun x hx => by simpa using hparc x hx)
      simp [upd_apply, hpc, this]
      exact fun e => (hpc e.symm).elim
    · have hqc : q ≠ c := fun e => hc (e ▸ hq)
      have := h.cnt q hq
      simp only [nchildren] at this
      by_cases hqp : q = p
      · subst hqp; simp [upd_apply, hqc, this]
      · simp [upd_apply, hqc, hqp, this, Ne.symm hqp]
  · intro q hq
    simp only [Mem.add_child, Mem.link_child, Mem.push, tb_make_node, List.mem_cons] at hq ⊢
    rcases hq with rfl | hq
    · simp
    · have : q ≠ c := fun e => hc (e ▸ hq)
      simp [upd_apply, this, h.seen q hq]
  · obtain ⟨rk, hrk⟩ := h.acyc
    refine ⟨upd rk c (rk p + 1), fun q hq hpar => ?_⟩
    simp only [Mem.add_child, Mem.link_child, Mem.push, tb_make_node, List.mem_cons] at hq hpar ⊢
    rcases hq with rfl | hq
    · simp [upd_apply, hpc]
    · have hqc : q ≠ c := fun e => hc (e ▸ hq)
      simp only [upd_apply, hqc, if_false] at hpar ⊢
      simp only [hparc q hq, if_false]
      exact hrk q hq hpar

theorem erase_split {n : Nat} {as bs : List Nat} (hn : (as ++ n :: bs).Nodup) :
    (as ++ n :: bs).erase n = as ++ bs := by
  have : n ∉ as := fun h => by
    have := List.nodup_append.1 hn
    exact this.2.2 h (List.mem_cons_self _ _)
  rw [List.erase_append_right _ this, List.erase_cons_head]

theorem Wf.F_nodup {m : Mem} {F D : List Nat} (h : Wf m F D) : F.Nodup :=
  (List.nodup_cons.1 h.dllF.1).2

theorem Wf.D_nodup {m : Mem} {F D : List Nat} (h : Wf m F D) : D.Nodup :=
  (List.nodup_cons.1 h.dllD.1).2

theorem Wf.wf_ne_sentinel {m : Mem} {F D : List Nat} (h : Wf m F D) {p : Nat} (hp : p ∈ m.alloc) :
    p ≠ 0 ∧ p ≠ 1 ∧ p ≠ 2 ∧ p ≠ 3 ∧ p ≠ 4 ∧ p ≠ 5 := by
  have := h.node p hp
  omega

theorem Wf.wf_deactivate {m : Mem} {F D : List Nat} (h : Wf m F D) {n : Nat} (hn : n ∈ F) :
    Wf (m.deactivate n) (F.erase n) (deact_D m n D) := by
  obtain ⟨as, bs, rfl⟩ := List.append_of_mem hn
  have hFn := h.F_nodup
  rw [erase_split hFn]
  have hna : n ∈ m.alloc := h.subF n hn
  have hnD : n ∉ D := h.wf_disj n hn
  have hn6 := h.wf_ne_sentinel hna
  have hnas : n ∉ as ++ bs := by
    have := hFn
    simp only [List.nodup_append, List.nodup_cons, List.mem_append, not_or,
      List.disjoint_cons_right] at this ⊢
    tauto
  have hsub : ∀ q ∈ as ++ bs, q ∈ as ++ n :: bs := fun q hq => by
    simp only [List.mem_append, List.mem_cons] at hq ⊢; tauto
  -- the neighbours of `n`
  have hl : m.ll n ∈ s_active :: (as ++ n :: bs) := h.dllF.dll_ll_mem n (List.mem_cons_of_mem _ hn)
  have hr : m.rl n ∈ s_active :: (as ++ n :: bs) := h.dllF.dll_rl_mem n (List.mem_cons_of_mem _ hn)
  have hFD : ∀ q ∈ s_active :: (as ++ n :: bs), q ∉ s_to_delete :: D := by
    intro q hq hq'
    rcases List.mem_cons.1 hq with rfl | h1 <;> rcases List.mem_cons.1 hq' with h2 | h2
    · exact absurd h2 (by decide)
    · have := h.node _ (h.wf_subD _ h2); simp at this
    · have := h.node _ (h.subF _ h1); rw [h2] at this; simp at this
    · exact h.wf_disj _ h1 h2
  have hU : DLL (upd (upd m.ll (m.rl n) (m.ll n)) n n) (upd (upd m.rl (m.ll n) (m.rl n)) n n)
      s_active (as ++ bs) := h.dllF.dll_unlink
  have hUD : DLL (upd (upd m.ll (m.rl n) (m.ll n)) n n) (upd (upd m.rl (m.ll n) (m.rl n)) n n)
      s_to_delete D := by
    refine h.dllD.dll_congr (fun q hq => ?_) (fun q hq => ?_)
    · have h1 : q ≠ n := fun e => hFD n (List.mem_cons_of_mem _ hn) (e ▸ hq)
      have h2 : q ≠ m.ll n := fun e => hFD _ hl (e ▸ hq)
      simp [upd_apply, h1, h2]
    · have h1 : q ≠ n := fun e => hFD n (List.mem_cons_of_mem _ hn) (e ▸ hq)
      have h2 : q ≠ m.rl n := fun e => hFD _ hr (e ▸ hq)
      simp [upd_apply, h1, h2]
  have hnsD : n ∉ s_to_delete :: D := by
    simp only [List.mem_cons, not_or]; exact ⟨by simp; omega, hnD⟩
  have hsF : ∀ q ∈ s_active :: (as ++ bs), q ≠ n ∧ q ≠ 2 ∧ q ∉ D := by
    intro q hq
    rcases List.mem_cons.1 hq with rfl | h1
    · refine ⟨by simp; omega, by simp, fun h2 => ?_⟩
      have := h.node _ (h.wf_subD _ h2); simp at this
    · have h3 := h.wf_ne_sentinel (h.subF q (hsub q h1))
      exact ⟨fun e => hnas (e ▸ h1), h3.2.2.1, h.wf_disj q (hsub q h1)⟩
  by_cases hc0 : m.children n = 0
  · simp only [Mem.deactivate, deact_D, hc0, if_true, Mem.push, Mem.unlink]
    have hP := hUD.push hnsD
    have hrD : (upd (upd m.rl (m.ll n) (m.rl n)) n n) s_to_delete = m.rl s_to_delete := by
      have h1 : s_to_delete ≠ n := by simp; omega
      have h2 : s_to_delete ≠ m.ll n := fun e => hFD _ hl (by rw [← e]; simp)
      simp only [upd_apply, h1, h2, if_false]
    have hrDm : m.rl s_to_delete ∈ s_to_delete :: D := h.dllD.dll_rl_mem _ (by simp)
    constructor
    · refine hU.dll_congr (fun q hq => ?_) (fun q hq => ?_)
      · obtain ⟨h1, h2, _⟩ := hsF q hq
        simp [upd_apply, h1, h2]
      · obtain ⟨h1, h2, h3⟩ := hsF q hq
        have h4 : q ≠ m.rl s_to_delete := by
          intro e; rw [← e] at hrDm
          rcases List.mem_cons.1 hrDm with h5 | h5
          · exact h2 h5
          · exact h3 h5
        rw [hrD]
        simp only [upd_apply, h1, h4, if_false]
    · exact hP
    · exact h.nodup
    · exact h.node
    · exact fun q hq => h.subF q (hsub q hq)
    · intro q hq
      show upd m.active n false q = true ↔ q ∈ as ++ bs
      by_cases hqn : q = n
      · subst hqn; simp [hnas]
      · rw [upd_ne _ _ hqn, h.act q hq]
        simp only [List.mem_append, List.mem_cons]; tauto
    · intro q
      show q ∈ n :: D ↔ q ∈ m.alloc ∧ upd m.active n false q = false ∧ m.children q = 0
      by_cases hqn : q = n
      · subst hqn; simp [hna, hc0]
      · rw [upd_ne _ _ hqn, List.mem_cons, h.del q]; simp [hqn]
    · intro q hq hqF hqD
      simp only [List.mem_cons, not_or] at hqD
      have hqF' : q ∉ as ++ n :: bs := by
        simp only [List.mem_append, List.mem_cons, not_or] at hqF ⊢; tauto
      have h1 := h.single q hq hqF' hqD.2
      have h6 := h.wf_ne_sentinel hq
      have h2 : q ≠ m.ll n := fun e => by
        rw [← e] at hl; rcases List.mem_cons.1 hl with h3 | h3
        · exact h6.2.1 h3
        · exact hqF' h3
      have h3 : q ≠ m.rl n := fun e => by
        rw [← e] at hr; rcases List.mem_cons.1 hr with h3 | h3
        · exact h6.2.1 h3
        · exact hqF' h3
      have h4 : q ≠ m.rl s_to_delete := fun e => by
        rw [← e] at hrDm; rcases List.mem_cons.1 hrDm with h3 | h3
        · exact h6.2.2.1 h3
        · exact hqD.2 h3
      show upd (upd (upd (upd m.ll (m.rl n) (m.ll n)) n n) n s_to_delete) _ n q = q ∧
        upd (upd (upd (upd m.rl (m.ll n) (m.rl n)) n n) n _) s_to_delete n q = q
      rw [hrD]
      simp only [upd_apply, hqD.1, h2, h3, h4, h6.2.2.1, s_to_delete_eq, if_false]
      exact h1
    · exact h.par
    · exact h.cnt
    · exact h.seen
    · exact h.acyc
  · simp only [Mem.deactivate, deact_D, hc0, if_false, Mem.unlink]
    constructor
    · exact hU
    · exact hUD
    · exact h.nodup
    · exact h.node
    · exact fun q hq => h.subF q (hsub q hq)
    · intro q hq
      show upd m.active n false q = true ↔ q ∈ as ++ bs
      by_cases hqn : q = n
      · subst hqn; simp [hnas]
      · rw [upd_ne _ _ hqn, h.act q hq]
        simp only [List.mem_append, List.mem_cons]; tauto
    · intro q
      show q ∈ D ↔ q ∈ m.alloc ∧ upd m.active n false q = false ∧ m.children q = 0
      by_cases hqn : q = n
      · subst hqn; simp [hnD, hc0]
      · rw [upd_ne _ _ hqn, h.del q]
    · intro q hq hqF hqD
      show upd (upd m.ll (m.rl n) (m.ll n)) n n q = q ∧ upd (upd m.rl (m.ll n) (m.rl n)) n n q = q
      by_cases hqn : q = n
      · subst hqn; simp
      · have hqF' : q ∉ as ++ n :: bs := by
          simp only [List.mem_append, List.mem_cons, not_or] at hqF ⊢; tauto
        have h1 := h.single q hq hqF' hqD
        have h6 := h.wf_ne_sentinel hq
        have h2 : q ≠ m.ll n := fun e => by
          rw [← e] at hl; rcases List.mem_cons.1 hl with h3 | h3
          · exact h6.2.1 h3
          · exact hqF' h3
        have h3 : q ≠ m.rl n := fun e => by
          rw [← e] at hr; rcases List.mem_cons.1 hr with h3 | h3
          · exact h6.2.1 h3
          · exact hqF' h3
        simp only [upd_apply, hqn, h2, h3, if_false]
        exact h1
    · exact h.par
    · exact h.cnt
    · exact h.seen
    · exact h.acyc

theorem tb_deactivate_eq {t : Tree} {n : Nat} (hm : t.mems = 0) (hn : n ∈ t.alloc) (hn0 : n ≠ 0)
    (hn2 : n ≠ 2) (ha : t.active n = true)
    (hl : valid t.toMem (t.ll n)) (hr : valid t.toMem (t.rl n))
    (hd : valid t.toMem (t.rl s_to_delete)) (hnd : n ≠ t.rl s_to_delete)
    (hld : t.ll n ≠ 2) :
    tb_deactivate t n = deactivate_tail
      { t with toMem := t.toMem.deactivate n, mems := if t.children n = 0 then 18 else 9 } n := by
  unfold valid at hl hr hd
  have hd' : t.rl 2 ∈ t.alloc ∨ 1 ≤ t.rl 2 ∧ t.rl 2 ≤ 5 := hd
  have hnd' : n ≠ t.rl 2 := hnd
  by_cases hc : t.children n = 0
  · simp [tb_deactivate, deactivate_tail, c_assert, deref, valid, hm, hn, hn0, ha, hl, hr, hd', hc, bind,
      Except.bind, pure, Except.pure, M, upd_apply, Mem.deactivate, Mem.unlink, Mem.push, hn2, hnd', Ne.symm hn2, hld, Ne.symm hld]
  · simp [tb_deactivate, deactivate_tail, c_assert, deref, valid, hm, hn, hn0, ha, hl, hr, hc, bind,
      Except.bind, pure, Except.pure, M, upd_apply, Mem.deactivate, Mem.unlink, Mem.push]

theorem tb_add_child_eq {t : Tree} {p c : Nat} (hm : t.mems = 0) (hp : p ∈ t.alloc) (hc : c ∈ t.alloc)
    (hp0 : p ≠ 0) (hc0 : c ≠ 0) (hr : valid t.toMem (t.rl s_active))
    (hcr : c ≠ t.rl s_active) :
    tb_add_child t p c = add_child_tail
      { t with toMem := t.toMem.link_child p c, mems := 11 } p c := by
  unfold valid at hr
  have hr' : t.rl 1 ∈ t.alloc ∨ 1 ≤ t.rl 1 ∧ t.rl 1 ≤ 5 := hr
  have hcr' : c ≠ t.rl 1 := hcr
  simp [tb_add_child, add_child_tail, c_assert, deref, valid, hm, hp, hc, hp0, hc0, hr', hcr', bind,
      Except.bind, pure, Except.pure, M, upd_apply, Mem.link_child, Mem.push]

theorem cut_parent_eq {t : Tree} {y : Nat} (hy : y ∈ t.alloc)
    (hx : t.parent y = 0 ∨ t.parent y ∈ t.alloc)
    (hs : cut_pushes t.toMem y → t.ll (t.parent y) = t.parent y ∧ t.rl (t.parent y) = t.parent y)
    (hd : valid t.toMem (t.rl s_to_delete))
    (hxd : t.parent y ≠ t.rl s_to_delete) :
    cut_parent t y = .ok { t with toMem := t.toMem.cut y, mems := t.mems + cut_mems t.toMem y } := by
  unfold valid at hd
  have hd' : t.rl 2 ∈ t.alloc ∨ 1 ≤ t.rl 2 ∧ t.rl 2 ≤ 5 := hd
  have hxd' : t.parent y ≠ t.rl 2 := hxd
  by_cases h0 : t.parent y = 0
  · simp [cut_parent, Mem.cut, cut_mems, cut_pushes, deref, valid, hy, h0, bind, Except.bind, pure,
      Except.pure, M]
    ring
  · have hxa : t.parent y ∈ t.alloc := hx.resolve_left h0
    by_cases h1 : t.children (t.parent y) - 1 = 0
    · cases h2 : t.active (t.parent y)
      · have := hs ⟨h0, h1, h2⟩
        simp [cut_parent, Mem.cut, cut_mems, cut_pushes, deref, valid, hy, h0, hxa, h1, h2, bind,
          Except.bind, pure, Except.pure, M, upd_apply, c_assert, this, Mem.push, hd', hxd']
        ring
      · simp [cut_parent, Mem.cut, cut_mems, cut_pushes, deref, valid, hy, h0, hxa, h1, h2, bind,
          Except.bind, pure, Except.pure, M, upd_apply]
        ring
    · simp [cut_parent, Mem.cut, cut_mems, cut_pushes, deref, valid, hy, h0, hxa, h1, bind,
        Except.bind, pure, Except.pure, M, upd_apply]
      ring

theorem Wf.toX {m : Mem} {F D : List Nat} (h : Wf m F D) {e : Nat} (he : e ∉ D) : WfX m F D e :=
  { dllF := h.dllF, dllD := h.dllD, nodup := h.nodup, node := h.node, subF := h.subF, act := h.act
    del := fun p _ => h.del p, eD := he, single := h.single, par := h.par, cnt := h.cnt
    seen := h.seen, acyc := h.acyc }

theorem WfX.toWf {m : Mem} {F D : List Nat} {e : Nat} (h : WfX m F D e) (he : e ∉ m.alloc) :
    Wf m F D :=
  { dllF := h.dllF, dllD := h.dllD, nodup := h.nodup, node := h.node, subF := h.subF, act := h.act
    del := fun p => by
      by_cases hp : p = e
      · subst hp; simp [h.eD, he]
      · exact h.del p hp
    single := h.single, par := h.par, cnt := h.cnt, seen := h.seen, acyc := h.acyc }

theorem WfX.wfx_ne_sentinel {m : Mem} {F D : List Nat} {e : Nat} (h : WfX m F D e) {p : Nat}
    (hp : p ∈ m.alloc) : p ≠ 0 ∧ p ≠ 1 ∧ p ≠ 2 ∧ p ≠ 3 ∧ p ≠ 4 ∧ p ≠ 5 := by
  have := h.node p hp
  omega

theorem WfX.wfx_subD {m : Mem} {F D : List Nat} {e : Nat} (h : WfX m F D e) : ∀ p ∈ D, p ∈ m.alloc :=
  fun p hp => ((h.del p (fun e' => h.eD (e' ▸ hp))).1 hp).1

theorem WfX.wfx_disj {m : Mem} {F D : List Nat} {e : Nat} (h : WfX m F D e) : ∀ p ∈ F, p ∉ D :=
  fun p hF hD => by
  have h1 := (h.act p (h.subF p hF)).2 hF
  have h2 := ((h.del p (fun e' => h.eD (e' ▸ hD))).1 hD).2.1
  rw [h1] at h2; exact absurd h2 (by simp)

theorem WfX.FD {m : Mem} {F D : List Nat} {e : Nat} (h : WfX m F D e) :
    ∀ q ∈ s_active :: F, q ∉ s_to_delete :: D := by
  intro q hq hq'
  rcases List.mem_cons.1 hq with rfl | h1 <;> rcases List.mem_cons.1 hq' with h2 | h2
  · exact absurd h2 (by decide)
  · have := h.node _ (h.wfx_subD _ h2); simp at this
  · have := h.node _ (h.subF _ h1); rw [h2] at this; simp at this
  · exact h.wfx_disj _ h1 h2

theorem nchildren_pos {m : Mem} {y : Nat} (hy : y ∈ m.alloc) : 0 < nchildren m (m.parent y) := by
  unfold nchildren
  rw [List.countP_pos_iff]
  exact ⟨y, hy, by simp⟩

theorem nchildren_cut {m : Mem} {y p : Nat} (hn : m.alloc.Nodup) (hy : y ∈ m.alloc) (hp : p ≠ 0) :
    (m.alloc.countP (fun q => decide (upd m.parent y 0 q = p))) + (if m.parent y = p then 1 else 0)
      = nchildren m p := by
  have := @countP_upd_eq _ m.parent _ 0 p hn hy
  simp only [Ne.symm hp, if_false, Nat.add_zero] at this
  exact this

theorem WfX.wfx_cut {m : Mem} {F D : List Nat} {e : Nat} (h : WfX m F D e) {y : Nat}
    (hy : y ∈ m.alloc) (hpe : m.parent y ≠ e) : WfX (m.cut y) F (cut_D m y D) e := by
  by_cases h0 : m.parent y = 0
  · have hnp : ¬ cut_pushes m y := fun hc => hc.1 h0
    have hpar : upd m.parent y 0 = m.parent := by
      funext q; by_cases hq : q = y
      · subst hq; simp [h0]
      · simp [upd_apply, hq]
    have : m.cut y = m := by
      simp only [Mem.cut, h0, hnp, if_false, ne_eq, not_true_eq_false, hpar]
    rw [this]
    simp only [cut_D, hnp, if_false]
    exact h
  · have hxa : m.parent y ∈ m.alloc := (h.par y hy).resolve_left h0
    have hx6 := h.wfx_ne_sentinel hxa
    have hcx := h.cnt _ hxa
    have hpos := nchildren_pos hy
    have hxD : m.parent y ∉ D := fun hm => by
      have := ((h.del _ hpe).1 hm).2.2
      omega
    have hcnt : ∀ p ∈ m.alloc, upd m.children (m.parent y) (m.children (m.parent y) - 1) p =
        ((m.alloc.countP (fun q => decide (upd m.parent y 0 q = p)) : Nat) : Int) := by
      intro p hp
      have h1 := nchildren_cut h.nodup hy (h.wfx_ne_sentinel hp).1
      have h2 := h.cnt p hp
      by_cases hpx : p = m.parent y
      · subst hpx; simp only [upd_same, if_true] at h1 ⊢; omega
      · simp only [upd_apply, hpx, Ne.symm hpx, if_false] at h1 ⊢; omega
    obtain ⟨rk, hrk⟩ := h.acyc
    have hacyc : ∃ rk : Nat → Nat, ∀ p ∈ m.alloc, upd m.parent y 0 p ≠ 0 →
        rk (upd m.parent y 0 p) < rk p := ⟨rk, fun p hp hne => by
      by_cases hpy : p = y
      · subst hpy; simp at hne
      · simp only [upd_apply, hpy, if_false] at hne ⊢; exact hrk p hp hne⟩
    have hpar : ∀ p ∈ m.alloc, upd m.parent y 0 p = 0 ∨ upd m.parent y 0 p ∈ m.alloc := by
      intro p hp
      by_cases hpy : p = y
      · subst hpy; simp
      · simp only [upd_apply, hpy, if_false]; exact h.par p hp
    by_cases hc : cut_pushes m y
    · have hxF : m.parent y ∉ F := fun hm => by
        have := (h.act _ hxa).2 hm
        rw [hc.2.2] at this; exact absurd this (by simp)
      have hxsD : m.parent y ∉ s_to_delete :: D := by
        simp only [List.mem_cons, not_or]; exact ⟨hx6.2.2.1, hxD⟩
      have hrDm : m.rl s_to_delete ∈ s_to_delete :: D := h.dllD.dll_rl_mem _ (by simp)
      simp only [Mem.cut, cut_D, hc, h0, if_true, ne_eq, not_false_eq_true, Mem.push]
      constructor
      · refine h.dllF.dll_congr (fun q hq => ?_) (fun q hq => ?_)
        · have h1 : q ≠ m.parent y := by
            rintro rfl; rcases List.mem_cons.1 hq with h2 | h2
            · exact hx6.2.1 h2
            · exact hxF h2
          have h2 : q ≠ s_to_delete := fun e' => h.FD q hq (by simp [e'])
          simp only [upd_apply, h1, h2, if_false]
        · have h1 : q ≠ m.parent y := by
            rintro rfl; rcases List.mem_cons.1 hq with h2 | h2
            · exact hx6.2.1 h2
            · exact hxF h2
          have h2 : q ≠ m.rl s_to_delete := fun e' => h.FD q hq (e' ▸ hrDm)
          simp only [upd_apply, h1, h2, if_false]
      · exact h.dllD.push hxsD
      · exact h.nodup
      · exact h.node
      · exact h.subF
      · exact h.act
      · intro p hp
        show p ∈ m.parent y :: D ↔ p ∈ m.alloc ∧ m.active p = false ∧
          upd m.children (m.parent y) (m.children (m.parent y) - 1) p = 0
        by_cases hpx : p = m.parent y
        · subst hpx; simp [hxa, hc.2.1, hc.2.2]
        · rw [upd_ne _ _ hpx, List.mem_cons, h.del p hp]; simp [hpx]
      · simp only [List.mem_cons, not_or]; exact ⟨Ne.symm hpe, h.eD⟩
      · intro p hp hpF hpD
        simp only [List.mem_cons, not_or] at hpD
        have h1 := h.single p hp hpF hpD.2
        have h6 := h.wfx_ne_sentinel hp
        have h4 : p ≠ m.rl s_to_delete := fun e' => by
          rw [← e'] at hrDm; rcases List.mem_cons.1 hrDm with h3 | h3
          · exact h6.2.2.1 h3
          · exact hpD.2 h3
        show upd (upd m.ll (m.parent y) s_to_delete) (m.rl s_to_delete) (m.parent y) p = p ∧
          upd (upd m.rl (m.parent y) (m.rl s_to_delete)) s_to_delete (m.parent y) p = p
        simp only [upd_apply, hpD.1, h4, h6.2.2.1, s_to_delete_eq, if_false]
        exact h1
      · exact hpar
      · exact hcnt
      · exact h.seen
      · exact hacyc
    · simp only [Mem.cut, cut_D, hc, h0, if_false, if_true, ne_eq, not_false_eq_true]
      constructor
      · exact h.dllF
      · exact h.dllD
      · exact h.nodup
      · exact h.node
      · exact h.subF
      · exact h.act
      · intro p hp
        show p ∈ D ↔ p ∈ m.alloc ∧ m.active p = false ∧
          upd m.children (m.parent y) (m.children (m.parent y) - 1) p = 0
        by_cases hpx : p = m.parent y
        · subst hpx
          simp only [upd_same]
          constructor
          · intro hm; exact absurd hm hxD
          · rintro ⟨_, h2, h3⟩; exact absurd ⟨h0, h3, h2⟩ hc
        · rw [upd_ne _ _ hpx, h.del p hp]
      · exact h.eD
      · exact h.single
      · exact hpar
      · exact hcnt
      · exact h.seen
      · exact hacyc

theorem Mem.cut_alloc (m : Mem) (y : Nat) : (m.cut y).alloc = m.alloc := by
  simp only [Mem.cut, Mem.push]; split <;> split <;> rfl

theorem Mem.cut_parent (m : Mem) (y : Nat) : (m.cut y).parent = upd m.parent y 0 := by
  simp only [Mem.cut, Mem.push]; split <;> split <;> rfl

theorem Mem.cut_active (m : Mem) (y : Nat) : (m.cut y).active = m.active := by
  simp only [Mem.cut, Mem.push]; split <;> split <;> rfl

theorem Mem.cut_depth (m : Mem) (y : Nat) : (m.cut y).depth = m.depth := by
  simp only [Mem.cut, Mem.push]; split <;> split <;> rfl

theorem Mem.cut_representant (m : Mem) (y : Nat) : (m.cut y).representant = m.representant := by
  simp only [Mem.cut, Mem.push]; split <;> split <;> rfl

theorem Mem.cut_active_count (m : Mem) (y : Nat) : (m.cut y).active_count = m.active_count := by
  simp only [Mem.cut, Mem.push]; split <;> split <;> rfl

theorem Mem.cut_data (m : Mem) (y : Nat) : (m.cut y).data = m.data := by
  simp only [Mem.cut, Mem.push]; split <;> split <;> rfl

theorem Mem.cut_seen (m : Mem) (y : Nat) : (m.cut y).seen = m.seen := by
  simp only [Mem.cut, Mem.push]; split <;> split <;> rfl

theorem Mem.cut_children (m : Mem) (y : Nat) : (m.cut y).children =
    if m.parent y ≠ 0 then upd m.children (m.parent y) (m.children (m.parent y) - 1)
    else m.children := by
  simp only [Mem.cut, Mem.push]; split <;> split <;> rfl

theorem Wf.wf_cut {m : Mem} {F D : List Nat} (h : Wf m F D) {y : Nat} (hy : y ∈ m.alloc) :
    Wf (m.cut y) F (cut_D m y D) := by
  have hD0 : (0 : Nat) ∉ D := fun hm => by have := h.node 0 (h.wf_subD 0 hm); omega
  have h1 : (0 : Nat) ∉ m.alloc := fun hm => by have := h.node 0 hm; omega
  by_cases h0 : m.parent y = 0
  · have hX := h.toX (e := 1) (fun hm => by have := h.node 1 (h.wf_subD 1 hm); omega)
    have := hX.wfx_cut hy (by rw [h0]; decide)
    exact this.toWf (fun hm => by
      rw [Mem.cut_alloc] at hm
      have := h.node 1 hm; omega)
  · have hX := h.toX hD0
    have := hX.wfx_cut hy h0
    exact this.toWf (fun hm => by
      rw [Mem.cut_alloc] at hm
      exact h1 hm)

theorem Wf.pop {m : Mem} {F D : List Nat} {x : Nat} (h : Wf m F (x :: D)) :
    WfX (m.unlink x) F D x := by
  have hxa : x ∈ m.alloc := h.wf_subD x (by simp)
  have hx6 := h.wf_ne_sentinel hxa
  have hDn := h.D_nodup
  have hxD : x ∉ D := (List.nodup_cons.1 hDn).1
  have hl : m.ll x ∈ s_to_delete :: x :: D := h.dllD.dll_ll_mem x (by simp)
  have hr : m.rl x ∈ s_to_delete :: x :: D := h.dllD.dll_rl_mem x (by simp)
  have hFD := (h.toX (e := 0) (fun hm => by have := h.node 0 (h.wf_subD 0 hm); omega)).FD
  constructor
  · refine h.dllF.dll_congr (fun q hq => ?_) (fun q hq => ?_)
    · have h1 : q ≠ x := fun e => hFD q hq (by simp [e])
      have h2 : q ≠ m.ll x := fun e => hFD q hq (e ▸ hl)
      simp only [Mem.unlink, upd_apply, h1, h2, if_false]
    · have h1 : q ≠ x := fun e => hFD q hq (by simp [e])
      have h2 : q ≠ m.rl x := fun e => hFD q hq (e ▸ hr)
      simp only [Mem.unlink, upd_apply, h1, h2, if_false]
  · exact @DLL.dll_unlink _ _ _ _ [] _ h.dllD
  · exact h.nodup
  · exact h.node
  · exact h.subF
  · exact h.act
  · intro p hp
    show p ∈ D ↔ p ∈ m.alloc ∧ m.active p = false ∧ m.children p = 0
    rw [← h.del p, List.mem_cons]; simp [hp]
  · exact hxD
  · intro p hp hpF hpD
    show upd (upd m.ll (m.rl x) (m.ll x)) x x p = p ∧ upd (upd m.rl (m.ll x) (m.rl x)) x x p = p
    by_cases hpx : p = x
    · subst hpx; simp
    · have hpD' : p ∉ x :: D := by simp [hpx, hpD]
      have h1 := h.single p hp hpF hpD'
      have h6 := h.wf_ne_sentinel hp
      have h2 : p ≠ m.ll x := fun e => by
        rw [← e] at hl; rcases List.mem_cons.1 hl with h3 | h3
        · exact h6.2.2.1 h3
        · exact hpD' h3
      have h3 : p ≠ m.rl x := fun e => by
        rw [← e] at hr; rcases List.mem_cons.1 hr with h3 | h3
        · exact h6.2.2.1 h3
        · exact hpD' h3
      simp only [upd_apply, hpx, h2, h3, if_false]
      exact h1
  · exact h.par
  · exact h.cnt
  · exact h.seen
  · exact h.acyc

theorem WfX.wfx_free {m : Mem} {F D : List Nat} {x : Nat} (h : WfX m F D x) (hx : x ∈ m.alloc)
    (hc : m.children x = 0) (ha : m.active x = false) (hpar0 : m.parent x = 0) :
    Wf { m with alloc := m.alloc.erase x } F D := by
  have hxF : x ∉ F := fun hm => by
    have := (h.act x hx).2 hm; rw [ha] at this; exact absurd this (by simp)
  have hmem : ∀ p, p ∈ m.alloc.erase x ↔ p ≠ x ∧ p ∈ m.alloc := fun p => h.nodup.mem_erase_iff
  have hno : ∀ q ∈ m.alloc, m.parent q ≠ x := by
    intro q hq e
    have := nchildren_pos hq
    rw [e] at this
    have := h.cnt x hx
    omega
  constructor
  · exact h.dllF
  · exact h.dllD
  · exact h.nodup.erase x
  · exact fun p hp => h.node p ((hmem p).1 hp).2
  · exact fun p hp => (hmem p).2 ⟨fun e => hxF (e ▸ hp), h.subF p hp⟩
  · exact fun p hp => h.act p ((hmem p).1 hp).2
  · intro p
    show p ∈ D ↔ p ∈ m.alloc.erase x ∧ m.active p = false ∧ m.children p = 0
    by_cases hpx : p = x
    · subst hpx; simp [h.eD, hmem]
    · rw [h.del p hpx, hmem]; simp [hpx]
  · exact fun p hp => h.single p ((hmem p).1 hp).2
  · intro p hp
    show m.parent p = 0 ∨ m.parent p ∈ m.alloc.erase x
    have hp' := ((hmem p).1 hp).2
    rcases h.par p hp' with h0 | h1
    · exact Or.inl h0
    · exact Or.inr ((hmem _).2 ⟨hno p hp', h1⟩)
  · intro p hp
    have hp' := (hmem p).1 hp
    show m.children p = ((m.alloc.erase x).countP (fun q => decide (m.parent q = p)) : Nat)
    have h1 := countP_erase_eq (P := fun q => decide (m.parent q = p)) h.nodup hx
    have h2 := h.cnt p hp'.2
    have h3 : m.parent x ≠ p := by rw [hpar0]; exact Ne.symm (h.wfx_ne_sentinel hp'.2).1
    simp only [h3, decide_False, Bool.false_eq_true, if_false, Nat.add_zero] at h1
    rw [h1]; exact h2
  · exact fun p hp => h.seen p ((hmem p).1 hp).2
  · obtain ⟨rk, hrk⟩ := h.acyc
    exact ⟨rk, fun p hp => hrk p ((hmem p).1 hp).2⟩

/-- The content of `t->to_delete` after `delete_one` took `x` off it. -/
theorem Wf.wf_delete_one {m : Mem} {F D : List Nat} {x : Nat} (h : Wf m F (x :: D)) :
    Wf (m.delete_one x) F (cut_D (m.unlink x) x D) := by
  have hX := h.pop
  have hxa : x ∈ m.alloc := h.wf_subD x (by simp)
  have hxd := (h.del x).1 (by simp)
  have hpx : (m.unlink x).parent x ≠ x := by
    obtain ⟨rk, hrk⟩ := h.acyc
    intro e
    have e' : m.parent x = x := e
    have := hrk x hxa (by rw [e']; exact (h.wf_ne_sentinel hxa).1)
    rw [e'] at this; omega
  have hC := hX.wfx_cut (y := x) hxa hpx
  have := hC.wfx_free (by rw [Mem.cut_alloc]; exact hxa)
    (by
      rw [Mem.cut_children]
      split
      · rw [upd_ne _ _ (Ne.symm hpx)]; exact hxd.2.2
      · exact hxd.2.2)
    (by rw [Mem.cut_active]; exact hxd.2.1)
    (by rw [Mem.cut_parent]; simp)
  exact this

theorem WfX.wfx_cut_parent_eq {t : Tree} {F D : List Nat} {e y : Nat} (h : WfX t.toMem F D e)
    (hy : y ∈ t.alloc) (hpe : t.parent y ≠ e) :
    cut_parent t y = .ok { t with toMem := t.toMem.cut y, mems := t.mems + cut_mems t.toMem y } := by
  have hrDm : t.rl s_to_delete ∈ s_to_delete :: D := h.dllD.dll_rl_mem _ (by simp)
  have hxD : cut_pushes t.toMem y → t.parent y ∉ D ∧ t.parent y ∉ F ∧ t.parent y ∈ t.alloc := by
    intro hc
    have hxa : t.parent y ∈ t.alloc := (h.par y hy).resolve_left hc.1
    refine ⟨fun hm => ?_, fun hm => ?_, hxa⟩
    · have := ((h.del _ hpe).1 hm).2.2
      have := h.cnt _ hxa
      have := nchildren_pos (m := t.toMem) hy
      omega
    · have := (h.act _ hxa).2 hm
      rw [hc.2.2] at this; exact absurd this (by simp)
  refine TreeBuffers.cut_parent_eq hy (h.par y hy) (fun hc => ?_) ?_ ?_
  · obtain ⟨h1, h2, h3⟩ := hxD hc
    exact h.single _ h3 h2 h1
  · rcases List.mem_cons.1 hrDm with h1 | h1
    · right; rw [h1]; decide
    · left; exact h.wfx_subD _ h1
  · by_cases hc : cut_pushes t.toMem y
    · obtain ⟨h1, h2, h3⟩ := hxD hc
      intro e'
      rw [← e'] at hrDm
      rcases List.mem_cons.1 hrDm with h4 | h4
      · exact (h.wfx_ne_sentinel h3).2.2.1 h4
      · exact h1 h4
    · rcases h.par y hy with h0 | h1
      · intro e'; rw [← e', h0] at hrDm
        rcases List.mem_cons.1 hrDm with h4 | h4
        · exact absurd h4 (by decide)
        · have := h.node 0 (h.wfx_subD 0 h4); omega
      · intro e'
        rw [← e'] at hrDm
        rcases List.mem_cons.1 hrDm with h4 | h4
        · exact (h.wfx_ne_sentinel h1).2.2.1 h4
        · have := ((h.del _ hpe).1 h4).2.2
          have := h.cnt _ h1
          have := nchildren_pos (m := t.toMem) hy
          omega

theorem delete_one_nil {t : Tree} {F : List Nat} (h : Wf t.toMem F []) :
    delete_one t = .ok { t with mems := t.mems + 3 } := by
  have : t.rl 2 = 2 := h.dllD.rl_head
  simp [delete_one, this, M, pure, Except.pure]
  ring_nf

theorem delete_one_cons {t : Tree} {F D : List Nat} {x : Nat} (h : Wf t.toMem F (x :: D))
    (ha : t.algo = tb_real_time) :
    delete_one t = .ok (print_statistic
      { t with toMem := t.toMem.delete_one x,
               mems := t.mems + 12 + cut_mems (t.toMem.unlink x) x } (.S (-1))) := by
  have hX := h.pop
  have hxa : x ∈ t.alloc := h.wf_subD x (by simp)
  have hx6 := h.wf_ne_sentinel hxa
  have hrx : t.rl 2 = x := h.dllD.rl_head
  have hl : valid t.toMem (t.ll x) := h.valid_D _ (h.dllD.dll_ll_mem x (by simp))
  have hr : valid t.toMem (t.rl x) := h.valid_D _ (h.dllD.dll_rl_mem x (by simp))
  have hpx : (t.toMem.unlink x).parent x ≠ x := by
    obtain ⟨rk, hrk⟩ := h.acyc
    intro e
    have e' : t.parent x = x := e
    have := hrk x hxa (by rw [e']; exact hx6.1)
    rw [e'] at this; omega
  have hcut := hX.wfx_cut_parent_eq (t := { t with toMem := t.toMem.unlink x, mems := t.mems + 11 })
    hxa hpx
  unfold valid at hl hr
  have e1 : delete_one t = (do
      let t ← cut_parent { t with toMem := t.toMem.unlink x, mems := t.mems + 11 } x
      let t ← free t x
      let t := M 1 t
      pure (print_statistic t (.S (-1)))) := by
    simp [delete_one, hrx, hx6.2.2.1, ha, c_assert, deref, valid, hxa, hl, hr, bind, Except.bind,
      pure, Except.pure, M, Mem.unlink, upd_apply]
    congr 2
    ring_nf
  rw [e1, hcut]
  have hxa' : x ∈ ((t.toMem.unlink x).cut x).alloc := by rw [Mem.cut_alloc]; exact hxa
  simp [free, hxa', bind, Except.bind, pure, Except.pure, M, Mem.delete_one]
  congr 2
  ring_nf

/-- The representant of a live node is a live node whose depth is a multiple of `H`. -/
theorem RT.rep_mem {m : Mem} {H : Nat} {F : List Nat} {e : Nat} (h : RT m H F e)
    (hpar : ∀ p ∈ m.alloc, m.parent p = 0 ∨ m.parent p ∈ m.alloc) :
    ∀ (k : Nat) (p : Nat), p ∈ m.alloc → p ≠ e → (m.depth p).toNat = k →
      m.representant p ∈ m.alloc ∧ m.representant p ≠ e ∧
      Int.tmod (m.depth (m.representant p)) H = 0 := by
  intro k
  induction k with
  | zero =>
    intro p hp hpe hk
    by_cases h0 : Int.tmod (m.depth p) H = 0
    · rw [h.rep_self p hp hpe h0]; exact ⟨hp, hpe, h0⟩
    · have h1 := h.rep_parent p hp hpe h0
      have h2 := h.depth_parent p hp hpe h1.1
      have hq : m.parent p ∈ m.alloc := (hpar p hp).resolve_left h1.1
      have hqe : m.parent p ≠ e := (h.leaf p hp hpe).resolve_right h1.1
      have h3 := h.depth_nonneg _ hq hqe
      have h4 := h.depth_nonneg p hp hpe
      omega
  | succ k ih =>
    intro p hp hpe hk
    by_cases h0 : Int.tmod (m.depth p) H = 0
    · rw [h.rep_self p hp hpe h0]; exact ⟨hp, hpe, h0⟩
    · have h1 := h.rep_parent p hp hpe h0
      have h2 := h.depth_parent p hp hpe h1.1
      have hq : m.parent p ∈ m.alloc := (hpar p hp).resolve_left h1.1
      have hqe : m.parent p ≠ e := (h.leaf p hp hpe).resolve_right h1.1
      have h3 := h.depth_nonneg _ hq hqe
      rw [h1.2]
      exact ih _ hq hqe (by omega)

theorem RT.rep_alloc {m : Mem} {H : Nat} {F D : List Nat} {e x : Nat} (h : RT m H F e)
    (hw : WfX m F D x) {p : Nat} (hp : p ∈ m.alloc) (hpe : p ≠ e) :
    m.representant p ∈ m.alloc ∧ m.representant p ≠ e ∧
      Int.tmod (m.depth (m.representant p)) H = 0 :=
  h.rep_mem hw.par _ p hp hpe rfl

/-- A node without children represents nobody but itself. -/
theorem RT.rep_ne_leaf {m : Mem} {H : Nat} {F : List Nat} {e x : Nat} (h : RT m H F e)
    (hpar : ∀ p ∈ m.alloc, m.parent p = 0 ∨ m.parent p ∈ m.alloc)
    (hx : ∀ q ∈ m.alloc, m.parent q ≠ x) :
    ∀ (k : Nat) (p : Nat), p ∈ m.alloc → p ≠ e → (m.depth p).toNat = k → p ≠ x →
      m.representant p ≠ x := by
  intro k
  induction k with
  | zero =>
    intro p hp hpe hk hpx
    by_cases h0 : Int.tmod (m.depth p) H = 0
    · rw [h.rep_self p hp hpe h0]; exact hpx
    · have h1 := h.rep_parent p hp hpe h0
      have h2 := h.depth_parent p hp hpe h1.1
      have hq : m.parent p ∈ m.alloc := (hpar p hp).resolve_left h1.1
      have hqe : m.parent p ≠ e := (h.leaf p hp hpe).resolve_right h1.1
      have h3 := h.depth_nonneg _ hq hqe
      have h4 := h.depth_nonneg p hp hpe
      omega
  | succ k ih =>
    intro p hp hpe hk hpx
    by_cases h0 : Int.tmod (m.depth p) H = 0
    · rw [h.rep_self p hp hpe h0]; exact hpx
    · have h1 := h.rep_parent p hp hpe h0
      have h2 := h.depth_parent p hp hpe h1.1
      have hq : m.parent p ∈ m.alloc := (hpar p hp).resolve_left h1.1
      have hqe : m.parent p ≠ e := (h.leaf p hp hpe).resolve_right h1.1
      have h3 := h.depth_nonneg _ hq hqe
      rw [h1.2]
      exact ih _ hq hqe (by omega) (hx p hp)

/-- `tb_make_node` and the common part of `tb_add_child` leave the bookkeeping
of the other nodes alone. -/
theorem RT.rt_add_child {m : Mem} {H : Nat} {F D : List Nat} (h : RT m H F 0) (hw : Wf m F D)
    {p c : Nat} (d : Int) (hc : c ∉ m.alloc) (hc6 : 6 ≤ c) :
    RT (m.add_child p c d) H (c :: F) c := by
  have hparc : ∀ q ∈ m.alloc, m.parent q ≠ c := fun q hq e => by
    rcases hw.par q hq with h0 | h1
    · omega
    · exact hc (e ▸ h1)
  have hq0 : ∀ q ∈ m.alloc, q ≠ 0 := fun q hq => (hw.wf_ne_sentinel hq).1
  have hmem : ∀ q, q ∈ (m.add_child p c d).alloc → q ≠ c → q ∈ m.alloc ∧ q ≠ c := by
    intro q hq hqc
    simp only [Mem.add_child, Mem.link_child, Mem.push, tb_make_node, List.mem_cons] at hq
    exact ⟨hq.resolve_left hqc, hqc⟩
  have hpar : ∀ q, q ≠ c → (m.add_child p c d).parent q = m.parent q := fun q hq => by
    simp [Mem.add_child, Mem.link_child, Mem.push, tb_make_node, upd_apply, hq]
  have hdep : ∀ q, q ≠ c → (m.add_child p c d).depth q = m.depth q := fun q hq => by
    simp [Mem.add_child, Mem.link_child, Mem.push, tb_make_node, upd_apply, hq]
  have hrep : ∀ q, q ≠ c → (m.add_child p c d).representant q = m.representant q := fun q hq => by
    simp [Mem.add_child, Mem.link_child, Mem.push, tb_make_node, upd_apply, hq]
  have hrepc : (m.add_child p c d).representant c = 0 := by
    simp [Mem.add_child, Mem.link_child, Mem.push, tb_make_node]
  have hac : ∀ q, q ≠ c → (m.add_child p c d).active_count q = m.active_count q := fun q hq => by
    simp [Mem.add_child, Mem.link_child, Mem.push, tb_make_node, upd_apply, hq]
  constructor
  · intro q hq hqc
    obtain ⟨hq, _⟩ := hmem q hq hqc
    rw [hpar q hqc]; exact Or.inl (hparc q hq)
  · intro q hq hqc
    obtain ⟨hq, _⟩ := hmem q hq hqc
    rw [hdep q hqc]; exact h.depth_nonneg q hq (hq0 q hq)
  · intro q hq hqc hne
    obtain ⟨hq, _⟩ := hmem q hq hqc
    rw [hpar q hqc] at hne ⊢
    rw [hdep q hqc, hdep _ (hparc q hq)]
    exact h.depth_parent q hq (hq0 q hq) hne
  · intro q hq hqc h0
    obtain ⟨hq, _⟩ := hmem q hq hqc
    rw [hdep q hqc] at h0
    rw [hrep q hqc]; exact h.rep_self q hq (hq0 q hq) h0
  · intro q hq hqc h0
    obtain ⟨hq, _⟩ := hmem q hq hqc
    rw [hdep q hqc] at h0
    rw [hpar q hqc, hrep q hqc, hrep _ (hparc q hq)]
    exact h.rep_parent q hq (hq0 q hq) h0
  · intro r hr hrc
    obtain ⟨hr, _⟩ := hmem r hr hrc
    rw [hac r hrc, h.count r hr (hq0 r hr)]
    simp only [List.countP_cons, hrepc]
    have : decide (0 = r) = false := by simpa using Ne.symm (hq0 r hr)
    simp only [this, Bool.false_eq_true, if_false, Nat.add_zero]
    congr 1
    exact countP_congr_mem (fun f hf => by
      have : f ≠ c := fun e => hc (e ▸ hw.subF f hf)
      rw [hrep f this])

theorem Mem.delete_one_alloc (m : Mem) (x : Nat) : (m.delete_one x).alloc = m.alloc.erase x := by
  simp only [Mem.delete_one, Mem.cut_alloc, Mem.unlink]

theorem Mem.delete_one_parent (m : Mem) (x : Nat) : (m.delete_one x).parent = upd m.parent x 0 := by
  simp only [Mem.delete_one, Mem.cut_parent, Mem.unlink]

theorem Mem.delete_one_depth (m : Mem) (x : Nat) : (m.delete_one x).depth = m.depth := by
  simp only [Mem.delete_one, Mem.cut_depth, Mem.unlink]

theorem Mem.delete_one_representant (m : Mem) (x : Nat) :
    (m.delete_one x).representant = m.representant := by
  simp only [Mem.delete_one, Mem.cut_representant, Mem.unlink]

theorem Mem.delete_one_active_count (m : Mem) (x : Nat) :
    (m.delete_one x).active_count = m.active_count := by
  simp only [Mem.delete_one, Mem.cut_active_count, Mem.unlink]

theorem Mem.delete_one_active (m : Mem) (x : Nat) : (m.delete_one x).active = m.active := by
  simp only [Mem.delete_one, Mem.cut_active, Mem.unlink]

theorem Mem.delete_one_data (m : Mem) (x : Nat) : (m.delete_one x).data = m.data := by
  simp only [Mem.delete_one, Mem.cut_data, Mem.unlink]

/-- `delete_one` leaves the bookkeeping of the remaining nodes alone. -/
theorem RT.rt_delete_one {m : Mem} {H : Nat} {F D : List Nat} {e x : Nat} (h : RT m H F e)
    (hw : Wf m F (x :: D)) : RT (m.delete_one x) H F e := by
  have hn := hw.nodup
  have hmem : ∀ p, p ∈ (m.delete_one x).alloc → p ≠ x ∧ p ∈ m.alloc := fun p hp => by
    rw [Mem.delete_one_alloc] at hp; exact hn.mem_erase_iff.1 hp
  have hpar : ∀ p, p ≠ x → (m.delete_one x).parent p = m.parent p := fun p hp => by
    rw [Mem.delete_one_parent, upd_ne _ _ hp]
  constructor
  · intro p hp hpe
    obtain ⟨hpx, hp⟩ := hmem p hp
    rw [hpar p hpx]; exact h.leaf p hp hpe
  · intro p hp hpe
    obtain ⟨hpx, hp⟩ := hmem p hp
    rw [Mem.delete_one_depth]; exact h.depth_nonneg p hp hpe
  · intro p hp hpe hne
    obtain ⟨hpx, hp⟩ := hmem p hp
    rw [hpar p hpx] at hne ⊢
    rw [Mem.delete_one_depth]; exact h.depth_parent p hp hpe hne
  · intro p hp hpe h0
    obtain ⟨hpx, hp⟩ := hmem p hp
    rw [Mem.delete_one_depth] at h0
    rw [Mem.delete_one_representant]; exact h.rep_self p hp hpe h0
  · intro p hp hpe h0
    obtain ⟨hpx, hp⟩ := hmem p hp
    rw [Mem.delete_one_depth] at h0
    rw [hpar p hpx, Mem.delete_one_representant]; exact h.rep_parent p hp hpe h0
  · intro r hr hre
    obtain ⟨hrx, hr⟩ := hmem r hr
    rw [Mem.delete_one_active_count, Mem.delete_one_representant]; exact h.count r hr hre

theorem Wf.wf_of_eq {m m' : Mem} {F D : List Nat} (h : Wf m F D) (h1 : m'.parent = m.parent)
    (h2 : m'.children = m.children) (h3 : m'.ll = m.ll) (h4 : m'.rl = m.rl)
    (h5 : m'.alloc = m.alloc) (h6 : m'.active = m.active) (h7 : m'.seen = m.seen) :
    Wf m' F D := by
  obtain ⟨a1, a2, a3, a4, a5, a6, a7, a8, a9, a10, a11, a12⟩ := h
  constructor
  · rw [h3, h4]; exact a1
  · rw [h3, h4]; exact a2
  · rw [h5]; exact a3
  · rw [h5]; exact a4
  · rw [h5]; exact a5
  · rw [h5, h6]; exact a6
  · rw [h5, h6, h2]; exact a7
  · rw [h5, h3, h4]; exact a8
  · rw [h5, h1]; exact a9
  · rw [h5, h2]; unfold nchildren; rw [h5, h1]; exact a10
  · rw [h5, h7]; exact a11
  · rw [h5, h1]; exact a12

theorem RT.rt_of_eq {m m' : Mem} {H : Nat} {F : List Nat} {e : Nat} (h : RT m H F e)
    (h1 : m'.parent = m.parent) (h2 : m'.depth = m.depth)
    (h3 : m'.representant = m.representant) (h4 : m'.active_count = m.active_count)
    (h5 : m'.alloc = m.alloc) : RT m' H F e := by
  obtain ⟨a1, a2, a3, a4, a5, a6⟩ := h
  constructor
  · rw [h5, h1]; exact a1
  · rw [h5, h2]; exact a2
  · rw [h5, h1, h2]; exact a3
  · rw [h5, h2, h3]; exact a4
  · rw [h5, h1, h2, h3]; exact a5
  · rw [h5, h3, h4]; exact a6

theorem Wf.no_child {m : Mem} {F D : List Nat} (h : Wf m F D) {c : Nat} (hc : c ∈ m.alloc)
    (h0 : m.children c = 0) : ∀ q ∈ m.alloc, m.parent q ≠ c := by
  intro q hq e
  have := nchildren_pos hq
  rw [e] at this
  have := h.cnt c hc
  omega

/-- The real-time part of `tb_add_child` sets up the bookkeeping of the new node. -/
theorem RT.set_rep {m : Mem} {H : Nat} {F D : List Nat} {p c : Nat} (h : RT m H (c :: F) c)
    (hw : Wf m (c :: F) D) (hp : p ∈ F) (hpc : m.parent c = p) (hr0 : m.representant c = 0)
    (ha0 : m.active_count c = 0) (hc0 : m.children c = 0) :
    RT (m.set_rep H p c) H (c :: F) 0 := by
  have hca : c ∈ m.alloc := hw.subF c (by simp)
  have hpa : p ∈ m.alloc := hw.subF p (by simp [hp])
  have hFn := hw.F_nodup
  have hcF : c ∉ F := (List.nodup_cons.1 hFn).1
  have hpne : p ≠ c := fun e => hcF (e ▸ hp)
  have hq0 : ∀ q ∈ m.alloc, q ≠ 0 := fun q hq => (hw.wf_ne_sentinel hq).1
  have hnc := hw.no_child hca hc0
  -- the fields of the new heap
  have halloc : (m.set_rep H p c).alloc = m.alloc := by
    simp only [Mem.set_rep]; split <;> rfl
  have hpar : (m.set_rep H p c).parent = m.parent := by
    simp only [Mem.set_rep]; split <;> rfl
  have hdep : (m.set_rep H p c).depth = upd m.depth c (m.depth p + 1) := by
    simp only [Mem.set_rep]; split <;> rfl
  have hrep : (m.set_rep H p c).representant = upd m.representant c
      (if Int.tmod (m.depth p + 1) H = 0 then c else m.representant p) := by
    simp only [Mem.set_rep, upd_same]; split <;> rfl
  have hrc : (m.set_rep H p c).representant c =
      (if Int.tmod (m.depth p + 1) H = 0 then c else m.representant p) := by
    rw [hrep, upd_same]
  have hac : (m.set_rep H p c).active_count = upd m.active_count
      ((m.set_rep H p c).representant c)
      (m.active_count ((m.set_rep H p c).representant c) + 1) := by
    rw [hrc]
    by_cases h0 : Int.tmod (m.depth p + 1) H = 0 <;> simp [Mem.set_rep, h0]
  have hrpa := h.rep_alloc (hw.toX (e := 0) (fun hm => hq0 0 (hw.wf_subD 0 hm) rfl)) hpa hpne
  constructor
  · intro q _ _
    by_cases h0 : (m.set_rep H p c).parent q = 0
    · exact Or.inr h0
    · exact Or.inl h0
  · intro q hq _
    rw [halloc] at hq
    rw [hdep]
    by_cases hqc : q = c
    · subst hqc; rw [upd_same]
      have := h.depth_nonneg p hpa hpne; omega
    · rw [upd_ne _ _ hqc]; exact h.depth_nonneg q hq hqc
  · intro q hq _ hne
    rw [halloc] at hq
    rw [hpar] at hne ⊢
    rw [hdep]
    by_cases hqc : q = c
    · subst hqc; rw [upd_same, hpc, upd_ne _ _ hpne]
    · rw [upd_ne _ _ hqc, upd_ne _ _ (hnc q hq)]; exact h.depth_parent q hq hqc hne
  · intro q hq _ h0
    rw [halloc] at hq
    rw [hdep] at h0
    by_cases hqc : q = c
    · subst hqc; rw [upd_same] at h0
      rw [hrc, if_pos h0]
    · rw [upd_ne _ _ hqc] at h0
      rw [hrep, upd_ne _ _ hqc]; exact h.rep_self q hq hqc h0
  · intro q hq _ h0
    rw [halloc] at hq
    rw [hdep] at h0
    rw [hpar]
    by_cases hqc : q = c
    · subst hqc; rw [upd_same] at h0
      rw [hrc, if_neg h0, hpc, hrep, upd_ne _ _ hpne]
      exact ⟨hq0 p hpa, rfl⟩
    · rw [upd_ne _ _ hqc] at h0
      rw [hrep, upd_ne _ _ hqc, upd_ne _ _ (hnc q hq)]; exact h.rep_parent q hq hqc h0
  · intro r hr _
    rw [halloc] at hr
    have hcnt : F.countP (fun f => decide ((m.set_rep H p c).representant f = r)) =
        F.countP (fun f => decide (m.representant f = r)) :=
      countP_congr_mem (fun f hf => by
        have : f ≠ c := fun e => hcF (e ▸ hf)
        rw [hrep, upd_ne _ _ this])
    rw [hac, List.countP_cons, hcnt]
    by_cases hrc' : r = c
    · subst hrc'
      have hz : F.countP (fun f => decide (m.representant f = r)) = 0 :=
        countP_eq_zero_of (fun f hf => by
          have hfa : f ∈ m.alloc := hw.subF f (by simp [hf])
          have hfc : f ≠ r := fun e => hcF (e ▸ hf)
          have := (h.rep_alloc (hw.toX (e := 0) (fun hm => hq0 0 (hw.wf_subD 0 hm) rfl)) hfa hfc).2.1
          simpa using this)
      rw [hz]
      by_cases hrr : (m.set_rep H p r).representant r = r
      · rw [hrr, upd_same, ha0]; simp
      · rw [upd_ne _ _ (Ne.symm hrr), ha0]; simp [hrr]
    · have h1 := h.count r hr hrc'
      simp only [List.countP_cons, hr0] at h1
      have : decide (0 = r) = false := by simpa using Ne.symm (hq0 r hr)
      simp only [this, Bool.false_eq_true, if_false, Nat.add_zero] at h1
      by_cases hrr : (m.set_rep H p c).representant c = r
      · rw [hrr, upd_same, h1]; simp
      · rw [upd_ne _ _ (Ne.symm hrr), h1]; simp [hrr]

theorem Mem.deactivate_parent (m : Mem) (n : Nat) : (m.deactivate n).parent = m.parent := by
  simp only [Mem.deactivate, Mem.unlink, Mem.push]; split <;> rfl

theorem Mem.deactivate_alloc (m : Mem) (n : Nat) : (m.deactivate n).alloc = m.alloc := by
  simp only [Mem.deactivate, Mem.unlink, Mem.push]; split <;> rfl

theorem Mem.deactivate_depth (m : Mem) (n : Nat) : (m.deactivate n).depth = m.depth := by
  simp only [Mem.deactivate, Mem.unlink, Mem.push]; split <;> rfl

theorem Mem.deactivate_representant (m : Mem) (n : Nat) :
    (m.deactivate n).representant = m.representant := by
  simp only [Mem.deactivate, Mem.unlink, Mem.push]; split <;> rfl

theorem Mem.deactivate_active_count (m : Mem) (n : Nat) :
    (m.deactivate n).active_count = m.active_count := by
  simp only [Mem.deactivate, Mem.unlink, Mem.push]; split <;> rfl

theorem Mem.deactivate_children (m : Mem) (n : Nat) : (m.deactivate n).children = m.children := by
  simp only [Mem.deactivate, Mem.unlink, Mem.push]; split <;> rfl

theorem Mem.deactivate_data (m : Mem) (n : Nat) : (m.deactivate n).data = m.data := by
  simp only [Mem.deactivate, Mem.unlink, Mem.push]; split <;> rfl

theorem Mem.deactivate_active (m : Mem) (n : Nat) :
    (m.deactivate n).active = upd m.active n false := by
  simp only [Mem.deactivate, Mem.unlink, Mem.push]; split <;> rfl

theorem Mem.deactivate_seen (m : Mem) (n : Nat) : (m.deactivate n).seen = m.seen := by
  simp only [Mem.deactivate, Mem.unlink, Mem.push]; split <;> rfl

/-- The content of `t->to_delete` after the real-time part of `tb_deactivate`. -/
theorem Mem.drop_rep_alloc (m : Mem) (n : Nat) : (m.drop_rep n).alloc = m.alloc := by
  simp only [Mem.drop_rep]; split
  · rw [Mem.cut_alloc]
  · rfl

theorem Mem.drop_rep_depth (m : Mem) (n : Nat) : (m.drop_rep n).depth = m.depth := by
  simp only [Mem.drop_rep]; split
  · rw [Mem.cut_depth]
  · rfl

theorem Mem.drop_rep_representant (m : Mem) (n : Nat) :
    (m.drop_rep n).representant = m.representant := by
  simp only [Mem.drop_rep]; split
  · rw [Mem.cut_representant]
  · rfl

theorem Mem.drop_rep_active_count (m : Mem) (n : Nat) : (m.drop_rep n).active_count =
    upd m.active_count (m.representant n) (m.active_count (m.representant n) - 1) := by
  simp only [Mem.drop_rep]; split
  · rw [Mem.cut_active_count]
  · rfl

theorem Mem.drop_rep_data (m : Mem) (n : Nat) : (m.drop_rep n).data = m.data := by
  simp only [Mem.drop_rep]; split
  · rw [Mem.cut_data]
  · rfl

theorem Mem.drop_rep_active (m : Mem) (n : Nat) : (m.drop_rep n).active = m.active := by
  simp only [Mem.drop_rep]; split
  · rw [Mem.cut_active]
  · rfl

theorem Mem.drop_rep_parent (m : Mem) (n : Nat) : (m.drop_rep n).parent =
    if m.active_count (m.representant n) - 1 = 0 then upd m.parent (m.representant n) 0
    else m.parent := by
  simp only [Mem.drop_rep, upd_same]; split
  · rw [Mem.cut_parent]
  · rfl

/-- The real-time part of `tb_deactivate` restores the bookkeeping. -/
theorem RT.rt_drop_rep {m : Mem} {H : Nat} {F D : List Nat} {n : Nat} (h : RT m H F 0)
    (hw : Wf m F D) (hn : n ∈ F) :
    RT ((m.deactivate n).drop_rep n) H (F.erase n) 0 := by
  have hna : n ∈ m.alloc := hw.subF n hn
  have hq0 : ∀ q ∈ m.alloc, q ≠ 0 := fun q hq => (hw.wf_ne_sentinel hq).1
  have hX := hw.toX (e := 0) (fun hm => hq0 0 (hw.wf_subD 0 hm) rfl)
  have hr := h.rep_alloc hX hna (hq0 n hna)
  have halloc : ((m.deactivate n).drop_rep n).alloc = m.alloc := by
    rw [Mem.drop_rep_alloc, Mem.deactivate_alloc]
  have hdep : ((m.deactivate n).drop_rep n).depth = m.depth := by
    rw [Mem.drop_rep_depth, Mem.deactivate_depth]
  have hrep : ((m.deactivate n).drop_rep n).representant = m.representant := by
    rw [Mem.drop_rep_representant, Mem.deactivate_representant]
  have hpar : ∀ q, q ≠ m.representant n →
      ((m.deactivate n).drop_rep n).parent q = m.parent q := by
    intro q hq
    rw [Mem.drop_rep_parent, Mem.deactivate_representant, Mem.deactivate_parent]
    split
    · rw [upd_ne _ _ hq]
    · rfl
  have hpar' : ∀ q, ((m.deactivate n).drop_rep n).parent q ≠ 0 →
      ((m.deactivate n).drop_rep n).parent q = m.parent q := by
    intro q hq
    rw [Mem.drop_rep_parent, Mem.deactivate_representant, Mem.deactivate_parent] at hq ⊢
    split at hq
    · rw [if_pos (by assumption)]
      by_cases hqr : q = m.representant n
      · subst hqr; simp at hq
      · rw [upd_ne _ _ hqr]
    · rw [if_neg (by assumption)]
  constructor
  · intro q _ _
    by_cases h0 : ((m.deactivate n).drop_rep n).parent q = 0
    · exact Or.inr h0
    · exact Or.inl h0
  · intro q hq _
    rw [halloc] at hq; rw [hdep]; exact h.depth_nonneg q hq (hq0 q hq)
  · intro q hq _ hne
    rw [halloc] at hq
    have e := hpar' q hne
    rw [e] at hne ⊢
    rw [hdep]; exact h.depth_parent q hq (hq0 q hq) hne
  · intro q hq _ h0
    rw [halloc] at hq; rw [hdep] at h0; rw [hrep]
    exact h.rep_self q hq (hq0 q hq) h0
  · intro q hq _ h0
    rw [halloc] at hq; rw [hdep] at h0; rw [hrep]
    have hqr : q ≠ m.representant n := fun e => h0 (e ▸ hr.2.2)
    rw [hpar q hqr]
    exact h.rep_parent q hq (hq0 q hq) h0
  · intro r hr' _
    rw [halloc] at hr'
    rw [hrep, Mem.drop_rep_active_count, Mem.deactivate_representant, Mem.deactivate_active_count]
    have h1 := h.count r hr' (hq0 r hr')
    have h2 := countP_erase_eq (P := fun f => decide (m.representant f = r)) hw.F_nodup hn
    by_cases hrr : r = m.representant n
    · subst hrr
      simp only [decide_True, if_true] at h2
      rw [upd_same, h1]; omega
    · have : decide (m.representant n = r) = false := by simpa using Ne.symm hrr
      simp only [this, Bool.false_eq_true, if_false, Nat.add_zero] at h2
      rw [upd_ne _ _ hrr, h1, h2]

/-! ## Chains of ancestors -/

theorem anc_null {par : Nat → Nat} : ∀ (h : Nat), anc par h 0 = []
  | 0 => rfl
  | h + 1 => by simp [anc]

theorem anc_cons {par : Nat → Nat} {h p : Nat} (hp : p ≠ 0) :
    anc par (h + 1) p = p :: anc par h (par p) := by
  rw [anc]; simp [hp]

theorem anc_prefix_mem {par : Nat → Nat} : ∀ (h p q : Nat), q ∈ anc par h p → q ∈ anc par (h + 1) p
  | 0, p, q, hq => by simp [anc] at hq
  | h + 1, p, q, hq => by
    rw [anc] at hq ⊢
    by_cases hp : p = 0
    · simp [hp] at hq
    · simp only [hp, if_false, List.mem_cons] at hq ⊢
      rcases hq with h1 | h1
      · exact Or.inl h1
      · exact Or.inr (anc_prefix_mem h _ q h1)

/-- The chain only depends on the `parent` of its nodes, the last of a full
chain left aside. -/
theorem anc_congr {par par' : Nat → Nat} : ∀ (h p : Nat),
    (∀ q ∈ anc par (h - 1) p, par' q = par q) → anc par' h p = anc par h p
  | 0, p, _ => rfl
  | 1, p, _ => by simp [anc]
  | h + 2, p, hq => by
    by_cases hp : p = 0
    · simp [hp, anc_null]
    · rw [anc_cons hp, anc_cons hp]
      have h1 : par' p = par p := hq p (by
        show p ∈ anc par (h + 1) p
        rw [anc_cons hp]; simp)
      rw [h1]
      congr 1
      exact anc_congr (h + 1) (par p) (fun q hq' => hq q (by
        show q ∈ anc par (h + 1) p
        rw [anc_cons hp]
        exact List.mem_cons_of_mem _ hq'))

theorem anc_ne_zero {par : Nat → Nat} : ∀ (h p q : Nat), q ∈ anc par h p → q ≠ 0
  | 0, p, q, hq => by simp [anc] at hq
  | h + 1, p, q, hq => by
    rw [anc] at hq
    by_cases hp : p = 0
    · simp [hp] at hq
    · simp only [hp, if_false, List.mem_cons] at hq
      rcases hq with h1 | h1
      · rw [h1]; exact hp
      · exact anc_ne_zero h _ q h1

/-- Every node of the chain of a live node is live, and is the start of the
chain or the parent of a live node. -/
theorem anc_mem {m : Mem} (hpar : ∀ p ∈ m.alloc, m.parent p = 0 ∨ m.parent p ∈ m.alloc) :
    ∀ (h p q : Nat), p ∈ m.alloc → q ∈ anc m.parent h p →
      q ∈ m.alloc ∧ (q = p ∨ ∃ c ∈ m.alloc, m.parent c = q)
  | 0, p, q, _, hq => by simp [anc] at hq
  | h + 1, p, q, hp, hq => by
    rw [anc] at hq
    by_cases hp0 : p = 0
    · simp [hp0] at hq
    · simp only [hp0, if_false, List.mem_cons] at hq
      rcases hq with h1 | h1
      · rw [h1]; exact ⟨hp, Or.inl rfl⟩
      · have hne := anc_ne_zero _ _ _ h1
        rcases hpar p hp with h0 | h2
        · rw [h0] at h1
          cases h with
          | zero => simp [anc] at h1
          | succ h => simp [anc] at h1
        · have := anc_mem hpar h _ q h2 h1
          refine ⟨this.1, Or.inr ?_⟩
          rcases this.2 with h3 | h3
          · exact ⟨p, hp, h3.symm⟩
          · exact h3

/-! ## The statistics -/

@[simp] theorem print_statistic_toMem (t : Tree) (l : Line) : (print_statistic t l).toMem = t.toMem := by
  unfold print_statistic; split <;> rfl

@[simp] theorem print_statistic_history (t : Tree) (l : Line) :
    (print_statistic t l).history = t.history := by
  unfold print_statistic; split <;> rfl

@[simp] theorem print_statistic_algo (t : Tree) (l : Line) : (print_statistic t l).algo = t.algo := by
  unfold print_statistic; split <;> rfl

@[simp] theorem print_statistic_statistics_file (t : Tree) (l : Line) :
    (print_statistic t l).statistics_file = t.statistics_file := by
  unfold print_statistic; split <;> rfl

@[simp] theorem print_statistic_mems (t : Tree) (l : Line) : (print_statistic t l).mems = t.mems := by
  unfold print_statistic; split <;> rfl

@[simp] theorem print_statistic_node_count (t : Tree) (l : Line) :
    (print_statistic t l).node_count = t.node_count := by
  unfold print_statistic; split <;> rfl

@[simp] theorem print_statistic_last_gc_node_count (t : Tree) (l : Line) :
    (print_statistic t l).last_gc_node_count = t.last_gc_node_count := by
  unfold print_statistic; split <;> rfl

@[simp] theorem finish_toMem (t : Tree) (l : Int → Line) : (finish t l).toMem = t.toMem := by
  simp [finish]

@[simp] theorem finish_history (t : Tree) (l : Int → Line) : (finish t l).history = t.history := by
  simp [finish]

@[simp] theorem finish_algo (t : Tree) (l : Int → Line) : (finish t l).algo = t.algo := by
  simp [finish]

@[simp] theorem finish_statistics_file (t : Tree) (l : Int → Line) :
    (finish t l).statistics_file = t.statistics_file := by
  simp [finish]

@[simp] theorem finish_mems (t : Tree) (l : Int → Line) : (finish t l).mems = 0 := by
  simp [finish]

@[simp] theorem finish_node_count (t : Tree) (l : Int → Line) :
    (finish t l).node_count = t.node_count := by
  simp [finish]

@[simp] theorem finish_last_gc_node_count (t : Tree) (l : Int → Line) :
    (finish t l).last_gc_node_count = t.last_gc_node_count := by
  simp [finish]

/-! ## `tb_add_child` without reclamation -/

theorem Wf.add_child_pre {t : Tree} {F D : List Nat} (hw : Wf t.toMem F D) {p c : Nat} (d : Int)
    (hm : t.mems = 0) (hp : p ∈ F) (hc : c ∉ t.alloc) (hc6 : 6 ≤ c) :
    tb_add_child { t with toMem := tb_make_node t.toMem c d } p c =
      add_child_tail { t with toMem := t.toMem.add_child p c d, mems := 11 } p c := by
  have hpa := hw.subF p hp
  have hr : t.rl s_active ∈ s_active :: F := hw.dllF.dll_rl_mem _ (by simp)
  have hc1 : c ≠ 1 := by omega
  have := tb_add_child_eq (t := { t with toMem := tb_make_node t.toMem c d }) (p := p) (c := c) hm
    (by simp [tb_make_node, hpa]) (by simp [tb_make_node]) (hw.wf_ne_sentinel hpa).1 (by omega)
    (by
      show valid _ (upd t.rl c c s_active)
      rw [upd_ne _ _ (by simp; omega)]
      rcases List.mem_cons.1 hr with h1 | h1
      · right; rw [h1]; decide
      · left; simp [tb_make_node, hw.subF _ h1])
    (by
      show c ≠ upd t.rl c c s_active
      rw [upd_ne _ _ (by simp; omega)]
      intro e; rw [← e] at hr
      rcases List.mem_cons.1 hr with h1 | h1
      · exact hc1 h1
      · exact hc (hw.subF _ h1))
  rw [this]; rfl

theorem add_child_tail_plain {t : Tree} {p c : Nat} (ha : t.algo = tb_naive ∨ t.algo = tb_gc) :
    add_child_tail t p c = .ok (finish (print_statistic t (.S 1)) .TA) := by
  rcases ha with ha | ha <;>
  simp [add_child_tail, ha, finish, bind, Except.bind, pure, Except.pure]

theorem deactivate_tail_plain {t : Tree} {n : Nat} (ha : t.algo = tb_naive ∨ t.algo = tb_amortized) :
    deactivate_tail t n = .ok (finish t .TD) := by
  rcases ha with ha | ha <;>
  simp [deactivate_tail, ha, finish, bind, Except.bind, pure, Except.pure]

theorem Wf.deactivate_pre {t : Tree} {F D : List Nat} (hw : Wf t.toMem F D) {n : Nat}
    (hm : t.mems = 0) (hn : n ∈ F) :
    tb_deactivate t n = deactivate_tail
      { t with toMem := t.toMem.deactivate n, mems := if t.children n = 0 then 18 else 9 } n := by
  have hna := hw.subF n hn
  have hn6 := hw.wf_ne_sentinel hna
  have hl := hw.dllF.dll_ll_mem n (List.mem_cons_of_mem _ hn)
  have hr := hw.dllF.dll_rl_mem n (List.mem_cons_of_mem _ hn)
  have hd := hw.dllD.dll_rl_mem s_to_delete (by simp)
  have hFD := (hw.toX (e := 0) (fun hm => hn6.1 (by
    have := hw.node 0 (hw.wf_subD 0 hm); omega))).FD
  refine tb_deactivate_eq hm hna hn6.1 hn6.2.2.1 ((hw.act n hna).2 hn) (hw.valid_F _ hl)
    (hw.valid_F _ hr) (hw.valid_D _ hd) ?_ ?_
  · intro e; rw [← e] at hd
    exact hFD n (List.mem_cons_of_mem _ hn) hd
  · intro e
    exact hFD _ hl (by rw [e]; simp)

/-! ## The real-time algorithm -/

theorem Wf.wf_reclaim {m : Mem} {F D : List Nat} (h : Wf m F D) : Wf (m.reclaim D) F (reclaim_D m D) := by
  cases D with
  | nil => exact h
  | cons x D => exact h.wf_delete_one

theorem RT.rt_reclaim {m : Mem} {H : Nat} {F D : List Nat} {e : Nat} (h : RT m H F e) (hw : Wf m F D) :
    RT (m.reclaim D) H F e := by
  cases D with
  | nil => exact h
  | cons x D => exact h.rt_delete_one hw

theorem delete_one_rt {t : Tree} {F D : List Nat} (h : Wf t.toMem F D) (ha : t.algo = tb_real_time) :
    ∃ t', delete_one t = .ok t' ∧ t'.toMem = t.toMem.reclaim D ∧ Same t t' ∧
      t'.node_count = t.node_count ∧ t'.last_gc_node_count = t.last_gc_node_count := by
  cases D with
  | nil => exact ⟨_, delete_one_nil h, rfl, ⟨rfl, rfl, rfl⟩, rfl, rfl⟩
  | cons x D =>
    refine ⟨_, delete_one_cons h ha, ?_, ⟨?_, ?_, ?_⟩, ?_, ?_⟩ <;> simp [Mem.reclaim]

theorem Mem.reclaim_sub {m : Mem} {D : List Nat} : ∀ q ∈ (m.reclaim D).alloc, q ∈ m.alloc := by
  intro q hq
  cases D with
  | nil => exact hq
  | cons x D =>
    simp only [Mem.reclaim, Mem.delete_one_alloc] at hq
    exact List.mem_of_mem_erase hq

theorem Mem.reclaim_mem {m : Mem} {F D : List Nat} (h : Wf m F D) {q : Nat} (hq : q ∈ F) :
    q ∈ (m.reclaim D).alloc := h.wf_reclaim.subF q hq

theorem Mem.reclaim_depth (m : Mem) (D : List Nat) : (m.reclaim D).depth = m.depth := by
  cases D <;> simp [Mem.reclaim, Mem.delete_one_depth]

theorem Mem.reclaim_representant (m : Mem) (D : List Nat) :
    (m.reclaim D).representant = m.representant := by
  cases D <;> simp [Mem.reclaim, Mem.delete_one_representant]

theorem Mem.reclaim_active_count (m : Mem) (D : List Nat) :
    (m.reclaim D).active_count = m.active_count := by
  cases D <;> simp [Mem.reclaim, Mem.delete_one_active_count]

theorem Mem.reclaim_data (m : Mem) (D : List Nat) : (m.reclaim D).data = m.data := by
  cases D <;> simp [Mem.reclaim, Mem.delete_one_data]

theorem Mem.reclaim_active (m : Mem) (D : List Nat) : (m.reclaim D).active = m.active := by
  cases D <;> simp [Mem.reclaim, Mem.delete_one_active]

theorem Mem.reclaim_parent {m : Mem} {D : List Nat} {q : Nat} (hq : q ∉ D) :
    (m.reclaim D).parent q = m.parent q := by
  cases D with
  | nil => rfl
  | cons x D =>
    have : q ≠ x := fun e => hq (by simp [e])
    simp [Mem.reclaim, Mem.delete_one_parent, upd_apply, this]

theorem Mem.reclaim_children {m : Mem} {F D : List Nat} (h : Wf m F D) {q : Nat} (hq : q ∈ F) :
    (m.reclaim D).children q = m.children q ∨ m.children q ≠ 0 := by
  by_cases h0 : m.children q = 0
  · left
    cases D with
    | nil => rfl
    | cons x D =>
      have hqa := h.subF q hq
      have hxa := h.wf_subD x (by simp)
      have hno := h.no_child hqa h0
      have : (m.unlink x).parent x ≠ q := hno x hxa
      simp only [Mem.reclaim, Mem.delete_one, Mem.cut_children]
      split
      · rw [upd_ne _ _ (Ne.symm this)]; rfl
      · rfl
  · exact Or.inr h0

theorem add_child_tail_rt {t : Tree} {F D : List Nat} {p c : Nat} (hw : Wf t.toMem (c :: F) D)
    (hrt : RT t.toMem t.history (c :: F) c) (ha : t.algo = tb_real_time) (hp : p ∈ F) :
    ∃ t', add_child_tail t p c = .ok t' ∧
      t'.toMem = (t.toMem.reclaim D).set_rep t.history p c ∧ t'.mems = 0 ∧ Same t t' ∧
      t'.node_count = t.node_count ∧ t'.last_gc_node_count = t.last_gc_node_count := by
  obtain ⟨t2, hdel, hmem, hsame, hnc, hlg⟩ := delete_one_rt hw ha
  have hw2 : Wf t2.toMem (c :: F) (reclaim_D t.toMem D) := hmem ▸ hw.wf_reclaim
  have hrt2 : RT t2.toMem t.history (c :: F) c := hmem ▸ hrt.rt_reclaim hw
  have hc2 : c ∈ t2.alloc := hw2.subF c (by simp)
  have hp2 : p ∈ t2.alloc := hw2.subF p (by simp [hp])
  have hpc : p ≠ c := fun e => (List.nodup_cons.1 hw.F_nodup).1 (e ▸ hp)
  have hrp := (hrt2.rep_alloc (hw2.toX (e := 0) (fun hm => by
    have := hw2.node 0 (hw2.wf_subD 0 hm); omega)) hp2 hpc).1
  have ha2 : t2.algo = tb_real_time := by rw [hsame.algo, ha]
  have hh2 : t2.history = t.history := hsame.history
  have e : add_child_tail t p c = .ok (finish (print_statistic
      { t2 with toMem := t2.toMem.set_rep t2.history p c,
                mems := t2.mems + (if Int.tmod (t2.depth p + 1) t2.history = 0 then 7 else 8) }
      (.S 1)) .TA) := by
    by_cases h0 : Int.tmod (t2.depth p + 1) t2.history = 0
    · simp [add_child_tail, ha, hdel, deref, valid, hc2, hp2, bind, Except.bind, pure, Except.pure,
        M, upd_apply, h0, finish, Mem.set_rep]
      ring_nf
    · simp [add_child_tail, ha, hdel, deref, valid, hc2, hp2, bind, Except.bind, pure, Except.pure,
        M, upd_apply, h0, finish, hrp, Mem.set_rep]
      ring_nf
  refine ⟨_, e, ?_, ?_, ⟨?_, ?_, ?_⟩, ?_, ?_⟩
  · simp [hmem, hh2]
  · simp
  · simp [hh2]
  · simp [ha2, ha]
  · simp [hsame.stats]
  · simp [hnc]
  · simp [hlg]

theorem Wf.wf_cut_parent_eq {t : Tree} {F D : List Nat} {y : Nat} (h : Wf t.toMem F D)
    (hy : y ∈ t.alloc) :
    cut_parent t y = .ok { t with toMem := t.toMem.cut y, mems := t.mems + cut_mems t.toMem y } := by
  by_cases h0 : t.parent y = 0
  · exact (h.toX (e := 1) (fun hm => by have := h.node 1 (h.wf_subD 1 hm); omega)).wfx_cut_parent_eq hy
      (by rw [h0]; decide)
  · exact (h.toX (e := 0) (fun hm => by have := h.node 0 (h.wf_subD 0 hm); omega)).wfx_cut_parent_eq hy h0

theorem Wf.wf_drop_rep {m : Mem} {F D : List Nat} (h : Wf m F D) {n : Nat}
    (hr : m.representant n ∈ m.alloc) : Wf (m.drop_rep n) F (drop_D m n D) := by
  have h1 : Wf { m with active_count := (upd m.active_count (m.representant n)
      (m.active_count (m.representant n) - 1)) } F D := h.wf_of_eq rfl rfl rfl rfl rfl rfl rfl
  simp only [Mem.drop_rep, drop_D, upd_same]
  split
  · exact h1.wf_cut hr
  · exact h1

theorem deactivate_tail_rt {t : Tree} {F D : List Nat} {n : Nat} (hw : Wf t.toMem F D)
    (ha : t.algo = tb_real_time) (hn : n ∈ t.alloc) (hr : t.representant n ∈ t.alloc) :
    ∃ t', deactivate_tail t n = .ok t' ∧ t'.toMem = t.toMem.drop_rep n ∧ t'.mems = 0 ∧
      Same t t' ∧ t'.node_count = t.node_count ∧ t'.last_gc_node_count = t.last_gc_node_count := by
  have hr0 : t.representant n ≠ 0 := (hw.wf_ne_sentinel hr).1
  have h1 : Wf { t.toMem with active_count := (upd t.active_count (t.representant n)
      (t.active_count (t.representant n) - 1)) } F D := hw.wf_of_eq rfl rfl rfl rfl rfl rfl rfl
  by_cases h0 : t.active_count (t.representant n) - 1 = 0
  · have hcut := Wf.wf_cut_parent_eq (t := { t with
        active_count := (upd t.active_count (t.representant n)
          (t.active_count (t.representant n) - 1)), mems := t.mems + 2 }) h1 hr
    have e1 : deactivate_tail t n = (do
        let t ← cut_parent { t with
          active_count := (upd t.active_count (t.representant n)
            (t.active_count (t.representant n) - 1)), mems := t.mems + 2 } (t.representant n)
        pure (finish t .TD)) := by
      simp [deactivate_tail, ha, deref, valid, hn, hr, hr0, c_assert, bind, Except.bind, pure,
        Except.pure, M, h0, finish]
    rw [e1, hcut]
    refine ⟨_, rfl, ?_, ?_, ⟨?_, ?_, ?_⟩, ?_, ?_⟩ <;> simp [Mem.drop_rep, h0]
  · have e1 : deactivate_tail t n = .ok (finish { t with
          active_count := (upd t.active_count (t.representant n)
            (t.active_count (t.representant n) - 1)), mems := t.mems + 2 } .TD) := by
      simp [deactivate_tail, ha, deref, valid, hn, hr, hr0, c_assert, bind, Except.bind, pure,
        Except.pure, M, h0, finish]
    rw [e1]
    refine ⟨_, rfl, ?_, ?_, ⟨?_, ?_, ?_⟩, ?_, ?_⟩ <;> simp [Mem.drop_rep, h0]

/-! ## Depths and representants along a chain -/

theorem tmod_pred {a : Int} {H : Nat} (ha : 1 ≤ a) (h : Int.tmod a H ≠ 0) :
    Int.tmod (a - 1) H = Int.tmod a H - 1 := by
  have hH0 : (0 : Int) ≤ (H : Int) := Int.ofNat_nonneg H
  rw [Int.tmod_eq_emod (by omega) hH0] at h ⊢
  rw [Int.tmod_eq_emod (by omega) hH0]
  rcases Nat.eq_zero_or_pos H with h0 | h0
  · subst h0; simp
  · have hH : (0 : Int) < H := by exact_mod_cast h0
    have h1 := Int.emod_nonneg a (by omega : (H : Int) ≠ 0)
    have h2 := Int.emod_lt_of_pos a hH
    have h3 := Int.emod_add_ediv a H
    have : a - 1 = (a % H - 1) + H * (a / H) := by omega
    rw [this, Int.add_mul_emod_self_left]
    exact Int.emod_eq_of_lt (by omega) (by omega)

theorem tmod_add_of_tmod_zero {a j : Int} {H : Nat} (ha : 0 ≤ a) (h : Int.tmod a H = 0)
    (hj : 0 ≤ j) (hjH : j < H) : Int.tmod (a + j) H = j := by
  have hH0 : (0 : Int) ≤ (H : Int) := Int.ofNat_nonneg H
  rw [Int.tmod_eq_emod ha hH0] at h
  rw [Int.tmod_eq_emod (by omega) hH0]
  have h3 := Int.emod_add_ediv a H
  have : a + j = j + H * (a / H) := by omega
  rw [this, Int.add_mul_emod_self_left]
  exact Int.emod_eq_of_lt hj hjH

theorem RT.anc_depth {m : Mem} {H : Nat} {F : List Nat} (h : RT m H F 0)
    (hpar : ∀ p ∈ m.alloc, m.parent p = 0 ∨ m.parent p ∈ m.alloc)
    (h0 : ∀ p ∈ m.alloc, p ≠ 0) :
    ∀ (k f q : Nat), f ∈ m.alloc → q ∈ anc m.parent k f →
      q ∈ m.alloc ∧ m.depth q ≤ m.depth f ∧ m.depth f - m.depth q < k ∧
      (m.depth f - m.depth q ≤ Int.tmod (m.depth f) H → m.representant q = m.representant f)
  | 0, f, q, _, hq => by simp [anc] at hq
  | k + 1, f, q, hf, hq => by
    rw [anc_cons (h0 f hf)] at hq
    rcases List.mem_cons.1 hq with h1 | h1
    · subst h1
      exact ⟨hf, le_refl _, by omega, fun _ => rfl⟩
    · have hg0 : m.parent f ≠ 0 := fun e => by rw [e, anc_null] at h1; simp at h1
      have hg : m.parent f ∈ m.alloc := (hpar f hf).resolve_left hg0
      have hd := h.depth_parent f hf (h0 f hf) hg0
      have hdg := h.depth_nonneg _ hg (h0 _ hg)
      obtain ⟨a1, a2, a3, a4⟩ := RT.anc_depth h hpar h0 k (m.parent f) q hg h1
      refine ⟨a1, by omega, by omega, fun hle => ?_⟩
      have hne : Int.tmod (m.depth f) H ≠ 0 := by omega
      have hrp := h.rep_parent f hf (h0 f hf) hne
      have hpred := tmod_pred (a := m.depth f) (H := H) (by omega) hne
      rw [hrp.2]
      apply a4
      have : m.depth (m.parent f) = m.depth f - 1 := by omega
      rw [this, hpred]; omega

/-- Among the first `H` nodes of the chain of `f`, only the representant of
`f` has a depth that is a multiple of `H`. -/
theorem RT.anc_rep {m : Mem} {H : Nat} {F : List Nat} (h : RT m H F 0)
    (hpar : ∀ p ∈ m.alloc, m.parent p = 0 ∨ m.parent p ∈ m.alloc)
    (h0 : ∀ p ∈ m.alloc, p ≠ 0) {k f q : Nat} (hk : k ≤ H) (hf : f ∈ m.alloc)
    (hq : q ∈ anc m.parent k f) (hz : Int.tmod (m.depth q) H = 0) : q = m.representant f := by
  obtain ⟨a1, a2, a3, a4⟩ := h.anc_depth hpar h0 k f q hf hq
  have hdq := h.depth_nonneg q a1 (h0 q a1)
  have hj : Int.tmod (m.depth q + (m.depth f - m.depth q)) H = m.depth f - m.depth q :=
    tmod_add_of_tmod_zero hdq hz (by omega) (by
      have : (k : Int) ≤ H := by exact_mod_cast hk
      omega)
  have e : m.depth q + (m.depth f - m.depth q) = m.depth f := by omega
  rw [e] at hj
  rw [← a4 (by omega)]
  exact (h.rep_self q a1 (h0 q a1) hz).symm

/-- The real-time part of `tb_deactivate` keeps the history of the nodes that
stay active. -/
theorem RT.drop_hist {m : Mem} {H : Nat} {F D : List Nat} {n : Nat} (h : RT m H F 0)
    (hw : Wf m F D) (hn : n ∈ F) :
    ∀ f ∈ F.erase n, anc ((m.deactivate n).drop_rep n).parent H f = anc m.parent H f := by
  intro f hf
  have hq0 : ∀ q ∈ m.alloc, q ≠ 0 := fun q hq => (hw.wf_ne_sentinel hq).1
  have hfF : f ∈ F := List.mem_of_mem_erase hf
  have hfa := hw.subF f hfF
  have hna := hw.subF n hn
  have hX := hw.toX (e := 0) (fun hm => hq0 0 (hw.wf_subD 0 hm) rfl)
  have hr := h.rep_alloc hX hna (hq0 n hna)
  apply anc_congr
  intro q hq
  rw [Mem.drop_rep_parent, Mem.deactivate_representant, Mem.deactivate_parent,
    Mem.deactivate_active_count]
  split
  · rename_i hz
    have hqr : q ≠ m.representant n := by
      intro e
      have hqrep := h.anc_rep hw.par hq0 (Nat.sub_le H 1) hfa hq (e ▸ hr.2.2)
      have hpost := (h.rt_drop_rep hw hn).count (m.representant n)
        (by rw [Mem.drop_rep_alloc, Mem.deactivate_alloc]; exact hr.1) (hq0 _ hr.1)
      rw [Mem.drop_rep_active_count, Mem.deactivate_representant, Mem.deactivate_active_count,
        upd_same, hz, Mem.drop_rep_representant, Mem.deactivate_representant] at hpost
      have : 0 < (F.erase n).countP (fun f => decide (m.representant f = m.representant n)) := by
        rw [List.countP_pos_iff]
        exact ⟨f, hf, by simp [← hqrep, e]⟩
      omega
    rw [upd_ne _ _ hqr]
  · rfl

/-! ## Histories across `tb_add_child` -/

theorem Wf.anc_alloc {m : Mem} {F D : List Nat} (h : Wf m F D) {k f q : Nat} (hf : f ∈ m.alloc)
    (hq : q ∈ anc m.parent k f) : q ∈ m.alloc :=
  (anc_mem h.par k f q hf hq).1

theorem Wf.anc_not_D {m : Mem} {F D : List Nat} (h : Wf m F D) {k f q : Nat} (hf : f ∈ F)
    (hq : q ∈ anc m.parent k f) : q ∉ D := by
  obtain ⟨hqa, h1⟩ := anc_mem h.par k f q (h.subF f hf) hq
  rcases h1 with h1 | ⟨c, hc, hpc⟩
  · rw [h1]; exact h.wf_disj f hf
  · intro hD
    have h2 := ((h.del q).1 hD).2.2
    have h3 := h.cnt q hqa
    have h4 := nchildren_pos hc
    rw [hpc] at h4
    omega

theorem Mem.add_child_parent (m : Mem) (p c : Nat) (d : Int) :
    (m.add_child p c d).parent = upd m.parent c p := by
  funext q
  simp only [Mem.add_child, Mem.link_child, Mem.push, tb_make_node, upd_apply]
  split <;> rfl

theorem Mem.add_child_alloc (m : Mem) (p c : Nat) (d : Int) :
    (m.add_child p c d).alloc = c :: m.alloc := rfl

theorem Mem.add_child_data (m : Mem) (p c : Nat) (d : Int) :
    (m.add_child p c d).data = upd m.data c d := rfl

theorem Wf.add_child_hist_old {m : Mem} {F D : List Nat} (h : Wf m F D) {p c : Nat} (d : Int)
    (hc : c ∉ m.alloc) (k : Nat) {f : Nat} (hf : f ∈ m.alloc) :
    anc (m.add_child p c d).parent k f = anc m.parent k f := by
  apply anc_congr
  intro q hq
  have : q ≠ c := fun e => hc (e ▸ h.anc_alloc hf hq)
  rw [Mem.add_child_parent, upd_ne _ _ this]

theorem Wf.add_child_hist_new {m : Mem} {F D : List Nat} (h : Wf m F D) {p c : Nat} (d : Int)
    (hc : c ∉ m.alloc) (hc0 : c ≠ 0) (k : Nat) (hp : p ∈ m.alloc) :
    anc (m.add_child p c d).parent (k + 1) c = c :: anc m.parent k p := by
  rw [anc_cons hc0, Mem.add_child_parent, upd_same, ← Mem.add_child_parent m p c d,
    h.add_child_hist_old d hc k hp]

theorem Wf.reclaim_hist {m : Mem} {F D : List Nat} (h : Wf m F D) (k : Nat) {f : Nat}
    (hf : f ∈ F) : anc (m.reclaim D).parent k f = anc m.parent k f := by
  apply anc_congr
  intro q hq
  exact Mem.reclaim_parent (h.anc_not_D hf hq)

theorem Mem.set_rep_parent (m : Mem) (H p c : Nat) : (m.set_rep H p c).parent = m.parent := by
  simp only [Mem.set_rep]; split <;> rfl

theorem Mem.set_rep_alloc (m : Mem) (H p c : Nat) : (m.set_rep H p c).alloc = m.alloc := by
  simp only [Mem.set_rep]; split <;> rfl

theorem Mem.set_rep_data (m : Mem) (H p c : Nat) : (m.set_rep H p c).data = m.data := by
  simp only [Mem.set_rep]; split <;> rfl

theorem Mem.set_rep_children (m : Mem) (H p c : Nat) : (m.set_rep H p c).children = m.children := by
  simp only [Mem.set_rep]; split <;> rfl

theorem Mem.set_rep_ll (m : Mem) (H p c : Nat) : (m.set_rep H p c).ll = m.ll := by
  simp only [Mem.set_rep]; split <;> rfl

theorem Mem.set_rep_rl (m : Mem) (H p c : Nat) : (m.set_rep H p c).rl = m.rl := by
  simp only [Mem.set_rep]; split <;> rfl

theorem Mem.set_rep_active (m : Mem) (H p c : Nat) : (m.set_rep H p c).active = m.active := by
  simp only [Mem.set_rep]; split <;> rfl

theorem Mem.set_rep_seen (m : Mem) (H p c : Nat) : (m.set_rep H p c).seen = m.seen := by
  simp only [Mem.set_rep]; split <;> rfl

/-! ## The operations under the naive and the real-time algorithm -/

theorem add_child_naive_ok {t : Tree} {F D : List Nat} (h : Inv t F D) {p c : Nat} (d : Int)
    (hp : p ∈ F) (hc : c ∉ t.alloc) (hc6 : 6 ≤ c) (ha : t.algo = tb_naive) :
    ∃ t', tb_add_child { t with toMem := tb_make_node t.toMem c d } p c = .ok t' ∧
      Inv t' (c :: F) D ∧ AddOK t t' p c d F := by
  have hpa := h.wf.subF p hp
  refine ⟨_, (h.wf.add_child_pre d h.mems hp hc hc6).trans (add_child_tail_plain (Or.inl ha)),
    ⟨?_, ?_, ?_, ?_, ?_, ?_⟩, ⟨⟨?_, ?_, ?_⟩, ?_, ?_, ?_, ?_⟩⟩
  · simpa using h.wf.wf_add_child d hp hc hc6
  · simpa using h.hist
  · simp
  · intro h1; simp [ha] at h1
  · intro h1; simp [ha] at h1
  · intro h1; simp [ha] at h1
  · simp
  · simp
  · simp
  · simp [Mem.add_child_data]
  · intro q hq
    have : q ∈ c :: t.alloc := by simpa [Mem.add_child_alloc] using hq
    simpa using this
  · intro f hf
    simpa using h.wf.add_child_hist_old d hc t.history (h.wf.subF f hf)
  · have := h.wf.add_child_hist_new (p := p) d hc (by omega) (t.history - 1) hpa
    rw [Nat.sub_add_cancel h.hist] at this
    simpa using this

theorem deactivate_naive_ok {t : Tree} {F D : List Nat} (h : Inv t F D) {n : Nat}
    (hn : n ∈ F) (ha : t.algo = tb_naive) :
    ∃ t', tb_deactivate t n = .ok t' ∧
      Inv t' (F.erase n) (deact_D t.toMem n D) ∧ DeactOK t t' n F := by
  refine ⟨_, (h.wf.deactivate_pre h.mems hn).trans (deactivate_tail_plain (Or.inl ha)),
    ⟨?_, ?_, ?_, ?_, ?_, ?_⟩, ⟨⟨?_, ?_, ?_⟩, ?_, ?_, ?_⟩⟩
  · simpa using h.wf.wf_deactivate hn
  · simpa using h.hist
  · simp
  · intro h1; simp [ha] at h1
  · intro h1; simp [ha] at h1
  · intro h1; simp [ha] at h1
  · simp
  · simp
  · simp
  · simp [Mem.deactivate_data]
  · intro q hq
    simpa [Mem.deactivate_alloc] using hq
  · intro f _
    simp [Mem.deactivate_parent]

theorem add_child_rt_ok {t : Tree} {F D : List Nat} (h : Inv t F D) {p c : Nat} (d : Int)
    (hp : p ∈ F) (hc : c ∉ t.alloc) (hc6 : 6 ≤ c) (ha : t.algo = tb_real_time) :
    ∃ t', tb_add_child { t with toMem := tb_make_node t.toMem c d } p c = .ok t' ∧
      Inv t' (c :: F) (reclaim_D (t.toMem.add_child p c d) D) ∧ AddOK t t' p c d F := by
  have hpa := h.wf.subF p hp
  have hw1 := h.wf.wf_add_child d hp hc hc6
  have hrt1 := (h.rt ha).rt_add_child h.wf (p := p) d hc hc6
  obtain ⟨t', e, hmem, hmems, hsame, hnc, hlg⟩ :=
    add_child_tail_rt (t := { t with toMem := t.toMem.add_child p c d, mems := 11 }) hw1 hrt1 ha hp
  have hw2 := hw1.wf_reclaim
  have hrt2 := hrt1.rt_reclaim hw1
  have hpc : p ≠ c := fun e => hc (e ▸ hpa)
  have hc0 : c ≠ 0 := by omega
  have hcF : c ∈ c :: F := by simp
  have hrt3 := hrt2.set_rep hw2 hp
    (by rw [Mem.reclaim_parent (hw1.wf_disj c hcF), Mem.add_child_parent, upd_same])
    (by rw [Mem.reclaim_representant]; simp [Mem.add_child, Mem.link_child, Mem.push, tb_make_node])
    (by rw [Mem.reclaim_active_count]; simp [Mem.add_child, Mem.link_child, Mem.push, tb_make_node])
    (by
      have h0 : (t.toMem.add_child p c d).children c = 0 := by
        simp [Mem.add_child, Mem.link_child, Mem.push, tb_make_node, upd_apply, Ne.symm hpc]
      rcases Mem.reclaim_children hw1 hcF with h1 | h1
      · rw [h1]; exact h0
      · exact absurd h0 h1)
  have hw3 : Wf t'.toMem (c :: F) (reclaim_D (t.toMem.add_child p c d) D) := by
    rw [hmem]
    exact hw2.wf_of_eq (Mem.set_rep_parent _ _ _ _) (Mem.set_rep_children _ _ _ _)
      (Mem.set_rep_ll _ _ _ _) (Mem.set_rep_rl _ _ _ _) (Mem.set_rep_alloc _ _ _ _)
      (Mem.set_rep_active _ _ _ _) (Mem.set_rep_seen _ _ _ _)
  have hpar : t'.parent = ((t.toMem.add_child p c d).reclaim D).parent := by
    show t'.toMem.parent = _
    rw [hmem, Mem.set_rep_parent]
  refine ⟨t', (h.wf.add_child_pre d h.mems hp hc hc6).trans e,
    ⟨hw3, ?_, hmems, ?_, ?_, ?_⟩, ⟨⟨hsame.history, hsame.algo, hsame.stats⟩, ?_, ?_, ?_, ?_⟩⟩
  · rw [hsame.history]; exact h.hist
  · intro _
    rw [hmem, hsame.history]; exact hrt3
  · intro h1; rw [hsame.algo] at h1; simp [ha] at h1
  · intro h1; rw [hsame.algo] at h1; simp [ha] at h1
  · show t'.toMem.data = _
    rw [hmem, Mem.set_rep_data, Mem.reclaim_data, Mem.add_child_data]
  · intro q hq
    have hq' : q ∈ t'.toMem.alloc := hq
    rw [hmem, Mem.set_rep_alloc] at hq'
    have := Mem.reclaim_sub q hq'
    simpa [Mem.add_child_alloc] using this
  · intro f hf
    show anc t'.parent t.history f = _
    rw [hpar, hw1.reclaim_hist _ (List.mem_cons_of_mem _ hf)]
    exact h.wf.add_child_hist_old d hc t.history (h.wf.subF f hf)
  · show anc t'.parent t.history c = _
    rw [hpar, hw1.reclaim_hist _ hcF]
    have := h.wf.add_child_hist_new (p := p) d hc hc0 (t.history - 1) hpa
    rw [Nat.sub_add_cancel h.hist] at this
    exact this

theorem deactivate_rt_ok {t : Tree} {F D : List Nat} (h : Inv t F D) {n : Nat}
    (hn : n ∈ F) (ha : t.algo = tb_real_time) :
    ∃ t', tb_deactivate t n = .ok t' ∧
      Inv t' (F.erase n) (drop_D (t.toMem.deactivate n) n (deact_D t.toMem n D)) ∧
      DeactOK t t' n F := by
  have hna := h.wf.subF n hn
  have hq0 : ∀ q ∈ t.alloc, q ≠ 0 := fun q hq => (h.wf.wf_ne_sentinel hq).1
  have hX := h.wf.toX (e := 0) (fun hm => hq0 0 (h.wf.wf_subD 0 hm) rfl)
  have hr := ((h.rt ha).rep_alloc hX hna (hq0 n hna)).1
  have hw1 := h.wf.wf_deactivate hn
  obtain ⟨t', e, hmem, hmems, hsame, hnc, hlg⟩ := deactivate_tail_rt
    (t := { t with toMem := t.toMem.deactivate n, mems := if t.children n = 0 then 18 else 9 })
    hw1 ha (by simpa [Mem.deactivate_alloc] using hna)
    (by simpa [Mem.deactivate_alloc, Mem.deactivate_representant] using hr)
  have hw2 := hw1.wf_drop_rep (n := n)
    (by simpa [Mem.deactivate_alloc, Mem.deactivate_representant] using hr)
  refine ⟨t', (h.wf.deactivate_pre h.mems hn).trans e,
    ⟨hmem ▸ hw2, ?_, hmems, ?_, ?_, ?_⟩, ⟨⟨hsame.history, hsame.algo, hsame.stats⟩, ?_, ?_, ?_⟩⟩
  · rw [hsame.history]; exact h.hist
  · intro _
    rw [hmem, hsame.history]; exact (h.rt ha).rt_drop_rep h.wf hn
  · intro h1; rw [hsame.algo] at h1; simp [ha] at h1
  · intro h1; rw [hsame.algo] at h1; simp [ha] at h1
  · show t'.toMem.data = _
    rw [hmem, Mem.drop_rep_data, Mem.deactivate_data]
  · intro q hq
    have hq' : q ∈ t'.toMem.alloc := hq
    rw [hmem, Mem.drop_rep_alloc, Mem.deactivate_alloc] at hq'
    exact hq'
  · intro f hf
    show anc t'.toMem.parent t.history f = _
    rw [hmem]
    exact (h.rt ha).drop_hist h.wf hn f hf

/-! ## Loops over a list on the heap -/

@[simp] theorem M_toMem (k : Int) (t : Tree) : (M k t).toMem = t.toMem := rfl
@[simp] theorem M_history (k : Int) (t : Tree) : (M k t).history = t.history := rfl
@[simp] theorem M_algo (k : Int) (t : Tree) : (M k t).algo = t.algo := rfl
@[simp] theorem M_statistics_file (k : Int) (t : Tree) :
    (M k t).statistics_file = t.statistics_file := rfl
@[simp] theorem M_output (k : Int) (t : Tree) : (M k t).output = t.output := rfl
@[simp] theorem M_node_count (k : Int) (t : Tree) : (M k t).node_count = t.node_count := rfl
@[simp] theorem M_last_gc_node_count (k : Int) (t : Tree) :
    (M k t).last_gc_node_count = t.last_gc_node_count := rfl

/-- A loop `for (n = first; n != s; n = n->rl) body(n)` over a list that holds
`l` runs the body on the nodes of `l` in turn; `P rest t` is the loop
invariant, `rest` the nodes still to visit. -/
theorem for_rl_spec {body : Tree → Nat → Except Fault Tree} {c : Int} {s : Nat}
    (P : List Nat → Tree → Prop) (hM : ∀ l t k, P l t → P l (M k t))
    (hstep : ∀ x rest t, P (x :: rest) t → x ≠ s ∧ ∃ t', body t x = .ok t' ∧
      valid t'.toMem x ∧ t'.rl x = rest.headD s ∧ P rest t') :
    ∀ (l : List Nat) (fuel : Nat) (t : Tree), l.length < fuel → P l t →
      ∃ t', for_rl body c s fuel t (l.headD s) = .ok t' ∧ P [] t' := by
  intro l
  induction l with
  | nil =>
    intro fuel t hf hP
    cases fuel with
    | zero => simp at hf
    | succ fuel =>
      exact ⟨M c t, by simp [for_rl, pure, Except.pure], hM _ _ _ hP⟩
  | cons x rest ih =>
    intro fuel t hf hP
    cases fuel with
    | zero => simp at hf
    | succ fuel =>
      obtain ⟨hxs, t', hb, hv, hr, hP'⟩ := hstep x rest (M c t) (hM _ _ _ hP)
      obtain ⟨t'', hl, hP''⟩ := ih fuel (M 1 t') (by simpa using hf) (hM _ _ _ hP')
      refine ⟨t'', ?_, hP''⟩
      have hv' : valid t'.toMem x := hv
      simp only [for_rl, List.headD_cons, hxs, if_false, hb, bind, Except.bind, deref, hv',
        if_true, hr]
      exact hl

/-- The same for a loop that reads `p->rl` before it runs the body on `p`. -/
theorem for_rl_saved_spec {body : Tree → Nat → Except Fault Tree} {c : Int} {s : Nat}
    (P : List Nat → Tree → Prop) (hM : ∀ l t k, P l t → P l (M k t))
    (hstep : ∀ x rest t, P (x :: rest) t → x ≠ s ∧ valid t.toMem x ∧ t.rl x = rest.headD s ∧
      ∃ t', body t x = .ok t' ∧ P rest t') :
    ∀ (l : List Nat) (fuel : Nat) (t : Tree), l.length < fuel → P l t →
      ∃ t', for_rl_saved body c s fuel t (l.headD s) = .ok t' ∧ P [] t' := by
  intro l
  induction l with
  | nil =>
    intro fuel t hf hP
    cases fuel with
    | zero => simp at hf
    | succ fuel =>
      exact ⟨M c t, by simp [for_rl_saved, pure, Except.pure], hM _ _ _ hP⟩
  | cons x rest ih =>
    intro fuel t hf hP
    cases fuel with
    | zero => simp at hf
    | succ fuel =>
      obtain ⟨hxs, hv, hr, -⟩ := hstep x rest (M c t) (hM _ _ _ hP)
      obtain ⟨-, -, -, t', hb, hP'⟩ := hstep x rest (M 1 (M c t)) (hM _ _ _ (hM _ _ _ hP))
      obtain ⟨t'', hl, hP''⟩ := ih fuel t' (by simpa using hf) hP'
      refine ⟨t'', ?_, hP''⟩
      have hv' : valid t.toMem x := hv
      have hr' : t.rl x = rest.headD s := hr
      simp only [for_rl_saved, List.headD_cons, hxs, if_false, hb, bind, Except.bind, deref,
        M_toMem, hv', if_true]
      show for_rl_saved body c s fuel t' (t.rl x) = Except.ok t''
      rw [hr']
      exact hl

/-! ## More on lists: frames, moving a whole list -/

theorem last1_mem : ∀ (xs : List Nat) (x : Nat), last1 x xs ∈ x :: xs
  | [], x => by simp [last1]
  | y :: ys, x => by
    rw [last1]; exact List.mem_cons_of_mem _ (last1_mem ys y)

theorem DLL.ll_sentinel {ll rl : Nat → Nat} {s : Nat} {xs : List Nat} (h : DLL ll rl s xs) :
    ll s = last1 s xs := by
  have : ∀ (xs : List Nat) (a : Nat), Linked ll rl a xs s → ll s = last1 a xs := by
    intro xs
    induction xs with
    | nil => intro a h; exact h.2
    | cons y ys ih => intro a h; rw [last1]; exact ih y h.2
  exact this xs s h.2

theorem DLL.push_frame {ll rl : Nat → Nat} {s x s' : Nat} {ys : List Nat} (h : DLL ll rl s' ys)
    (hx : x ∉ s' :: ys) (hs : s ∉ s' :: ys) (hr : rl s ∉ s' :: ys) :
    DLL (upd (upd ll x s) (rl s) x) (upd (upd rl x (rl s)) s x) s' ys := by
  refine h.dll_congr (fun q hq => ?_) (fun q hq => ?_)
  · have h1 : q ≠ x := fun e => hx (e ▸ hq)
    have h2 : q ≠ s := fun e => hs (e ▸ hq)
    simp only [upd_apply, h1, h2, if_false]
  · have h1 : q ≠ x := fun e => hx (e ▸ hq)
    have h2 : q ≠ rl s := fun e => hr (e ▸ hq)
    simp only [upd_apply, h1, h2, if_false]

theorem Linked.set_end {ll rl ll' rl' : Nat → Nat} {e : Nat} : ∀ {xs : List Nat} {x a' : Nat},
    Linked ll rl x xs a' → (x :: xs).Nodup →
    (∀ p ∈ x :: xs, p ≠ last1 x xs → rl' p = rl p) → (∀ p ∈ xs, ll' p = ll p) →
    rl' (last1 x xs) = e → ll' e = last1 x xs → Linked ll' rl' x xs e
  | [], x, a', _, _, _, _, h3, h4 => by
    simp only [Linked, last1] at h3 h4 ⊢
    exact ⟨h3, h4⟩
  | y :: ys, x, a', h, hn, h1, h2, h3, h4 => by
    simp only [Linked, last1] at h h3 h4 h1 ⊢
    rw [List.nodup_cons] at hn
    have hxl : x ≠ last1 y ys := fun e => hn.1 (e ▸ last1_mem ys y)
    refine ⟨⟨?_, ?_⟩, Linked.set_end h.2 hn.2 (fun p hp hpl => h1 p (List.mem_cons_of_mem _ hp) hpl)
      (fun p hp => h2 p (List.mem_cons_of_mem _ hp)) h3 h4⟩
    · rw [h1 x (by simp) hxl]; exact h.1.1
    · rw [h2 y (by simp)]; exact h.1.2

/-- Moving the whole of a non-empty list to the front of another one, the
assignments at the end of a turn of the layer loop of `gc`. -/
theorem DLL.dll_splice {ll rl : Nat → Nat} {a b x : Nat} {xs ys : List Nat}
    (ha : DLL ll rl a (x :: xs)) (hb : DLL ll rl b ys) (hd : ∀ p ∈ a :: x :: xs, p ∉ b :: ys) :
    DLL (upd (upd (upd ll x b) (rl b) (last1 x xs)) a a)
        (upd (upd (upd rl (last1 x xs) (rl b)) b x) a a) b (x :: xs ++ ys) ∧
    DLL (upd (upd (upd ll x b) (rl b) (last1 x xs)) a a)
        (upd (upd (upd rl (last1 x xs) (rl b)) b x) a a) a [] := by
  obtain ⟨han, hal⟩ := ha
  obtain ⟨hbn, hbl⟩ := hb
  have hab : a ≠ b := fun e => hd a (by simp) (by simp [e])
  have hLm : last1 x xs ∈ x :: xs := last1_mem xs x
  have hFm : rl b ∈ b :: ys := by
    cases ys with
    | nil => simp [hbl.1]
    | cons y ys => simp [hbl.1.1]
  have hax : ∀ p ∈ x :: xs, p ≠ a := fun p hp e => by
    rw [e] at hp; exact (List.nodup_cons.1 han).1 hp
  have hbx : ∀ p ∈ x :: xs, p ∉ b :: ys := fun p hp => hd p (List.mem_cons_of_mem _ hp)
  have hxb : ∀ p ∈ x :: xs, p ≠ b := fun p hp e => hbx p hp (by simp [e])
  have hxF : ∀ p ∈ x :: xs, p ≠ rl b := fun p hp e => hbx p hp (e ▸ hFm)
  have hya : ∀ p ∈ b :: ys, p ≠ a := fun p hp e => hd a (by simp) (e ▸ hp)
  have hyx : ∀ p ∈ b :: ys, p ∉ x :: xs := fun p hp hp' => hbx p hp' hp
  simp only [Linked] at hal
  refine ⟨⟨?_, ?_⟩, DLL.nil (by simp) (by simp)⟩
  · rw [List.nodup_cons] at hbn ⊢
    have hxn := (List.nodup_cons.1 han).2
    refine ⟨?_, ?_⟩
    · simp only [List.cons_append, List.mem_cons, List.mem_append, not_or]
      refine ⟨fun e => hxb x (by simp) e.symm, fun e => hxb _ (List.mem_cons_of_mem _ e) rfl, hbn.1⟩
    · rw [List.nodup_append]
      exact ⟨hxn, hbn.2, fun p hp hp' => hbx p hp (List.mem_cons_of_mem _ hp')⟩
  · show Linked _ _ b (x :: (xs ++ ys)) b
    simp only [Linked]
    refine ⟨⟨?_, ?_⟩, ?_⟩
    · simp only [upd_apply, Ne.symm hab, if_false, if_true]
    · have h1 := hax x (by simp)
      have h2 := hxF x (by simp)
      simp only [upd_apply, h1, h2, if_false, if_true]
    · have hend : ∀ e, (upd (upd (upd rl (last1 x xs) (rl b)) b x) a a) (last1 x xs) = e →
          (upd (upd (upd ll x b) (rl b) (last1 x xs)) a a) e = last1 x xs →
          Linked (upd (upd (upd ll x b) (rl b) (last1 x xs)) a a)
            (upd (upd (upd rl (last1 x xs) (rl b)) b x) a a) x xs e := fun e h3 h4 =>
        Linked.set_end hal.2 (List.nodup_cons.1 han).2
          (fun p hp hpl => by
            simp only [upd_apply, hax p hp, hxb p hp, hpl, if_false])
          (fun p hp => by
            have hp' : p ∈ x :: xs := List.mem_cons_of_mem _ hp
            have hpx : p ≠ x := fun e' => by
              rw [e'] at hp; exact (List.nodup_cons.1 (List.nodup_cons.1 han).2).1 hp
            simp only [upd_apply, hax p hp', hxF p hp', hpx, if_false])
          h3 h4
      have hrL : (upd (upd (upd rl (last1 x xs) (rl b)) b x) a a) (last1 x xs) = rl b := by
        simp only [upd_apply, hax _ hLm, hxb _ hLm, if_false, if_true]
      cases ys with
      | nil =>
        simp only [Linked] at hbl
        rw [List.append_nil]
        apply hend b
        · rw [hrL, hbl.1]
        · rw [hbl.1]; simp only [upd_apply, Ne.symm hab, if_false, if_true]
      | cons y ys =>
        simp only [Linked] at hbl
        rw [Linked.append]
        have hyy := hbl.1.1
        refine ⟨hend y ?_ ?_, ?_⟩
        · rw [hrL, hyy]
        · rw [hyy]
          have : y ≠ a := hya y (by simp)
          simp only [upd_apply, this, if_false, if_true]
        · refine Linked.linked_congr (fun p hp => ?_) (fun p hp => ?_) hbl.2
          · have hp' : p ∈ b :: y :: ys := List.mem_cons_of_mem _ hp
            have h1 : p ≠ a := hya p hp'
            have h2 : p ≠ b := fun e => by
              rw [e] at hp; exact (List.nodup_cons.1 hbn).1 hp
            have h3 : p ≠ last1 x xs := fun e => hyx p hp' (e ▸ hLm)
            simp only [upd_apply, h1, h2, h3, if_false]
          · have hp' : p ∈ b :: y :: ys := by
              simp only [List.mem_append, List.mem_singleton, List.mem_cons] at hp ⊢; tauto
            have h1 : p ≠ a := hya p hp'
            have h2 : p ≠ x := fun e => hyx p hp' (by simp [e])
            have h3 : p ≠ rl b := fun e => by
              rw [hyy] at e
              simp only [List.mem_append, List.mem_singleton] at hp
              have hn2 := hbn
              simp only [List.nodup_cons, List.mem_cons, not_or] at hn2
              rcases hp with h4 | h4
              · rw [e] at h4; exact hn2.2.1 h4
              · rw [h4] at e; exact hn2.1.1 e
            simp only [upd_apply, h1, h2, h3, if_false]

theorem DLL.splice_frame {ll rl : Nat → Nat} {a b x s : Nat} {xs zs : List Nat}
    (h : DLL ll rl s zs) (ha : a ∉ s :: zs) (hb : b ∉ s :: zs) (hx : ∀ p ∈ x :: xs, p ∉ s :: zs)
    (hr : rl b ∉ s :: zs) :
    DLL (upd (upd (upd ll x b) (rl b) (last1 x xs)) a a)
        (upd (upd (upd rl (last1 x xs) (rl b)) b x) a a) s zs := by
  refine h.dll_congr (fun q hq => ?_) (fun q hq => ?_)
  · have h1 : q ≠ a := fun e => ha (e ▸ hq)
    have h2 : q ≠ b := fun e => hb (e ▸ hq)
    have h3 : q ≠ last1 x xs := fun e => hx _ (last1_mem xs x) (e ▸ hq)
    simp only [upd_apply, h1, h2, h3, if_false]
  · have h1 : q ≠ a := fun e => ha (e ▸ hq)
    have h2 : q ≠ x := fun e => hx x (by simp) (e ▸ hq)
    have h3 : q ≠ rl b := fun e => hr (e ▸ hq)
    simp only [upd_apply, h1, h2, h3, if_false]

theorem length_le_of_nodup_subset {l A : List Nat} (hn : l.Nodup) (hs : ∀ p ∈ l, p ∈ A) :
    l.length ≤ A.length :=
  (List.subperm_of_subset hn hs).length_le

/-! ## The mark phase of `gc` -/

theorem gc_todo_parent_null {t : Tree} {y todo : Nat} (hy : y ∈ t.alloc) (hy0 : y ≠ 0)
    (hx : t.parent y = 0) : gc_todo_parent t y todo = .ok (M 1 t) := by
  simp [gc_todo_parent, c_assert, deref, valid, hy, hy0, hx, bind, Except.bind, pure, Except.pure]

theorem gc_todo_parent_seen {t : Tree} {y todo : Nat} (hy : y ∈ t.alloc) (hy0 : y ≠ 0)
    (hx : t.parent y ≠ 0) (hxa : t.parent y ∈ t.alloc) (hs : t.seen (t.parent y) = true) :
    gc_todo_parent t y todo = .ok (M 1 (M 1 t)) := by
  simp [gc_todo_parent, c_assert, deref, valid, hy, hy0, hx, hxa, hs, bind, Except.bind, pure,
    Except.pure]

theorem gc_todo_parent_push {t : Tree} {y todo : Nat} (hy : y ∈ t.alloc) (hy0 : y ≠ 0)
    (hx : t.parent y ≠ 0) (hxa : t.parent y ∈ t.alloc) (hs : t.seen (t.parent y) = false)
    (ht : 1 ≤ todo ∧ todo ≤ 5) (hr : valid t.toMem (t.rl todo)) (hxr : t.parent y ≠ t.rl todo) :
    gc_todo_parent t y todo = .ok
      { t with toMem := Mem.push { t.toMem with seen := upd t.seen (t.parent y) true } todo
                          (t.parent y),
               mems := t.mems + 10 } := by
  unfold valid at hr
  simp [gc_todo_parent, c_assert, deref, valid, hy, hy0, hx, hxa, hs, ht, hr, hxr, bind,
    Except.bind, pure, Except.pure, M, Mem.push, upd_apply]
  ring_nf

theorem Bfs.bfs_M {t0 t : Tree} {F D Mid Nw Td : List Nat} {now todo : Nat} {lv : Nat → Nat}
    {l : Nat} {Pr : List Nat} (h : Bfs t0 t F D Mid Nw Td now todo lv l Pr) (k : Int) :
    Bfs t0 (M k t) F D Mid Nw Td now todo lv l Pr := by
  obtain ⟨⟨a1, a2, a3, a4, a5, a6, a7, a8, a9⟩, b1, b2, b3, b4, b5, b6, b7, b8, b9, b10, b11,
    b12, b13, b14, b15, b16, b17, b18, b19, b20, b21, b22, b23⟩ := h
  exact ⟨⟨a1, a2, a3, a4, a5, a6, a7, a8, a9⟩, b1, b2, b3, b4, b5, b6, b7, b8, b9, b10, b11,
    b12, b13, b14, b15, b16, b17, b18, b19, b20, b21, b22, b23⟩

theorem Bfs.lv_le {t0 t : Tree} {F D Mid Nw Td : List Nat} {now todo : Nat} {lv : Nat → Nat}
    {l : Nat} {Pr : List Nat} (h : Bfs t0 t F D Mid Nw Td now todo lv l Pr) {p : Nat}
    (hp : p ∈ F ++ Mid ++ Nw ++ Td) : lv p ≤ l := by
  simp only [List.mem_append] at hp
  rcases hp with ((h1 | h1) | h1) | h1
  · rw [h.lvF p h1]; omega
  · have := h.lvM p h1; omega
  · have := h.lvN p h1; omega
  · rw [h.lvT p h1]

theorem Bfs.todo_cells {t0 t : Tree} {F D Mid Nw Td : List Nat} {now todo : Nat} {lv : Nat → Nat}
    {l : Nat} {Pr : List Nat} (h : Bfs t0 t F D Mid Nw Td now todo lv l Pr)
    (hw : Wf t0.toMem F D) {s : Nat} {zs : List Nat} (hs : s = 1 ∨ s = 2 ∨ s = 5 ∨ s = now)
    (hz : ∀ p ∈ zs, p ∈ t0.alloc ∧ p ∉ Td) : ∀ q ∈ todo :: Td, q ∉ s :: zs := by
  intro q hq hq'
  have htodo : todo = 3 ∨ todo = 4 := by rcases h.sent with h1 | h1 <;> simp [h1.2]
  have hne : todo ≠ s := by
    rcases h.sent with h1 | h1 <;> rcases hs with h2 | h2 | h2 | h2 <;> omega
  rcases List.mem_cons.1 hq with h1 | h1 <;> rcases List.mem_cons.1 hq' with h2 | h2
  · exact hne (h1 ▸ h2)
  · have := hw.node _ (hz q h2).1; omega
  · have := hw.node _ (h.sub q (by simp [h1])); rcases h.sent with h3 | h3 <;> omega
  · exact (hz q h2).2 h1

theorem gc_todo_parent_spec {t0 t : Tree} {F D Mid Nw Td : List Nat} {now todo : Nat}
    {lv : Nat → Nat} {l : Nat} {Pr : List Nat} (hw : Wf t0.toMem F D)
    (h : Bfs t0 t F D Mid Nw Td now todo lv l Pr) {y : Nat} (hy : y ∈ F ++ Mid ++ Nw)
    (hl : lv y + 1 = l) :
    ∃ t' Td' lv', gc_todo_parent t y todo = .ok t' ∧
      Bfs t0 t' F D Mid Nw Td' now todo lv' l (y :: Pr) := by
  have hyS : y ∈ F ++ Mid ++ Nw ++ Td := List.mem_append_left _ hy
  have hya0 : y ∈ t0.alloc := h.sub y hyS
  have hya : y ∈ t.alloc := by rw [h.alloc]; exact hya0
  have hy0 : y ≠ 0 := (hw.wf_ne_sentinel hya0).1
  have hpar : t.parent y = t0.parent y := by rw [h.parent]
  by_cases hx0 : t0.parent y = 0
  · refine ⟨_, Td, lv, gc_todo_parent_null hya hy0 (hpar.trans hx0), ?_⟩
    have hb := h.bfs_M 1
    exact { hb with
      proc := fun q hq => by
        rcases List.mem_cons.1 hq with h1 | h1
        · rw [h1]; exact Or.inl hx0
        · exact h.proc q h1
      prsub := fun q hq => by
        rcases List.mem_cons.1 hq with h1 | h1
        · rw [h1]; exact hy
        · exact h.prsub q h1 }
  · have hxa0 : t0.parent y ∈ t0.alloc := (hw.par y hya0).resolve_left hx0
    have hxa : t.parent y ∈ t.alloc := by rw [hpar, h.alloc]; exact hxa0
    have hx6 := hw.wf_ne_sentinel hxa0
    cases hs : t.seen (t0.parent y)
    · -- the parent is marked now
      have hxS : t0.parent y ∉ F ++ Mid ++ Nw ++ Td := fun hm => by
        have := (h.seen _ hxa0).2 hm
        rw [hs] at this; exact absurd this (by simp)
      have hxD : t0.parent y ∉ D := fun hm => by
        have h1 := ((hw.del _).1 hm).2.2
        have h2 := hw.cnt _ hxa0
        have h3 := nchildren_pos hya0
        omega
      have htodo : 1 ≤ todo ∧ todo ≤ 5 := by rcases h.sent with h1 | h1 <;> omega
      have hrT : t.rl todo ∈ todo :: Td := h.dllT.dll_rl_mem _ (by simp)
      have hsubT : ∀ q ∈ todo :: Td, valid t.toMem q := by
        intro q hq
        rcases List.mem_cons.1 hq with h1 | h1
        · right; rw [h1]; exact htodo
        · left; rw [h.alloc]; exact h.sub q (by simp [h1])
      have hxT : t0.parent y ∉ todo :: Td := by
        simp only [List.mem_cons, not_or]
        refine ⟨by rcases h.sent with h1 | h1 <;> omega, fun hm => hxS (by simp [hm])⟩
      have hxr : t.parent y ≠ t.rl todo := by
        rw [hpar]; intro e; exact hxT (e ▸ hrT)
      refine ⟨_, t0.parent y :: Td, upd lv (t0.parent y) l,
        gc_todo_parent_push hya hy0 (by rw [hpar]; exact hx0) hxa (by rw [hpar]; exact hs) htodo
          (hsubT _ hrT) hxr, ?_⟩
      rw [hpar]
      have hframe : ∀ {s : Nat} {zs : List Nat}, DLL t.ll t.rl s zs →
          (s = 1 ∨ s = 2 ∨ s = 5 ∨ s = now) → (∀ p ∈ zs, p ∈ t0.alloc ∧ p ∉ Td) →
          t0.parent y ∉ zs →
          DLL (upd (upd t.ll (t0.parent y) todo) (t.rl todo) (t0.parent y))
            (upd (upd t.rl (t0.parent y) (t.rl todo)) todo (t0.parent y)) s zs := by
        intro s zs hd hs' hz hxz
        have hc := h.todo_cells hw hs' hz
        refine hd.push_frame ?_ (hc todo (by simp)) (hc _ hrT)
        simp only [List.mem_cons, not_or]
        exact ⟨by rcases hs' with h2 | h2 | h2 | h2 <;> rcases h.sent with h3 | h3 <;> omega, hxz⟩
      have hnd := h.nodup
      have hlv : ∀ p ∈ F ++ Mid ++ Nw ++ Td, upd lv (t0.parent y) l p = lv p := fun p hp =>
        upd_ne _ _ (fun e => hxS (e ▸ hp))
      have hm3 : ∀ p, p ∈ F ++ Mid ++ Nw → p ∈ F ++ Mid ++ Nw ++ Td := fun p hp =>
        List.mem_append_left _ hp
      have hm' : ∀ p, p ∈ F ++ Mid ++ Nw ++ (t0.parent y :: Td) ↔
          p = t0.parent y ∨ p ∈ F ++ Mid ++ Nw ++ Td := by
        intro p; simp only [List.mem_append, List.mem_cons]; tauto
      have hdT : ∀ p ∈ F ++ Mid ++ Nw, p ∉ Td := fun p hp hm =>
        (List.nodup_append.1 hnd).2.2 hp hm
      constructor
      · exact ⟨h.same.history, h.same.algo, h.same.stats, h.same.last, h.same.active, h.same.data,
          h.same.depth, h.same.representant, h.same.active_count⟩
      · exact h.parent
      · exact h.children
      · exact h.alloc
      · exact h.output
      · exact h.node_count
      · exact h.sent
      · exact hframe h.dllF (Or.inl rfl)
          (fun p hp => ⟨hw.subF p hp, hdT p (by simp [hp])⟩)
          (fun hm => hxS (by simp [hm]))
      · exact hframe h.dllD (Or.inr (Or.inl rfl))
          (fun p hp => ⟨hw.wf_subD p hp, fun hm => by
            have h5 := ((hw.del p).1 hp).2.2
            obtain ⟨c, hc, hc1, _⟩ := h.wit p (by simp [hm])
            have h6 := nchildren_pos (h.sub c (hm3 c hc))
            rw [hc1] at h6
            have h7 := hw.cnt p (hw.wf_subD p hp)
            omega⟩)
          hxD
      · exact hframe h.dllM (Or.inr (Or.inr (Or.inl rfl)))
          (fun p hp => ⟨h.sub p (by simp [hp]), hdT p (by simp [hp])⟩)
          (fun hm => hxS (by simp [hm]))
      · exact hframe h.dllN (Or.inr (Or.inr (Or.inr rfl)))
          (fun p hp => ⟨h.sub p (by simp [hp]), hdT p (by simp [hp])⟩)
          (fun hm => hxS (by simp [hm]))
      · exact h.dllT.push hxT
      · have : (F ++ Mid ++ Nw ++ (t0.parent y :: Td)).Nodup := by
          rw [List.nodup_append] at hnd ⊢
          refine ⟨hnd.1, List.nodup_cons.2 ⟨fun hm => hxS (by simp [hm]), hnd.2.1⟩, ?_⟩
          intro p hp hp'
          rcases List.mem_cons.1 hp' with h1 | h1
          · exact hxS (by rw [← h1]; exact hm3 p hp)
          · exact hnd.2.2 hp h1
        exact this
      · intro p hp
        rcases (hm' p).1 hp with h1 | h1
        · rw [h1]; exact hxa0
        · exact h.sub p h1
      · intro p hp
        show upd t.seen (t0.parent y) true p = true ↔ _
        rw [hm']
        by_cases hpx : p = t0.parent y
        · simp [hpx]
        · rw [upd_ne _ _ hpx, h.seen p hp]; simp [hpx]
      · intro p hp hpS hpD
        rw [hm'] at hpS
        simp only [not_or] at hpS
        have h1 := h.single p hp hpS.2 hpD
        have h6 := hw.wf_ne_sentinel hp
        have h2 : p ≠ todo := by rcases h.sent with h3 | h3 <;> omega
        have h3 : p ≠ t.rl todo := fun e => by
          rw [← e] at hrT
          rcases List.mem_cons.1 hrT with h4 | h4
          · exact h2 h4
          · exact hpS.2 (by simp [h4])
        show upd (upd t.ll (t0.parent y) todo) (t.rl todo) (t0.parent y) p = p ∧
          upd (upd t.rl (t0.parent y) (t.rl todo)) todo (t0.parent y) p = p
        simp only [upd_apply, hpS.1, h2, h3, if_false]
        exact h1
      · exact h.lpos
      · intro p hp; rw [hlv p (by simp [hp])]; exact h.lvF p hp
      · intro p hp; rw [hlv p (by simp [hp])]; exact h.lvM p hp
      · intro p hp; rw [hlv p (by simp [hp])]; exact h.lvN p hp
      · intro p hp
        rcases List.mem_cons.1 hp with h1 | h1
        · rw [h1, upd_same]
        · rw [hlv p (by simp [h1])]; exact h.lvT p h1
      · intro p hp
        have hp' : p = t0.parent y ∨ p ∈ Mid ++ Nw ++ Td := by
          simp only [List.mem_append, List.mem_cons] at hp ⊢; tauto
        rcases hp' with h1 | h1
        · refine ⟨y, hy, h1.symm, ?_⟩
          rw [h1, upd_same, hlv y hyS]; exact hl
        · obtain ⟨c, hc, hc1, hc2⟩ := h.wit p h1
          refine ⟨c, hc, hc1, ?_⟩
          rw [hlv c (hm3 c hc), hlv p (by
            simp only [List.mem_append] at h1 ⊢; tauto)]
          exact hc2
      · intro q hq
        rcases List.mem_cons.1 hq with h1 | h1
        · right
          rw [h1]
          refine ⟨(hm' _).2 (Or.inl rfl), ?_⟩
          rw [upd_same, hlv y hyS]; omega
        · have hqS := hm3 q (h.prsub q h1)
          rcases h.proc q h1 with h2 | h2
          · exact Or.inl h2
          · right
            refine ⟨(hm' _).2 (Or.inr h2.1), ?_⟩
            rw [hlv _ h2.1, hlv q hqS]; exact h2.2
      · intro q hq
        rcases List.mem_cons.1 hq with h1 | h1
        · rw [h1]; exact hy
        · exact h.prsub q h1
    · -- the parent is marked already
      have hxS : t0.parent y ∈ F ++ Mid ++ Nw ++ Td := (h.seen _ hxa0).1 hs
      refine ⟨_, Td, lv, gc_todo_parent_seen hya hy0 (by rw [hpar]; exact hx0) hxa
        (by rw [hpar]; exact hs), ?_⟩
      have hb := (h.bfs_M 1).bfs_M 1
      exact { hb with
        proc := fun q hq => by
          rcases List.mem_cons.1 hq with h1 | h1
          · rw [h1]; right
            exact ⟨hxS, by have := h.lv_le hxS; omega⟩
          · exact h.proc q h1
        prsub := fun q hq => by
          rcases List.mem_cons.1 hq with h1 | h1
          · rw [h1]; exact hy
          · exact h.prsub q h1 }

/-- One traversal of the mark phase: the parents of the nodes of `Src`, which
is the frontier in the first traversal and the list `now` afterwards. -/
theorem bfs_pass {t0 : Tree} {F D Mid Nw : List Nat} {now todo : Nat} {l : Nat}
    (hw : Wf t0.toMem F D) {Src : List Nat} {s : Nat} (c : Int)
    (hsrc : (Src = F ∧ s = s_active ∧ l = 1) ∨ (Src = Nw ∧ s = now)) {Pr : List Nat} :
    ∀ (fuel : Nat) (t : Tree) (Td : List Nat) (lv : Nat → Nat), Src.length < fuel →
      Bfs t0 t F D Mid Nw Td now todo lv l Pr →
      ∃ t' Td' lv' Pr', for_rl (fun t n => gc_todo_parent t n todo) c s fuel t (Src.headD s)
          = .ok t' ∧
        Bfs t0 t' F D Mid Nw Td' now todo lv' l Pr' ∧ (∀ q ∈ Src, q ∈ Pr') ∧
        (∀ q ∈ Pr, q ∈ Pr') := by
  intro fuel t Td lv hf hb
  let P : List Nat → Tree → Prop := fun rest t =>
    ∃ Td lv Pr' pre, Src = pre ++ rest ∧ Bfs t0 t F D Mid Nw Td now todo lv l Pr' ∧
      (∀ q ∈ pre, q ∈ Pr') ∧ (∀ q ∈ Pr, q ∈ Pr')
  have hM : ∀ l' t k, P l' t → P l' (M k t) := by
    rintro l' t k ⟨Td, lv, Pr', pre, h1, h2, h3, h4⟩
    exact ⟨Td, lv, Pr', pre, h1, h2.bfs_M k, h3, h4⟩
  have hstep : ∀ x rest t, P (x :: rest) t → x ≠ s ∧
      ∃ t', (fun t n => gc_todo_parent t n todo) t x = .ok t' ∧
        valid t'.toMem x ∧ t'.rl x = rest.headD s ∧ P rest t' := by
    rintro x rest t ⟨Td, lv, Pr', pre, h1, h2, h3, h4⟩
    have hxS : x ∈ Src := by rw [h1]; simp
    have hx3 : x ∈ F ++ Mid ++ Nw := by
      rcases hsrc with ⟨e, _, _⟩ | ⟨e, _⟩
      · rw [e] at hxS; simp [hxS]
      · rw [e] at hxS; simp [hxS]
    have hxa : x ∈ t0.alloc := h2.sub x (List.mem_append_left _ hx3)
    have hx6 := hw.wf_ne_sentinel hxa
    have hlx : lv x + 1 = l := by
      rcases hsrc with ⟨e, _, e2⟩ | ⟨e, _⟩
      · rw [e] at hxS; rw [h2.lvF x hxS, e2]
      · rw [e] at hxS; exact (h2.lvN x hxS).2
    have hxs : x ≠ s := by
      rcases hsrc with ⟨_, e, _⟩ | ⟨_, e⟩
      · rw [e]; exact hx6.2.1
      · rw [e]; rcases h2.sent with h5 | h5 <;> omega
    obtain ⟨t', Td', lv', he, hb'⟩ := gc_todo_parent_spec hw h2 hx3 hlx
    refine ⟨hxs, t', he, ?_, ?_, Td', lv', x :: Pr', pre ++ [x], ?_, hb', ?_, ?_⟩
    · left; rw [hb'.alloc]; exact hxa
    · rcases hsrc with ⟨e, e1, _⟩ | ⟨e, e1⟩
      · have hd := hb'.dllF
        rw [← e, h1] at hd
        rw [e1]; exact hd.rl_next
      · have hd := hb'.dllN
        rw [← e, h1] at hd
        rw [e1]; exact hd.rl_next
    · rw [h1]; simp
    · intro q hq
      rcases List.mem_append.1 hq with h5 | h5
      · exact List.mem_cons_of_mem _ (h3 q h5)
      · simp at h5; simp [h5]
    · exact fun q hq => List.mem_cons_of_mem _ (h4 q hq)
  obtain ⟨t', he, Td', lv', Pr', pre, h1, h2, h3, h4⟩ :=
    for_rl_spec (c := c) P hM hstep Src fuel t hf ⟨Td, lv, Pr, [], rfl, hb, by simp, fun q hq => hq⟩
  refine ⟨t', Td', lv', Pr', he, h2, ?_, h4⟩
  intro q hq
  apply h3
  rw [List.append_nil] at h1
  rw [← h1]; exact hq

theorem Bfs.swap {t0 t : Tree} {F D Mid Td : List Nat} {now todo : Nat} {lv : Nat → Nat}
    {l : Nat} {Pr : List Nat} (h : Bfs t0 t F D Mid [] Td now todo lv l Pr) :
    Bfs t0 t F D Mid Td [] todo now lv (l + 1) Pr := by
  have e1 : F ++ Mid ++ Td ++ [] = F ++ Mid ++ [] ++ Td := by simp
  have m1 : ∀ p, p ∈ F ++ Mid ++ Td ++ [] ↔ p ∈ F ++ Mid ++ [] ++ Td := fun p => by rw [e1]
  constructor
  · exact h.same
  · exact h.parent
  · exact h.children
  · exact h.alloc
  · exact h.output
  · exact h.node_count
  · rcases h.sent with h1 | h1
    · exact Or.inr ⟨h1.2, h1.1⟩
    · exact Or.inl ⟨h1.2, h1.1⟩
  · exact h.dllF
  · exact h.dllD
  · exact h.dllM
  · exact h.dllT
  · exact h.dllN
  · rw [e1]; exact h.nodup
  · intro p hp; exact h.sub p ((m1 p).1 hp)
  · intro p hp; rw [h.seen p hp, e1]
  · intro p hp hpS; exact h.single p hp (fun hm => hpS ((m1 p).2 hm))
  · omega
  · exact h.lvF
  · intro p hp; have := h.lvM p hp; omega
  · intro p hp
    have := h.lvT p hp
    have := h.lpos
    omega
  · intro p hp; simp at hp
  · intro p hp
    obtain ⟨c, hc, hc1, hc2⟩ := h.wit p (by simpa using hp)
    obtain ⟨d, hd, hd1, hd2⟩ := h.wit p (by simpa using hp)
    exact ⟨c, by simp at hc ⊢; tauto, hc1, hc2⟩
  · intro q hq
    rcases h.proc q hq with h1 | h1
    · exact Or.inl h1
    · exact Or.inr ⟨(m1 _).2 h1.1, h1.2⟩
  · intro q hq
    have := h.prsub q hq
    simp at this ⊢; tauto

theorem Bfs.bfs_splice {t0 t : Tree} {F D Mid Td : List Nat} {now todo : Nat} {lv : Nat → Nat}
    {l : Nat} {Pr : List Nat} {x : Nat} {xs : List Nat} (hw : Wf t0.toMem F D)
    (h : Bfs t0 t F D Mid (x :: xs) Td now todo lv l Pr) (k : Int) :
    Bfs t0 { t with toMem := t.toMem.splice now x xs, mems := k } F D (x :: xs ++ Mid) [] Td now todo
      lv l Pr := by
  have e1 : ∀ p, p ∈ F ++ (x :: xs ++ Mid) ++ [] ++ Td ↔ p ∈ F ++ Mid ++ (x :: xs) ++ Td := by
    intro p; simp only [List.mem_append, List.mem_cons, List.not_mem_nil, or_false]; tauto
  have hnow : now = 3 ∨ now = 4 := by rcases h.sent with h1 | h1 <;> simp [h1.1]
  have htodo : todo = 3 ∨ todo = 4 := by rcases h.sent with h1 | h1 <;> simp [h1.2]
  have hnt : now ≠ todo := by rcases h.sent with h1 | h1 <;> omega
  have hS6 : ∀ p ∈ F ++ Mid ++ (x :: xs) ++ Td, 6 ≤ p := fun p hp => hw.node p (h.sub p hp)
  have hD6 : ∀ p ∈ D, 6 ≤ p := fun p hp => hw.node p (hw.wf_subD p hp)
  have hnd := h.nodup
  have hNM : ∀ p ∈ now :: x :: xs, p ∉ sentinel_c :: Mid := by
    intro p hp hp'
    rcases List.mem_cons.1 hp with h1 | h1 <;> rcases List.mem_cons.1 hp' with h2 | h2
    · rw [h1] at h2; simp at h2; omega
    · have := hS6 p (by simp [h2]); omega
    · have := hS6 p (by simp only [List.mem_append]; tauto); rw [h2] at this; simp at this
    · simp only [List.nodup_append, List.mem_append, List.disjoint_append_left,
        List.disjoint_append_right] at hnd
      exact hnd.1.2.2.2 h2 h1
  have hsp := DLL.dll_splice h.dllN h.dllM hNM
  have hrM : t.rl sentinel_c ∈ sentinel_c :: Mid := h.dllM.dll_rl_mem _ (by simp)
  have hframe : ∀ {s : Nat} {zs : List Nat}, DLL t.ll t.rl s zs → (s = 1 ∨ s = 2 ∨ s = todo) →
      (∀ p ∈ zs, 6 ≤ p ∧ p ∉ x :: xs ∧ p ∉ Mid) →
      DLL (t.toMem.splice now x xs).ll (t.toMem.splice now x xs).rl s zs := by
    intro s zs hd hs hz
    refine hd.splice_frame ?_ ?_ ?_ ?_
    · intro hm
      rcases List.mem_cons.1 hm with h1 | h1
      · rcases hs with h2 | h2 | h2 <;> omega
      · have := (hz _ h1).1; omega
    · intro hm
      rcases List.mem_cons.1 hm with h1 | h1
      · simp at h1; rcases hs with h2 | h2 | h2 <;> omega
      · have := (hz _ h1).1; simp at this
    · intro p hp hm
      rcases List.mem_cons.1 hm with h1 | h1
      · have := hS6 p (by simp only [List.mem_append]; tauto)
        rcases hs with h2 | h2 | h2 <;> omega
      · exact (hz p h1).2.1 hp
    · intro hm
      rcases List.mem_cons.1 hrM with h3 | h3 <;> rcases List.mem_cons.1 hm with h1 | h1
      · rw [h3] at h1; simp at h1; rcases hs with h2 | h2 | h2 <;> omega
      · have := (hz _ h1).1; rw [h3] at this; simp at this
      · have := hS6 _ (by simp only [List.mem_append]; exact Or.inl (Or.inl (Or.inr h3)))
        rcases hs with h2 | h2 | h2 <;> omega
      · exact (hz _ h1).2.2 h3
  simp only [List.nodup_append, List.mem_append, List.disjoint_append_left,
    List.disjoint_append_right] at hnd
  constructor
  · exact ⟨h.same.history, h.same.algo, h.same.stats, h.same.last, h.same.active, h.same.data,
      h.same.depth, h.same.representant, h.same.active_count⟩
  · exact h.parent
  · exact h.children
  · exact h.alloc
  · exact h.output
  · exact h.node_count
  · exact h.sent
  · exact hframe h.dllF (Or.inl rfl) (fun p hp =>
      ⟨hS6 p (by simp [hp]), fun hm => hnd.1.2.2.1 hp hm, fun hm => hnd.1.1.2.2 hp hm⟩)
  · exact hframe h.dllD (Or.inr (Or.inl rfl)) (fun p hp => by
      have hpS : p ∉ F ++ Mid ++ (x :: xs) ++ Td := fun hm => by
        have h1 := (h.seen p (hw.wf_subD p hp)).2 hm
        rcases List.mem_append.1 hm with h2 | h2
        · rcases List.mem_append.1 h2 with h3 | h3
          · rcases List.mem_append.1 h3 with h4 | h4
            · exact hw.wf_disj p h4 hp
            · obtain ⟨c, hc, hc1, _⟩ := h.wit p (by simp [h4])
              have h6 := nchildren_pos (h.sub c (List.mem_append_left _ hc))
              rw [hc1] at h6
              have := hw.cnt p (hw.wf_subD p hp)
              have := ((hw.del p).1 hp).2.2
              omega
          · obtain ⟨c, hc, hc1, _⟩ := h.wit p (by
              simp only [List.mem_append]; exact Or.inl (Or.inr h3))
            have h6 := nchildren_pos (h.sub c (List.mem_append_left _ hc))
            rw [hc1] at h6
            have := hw.cnt p (hw.wf_subD p hp)
            have := ((hw.del p).1 hp).2.2
            omega
        · obtain ⟨c, hc, hc1, _⟩ := h.wit p (by simp [h2])
          have h6 := nchildren_pos (h.sub c (List.mem_append_left _ hc))
          rw [hc1] at h6
          have := hw.cnt p (hw.wf_subD p hp)
          have := ((hw.del p).1 hp).2.2
          omega
      refine ⟨hD6 p hp, fun hm => hpS ?_, fun hm => hpS ?_⟩
      · simp only [List.mem_append]; exact Or.inl (Or.inr hm)
      · simp only [List.mem_append]; exact Or.inl (Or.inl (Or.inr hm)))
  · exact hsp.1
  · exact hsp.2
  · exact hframe h.dllT (Or.inr (Or.inr rfl)) (fun p hp =>
      ⟨hS6 p (by simp [hp]), fun hm => hnd.2.2.2 hm hp, fun hm => hnd.2.2.1.2 hm hp⟩)
  · have : (F ++ Mid ++ (x :: xs) ++ Td).Perm (F ++ (x :: xs ++ Mid) ++ [] ++ Td) := by
      rw [List.append_nil]
      refine List.Perm.append_right _ ?_
      rw [List.append_assoc]
      exact List.Perm.append_left _ List.perm_append_comm
    exact this.nodup_iff.1 h.nodup
  · intro p hp; exact h.sub p ((e1 p).1 hp)
  · intro p hp; rw [e1]; exact h.seen p hp
  · intro p hp hpS hpD
    have hpS' : p ∉ F ++ Mid ++ (x :: xs) ++ Td := fun hm => hpS ((e1 p).2 hm)
    have h1 := h.single p hp hpS' hpD
    have h6 := hw.wf_ne_sentinel hp
    have h2 : p ≠ now := by rcases hnow with h3 | h3 <;> omega
    have h3 : p ≠ last1 x xs := fun e => hpS' (by
      have := last1_mem xs x; rw [← e] at this
      simp only [List.mem_append]; exact Or.inl (Or.inr this))
    have h4 : p ≠ x := fun e => hpS' (by simp [e])
    have h5 : p ≠ t.rl sentinel_c := fun e => by
      rw [← e] at hrM
      rcases List.mem_cons.1 hrM with h7 | h7
      · simp at h7; omega
      · exact hpS' (by simp [h7])
    have h8 : p ≠ sentinel_c := by simp; omega
    show upd (upd (upd t.ll x sentinel_c) (t.rl sentinel_c) (last1 x xs)) now now p = p ∧
      upd (upd (upd t.rl (last1 x xs) (t.rl sentinel_c)) sentinel_c x) now now p = p
    simp only [upd_apply, h2, h3, h4, h5, h8, if_false]
    exact h1
  · exact h.lpos
  · exact h.lvF
  · intro p hp
    rcases List.mem_append.1 hp with h1 | h1
    · have := h.lvN p h1; omega
    · exact h.lvM p h1
  · intro p hp; simp at hp
  · exact h.lvT
  · intro p hp
    obtain ⟨c, hc, hc1, hc2⟩ := h.wit p (by
      simp only [List.mem_append, List.mem_cons, List.not_mem_nil, or_false] at hp ⊢; tauto)
    exact ⟨c, by
      simp only [List.mem_append, List.mem_cons, List.not_mem_nil, or_false] at hc ⊢; tauto,
      hc1, hc2⟩
  · intro q hq
    rcases h.proc q hq with h1 | h1
    · exact Or.inl h1
    · exact Or.inr ⟨(e1 _).2 h1.1, h1.2⟩
  · intro q hq
    have := h.prsub q hq
    simp only [List.mem_append, List.mem_cons, List.not_mem_nil, or_false] at this ⊢; tauto

theorem splice_exec {t : Tree} {now x : Nat} {xs : List Nat} {Mid : List Nat}
    (hN : DLL t.ll t.rl now (x :: xs)) (hM : DLL t.ll t.rl sentinel_c Mid)
    (hnow : now = 3 ∨ now = 4) (hx : ∀ p ∈ x :: xs, p ∈ t.alloc ∧ 6 ≤ p)
    (hMid : ∀ p ∈ Mid, p ∈ t.alloc ∧ 6 ≤ p)
    (k : Nat) (layer fuel : Nat) (todo : Nat) :
    gc_layers_move fuel k layer t now todo =
    gc_layers fuel sentinel_c k (layer + 1)
      { t with toMem := t.toMem.splice now x xs, mems := t.mems + 15 } now todo := by
  have hrn : t.rl now = x := hN.rl_head
  have hln : t.ll now = last1 x xs := by
    have := hN.ll_sentinel
    rw [this, last1]
  have hL := last1_mem xs x
  have hLa := hx _ hL
  have hxa := hx x (by simp)
  have hrM : t.rl sentinel_c ∈ sentinel_c :: Mid := hM.dll_rl_mem _ (by simp)
  have hv : t.rl 5 ∈ t.alloc ∨ 1 ≤ t.rl 5 ∧ t.rl 5 ≤ 5 := by
    rcases List.mem_cons.1 hrM with h1 | h1
    · right; rw [show t.rl 5 = 5 from h1]; omega
    · left; exact (hMid _ h1).1
  have h1 : now ≠ last1 x xs := by rcases hnow with h | h <;> omega
  have h2 : now ≠ x := by rcases hnow with h | h <;> omega
  have h3 : last1 x xs ≠ 5 := by omega
  have h4 : x ≠ 5 := by omega
  simp [gc_layers_move, hrn, hln, deref, valid, hLa.1, hxa.1, hv, bind, Except.bind, M, upd_apply, h1, h2, h3, h4,
    Ne.symm h1, Ne.symm h2, Mem.splice]
  congr 2
  ring_nf

theorem gc_layers_succ (fuel k layer : Nat) (t : Tree) (now todo : Nat) :
    gc_layers fuel sentinel_c (k + 1) layer t now todo =
      if layer < t.history ∧ todo ≠ t.rl todo then
        (for_rl (fun t n => gc_todo_parent t n now) 0 todo fuel (M 1 (M 2 t)) (t.rl todo)) >>=
          fun t => gc_layers_move fuel k layer t todo now
      else pure (M 2 t, now, todo) := by
  rw [gc_layers]
  rfl

/-- The layer loop of `gc`. On exit `todo` is empty or holds the nodes of the
last layer. -/
theorem gc_layers_spec {t0 : Tree} {F D : List Nat} (hw : Wf t0.toMem F D) {fuel : Nat}
    (hfuel : t0.alloc.length < fuel) :
    ∀ (k layer : Nat) (t : Tree) (now todo : Nat) (Mid Td : List Nat) (lv : Nat → Nat)
      (l : Nat) (Pr : List Nat), Bfs t0 t F D Mid [] Td now todo lv l Pr → l + 1 = layer →
      (∀ q ∈ F ++ Mid, q ∈ Pr) → 1 ≤ k → t0.history + 1 ≤ k + layer →
      layer ≤ max t0.history 2 →
      ∃ t' now' todo' Mid' Td' lv' l' Pr',
        gc_layers fuel sentinel_c k layer t now todo = .ok (t', now', todo') ∧
        Bfs t0 t' F D Mid' [] Td' now' todo' lv' l' Pr' ∧ (∀ q ∈ F ++ Mid', q ∈ Pr') ∧
        (Td' = [] ∨ t0.history ≤ l' + 1) ∧ l' + 1 ≤ max t0.history 2 := by
  intro k
  induction k with
  | zero => intro layer t now todo Mid Td lv l Pr _ _ _ hk; omega
  | succ k ih =>
    intro layer t now todo Mid Td lv l Pr hb hl hpr _ hkl hmax
    rw [gc_layers_succ]
    have hhist : t.history = t0.history := hb.same.history
    have hrt : t.rl todo = Td.headD todo := hb.dllT.rl_head
    by_cases hc : layer < t.history ∧ todo ≠ t.rl todo
    · rw [if_pos hc]
      -- `todo` is not empty
      obtain ⟨x, xs, hTd⟩ : ∃ x xs, Td = x :: xs := by
        cases Td with
        | nil => exact absurd hrt.symm hc.2
        | cons x xs => exact ⟨x, xs, rfl⟩
      subst hTd
      have hsw := (hb.swap).bfs_M 2 |>.bfs_M 1
      have hlen : (x :: xs).length < fuel := by
        refine lt_of_le_of_lt (length_le_of_nodup_subset ?_ ?_) hfuel
        · have := hb.nodup
          simp only [List.nodup_append] at this
          exact this.2.1
        · intro p hp; exact hb.sub p (by simp only [List.mem_append]; exact Or.inr hp)
      obtain ⟨t1, Td1, lv1, Pr1, he, hb1, hs1, hp1⟩ := @bfs_pass _ _ _ _ _ _ _ _ hw (x :: xs) todo 0
        (Or.inr ⟨rfl, rfl⟩) _ fuel _ [] lv hlen hsw
      rw [hrt, he]
      simp only [bind, Except.bind]
      have hsub1 : ∀ p ∈ F ++ Mid ++ (x :: xs) ++ Td1, p ∈ t1.alloc ∧ 6 ≤ p := fun p hp => by
        rw [hb1.alloc]; exact ⟨hb1.sub p hp, hw.node p (hb1.sub p hp)⟩
      rw [splice_exec hb1.dllN hb1.dllM (by rcases hb1.sent with h1 | h1 <;> simp [h1.1])
        (fun p hp => hsub1 p (by simp only [List.mem_append]; exact Or.inl (Or.inr hp)))
        (fun p hp => hsub1 p (by simp [hp]))]
      have hb2 := hb1.bfs_splice hw (t1.mems + 15)
      obtain ⟨t', now', todo', Mid', Td', lv', l', Pr', e', hb', hpr', hex, hmx⟩ :=
        ih (layer + 1) _ todo now (x :: xs ++ Mid) Td1 lv1 (l + 1) Pr1 hb2 (by omega)
          (fun q hq => by
            simp only [List.mem_append] at hq
            rcases hq with h1 | h1 | h1
            · exact hp1 q (hpr q (by simp [h1]))
            · exact hs1 q h1
            · exact hp1 q (hpr q (by simp [h1])))
          (by omega) (by omega) (by
            have := hc.1; rw [hhist] at this
            omega)
      exact ⟨t', now', todo', Mid', Td', lv', l', Pr', e', hb', hpr', hex, hmx⟩
    · rw [if_neg hc]
      refine ⟨M 2 t, now, todo, Mid, Td, lv, l, Pr, rfl, hb.bfs_M 2, hpr, ?_, by omega⟩
      rw [hhist] at hc
      by_cases h1 : layer < t0.history
      · left
        have : ¬ todo ≠ t.rl todo := fun h2 => hc ⟨h1, h2⟩
        have h3 : t.rl todo = todo := by
          by_contra h4; exact this (Ne.symm h4)
        exact hb.dllT.eq_nil_of_rl h3
      · right; omega

/-! ## The phases of `gc` -/

theorem gc_eq (t : Tree) :
    gc t = (do
      c_assert (t.algo = tb_gc ∨ t.algo = tb_amortized)
      let r ← gc_mark (t.alloc.length + 1) t
      let t1 ← gc_sweep (t.alloc.length + 1) (2 * (t.alloc.length + 1)) r.1 r.2.1 r.2.2
      gc_finish (t.alloc.length + 1) t1 r.2.2) := by
  simp only [gc, gc_mark, gc_scratch, gc_sweep, gc_finish, bind_assoc, pure_bind]
  rfl

/-- A loop of `gc` that sets the mark of every node of a list. -/
theorem seen_loop (b : Bool) (c : Int) {s : Nat} {L : List Nat} {t : Tree}
    (hd : DLL t.ll t.rl s L) (hL : ∀ p ∈ L, p ∈ t.alloc) {fuel : Nat} (hf : L.length < fuel) :
    ∃ k, for_rl (set_seen b) c s fuel t (L.headD s) =
      .ok { t with seen := fun p => if p ∈ L then b else t.seen p, mems := k } := by
  let P : List Nat → Tree → Prop := fun rest t1 =>
    ∃ pre k, L = pre ++ rest ∧
      t1 = { t with seen := fun p => if p ∈ pre then b else t.seen p, mems := k }
  have hM : ∀ l t1 k, P l t1 → P l (M k t1) := by
    rintro l t1 k ⟨pre, k1, h1, h2⟩
    exact ⟨pre, k1 + k, h1, by rw [h2]; rfl⟩
  have hstep : ∀ x rest t1, P (x :: rest) t1 → x ≠ s ∧ ∃ t', set_seen b t1 x = .ok t' ∧
      valid t'.toMem x ∧ t'.rl x = rest.headD s ∧ P rest t' := by
    rintro x rest t1 ⟨pre, k1, h1, h2⟩
    have hx : x ∈ L := by rw [h1]; simp
    have hxs : x ≠ s := by
      rintro rfl
      exact (List.nodup_cons.1 hd.1).1 hx
    have hv : valid t1.toMem x := Or.inl (by rw [h2]; exact hL x hx)
    refine ⟨hxs, M 1 { t1 with seen := upd t1.seen x b }, ?_, hv, ?_, pre ++ [x], k1 + 1, ?_, ?_⟩
    · simp [set_seen, deref, hv, bind, Except.bind, pure, Except.pure]
    · show t1.rl x = _
      rw [h2]
      show t.rl x = _
      rw [h1] at hd
      exact hd.rl_next
    · simp [h1]
    · rw [h2]
      show ({ t with seen := upd (fun p => if p ∈ pre then b else t.seen p) x b,
                     mems := k1 + 1 } : Tree) = _
      congr 2
      funext p
      simp only [upd_apply, List.mem_append, List.mem_singleton]
      by_cases hp : p = x
      · simp [hp]
      · simp [hp]
  obtain ⟨t', he, pre, k, h1, h2⟩ := for_rl_spec (c := c) P hM hstep L fuel t hf
    ⟨[], t.mems, rfl, by simp⟩
  simp only [List.append_nil] at h1
  subst h1
  exact ⟨k, by rw [he, h2]⟩

/-- A loop of `gc` that takes every node off a scratch list. -/
theorem self_link_loop (c : Int) {s : Nat} {L : List Nat} {t : Tree}
    (hd : DLL t.ll t.rl s L) (hL : ∀ p ∈ L, p ∈ t.alloc) {fuel : Nat} (hf : L.length < fuel) :
    ∃ k, for_rl_saved self_link c s fuel t (L.headD s) =
      .ok { t with ll := fun p => if p ∈ L then p else t.ll p,
                   rl := fun p => if p ∈ L then p else t.rl p, mems := k } := by
  let P : List Nat → Tree → Prop := fun rest t1 =>
    ∃ pre k, L = pre ++ rest ∧
      t1 = { t with ll := fun p => if p ∈ pre then p else t.ll p,
                    rl := fun p => if p ∈ pre then p else t.rl p, mems := k }
  have hM : ∀ l t1 k, P l t1 → P l (M k t1) := by
    rintro l t1 k ⟨pre, k1, h1, h2⟩
    exact ⟨pre, k1 + k, h1, by rw [h2]; rfl⟩
  have hstep : ∀ x rest t1, P (x :: rest) t1 → x ≠ s ∧ valid t1.toMem x ∧
      t1.rl x = rest.headD s ∧ ∃ t', self_link t1 x = .ok t' ∧ P rest t' := by
    rintro x rest t1 ⟨pre, k1, h1, h2⟩
    have hx : x ∈ L := by rw [h1]; simp
    have hxs : x ≠ s := by
      rintro rfl
      exact (List.nodup_cons.1 hd.1).1 hx
    have hv : valid t1.toMem x := Or.inl (by rw [h2]; exact hL x hx)
    have hnd : L.Nodup := (List.nodup_cons.1 hd.1).2
    have hxp : x ∉ pre := by
      rw [h1] at hnd
      intro hxp
      exact (List.nodup_append.1 hnd).2.2 hxp (by simp)
    refine ⟨hxs, hv, ?_, M 2 { t1 with ll := upd t1.ll x x, rl := upd t1.rl x x }, ?_,
      pre ++ [x], k1 + 2, ?_, ?_⟩
    · rw [h2]
      show (if x ∈ pre then x else t.rl x) = _
      rw [if_neg hxp]
      rw [h1] at hd
      exact hd.rl_next
    · simp [self_link, deref, hv, bind, Except.bind, pure, Except.pure]
    · simp [h1]
    · rw [h2]
      show ({ t with ll := upd (fun p => if p ∈ pre then p else t.ll p) x x,
                     rl := upd (fun p => if p ∈ pre then p else t.rl p) x x,
                     mems := k1 + 2 } : Tree) = _
      congr 2
      · funext p
        simp only [upd_apply, List.mem_append, List.mem_singleton]
        by_cases hp : p = x
        · simp [hp]
        · simp [hp]
      · funext p
        simp only [upd_apply, List.mem_append, List.mem_singleton]
        by_cases hp : p = x
        · simp [hp]
        · simp [hp]
  obtain ⟨t', he, pre, k, h1, h2⟩ := for_rl_saved_spec (c := c) P hM hstep L fuel t hf
    ⟨[], t.mems, rfl, by simp⟩
  simp only [List.append_nil] at h1
  subst h1
  exact ⟨k, by rw [he, h2]⟩

/-- The mark phase of `gc` ends with the frontier on `t->active`, the last
layer on `todo` and the layers between them on `middle`. -/
theorem gc_mark_spec {t0 : Tree} {F D : List Nat} (hw : Wf t0.toMem F D)
    (hH : 0 < t0.history) :
    ∃ t' now todo Mid Td lv l Pr,
      gc_mark (t0.alloc.length + 1) t0 = .ok (t', now, todo) ∧
      Bfs t0 t' F D Mid [] Td now todo lv l Pr ∧ (∀ q ∈ F ++ Mid, q ∈ Pr) ∧
      (Td = [] ∨ t0.history ≤ l + 1) ∧ l + 1 ≤ max t0.history 2 := by
  have hFlen : F.length < t0.alloc.length + 1 :=
    Nat.lt_succ_of_le (length_le_of_nodup_subset hw.F_nodup hw.subF)
  obtain ⟨k, he⟩ := seen_loop true 1 (t := M 2 t0) (s := s_active) (L := F) hw.dllF hw.subF hFlen
  obtain ⟨t1, ht1⟩ : ∃ t1 : Tree, t1 =
    { M 2 t0 with seen := fun p => if p ∈ F then true else (M 2 t0).seen p, mems := k } := ⟨_, rfl⟩
  rw [← ht1] at he
  have hne : ∀ p ∈ t0.alloc, p ≠ 3 ∧ p ≠ 4 ∧ p ≠ 5 := fun p hp => by
    have := hw.node p hp
    omega
  have hll : ∀ p, p ≠ 3 ∧ p ≠ 4 ∧ p ≠ 5 → (gc_scratch t1).ll p = t0.ll p := fun p hp => by
    simp [gc_scratch, ht1, upd_apply, hp.1, hp.2.1, hp.2.2]
  have hrl : ∀ p, p ≠ 3 ∧ p ≠ 4 ∧ p ≠ 5 → (gc_scratch t1).rl p = t0.rl p := fun p hp => by
    simp [gc_scratch, ht1, upd_apply, hp.1, hp.2.1, hp.2.2]
  have hb0 : Bfs t0 (gc_scratch t1) F D [] [] [] 3 4 (fun _ => 0) 1 [] := by
    refine
      { same := ⟨by rw [ht1]; rfl, by rw [ht1]; rfl, by rw [ht1]; rfl, by rw [ht1]; rfl,
          by rw [ht1]; rfl, by rw [ht1]; rfl, by rw [ht1]; rfl, by rw [ht1]; rfl, by rw [ht1]; rfl⟩
        parent := by rw [ht1]; rfl
        children := by rw [ht1]; rfl
        alloc := by rw [ht1]; rfl
        output := by rw [ht1]; rfl
        node_count := by rw [ht1]; rfl
        sent := Or.inl ⟨rfl, rfl⟩
        dllF := hw.dllF.dll_congr ?_ ?_
        dllD := hw.dllD.dll_congr ?_ ?_
        dllM := DLL.nil (by simp [gc_scratch, upd_apply]) (by simp [gc_scratch, upd_apply])
        dllN := DLL.nil (by simp [gc_scratch, upd_apply]) (by simp [gc_scratch, upd_apply])
        dllT := DLL.nil (by simp [gc_scratch, upd_apply]) (by simp [gc_scratch, upd_apply])
        nodup := by simpa using hw.F_nodup
        sub := fun p hp => hw.subF p (by simpa using hp)
        seen := fun p hp => ?_
        single := fun p hp h1 h2 => ?_
        lpos := le_refl 1
        lvF := fun _ _ => rfl
        lvM := fun p hp => by simp at hp
        lvN := fun p hp => by simp at hp
        lvT := fun p hp => by simp at hp
        wit := fun p hp => by simp at hp
        proc := fun p hp => by simp at hp
        prsub := fun p hp => by simp at hp }
    · intro p hp
      refine hrl p ?_
      rcases List.mem_cons.1 hp with h | h
      · subst h; simp
      · exact hne p (hw.subF p h)
    · intro p hp
      refine hll p ?_
      rcases List.mem_cons.1 hp with h | h
      · subst h; simp
      · exact hne p (hw.subF p h)
    · intro p hp
      refine hrl p ?_
      rcases List.mem_cons.1 hp with h | h
      · subst h; simp
      · exact hne p (hw.wf_subD p h)
    · intro p hp
      refine hll p ?_
      rcases List.mem_cons.1 hp with h | h
      · subst h; simp
      · exact hne p (hw.wf_subD p h)
    · have h0 := hw.seen p hp
      have : (gc_scratch t1).seen p = if p ∈ F then true else t0.seen p := by
        rw [ht1]; rfl
      rw [this, h0]
      simp
    · rw [hll p (hne p hp), hrl p (hne p hp)]
      exact hw.single p hp (fun h => h1 (by simpa using h)) h2
  obtain ⟨t2, Td, lv, Pr, he2, hb2, hs2, -⟩ := @bfs_pass _ _ _ _ _ _ _ _ hw F s_active 1
    (Or.inl ⟨rfl, rfl, rfl⟩) _ (t0.alloc.length + 1) (M 2 (gc_scratch t1)) [] (fun _ => 0) hFlen
    (hb0.bfs_M 2)
  obtain ⟨t', now', todo', Mid', Td', lv', l', Pr', e', hb', hpr', hex, hmx⟩ :=
    gc_layers_spec hw (Nat.lt_succ_self _) t0.history 2 t2 3 4 [] Td lv 1 Pr hb2 rfl
      (fun q hq => hs2 q (by simpa using hq)) hH (by omega) (le_max_right _ _)
  refine ⟨t', now', todo', Mid', Td', lv', l', Pr', ?_, hb', hpr', hex, hmx⟩
  have h1 : (M 2 t0).rl s_active = F.headD s_active := hw.dllF.rl_head
  have h2 : (gc_scratch t1).rl s_active = F.headD s_active := hb0.dllF.rl_head
  have h1' : t0.rl s_active = F.headD s_active := hw.dllF.rl_head
  simp only [gc_mark, bind, Except.bind, h1', he, h2, he2, hb2.same.history]
  exact e'

/-! ## The sweep phase of `gc` -/

theorem upd_self_eq {β : Type} (f : Nat → β) (y : Nat) (v : β) (h : f y = v) : upd f y v = f := by
  funext q
  by_cases hq : q = y
  · subst hq; simp [h]
  · simp [upd_apply, hq]

theorem nz_cut {l : List Nat} {par : Nat → Nat} {y : Nat} (hn : l.Nodup) (hy : y ∈ l)
    (h0 : par y ≠ 0) :
    l.countP (fun q => decide (upd par y 0 q ≠ 0)) + 1 = l.countP (fun q => decide (par q ≠ 0)) := by
  induction l with
  | nil => simp at hy
  | cons a l ih =>
    rw [List.nodup_cons] at hn
    rcases List.mem_cons.1 hy with rfl | hy1
    · have : l.countP (fun q => decide (upd par y 0 q ≠ 0)) =
          l.countP (fun q => decide (par q ≠ 0)) := by
        apply countP_congr_mem
        intro q hq
        have : q ≠ y := fun e => hn.1 (e ▸ hq)
        simp [upd_apply, this]
      rw [List.countP_cons, List.countP_cons, this]
      simp [h0]
    · have hay : a ≠ y := fun e => hn.1 (e ▸ hy1)
      have := ih hn.2 hy1
      rw [List.countP_cons, List.countP_cons, upd_ne par 0 hay]
      omega

/-- The sweep starts in the state the mark phase has left. -/
theorem Sweep.start {t0 tb : Tree} {F D Mid Td : List Nat} {now todo : Nat} {lv : Nat → Nat}
    {l : Nat} {Pr : List Nat} (hw : Wf t0.toMem F D)
    (hb : Bfs t0 tb F D Mid [] Td now todo lv l Pr)
    (ham : t0.algo = tb_amortized → t0.node_count = t0.alloc.length) :
    Sweep tb tb Td D := by
  have hcnt : ∀ p, nchildren tb.toMem p = nchildren t0.toMem p := fun p => by
    show tb.alloc.countP _ = t0.alloc.countP _
    rw [hb.alloc, hb.parent]
  have hact : ∀ p ∈ tb.alloc, tb.seen p = false → tb.active p = false := fun p hp hs => by
    rw [hb.alloc] at hp
    rw [hb.same.active]
    by_contra ha
    have ha' : t0.active p = true := by simpa using ha
    have hF := (hw.act p hp).1 ha'
    have := (hb.seen p hp).2 (by simp [hF])
    rw [hs] at this; exact absurd this (by simp)
  refine
    { same := ⟨rfl, rfl, rfl, rfl, rfl, rfl, rfl, rfl, rfl⟩
      seen := rfl
      ll := rfl
      rl := rfl
      nodup := by rw [hb.alloc]; exact hw.nodup
      sub := fun p hp => hp
      node := fun p hp => hw.node p (by rw [← hb.alloc]; exact hp)
      keep := fun p hp _ => hp
      act := hact
      par := fun p hp => ?_
      kept := fun _ _ _ _ => rfl
      cnt := fun p hp => ?_
      pend := fun p => ?_
      am := fun ha => ?_ }
  · rw [hb.alloc] at hp ⊢
    rw [hb.parent]
    rcases hw.par p hp with h | h
    · exact Or.inl h
    · exact Or.inr ⟨rfl, h⟩
  · rw [hb.children, hcnt]
    exact hw.cnt p (by rw [← hb.alloc]; exact hp)
  · rw [hw.del p, hb.alloc, hb.children]
    constructor
    · rintro ⟨h1, h2, h3⟩
      refine ⟨h1, ?_, h3⟩
      by_contra hs
      have hs' : tb.seen p = true := by simpa using hs
      have hm := (hb.seen p h1).1 hs'
      simp only [List.append_nil, List.mem_append] at hm
      rcases hm with (hm | hm) | hm
      · have := (hw.act p h1).2 hm
        rw [h2] at this; exact absurd this (by simp)
      · obtain ⟨c, hc, hpc, -⟩ := hb.wit p (by simp [hm])
        have hca : c ∈ t0.alloc := hb.sub c (by
          simp only [List.append_nil, List.mem_append] at hc ⊢
          tauto)
        have := nchildren_pos (m := t0.toMem) hca
        rw [hpc] at this
        have h4 := hw.cnt p h1
        omega
      · obtain ⟨c, hc, hpc, -⟩ := hb.wit p (by simp [hm])
        have hca : c ∈ t0.alloc := hb.sub c (by
          simp only [List.append_nil, List.mem_append] at hc ⊢
          tauto)
        have := nchildren_pos (m := t0.toMem) hca
        rw [hpc] at this
        have h4 := hw.cnt p h1
        omega
    · rintro ⟨h1, h2, h3⟩
      refine ⟨h1, ?_, h3⟩
      have := hact p (by rw [hb.alloc]; exact h1) h2
      rw [hb.same.active] at this
      exact this
  · rw [hb.same.algo] at ha
    rw [hb.node_count, hb.alloc]
    exact ham ha

/-- A node without a parent: `gc_parent` changes nothing but the count of the
memory references. -/
theorem Sweep.cut0 {tb t : Tree} {T P : List Nat} (hs : Sweep tb t T P) {y : Nat}
    (h0 : t.parent y = 0) (k : Int) :
    Sweep tb { t with parent := upd t.parent y 0, mems := k } T P := by
  have e : upd t.parent y 0 = t.parent := upd_self_eq _ _ _ h0
  obtain ⟨a1, a2, a3, a4, a5, a6, a7, a8, a9, a10, a11, a12, a13, a14⟩ := hs
  refine ⟨⟨a1.1, a1.2, a1.3, a1.4, a1.5, a1.6, a1.7, a1.8, a1.9⟩, a2, a3, a4, a5, a6, a7, a8, a9,
    ?_, ?_, ?_, a13, a14⟩
  · show ∀ p ∈ t.alloc, upd t.parent y 0 p = 0 ∨ _
    rw [e]; exact a10
  · show ∀ p ∈ t.alloc, _ → _ → upd t.parent y 0 p = _
    rw [e]; exact a11
  · intro p hp
    show t.children p = ((t.alloc.countP (fun q => decide (upd t.parent y 0 q = p)) : Nat) : Int)
    rw [e]; exact a12 p hp

/-- The assignments of `gc_parent` on a node with a parent. -/
theorem Sweep.cut1 {tb t : Tree} {T P : List Nat} (hs : Sweep tb t T P) {y : Nat}
    (hy : y ∈ t.alloc) (hyT : t.seen y = true → y ∈ T) (h0 : t.parent y ≠ 0) (k : Int) :
    Sweep tb { t with parent := upd t.parent y 0,
                      children := upd t.children (t.parent y) (t.children (t.parent y) - 1),
                      mems := k } T
      (if t.children (t.parent y) - 1 = 0 ∧ t.seen (t.parent y) = false then t.parent y :: P
       else P) := by
  have hxa : t.parent y ∈ t.alloc := ((hs.par y hy).resolve_left h0).2
  have hpos := nchildren_pos (m := t.toMem) hy
  have hcx := hs.cnt _ hxa
  have hxP : t.parent y ∉ P := fun h => by
    have := ((hs.pend _).1 h).2.2
    omega
  obtain ⟨a1, a2, a3, a4, a5, a6, a7, a8, a9, a10, a11, a12, a13, a14⟩ := hs
  refine ⟨⟨a1.1, a1.2, a1.3, a1.4, a1.5, a1.6, a1.7, a1.8, a1.9⟩, a2, a3, a4, a5, a6, a7, a8, a9,
    ?_, ?_, ?_, ?_, a14⟩
  · intro p hp
    show upd t.parent y 0 p = 0 ∨ (upd t.parent y 0 p = _ ∧ upd t.parent y 0 p ∈ t.alloc)
    by_cases hpy : p = y
    · left; rw [hpy]; simp
    · rw [upd_ne _ _ hpy]; exact a10 p hp
  · intro p hp h1 h2
    show upd t.parent y 0 p = _
    have hpy : p ≠ y := by
      rintro rfl
      exact h2 (hyT h1)
    rw [upd_ne _ _ hpy]; exact a11 p hp h1 h2
  · intro p hp
    show upd t.children (t.parent y) (t.children (t.parent y) - 1) p =
      ((t.alloc.countP (fun q => decide (upd t.parent y 0 q = p)) : Nat) : Int)
    have h1 := nchildren_cut (m := t.toMem) a5 hy (p := p) (by have := a7 p hp; omega)
    have h2 := a12 p hp
    by_cases hpx : p = t.parent y
    · subst hpx; simp only [upd_same, if_true] at h1 ⊢; omega
    · simp only [upd_apply, hpx, Ne.symm hpx, if_false] at h1 ⊢; omega
  · intro p
    show _ ↔ (p ∈ t.alloc ∧ t.seen p = false ∧
      upd t.children (t.parent y) (t.children (t.parent y) - 1) p = 0)
    by_cases hpx : p = t.parent y
    · subst hpx
      rw [upd_same]
      by_cases hc : t.children (t.parent y) - 1 = 0 ∧ t.seen (t.parent y) = false
      · rw [if_pos hc]; simp [hxa, hc.1, hc.2]
      · rw [if_neg hc]
        constructor
        · intro h; exact absurd h hxP
        · rintro ⟨-, h2, h3⟩; exact absurd ⟨h3, h2⟩ hc
    · rw [upd_ne _ _ hpx, ← a13 p]
      split
      · simp [hpx]
      · rfl

/-- A node that waits to be freed, and has no parent any more, is freed. -/
theorem Sweep.sweep_free {tb t : Tree} {T P P' : List Nat} (hs : Sweep tb t T P) {x : Nat}
    (hx : x ∈ P) (hpx : t.parent x = 0) (hP' : ∀ p, p ∈ P' ↔ p ∈ P ∧ p ≠ x)
    (n k : Int) (o : List Line) (hn : t.algo = tb_amortized → n = t.node_count - 1) :
    Sweep tb { t with alloc := t.alloc.erase x, node_count := n, output := o, mems := k } T P' := by
  obtain ⟨hxa, hxs, hxc⟩ := (hs.pend x).1 hx
  have hmem : ∀ p, p ∈ t.alloc.erase x ↔ p ≠ x ∧ p ∈ t.alloc := fun p => hs.nodup.mem_erase_iff
  have hnc : ∀ q ∈ t.alloc, t.parent q ≠ x := fun q hq e => by
    have h1 := nchildren_pos (m := t.toMem) hq
    rw [e] at h1
    have h2 := hs.cnt x hxa
    omega
  obtain ⟨a1, a2, a3, a4, a5, a6, a7, a8, a9, a10, a11, a12, a13, a14⟩ := hs
  refine ⟨⟨a1.1, a1.2, a1.3, a1.4, a1.5, a1.6, a1.7, a1.8, a1.9⟩, a2, a3, a4, ?_, ?_, ?_, ?_, ?_,
    ?_, ?_, ?_, ?_, ?_⟩
  · exact a5.erase x
  · intro p hp; exact a6 p ((hmem p).1 hp).2
  · intro p hp; exact a7 p ((hmem p).1 hp).2
  · intro p hp h1
    refine (hmem p).2 ⟨?_, a8 p hp h1⟩
    rintro rfl
    rw [← a2, hxs] at h1; exact absurd h1 (by simp)
  · intro p hp; exact a9 p ((hmem p).1 hp).2
  · intro p hp
    have hp' := (hmem p).1 hp
    rcases a10 p hp'.2 with h | h
    · exact Or.inl h
    · exact Or.inr ⟨h.1, (hmem _).2 ⟨fun e => hnc p hp'.2 e, h.2⟩⟩
  · intro p hp; exact a11 p ((hmem p).1 hp).2
  · intro p hp
    have hp' := (hmem p).1 hp
    show t.children p = (((t.alloc.erase x).countP (fun q => decide (t.parent q = p)) : Nat) : Int)
    have h1 := countP_erase_eq (P := fun q => decide (t.parent q = p)) a5 hxa
    have h2 := a12 p hp'.2
    have h3 : t.parent x ≠ p := by
      rw [hpx]; have := a7 p hp'.2; omega
    simp only [h3, decide_False, Bool.false_eq_true, if_false, Nat.add_zero] at h1
    rw [h1]; exact h2
  · intro p
    rw [hP' p, a13 p]
    show _ ↔ (p ∈ t.alloc.erase x ∧ _)
    rw [hmem p]
    tauto
  · intro ha
    show n = (((t.alloc.erase x).length : Nat) : Int)
    rw [hn ha, a14 ha, List.length_erase_of_mem hxa]
    have : 0 < t.alloc.length := List.length_pos_of_mem hxa
    omega

/-- What `gc_node` does after the call of `gc_parent`. -/
theorem gc_node_tail (t : Tree) (x : Nat) :
    ∃ (n k : Int) (o : List Line),
      print_statistic (if t.algo = tb_amortized then
          M 1 { t with alloc := t.alloc.erase x, node_count := t.node_count - 1 }
        else { t with alloc := t.alloc.erase x }) (.S (-1)) =
        { t with alloc := t.alloc.erase x, node_count := n, output := o, mems := k } ∧
      (t.algo = tb_amortized → n = t.node_count - 1) := by
  by_cases ha : t.algo = tb_amortized
  · by_cases hs : t.statistics_file = true
    · exact ⟨t.node_count - 1, t.mems + 1, t.output ++ [.S (-1)],
        by simp [ha, print_statistic, hs, M], fun _ => rfl⟩
    · exact ⟨t.node_count - 1, t.mems + 1, t.output, by simp [ha, print_statistic, hs, M],
        fun _ => rfl⟩
  · by_cases hs : t.statistics_file = true
    · exact ⟨t.node_count, t.mems, t.output ++ [.S (-1)], by simp [ha, print_statistic, hs],
        fun h => absurd h ha⟩
    · exact ⟨t.node_count, t.mems, t.output, by simp [ha, print_statistic, hs],
        fun h => absurd h ha⟩

/-! ## The calls of `gc_parent` and `gc_node` -/

theorem gc_parent_succ (fuel : Nat) (t : Tree) (y : Nat) (hy : y ∈ t.alloc) (hy0 : y ≠ 0)
    (hx : t.parent y = 0 ∨ t.parent y ∈ t.alloc) :
    gc_parent (fuel + 1) t y =
      if t.parent y = 0 then .ok { t with parent := upd t.parent y 0, mems := t.mems + 1 + 1 }
      else if t.children (t.parent y) - 1 = 0 then
        if t.seen (t.parent y) = false then
          gc_node fuel { t with parent := upd t.parent y 0,
                                children := upd t.children (t.parent y) (t.children (t.parent y) - 1),
                                mems := t.mems + 1 + 1 + 1 + 1 } (t.parent y)
        else .ok { t with parent := upd t.parent y 0,
                          children := upd t.children (t.parent y) (t.children (t.parent y) - 1),
                          mems := t.mems + 1 + 1 + 1 + 1 }
      else .ok { t with parent := upd t.parent y 0,
                        children := upd t.children (t.parent y) (t.children (t.parent y) - 1),
                        mems := t.mems + 1 + 1 + 1 } := by
  have hv : valid t.toMem y := Or.inl hy
  rw [gc_parent]
  by_cases h0 : t.parent y = 0
  · simp [c_assert, deref, hv, hy0, h0, M, bind, Except.bind, pure, Except.pure]
  · have hxa : t.parent y ∈ t.alloc := hx.resolve_left h0
    have hvx : valid t.toMem (t.parent y) := Or.inl hxa
    by_cases hc : t.children (t.parent y) - 1 = 0
    · by_cases hs : t.seen (t.parent y) = false
      · simp [c_assert, deref, valid, hy, hxa, hy0, h0, hc, hs, M, bind, Except.bind, pure,
          Except.pure]
      · simp [c_assert, deref, valid, hy, hxa, hy0, h0, hc, hs, M, bind, Except.bind, pure,
          Except.pure]
    · simp [c_assert, deref, valid, hy, hxa, hy0, h0, hc, M, bind, Except.bind, pure,
        Except.pure]

theorem gc_node_succ (fuel : Nat) (t : Tree) (x : Nat) (hx : x ∈ t.alloc) (hx0 : x ≠ 0)
    (hs : t.seen x = false) (ha : t.active x = false) (hc : t.children x = 0) :
    gc_node (fuel + 1) t x = (gc_parent fuel t x >>= fun t1 =>
      free t1 x >>= fun t2 =>
      pure (print_statistic (if t2.algo = tb_amortized then
        M 1 { t2 with node_count := t2.node_count - 1 } else t2) (.S (-1)))) := by
  rw [gc_node]
  simp [c_assert, deref, valid, hx, hx0, hs, ha, hc, bind, Except.bind, pure, Except.pure]

theorem nz_le (m : Mem) : nz m ≤ m.alloc.length := List.countP_le_length _

/-- Given fuel for two calls per node that has a parent, `gc_parent` and
`gc_node` return, and keep the invariant of the sweep. -/
theorem gc_calls_ok {tb : Tree} {T : List Nat} : ∀ fuel : Nat,
    (∀ (t : Tree) (y : Nat) (P : List Nat), Sweep tb t T P → y ∈ t.alloc →
      (t.seen y = true → y ∈ T) → 2 * nz t.toMem + 1 ≤ fuel →
      ∃ t', gc_parent fuel t y = .ok t' ∧ Sweep tb t' T P ∧ t'.parent y = 0 ∧
        (∀ p, t.parent p = 0 → t'.parent p = 0)) ∧
    (∀ (t : Tree) (x : Nat) (P P' : List Nat), Sweep tb t T P → x ∈ P →
      (∀ p, p ∈ P' ↔ p ∈ P ∧ p ≠ x) → 2 * nz t.toMem + 2 ≤ fuel →
      ∃ t', gc_node fuel t x = .ok t' ∧ Sweep tb t' T P' ∧
        (∀ p, t.parent p = 0 → t'.parent p = 0)) := by
  intro fuel
  induction fuel with
  | zero =>
    exact ⟨fun t y P _ _ _ hf => by omega, fun t x P P' _ _ _ hf => by omega⟩
  | succ fuel ih =>
    constructor
    · intro t y P hs hy hyT hf
      have hy0 : y ≠ 0 := by have := hs.node y hy; omega
      have hx : t.parent y = 0 ∨ t.parent y ∈ t.alloc := by
        rcases hs.par y hy with h | h
        · exact Or.inl h
        · exact Or.inr h.2
      have hz : ∀ p, t.parent p = 0 → upd t.parent y 0 p = 0 := fun p hp => by
        by_cases hpy : p = y
        · rw [hpy]; simp
        · rw [upd_ne _ _ hpy]; exact hp
      rw [gc_parent_succ fuel t y hy hy0 hx]
      by_cases h0 : t.parent y = 0
      · rw [if_pos h0]
        exact ⟨_, rfl, hs.cut0 h0 _, upd_same _ _ _, hz⟩
      · rw [if_neg h0]
        have hs1 := hs.cut1 hy hyT h0 (t.mems + 1 + 1 + 1 + 1)
        by_cases hc : t.children (t.parent y) - 1 = 0
        · rw [if_pos hc]
          by_cases hsn : t.seen (t.parent y) = false
          · rw [if_pos hsn]
            rw [if_pos ⟨hc, hsn⟩] at hs1
            have hxP : t.parent y ∉ P := fun h => by
              have h1 := ((hs.pend _).1 h).2.2
              have h2 := nchildren_pos (m := t.toMem) hy
              have h3 := hs.cnt _ (hx.resolve_left h0)
              omega
            have hnz : nz { t.toMem with
                parent := upd t.parent y 0,
                children := upd t.children (t.parent y) (t.children (t.parent y) - 1) } + 1
                = nz t.toMem := nz_cut hs.nodup hy h0
            obtain ⟨t', e', hs', hz'⟩ := ih.2 _ (t.parent y) (t.parent y :: P) P hs1 (by simp)
              (fun p => by
                simp only [List.mem_cons]
                constructor
                · intro h; exact ⟨Or.inr h, fun e => hxP (e ▸ h)⟩
                · rintro ⟨h | h, h2⟩
                  · exact absurd h h2
                  · exact h)
              (by
                show 2 * nz { t.toMem with
                  parent := upd t.parent y 0,
                  children := upd t.children (t.parent y) (t.children (t.parent y) - 1) } + 2
                  ≤ fuel
                omega)
            exact ⟨t', e', hs', hz' y (upd_same _ _ _), fun p hp => hz' p (hz p hp)⟩
          · rw [if_neg hsn]
            rw [if_neg (fun h => hsn h.2)] at hs1
            exact ⟨_, rfl, hs1, upd_same _ _ _, hz⟩
        · rw [if_neg hc]
          have hs2 := hs.cut1 hy hyT h0 (t.mems + 1 + 1 + 1)
          rw [if_neg (fun h => hc h.1)] at hs2
          exact ⟨_, rfl, hs2, upd_same _ _ _, hz⟩
    · intro t x P P' hs hx hP' hf
      obtain ⟨hxa, hxs, hxc⟩ := (hs.pend x).1 hx
      have hx0 : x ≠ 0 := by have := hs.node x hxa; omega
      obtain ⟨t1, e1, hs1, hp1, hz1⟩ := ih.1 t x P hs hxa
        (fun h => by rw [hxs] at h; exact absurd h (by simp)) (by omega)
      have hxa1 : x ∈ t1.alloc := ((hs1.pend x).1 hx).1
      obtain ⟨n, k, o, e2, hn⟩ := gc_node_tail t1 x
      refine ⟨_, ?_, hs1.sweep_free hx hp1 hP' n k o hn, hz1⟩
      rw [gc_node_succ fuel t x hxa hx0 hxs (hs.act x hxa hxs) hxc, e1]
      simp only [bind, Except.bind, free, hxa1, if_true, pure, Except.pure]
      rw [← e2]

/-! ## The loops of the sweep phase -/

theorem Sweep.sweep_M {tb t : Tree} {T P : List Nat} (hs : Sweep tb t T P) (k : Int) :
    Sweep tb (M k t) T P := by
  obtain ⟨a1, a2, a3, a4, a5, a6, a7, a8, a9, a10, a11, a12, a13, a14⟩ := hs
  exact ⟨⟨a1.1, a1.2, a1.3, a1.4, a1.5, a1.6, a1.7, a1.8, a1.9⟩, a2, a3, a4, a5, a6, a7, a8, a9,
    a10, a11, a12, a13, a14⟩

theorem Sweep.fuel {tb t : Tree} {T P : List Nat} (hs : Sweep tb t T P) :
    2 * nz t.toMem + 2 ≤ 2 * (tb.alloc.length + 1) := by
  have h1 := nz_le t.toMem
  have h2 : t.alloc.length ≤ tb.alloc.length := length_le_of_nodup_subset hs.nodup hs.sub
  have h3 : t.toMem.alloc.length = t.alloc.length := rfl
  omega

/-- The sweep phase of `gc` returns; at its end no node waits to be freed, and
the nodes of the last layer have no parent. -/
theorem gc_sweep_spec {t0 tb : Tree} {F D Mid Td : List Nat} {now todo : Nat} {lv : Nat → Nat}
    {l : Nat} {Pr : List Nat} (hw : Wf t0.toMem F D)
    (hb : Bfs t0 tb F D Mid [] Td now todo lv l Pr)
    (ham : t0.algo = tb_amortized → t0.node_count = t0.alloc.length) :
    ∃ t5, gc_sweep (t0.alloc.length + 1) (2 * (t0.alloc.length + 1)) tb now todo =
        .ok (M 5 { t5 with ll := upd t5.ll s_to_delete s_to_delete,
                           rl := upd t5.rl s_to_delete s_to_delete }) ∧
      Sweep tb t5 Td [] ∧ ∀ p ∈ Td, t5.parent p = 0 := by
  have hs0 : Sweep tb tb Td D := Sweep.start hw hb ham
  have hTsub : ∀ p ∈ Td, p ∈ tb.alloc ∧ tb.seen p = true := fun p hp => by
    have h1 : p ∈ F ++ Mid ++ [] ++ Td := by simp [hp]
    have h2 := hb.sub p h1
    exact ⟨by rw [hb.alloc]; exact h2, (hb.seen p h2).2 h1⟩
  have hTlen : Td.length < t0.alloc.length + 1 := by
    refine Nat.lt_succ_of_le (length_le_of_nodup_subset ?_ ?_)
    · have := hb.nodup
      simp only [List.nodup_append] at this
      exact this.2.1
    · intro p hp; rw [← hb.alloc]; exact (hTsub p hp).1
  have hDlen : D.length < t0.alloc.length + 1 :=
    Nat.lt_succ_of_le (length_le_of_nodup_subset hw.D_nodup hw.wf_subD)
  have htodo : todo = 3 ∨ todo = 4 := by
    rcases hb.sent with h | h
    · exact Or.inr h.2
    · exact Or.inl h.2
  have hnow : now = 3 ∨ now = 4 := by
    rcases hb.sent with h | h
    · exact Or.inl h.1
    · exact Or.inr h.1
  -- the links out of the last layer are cut
  let P4 : List Nat → Tree → Prop := fun rest t =>
    ∃ pre, Td = pre ++ rest ∧ Sweep tb t Td D ∧ ∀ p ∈ pre, t.parent p = 0
  have hM4 : ∀ l t k, P4 l t → P4 l (M k t) := by
    rintro l t k ⟨pre, h1, h2, h3⟩
    exact ⟨pre, h1, h2.sweep_M k, h3⟩
  have hstep4 : ∀ x rest t, P4 (x :: rest) t → x ≠ todo ∧
      ∃ t', (fun t n => gc_parent (2 * (t0.alloc.length + 1)) t n) t x = .ok t' ∧
        valid t'.toMem x ∧ t'.rl x = rest.headD todo ∧ P4 rest t' := by
    rintro x rest t ⟨pre, h1, h2, h3⟩
    have hx : x ∈ Td := by rw [h1]; simp
    have hxa : x ∈ t.alloc := h2.keep x (hTsub x hx).1 (hTsub x hx).2
    have hx6 := h2.node x hxa
    have hf := h2.fuel
    rw [hb.alloc] at hf
    obtain ⟨t', e', hs', hp', hz'⟩ := (gc_calls_ok (2 * (t0.alloc.length + 1))).1 t x D h2 hxa
      (fun _ => hx) (by omega)
    refine ⟨by omega, t', e', Or.inl (hs'.keep x (hTsub x hx).1 (hTsub x hx).2), ?_,
      pre ++ [x], by simp [h1], hs', ?_⟩
    · rw [hs'.rl]
      have := hb.dllT
      rw [h1] at this
      exact this.rl_next
    · intro p hp
      rcases List.mem_append.1 hp with h | h
      · exact hz' p (h3 p h)
      · rw [List.mem_singleton.1 h]; exact hp'
  obtain ⟨t4, e4, Td, h41, hs4, hz4⟩ := for_rl_spec (c := 0) P4 hM4 hstep4 Td
    (t0.alloc.length + 1) (M 1 tb) hTlen ⟨[], rfl, hs0.sweep_M 1, fun p hp => by simp at hp⟩
  simp only [List.append_nil] at h41
  subst h41
  -- the nodes of to_delete are freed
  let P5 : List Nat → Tree → Prop := fun rest t =>
    ∃ pre, D = pre ++ rest ∧ Sweep tb t Td rest ∧ ∀ p ∈ Td, t.parent p = 0
  have hM5 : ∀ l t k, P5 l t → P5 l (M k t) := by
    rintro l t k ⟨pre, h1, h2, h3⟩
    exact ⟨pre, h1, h2.sweep_M k, h3⟩
  have hstep5 : ∀ x rest t, P5 (x :: rest) t → x ≠ s_to_delete ∧ valid t.toMem x ∧
      t.rl x = rest.headD s_to_delete ∧
      ∃ t', (fun t p => gc_node (2 * (t0.alloc.length + 1)) t p) t x = .ok t' ∧ P5 rest t' := by
    rintro x rest t ⟨pre, h1, h2, h3⟩
    have hxP : x ∈ x :: rest := by simp
    have hxa : x ∈ t.alloc := ((h2.pend x).1 hxP).1
    have hx6 := h2.node x hxa
    have hf := h2.fuel
    rw [hb.alloc] at hf
    have hnd : (pre ++ x :: rest).Nodup := h1 ▸ hw.D_nodup
    have hxr : x ∉ rest := by
      have := (List.nodup_append.1 hnd).2.1
      exact (List.nodup_cons.1 this).1
    obtain ⟨t', e', hs', hz'⟩ := (gc_calls_ok (2 * (t0.alloc.length + 1))).2 t x (x :: rest) rest
      h2 hxP (fun p => by
        simp only [List.mem_cons]
        constructor
        · intro h; exact ⟨Or.inr h, fun e => hxr (e ▸ h)⟩
        · rintro ⟨h | h, h4⟩
          · exact absurd h h4
          · exact h) hf
    refine ⟨by simp; omega, Or.inl hxa, ?_, t', e', pre ++ [x], by simp [h1], hs',
      fun p hp => hz' p (h3 p hp)⟩
    rw [h2.rl]
    have := hb.dllD
    rw [h1] at this
    exact this.rl_next
  obtain ⟨t5, e5, pre5, h51, hs5, hz5⟩ := for_rl_saved_spec (c := 1) P5 hM5 hstep5 D
    (t0.alloc.length + 1) (M 2 t4) hDlen ⟨[], rfl, hs4.sweep_M 2, hz4⟩
  refine ⟨t5, ?_, hs5, hz5⟩
  have hr1 : tb.rl todo = Td.headD todo := hb.dllT.rl_head
  have hr2 : t4.rl s_to_delete = D.headD s_to_delete := by
    rw [hs4.rl]; exact hb.dllD.rl_head
  have hN := hb.dllN.2
  simp only [Linked] at hN
  have hn1 : t5.ll now = now := by rw [hs5.ll]; exact hN.2
  have hn2 : t5.rl now = now := by rw [hs5.rl]; exact hN.1
  have hne : now ≠ 2 := by omega
  simp only [gc_sweep, hr1, e4, hr2, e5, bind, Except.bind, c_assert, pure, Except.pure]
  simp [TreeBuffers.M, upd_apply, hne, hn1, hn2]

/-! ## The end of `gc` -/

/-- The end of `gc` clears the marks of the nodes of the three lists and makes
the nodes of `todo` and `middle` singletons. -/
theorem gc_finish_spec {t : Tree} {F Mid Td : List Nat} {todo : Nat}
    (hF : DLL t.ll t.rl s_active F) (hM : DLL t.ll t.rl sentinel_c Mid)
    (hT : DLL t.ll t.rl todo Td) (hsub : ∀ p ∈ F ++ Mid ++ Td, p ∈ t.alloc)
    (hnd : (F ++ Mid ++ Td).Nodup) (h6 : ∀ p ∈ t.alloc, 6 ≤ p) {fuel : Nat}
    (hf : t.alloc.length < fuel) :
    ∃ k, gc_finish fuel t todo = .ok
      { t with seen := fun p => if p ∈ F then false else if p ∈ Mid then false else
                 if p ∈ Td then false else t.seen p
               ll := fun p => if p ∈ Mid then p else if p ∈ Td then p else t.ll p
               rl := fun p => if p ∈ Mid then p else if p ∈ Td then p else t.rl p
               last_gc_node_count :=
                 if t.algo = tb_amortized then t.node_count else t.last_gc_node_count
               mems := k } := by
  have hnd1 := List.nodup_append.1 hnd
  have hnd2 := List.nodup_append.1 hnd1.1
  have hFn : F.Nodup := hnd2.1
  have hMn : Mid.Nodup := hnd2.2.1
  have hTn : Td.Nodup := hnd1.2.1
  have hMT : ∀ {p : Nat}, p ∈ Mid → p ∈ Td → False :=
    fun hp hq => hnd1.2.2 (List.mem_append_right _ hp) hq
  have hlen : ∀ L : List Nat, L.Nodup → (∀ p ∈ L, p ∈ t.alloc) → L.length < fuel :=
    fun L h1 h2 => lt_of_le_of_lt (length_le_of_nodup_subset h1 h2) hf
  have hFs : ∀ p ∈ F, p ∈ t.alloc := fun p hp => hsub p (by simp [hp])
  have hMs : ∀ p ∈ Mid, p ∈ t.alloc := fun p hp => hsub p (by simp [hp])
  have hTs : ∀ p ∈ Td, p ∈ t.alloc := fun p hp => hsub p (by simp [hp])
  obtain ⟨k7, e7⟩ := seen_loop false 0 (t := M 1 t) (s := todo) (L := Td) hT hTs (hlen _ hTn hTs)
  obtain ⟨t7, ht7⟩ : ∃ t7 : Tree, t7 =
    { M 1 t with seen := fun p => if p ∈ Td then false else (M 1 t).seen p, mems := k7 } :=
    ⟨_, rfl⟩
  rw [← ht7] at e7
  have hM7 : DLL t7.ll t7.rl sentinel_c Mid := by rw [ht7]; exact hM
  obtain ⟨k8, e8⟩ := seen_loop false 0 (t := M 1 t7) (s := sentinel_c) (L := Mid) hM7
    (by rw [ht7]; exact hMs) (hlen _ hMn hMs)
  obtain ⟨t8, ht8⟩ : ∃ t8 : Tree, t8 =
    { M 1 t7 with seen := fun p => if p ∈ Mid then false else (M 1 t7).seen p, mems := k8 } :=
    ⟨_, rfl⟩
  rw [← ht8] at e8
  have hF8 : DLL t8.ll t8.rl s_active F := by rw [ht8, ht7]; exact hF
  obtain ⟨k9, e9⟩ := seen_loop false 1 (t := M 2 t8) (s := s_active) (L := F) hF8
    (by rw [ht8, ht7]; exact hFs) (hlen _ hFn hFs)
  obtain ⟨t9, ht9⟩ : ∃ t9 : Tree, t9 =
    { M 2 t8 with seen := fun p => if p ∈ F then false else (M 2 t8).seen p, mems := k9 } :=
    ⟨_, rfl⟩
  rw [← ht9] at e9
  have hT9 : DLL t9.ll t9.rl todo Td := by rw [ht9, ht8, ht7]; exact hT
  obtain ⟨k10, e10⟩ := self_link_loop 0 (t := M 1 t9) (s := todo) (L := Td) hT9
    (by rw [ht9, ht8, ht7]; exact hTs) (hlen _ hTn hTs)
  obtain ⟨t10, ht10⟩ : ∃ t10 : Tree, t10 =
    { M 1 t9 with ll := fun p => if p ∈ Td then p else (M 1 t9).ll p,
                  rl := fun p => if p ∈ Td then p else (M 1 t9).rl p, mems := k10 } :=
    ⟨_, rfl⟩
  rw [← ht10] at e10
  have hM10 : DLL t10.ll t10.rl sentinel_c Mid := by
    have hnT : ∀ p ∈ sentinel_c :: Mid, p ∉ Td := fun p hp hpT => by
      rcases List.mem_cons.1 hp with h | h
      · have := h6 p (hTs p hpT)
        rw [h] at this; simp at this
      · exact hMT h hpT
    refine hM.dll_congr (fun p hp => ?_) (fun p hp => ?_)
    · rw [ht10, ht9, ht8, ht7]
      show (if p ∈ Td then p else t.rl p) = _
      rw [if_neg (hnT p hp)]
    · rw [ht10, ht9, ht8, ht7]
      show (if p ∈ Td then p else t.ll p) = _
      rw [if_neg (hnT p hp)]
  obtain ⟨k11, e11⟩ := self_link_loop 0 (t := M 1 t10) (s := sentinel_c) (L := Mid) hM10
    (by rw [ht10, ht9, ht8, ht7]; exact hMs) (hlen _ hMn hMs)
  have r7 : t.rl todo = Td.headD todo := hT.rl_head
  have r8 : t7.rl sentinel_c = Mid.headD sentinel_c := hM7.rl_head
  have r9 : t8.rl s_active = F.headD s_active := hF8.rl_head
  have r10 : t9.rl todo = Td.headD todo := hT9.rl_head
  have r11 : t10.rl sentinel_c = Mid.headD sentinel_c := hM10.rl_head
  simp only [gc_finish, bind, Except.bind, r7, e7, r8, e8, r9, e9, r10, e10, r11, e11]
  by_cases ha : t.algo = tb_amortized
  · refine ⟨k11 + 2, ?_⟩
    have ha' : t10.algo = tb_amortized := by rw [ht10, ht9, ht8, ht7]; exact ha
    simp only [M_algo, ha', if_true, ha, pure, Except.pure]
    rw [ht10, ht9, ht8, ht7]
    simp only [TreeBuffers.M]
  · refine ⟨k11, ?_⟩
    have ha' : ¬ t10.algo = tb_amortized := by rw [ht10, ht9, ht8, ht7]; exact ha
    simp only [M_algo, ha', if_false, ha, pure, Except.pure]
    rw [ht10, ht9, ht8, ht7]
    simp only [TreeBuffers.M]

/-! ## What the mark phase has marked -/

theorem anc_mono {par : Nat → Nat} {h k p q : Nat} (hk : h ≤ k) (hq : q ∈ anc par h p) :
    q ∈ anc par k p := by
  induction hk with
  | refl => exact hq
  | step _ ih => exact anc_prefix_mem _ _ _ ih

theorem anc_step {par : Nat → Nat} : ∀ (h f c : Nat), c ∈ anc par h f → par c ≠ 0 →
    par c ∈ anc par (h + 1) f
  | 0, f, c, hc, _ => by simp [anc] at hc
  | h + 1, f, c, hc, h0 => by
    by_cases hf : f = 0
    · rw [hf, anc_null] at hc; simp at hc
    · rw [anc_cons hf] at hc ⊢
      rcases List.mem_cons.1 hc with h1 | h1
      · subst h1
        refine List.mem_cons_of_mem _ ?_
        rw [anc_cons h0]; simp
      · exact List.mem_cons_of_mem _ (anc_step h (par f) c h1 h0)

theorem exists_bound (f : Nat → Nat) : ∀ l : List Nat, ∃ B, ∀ p ∈ l, f p ≤ B
  | [] => ⟨0, fun p hp => by simp at hp⟩
  | a :: l => by
    obtain ⟨B, hB⟩ := exists_bound f l
    refine ⟨max B (f a), fun p hp => ?_⟩
    rcases List.mem_cons.1 hp with h | h
    · rw [h]; exact le_max_right _ _
    · exact le_trans (hB p h) (le_max_left _ _)

theorem Bfs.seen_iff {t0 tb : Tree} {F D Mid Td : List Nat} {now todo : Nat} {lv : Nat → Nat}
    {l : Nat} {Pr : List Nat} (hb : Bfs t0 tb F D Mid [] Td now todo lv l Pr) {p : Nat}
    (hp : p ∈ t0.alloc) : tb.seen p = true ↔ p ∈ F ++ Mid ++ Td := by
  rw [hb.seen p hp]; simp

theorem Bfs.marked_alloc {t0 tb : Tree} {F D Mid Td : List Nat} {now todo : Nat}
    {lv : Nat → Nat} {l : Nat} {Pr : List Nat} (hb : Bfs t0 tb F D Mid [] Td now todo lv l Pr)
    {p : Nat} (hp : p ∈ F ++ Mid ++ Td) : p ∈ t0.alloc :=
  hb.sub p (by simpa using hp)

theorem Bfs.lv_le_last {t0 tb : Tree} {F D Mid Td : List Nat} {now todo : Nat}
    {lv : Nat → Nat} {l : Nat} {Pr : List Nat} (hb : Bfs t0 tb F D Mid [] Td now todo lv l Pr)
    {p : Nat} (hp : p ∈ F ++ Mid ++ Td) : lv p ≤ l := by
  simp only [List.mem_append] at hp
  rcases hp with (h | h) | h
  · rw [hb.lvF p h]; exact Nat.zero_le _
  · exact le_of_lt (hb.lvM p h).2
  · exact le_of_eq (hb.lvT p h)

/-- A marked node lies as many edges above a node of the frontier as its layer says. -/
theorem Bfs.marked_anc {t0 tb : Tree} {F D Mid Td : List Nat} {now todo : Nat}
    {lv : Nat → Nat} {l : Nat} {Pr : List Nat} (hw : Wf t0.toMem F D)
    (hb : Bfs t0 tb F D Mid [] Td now todo lv l Pr) :
    ∀ (n q : Nat), q ∈ F ++ Mid ++ Td → lv q = n → ∃ f ∈ F, q ∈ anc t0.parent (n + 1) f := by
  intro n
  induction n with
  | zero =>
    intro q hq hl
    have hq6 := hw.node q (hb.marked_alloc hq)
    simp only [List.mem_append] at hq
    rcases hq with (h | h) | h
    · exact ⟨q, h, by rw [anc_cons (by omega)]; simp⟩
    · have := (hb.lvM q h).1; omega
    · have := hb.lvT q h; have := hb.lpos; omega
  | succ n ih =>
    intro q hq hl
    have hq6 := hw.node q (hb.marked_alloc hq)
    have hqm : q ∈ Mid ++ [] ++ Td := by
      simp only [List.mem_append] at hq ⊢
      rcases hq with (h | h) | h
      · have := hb.lvF q h; omega
      · exact Or.inl (Or.inl h)
      · exact Or.inr h
    obtain ⟨c, hc, hpc, hlc⟩ := hb.wit q hqm
    obtain ⟨f, hf, hcf⟩ := ih c (by
      simp only [List.mem_append, List.append_nil] at hc ⊢
      tauto) (by omega)
    refine ⟨f, hf, ?_⟩
    rw [← hpc]
    exact anc_step _ _ _ hcf (by rw [hpc]; omega)

/-- The nodes up to `max (history - 1) 1` edges above a marked node of layer 0
are marked. -/
theorem Bfs.anc_marked {t0 tb : Tree} {F D Mid Td : List Nat} {now todo : Nat}
    {lv : Nat → Nat} {l : Nat} {Pr : List Nat}
    (hb : Bfs t0 tb F D Mid [] Td now todo lv l Pr) (hpr : ∀ q ∈ F ++ Mid, q ∈ Pr)
    (hex : Td = [] ∨ t0.history ≤ l + 1) :
    ∀ (h p : Nat), p ∈ F ++ Mid ++ Td → lv p + h ≤ max (t0.history - 1) 1 + 1 →
      ∀ q ∈ anc t0.parent h p, q ∈ F ++ Mid ++ Td := by
  intro h
  induction h with
  | zero => intro p _ _ q hq; simp [anc] at hq
  | succ h ih =>
    intro p hp hl q hq
    by_cases hp0 : p = 0
    · rw [hp0, anc_null] at hq; simp at hq
    rw [anc_cons hp0] at hq
    rcases List.mem_cons.1 hq with h1 | h1
    · rw [h1]; exact hp
    · cases h with
      | zero => simp [anc] at h1
      | succ h =>
        have hpT : p ∉ Td := fun hT => by
          have h2 := hb.lvT p hT
          have h3 := hb.lpos
          rcases hex with h4 | h4
          · rw [h4] at hT; simp at hT
          · omega
        have hpFM : p ∈ F ++ Mid := by
          simp only [List.mem_append] at hp ⊢
          tauto
        rcases hb.proc p (hpr p hpFM) with h2 | ⟨h2, h3⟩
        · rw [h2, anc_null] at h1; simp at h1
        · exact ih (t0.parent p) (by simpa using h2) (by omega) q h1

/-- The layer of a node at most `h - 1` edges above a marked node `p` is at
most `h - 1` more than the layer of `p`. -/
theorem Bfs.anc_lv {t0 tb : Tree} {F D Mid Td : List Nat} {now todo : Nat}
    {lv : Nat → Nat} {l : Nat} {Pr : List Nat}
    (hb : Bfs t0 tb F D Mid [] Td now todo lv l Pr) (hpr : ∀ q ∈ F ++ Mid, q ∈ Pr)
    (hex : Td = [] ∨ t0.history ≤ l + 1) :
    ∀ (h p : Nat), p ∈ F ++ Mid ++ Td → lv p + h ≤ max (t0.history - 1) 1 + 1 →
      ∀ q ∈ anc t0.parent h p, q ∈ F ++ Mid ++ Td ∧ lv q + 1 ≤ lv p + h := by
  intro h
  induction h with
  | zero => intro p _ _ q hq; simp [anc] at hq
  | succ h ih =>
    intro p hp hl q hq
    by_cases hp0 : p = 0
    · rw [hp0, anc_null] at hq; simp at hq
    rw [anc_cons hp0] at hq
    rcases List.mem_cons.1 hq with h1 | h1
    · rw [h1]; exact ⟨hp, by omega⟩
    · cases h with
      | zero => simp [anc] at h1
      | succ h =>
        have hpT : p ∉ Td := fun hT => by
          have h2 := hb.lvT p hT
          have h3 := hb.lpos
          rcases hex with h4 | h4
          · rw [h4] at hT; simp at hT
          · omega
        have hpFM : p ∈ F ++ Mid := by
          simp only [List.mem_append] at hp ⊢
          tauto
        rcases hb.proc p (hpr p hpFM) with h2 | ⟨h2, h3⟩
        · rw [h2, anc_null] at h1; simp at h1
        · have := ih (t0.parent p) (by simpa using h2) (by omega) q h1
          exact ⟨this.1, by omega⟩

/-! ## The heap after `gc` -/

/-- After the sweep every live node is marked. -/
theorem Sweep.all_seen {t0 tb t5 : Tree} {F D Mid Td : List Nat} {now todo : Nat}
    {lv : Nat → Nat} {l : Nat} {Pr : List Nat} (hw : Wf t0.toMem F D)
    (hb : Bfs t0 tb F D Mid [] Td now todo lv l Pr) (hpr : ∀ q ∈ F ++ Mid, q ∈ Pr)
    (hs : Sweep tb t5 Td []) (hz : ∀ p ∈ Td, t5.parent p = 0) :
    ∀ u ∈ t5.alloc, tb.seen u = true := by
  obtain ⟨rk, hrk⟩ := hw.acyc
  obtain ⟨B, hB⟩ := exists_bound rk t5.alloc
  have key : ∀ n u, u ∈ t5.alloc → tb.seen u = false → B + 1 ≤ rk u + n → False := by
    intro n
    induction n with
    | zero => intro u hu _ h; have := hB u hu; omega
    | succ n ih =>
      intro u hu hus h
      have hu0 : u ∈ t0.alloc := by rw [← hb.alloc]; exact hs.sub u hu
      have hc : t5.children u ≠ 0 := fun hc =>
        absurd ((hs.pend u).2 ⟨hu, by rw [hs.seen]; exact hus, hc⟩) (by simp)
      have hpos : 0 < nchildren t5.toMem u := by
        have := hs.cnt u hu
        omega
      obtain ⟨c, hca, hpc⟩ := List.countP_pos_iff.1 hpos
      have hpc : t5.parent c = u := by simpa using hpc
      have hu6 := hs.node u hu
      have hc0 : c ∈ t0.alloc := by rw [← hb.alloc]; exact hs.sub c hca
      have hpc0 : t0.parent c = u := by
        rcases hs.par c hca with h1 | h1
        · rw [hpc] at h1; omega
        · rw [← hb.parent, ← h1.1, hpc]
      have hcs : tb.seen c = false := by
        by_contra hcs
        have hcs' : tb.seen c = true := by simpa using hcs
        have hm := (hb.seen_iff hc0).1 hcs'
        simp only [List.mem_append] at hm
        have hFM : c ∈ F ++ Mid → False := fun hFM => by
          rcases hb.proc c (hpr c hFM) with h2 | ⟨h2, -⟩
          · rw [hpc0] at h2; omega
          · rw [hpc0] at h2
            have := (hb.seen u hu0).2 h2
            rw [hus] at this; exact absurd this (by simp)
        rcases hm with (h1 | h1) | h1
        · exact hFM (by simp [h1])
        · exact hFM (by simp [h1])
        · have := hz c h1
          rw [hpc] at this; omega
      have hlt := hrk c hc0 (by rw [hpc0]; omega)
      rw [hpc0] at hlt
      exact ih c hca hcs (by omega)
  intro u hu
  by_contra hus
  exact key (B + 1) u hu (by simpa using hus) (by omega)

/-- The sweep keeps the history of the marked nodes. -/
theorem Sweep.hist {t0 tb t5 : Tree} {F D Mid Td : List Nat} {now todo : Nat}
    {lv : Nat → Nat} {l : Nat} {Pr : List Nat} (hw : Wf t0.toMem F D)
    (hb : Bfs t0 tb F D Mid [] Td now todo lv l Pr) (hpr : ∀ q ∈ F ++ Mid, q ∈ Pr)
    (hex : Td = [] ∨ t0.history ≤ l + 1) (hs : Sweep tb t5 Td []) :
    ∀ (h q : Nat), q ∈ F ++ Mid ++ Td → lv q + h ≤ t0.history →
      anc t5.parent h q = anc t0.parent h q := by
  intro h
  induction h with
  | zero => intro q _ _; rfl
  | succ h ih =>
    intro q hq hl
    have hq0 := hb.marked_alloc hq
    have hq6 := hw.node q hq0
    rw [anc_cons (by omega), anc_cons (by omega)]
    congr 1
    cases h with
    | zero => rfl
    | succ h =>
      have hqT : q ∉ Td := fun hT => by
        have h2 := hb.lvT q hT
        rcases hex with h4 | h4
        · rw [h4] at hT; simp at hT
        · omega
      have hqFM : q ∈ F ++ Mid := by
        simp only [List.mem_append] at hq ⊢
        tauto
      have hqs : tb.seen q = true := (hb.seen_iff hq0).2 hq
      have hqa : q ∈ t5.alloc := hs.keep q (by rw [hb.alloc]; exact hq0) hqs
      have hpq : t5.parent q = t0.parent q := by
        rw [hs.kept q hqa (by rw [hs.seen]; exact hqs) hqT, hb.parent]
      rw [hpq]
      rcases hb.proc q (hpr q hqFM) with h2 | ⟨h2, h3⟩
      · rw [h2, anc_null, anc_null]
      · exact ih (t0.parent q) (by simpa using h2) (by omega)

/-- Run on a well-formed heap, `gc` returns, and leaves a well-formed heap
that holds the nodes up to `max (history - 1) 1` edges above the frontier. -/
theorem gc_ok {t0 : Tree} {F D : List Nat} (hw : Wf t0.toMem F D) (hH : 0 < t0.history)
    (ha : t0.algo = tb_gc ∨ t0.algo = tb_amortized)
    (ham : t0.algo = tb_amortized → t0.node_count = t0.alloc.length) :
    ∃ t', gc t0 = .ok t' ∧ GcPost t0 t' F := by
  obtain ⟨tb, now, todo, Mid, Td, lv, l, Pr, em, hb, hpr, hex, hmx⟩ := gc_mark_spec hw hH
  obtain ⟨t5, es, hs, hz⟩ := gc_sweep_spec hw hb ham
  obtain ⟨t6, ht6⟩ : ∃ t6 : Tree, t6 =
    M 5 { t5 with ll := upd t5.ll s_to_delete s_to_delete,
                  rl := upd t5.rl s_to_delete s_to_delete } := ⟨_, rfl⟩
  rw [← ht6] at es
  have hseen := Sweep.all_seen hw hb hpr hs hz
  have hS0 : ∀ p ∈ F ++ Mid ++ Td, p ∈ t0.alloc := fun p hp => hb.marked_alloc hp
  have hS5 : ∀ p ∈ F ++ Mid ++ Td, p ∈ t5.alloc := fun p hp =>
    hs.keep p (by rw [hb.alloc]; exact hS0 p hp) ((hb.seen_iff (hS0 p hp)).2 hp)
  have hS6 : ∀ p ∈ F ++ Mid ++ Td, 6 ≤ p := fun p hp => hw.node p (hS0 p hp)
  have h5S : ∀ p ∈ t5.alloc, p ∈ F ++ Mid ++ Td := fun p hp =>
    (hb.seen_iff (by rw [← hb.alloc]; exact hs.sub p hp)).1 (hseen p hp)
  have hll : ∀ p, p ≠ 2 → t6.ll p = tb.ll p := fun p hp => by
    rw [ht6, ← hs.ll]; exact upd_ne _ _ hp
  have hrl : ∀ p, p ≠ 2 → t6.rl p = tb.rl p := fun p hp => by
    rw [ht6, ← hs.rl]; exact upd_ne _ _ hp
  have htodo : todo = 3 ∨ todo = 4 := by
    rcases hb.sent with h | h
    · exact Or.inr h.2
    · exact Or.inl h.2
  have hF6 : DLL t6.ll t6.rl s_active F := by
    refine hb.dllF.dll_congr (fun p hp => hrl p ?_) (fun p hp => hll p ?_)
    · rcases List.mem_cons.1 hp with h | h
      · rw [h]; simp
      · have := hS6 p (by simp [h]); omega
    · rcases List.mem_cons.1 hp with h | h
      · rw [h]; simp
      · have := hS6 p (by simp [h]); omega
  have hM6 : DLL t6.ll t6.rl sentinel_c Mid := by
    refine hb.dllM.dll_congr (fun p hp => hrl p ?_) (fun p hp => hll p ?_)
    · rcases List.mem_cons.1 hp with h | h
      · rw [h]; simp
      · have := hS6 p (by simp [h]); omega
    · rcases List.mem_cons.1 hp with h | h
      · rw [h]; simp
      · have := hS6 p (by simp [h]); omega
  have hT6 : DLL t6.ll t6.rl todo Td := by
    refine hb.dllT.dll_congr (fun p hp => hrl p ?_) (fun p hp => hll p ?_)
    · rcases List.mem_cons.1 hp with h | h
      · rw [h]; omega
      · have := hS6 p (by simp [h]); omega
    · rcases List.mem_cons.1 hp with h | h
      · rw [h]; omega
      · have := hS6 p (by simp [h]); omega
  have hnd : (F ++ Mid ++ Td).Nodup := by simpa using hb.nodup
  have hlen5 : t5.alloc.length ≤ t0.alloc.length := by
    rw [← hb.alloc]; exact length_le_of_nodup_subset hs.nodup hs.sub
  obtain ⟨k, ef⟩ := gc_finish_spec (t := t6) hF6 hM6 hT6
    (by rw [ht6]; exact hS5) hnd (by rw [ht6]; exact hs.node)
    (show t6.alloc.length < t0.alloc.length + 1 from by
      rw [ht6]; exact Nat.lt_succ_of_le hlen5)
  obtain ⟨tF, htF⟩ : ∃ tF : Tree, tF =
    { t6 with seen := fun p => if p ∈ F then false else if p ∈ Mid then false else
                 if p ∈ Td then false else t6.seen p
              ll := fun p => if p ∈ Mid then p else if p ∈ Td then p else t6.ll p
              rl := fun p => if p ∈ Mid then p else if p ∈ Td then p else t6.rl p
              last_gc_node_count :=
                 if t6.algo = tb_amortized then t6.node_count else t6.last_gc_node_count
              mems := k } := ⟨_, rfl⟩
  rw [← htF] at ef
  refine ⟨tF, ?_, ?_⟩
  · rw [gc_eq]
    simp only [c_assert, ha, if_true, bind, Except.bind, em, es]
    exact ef
  · subst htF
    have hnM : ∀ p, p ∈ F → p ∉ Mid := fun p h1 h2 => by
      have := (List.nodup_append.1 (List.nodup_append.1 hnd).1).2.2
      exact this h1 h2
    have hnT : ∀ p, p ∈ F → p ∉ Td := fun p h1 h2 =>
      (List.nodup_append.1 hnd).2.2 (List.mem_append_left _ h1) h2
    have hpar0 : ∀ p ∈ t5.alloc, t5.parent p ≠ 0 → t5.parent p = t0.parent p := fun p hp h0 => by
      rcases hs.par p hp with h | h
      · exact absurd h h0
      · rw [h.1, hb.parent]
    refine
      { wf :=
          { dllF := hF6.dll_congr (fun p hp => ?_) (fun p hp => ?_)
            dllD := DLL.nil ?_ ?_
            nodup := by rw [ht6]; exact hs.nodup
            node := by rw [ht6]; exact hs.node
            subF := fun p hp => by rw [ht6]; exact hS5 p (by simp [hp])
            act := fun p hp => ?_
            del := fun p => ?_
            single := fun p hp h1 _ => ?_
            par := by rw [ht6]; exact fun p hp => (hs.par p hp).imp id (fun h => h.2)
            cnt := by rw [ht6]; exact hs.cnt
            seen := fun p hp => ?_
            acyc := ?_ }
        same := ⟨?_, ?_, ?_⟩
        data := by rw [ht6]; exact hs.same.data.trans hb.same.data
        sub := fun q hq => by
          rw [← hb.alloc]; rw [ht6] at hq; exact hs.sub q hq
        hist := fun f hf => ?_
        kept := fun q => ?_
        am := fun h => ?_
        cut := fun q hq hn => ?_
        keep := fun q hq hk => ?_ }
    · have h1 : p ∉ Mid ∧ p ∉ Td := by
        rcases List.mem_cons.1 hp with h | h
        · constructor
          · intro hm; have := hS6 p (by simp [hm]); rw [h] at this; simp at this
          · intro hm; have := hS6 p (by simp [hm]); rw [h] at this; simp at this
        · exact ⟨hnM p h, hnT p h⟩
      show (if p ∈ Mid then p else if p ∈ Td then p else t6.rl p) = _
      rw [if_neg h1.1, if_neg h1.2]
    · have h1 : p ∉ Mid ∧ p ∉ Td := by
        rcases List.mem_cons.1 hp with h | h
        · constructor
          · intro hm; have := hS6 p (by simp [hm]); rw [h] at this; simp at this
          · intro hm; have := hS6 p (by simp [hm]); rw [h] at this; simp at this
        · exact ⟨hnM p h, hnT p h⟩
      show (if p ∈ Mid then p else if p ∈ Td then p else t6.ll p) = _
      rw [if_neg h1.1, if_neg h1.2]
    · have h1 : s_to_delete ∉ Mid ∧ s_to_delete ∉ Td := by
        constructor
        · intro hm; have := hS6 s_to_delete (by simp [hm]); simp at this
        · intro hm; have := hS6 s_to_delete (by simp [hm]); simp at this
      show (if s_to_delete ∈ Mid then s_to_delete else if s_to_delete ∈ Td then s_to_delete
        else t6.rl s_to_delete) = _
      rw [if_neg h1.1, if_neg h1.2, ht6]
      exact upd_same t5.rl s_to_delete s_to_delete
    · have h1 : s_to_delete ∉ Mid ∧ s_to_delete ∉ Td := by
        constructor
        · intro hm; have := hS6 s_to_delete (by simp [hm]); simp at this
        · intro hm; have := hS6 s_to_delete (by simp [hm]); simp at this
      show (if s_to_delete ∈ Mid then s_to_delete else if s_to_delete ∈ Td then s_to_delete
        else t6.ll s_to_delete) = _
      rw [if_neg h1.1, if_neg h1.2, ht6]
      exact upd_same t5.ll s_to_delete s_to_delete
    · have hp5 : p ∈ t5.alloc := by rw [ht6] at hp; exact hp
      have : t6.active p = t0.active p := by
        rw [ht6]; show t5.active p = _
        rw [hs.same.active, hb.same.active]
      show t6.active p = true ↔ _
      rw [this]
      exact hw.act p (by rw [← hb.alloc]; exact hs.sub p hp5)
    · constructor
      · intro h; simp at h
      · rintro ⟨hp, hact, hc⟩
        exfalso
        have hp5 : p ∈ t5.alloc := by rw [ht6] at hp; exact hp
        have hp0 : p ∈ t0.alloc := by rw [← hb.alloc]; exact hs.sub p hp5
        have hc5 : t5.children p = 0 := by rw [ht6] at hc; exact hc
        have hact0 : t0.active p = false := by
          rw [← hb.same.active, ← hs.same.active]; rw [ht6] at hact; exact hact
        have hm := h5S p hp5
        have hpF : p ∉ F := fun hF => by
          have := (hw.act p hp0).2 hF
          rw [hact0] at this; exact absurd this (by simp)
        have hqm : p ∈ Mid ++ [] ++ Td := by
          simp only [List.mem_append] at hm ⊢
          rcases hm with (h | h) | h
          · exact absurd h hpF
          · exact Or.inl (Or.inl h)
          · exact Or.inr h
        obtain ⟨c, hc, hpc, -⟩ := hb.wit p hqm
        have hcFM : c ∈ F ++ Mid := by simpa using hc
        have hcS : c ∈ F ++ Mid ++ Td := List.mem_append_left _ hcFM
        have hcT : c ∉ Td := fun h =>
          (List.nodup_append.1 hnd).2.2 hcFM h
        have hca := hS5 c hcS
        have hcs : t5.seen c = true := by
          rw [hs.seen]; exact (hb.seen_iff (hS0 c hcS)).2 hcS
        have hpc5 : t5.parent c = p := by
          rw [hs.kept c hca hcs hcT, hb.parent, hpc]
        have hpos := nchildren_pos (m := t5.toMem) hca
        have hcnt := hs.cnt p hp5
        have hpc5' : t5.toMem.parent c = p := hpc5
        rw [hpc5'] at hpos
        omega
    · have hp5 : p ∈ t5.alloc := by rw [ht6] at hp; exact hp
      have hm := h5S p hp5
      show (if p ∈ Mid then p else if p ∈ Td then p else t6.ll p) = p ∧
        (if p ∈ Mid then p else if p ∈ Td then p else t6.rl p) = p
      simp only [List.mem_append] at hm
      rcases hm with (h | h) | h
      · exact absurd h h1
      · simp [h]
      · simp [h]
    · have hp5 : p ∈ t5.alloc := by rw [ht6] at hp; exact hp
      have hm := h5S p hp5
      show (if p ∈ F then false else if p ∈ Mid then false else if p ∈ Td then false
        else t6.seen p) = false
      simp only [List.mem_append] at hm
      rcases hm with (h | h) | h
      · simp [h]
      · simp [h]
      · simp [h]
    · obtain ⟨rk, hrk⟩ := hw.acyc
      refine ⟨rk, fun p hp h0 => ?_⟩
      have hp5 : p ∈ t5.alloc := by rw [ht6] at hp; exact hp
      have h0' : t5.parent p ≠ 0 := by rw [ht6] at h0; exact h0
      have e : t5.parent p = t0.parent p := hpar0 p hp5 h0'
      show rk (t6.parent p) < rk p
      rw [ht6]
      show rk (t5.parent p) < rk p
      rw [e]
      exact hrk p (by rw [← hb.alloc]; exact hs.sub p hp5) (by rw [← e]; exact h0')
    · rw [ht6]; exact hs.same.history.trans hb.same.history
    · rw [ht6]; exact hs.same.algo.trans hb.same.algo
    · rw [ht6]; exact hs.same.stats.trans hb.same.stats
    · have := Sweep.hist hw hb hpr hex hs t0.history f (by simp [hf])
        (by rw [hb.lvF f hf]; omega)
      rw [ht6]
      exact this
    · rw [ht6]
      show q ∈ t5.alloc ↔ _
      constructor
      · intro hq
        have hm := h5S q hq
        obtain ⟨f, hf, hqf⟩ := hb.marked_anc hw (lv q) q hm rfl
        have := hb.lv_le_last hm
        exact ⟨f, hf, anc_mono (by omega) hqf⟩
      · rintro ⟨f, hf, hqf⟩
        exact hS5 q (hb.anc_marked hpr hex _ f (by simp [hf]) (by rw [hb.lvF f hf]; omega) q hqf)
    · have h5 : t5.algo = tb_amortized := by rw [hs.same.algo, hb.same.algo]; exact h
      have h6 : t6.algo = tb_amortized := by rw [ht6]; exact h5
      constructor
      · rw [ht6]; exact hs.am h5
      · show (if t6.algo = tb_amortized then t6.node_count else t6.last_gc_node_count) = _
        rw [if_pos h6]
    · have hq5 : q ∈ t5.alloc := by rw [ht6] at hq; exact hq
      have hm := h5S q hq5
      have hqT : q ∈ Td := by
        by_contra hc
        have hFM : q ∈ F ∨ q ∈ Mid := by
          simp only [List.mem_append] at hm
          tauto
        have hlt : lv q < l := by
          rcases hFM with h1 | h1
          · rw [hb.lvF q h1]; exact hb.lpos
          · exact (hb.lvM q h1).2
        obtain ⟨f, hf, hqf⟩ := hb.marked_anc hw (lv q) q hm rfl
        exact hn f hf (anc_mono (by omega) hqf)
      rw [ht6]
      exact hz q hqT
    · have hq5 : q ∈ t5.alloc := by rw [ht6] at hq; exact hq
      have hm := h5S q hq5
      obtain ⟨f, hf, hqf⟩ := hk
      have hlv := (hb.anc_lv hpr hex _ f (by simp [hf]) (by rw [hb.lvF f hf]; omega) q hqf).2
      rw [hb.lvF f hf] at hlv
      have hqT : q ∉ Td := fun hT => by
        have h2 := hb.lvT q hT
        have h3 := hb.lpos
        rcases hex with h4 | h4
        · rw [h4] at hT; simp at hT
        · omega
      have hqs : t5.seen q = true := by
        rw [hs.seen]; exact (hb.seen_iff (hS0 q hm)).2 hm
      rw [ht6]
      show t5.parent q = _
      rw [hs.kept q hq5 hqs hqT, hb.parent]

/-! ## The operations under the mark and the amortized algorithm -/

theorem deactivate_tail_mark {t t' : Tree} {n : Nat} (ha : t.algo = tb_gc) (he : gc t = .ok t')
    (ha' : t'.algo = tb_gc) : deactivate_tail t n = .ok (finish t' .TD) := by
  simp [deactivate_tail, ha, he, ha', finish, bind, Except.bind, pure, Except.pure]

theorem add_child_tail_am_gc {t t' : Tree} {p c : Nat} (ha : t.algo = tb_amortized)
    (hc : 2 * t.last_gc_node_count ≤ t.node_count + 1)
    (he : gc { t with node_count := t.node_count + 1, mems := t.mems + 2 } = .ok t') :
    add_child_tail t p c = .ok (finish (print_statistic t' (.S 1)) .TA) := by
  have he' : gc (M 2 { t with node_count := t.node_count + 1 }) = .ok t' := he
  simp only [ha] at he'
  simp [add_child_tail, ha, hc, he', finish, bind, Except.bind, pure, Except.pure]

theorem add_child_tail_am_no {t : Tree} {p c : Nat} (ha : t.algo = tb_amortized)
    (hc : ¬ 2 * t.last_gc_node_count ≤ t.node_count + 1) :
    add_child_tail t p c = .ok (finish (print_statistic
      { t with node_count := t.node_count + 1, mems := t.mems + 2 } (.S 1)) .TA) := by
  simp [add_child_tail, ha, hc, finish, bind, Except.bind, pure, Except.pure, M]

theorem add_child_mark_ok {t : Tree} {F D : List Nat} (h : Inv t F D) {p c : Nat} (d : Int)
    (hp : p ∈ F) (hc : c ∉ t.alloc) (hc6 : 6 ≤ c) (ha : t.algo = tb_gc) :
    ∃ t', tb_add_child { t with toMem := tb_make_node t.toMem c d } p c = .ok t' ∧
      Inv t' (c :: F) D ∧ AddOK t t' p c d F := by
  have hpa := h.wf.subF p hp
  refine ⟨_, (h.wf.add_child_pre d h.mems hp hc hc6).trans (add_child_tail_plain (Or.inr ha)),
    ⟨?_, ?_, ?_, ?_, ?_, ?_⟩, ⟨⟨?_, ?_, ?_⟩, ?_, ?_, ?_, ?_⟩⟩
  · simpa using h.wf.wf_add_child d hp hc hc6
  · simpa using h.hist
  · simp
  · intro h1; simp [ha] at h1
  · intro h1; simp [ha] at h1
  · intro _; exact h.mark ha
  · simp
  · simp
  · simp
  · simp [Mem.add_child_data]
  · intro q hq
    have : q ∈ c :: t.alloc := by simpa [Mem.add_child_alloc] using hq
    simpa using this
  · intro f hf
    simpa using h.wf.add_child_hist_old d hc t.history (h.wf.subF f hf)
  · have := h.wf.add_child_hist_new (p := p) d hc (by omega) (t.history - 1) hpa
    rw [Nat.sub_add_cancel h.hist] at this
    simpa using this

theorem deactivate_am_ok {t : Tree} {F D : List Nat} (h : Inv t F D) {n : Nat}
    (hn : n ∈ F) (ha : t.algo = tb_amortized) :
    ∃ t', tb_deactivate t n = .ok t' ∧
      Inv t' (F.erase n) (deact_D t.toMem n D) ∧ DeactOK t t' n F := by
  refine ⟨_, (h.wf.deactivate_pre h.mems hn).trans (deactivate_tail_plain (Or.inr ha)),
    ⟨?_, ?_, ?_, ?_, ?_, ?_⟩, ⟨⟨?_, ?_, ?_⟩, ?_, ?_, ?_⟩⟩
  · simpa using h.wf.wf_deactivate hn
  · simpa using h.hist
  · simp
  · intro h1; simp [ha] at h1
  · intro _
    simpa [Mem.deactivate_alloc] using h.am ha
  · intro h1; simp [ha] at h1
  · simp
  · simp
  · simp
  · simp [Mem.deactivate_data]
  · intro q hq
    simpa [Mem.deactivate_alloc] using hq
  · intro f _
    simp [Mem.deactivate_parent]

theorem deactivate_mark_ok {t : Tree} {F D : List Nat} (h : Inv t F D) {n : Nat}
    (hn : n ∈ F) (ha : t.algo = tb_gc) :
    ∃ t', tb_deactivate t n = .ok t' ∧ Inv t' (F.erase n) [] ∧ DeactOK t t' n F := by
  obtain ⟨t1, ht1⟩ : ∃ t1 : Tree, t1 =
    { t with toMem := t.toMem.deactivate n, mems := if t.children n = 0 then 18 else 9 } :=
    ⟨_, rfl⟩
  have hw1 : Wf t1.toMem (F.erase n) (deact_D t.toMem n D) := by
    rw [ht1]; exact h.wf.wf_deactivate hn
  have hh1 : t1.history = t.history := by rw [ht1]
  have ha1 : t1.algo = tb_gc := by rw [ht1]; exact ha
  obtain ⟨t2, e2, post⟩ := gc_ok hw1 (by rw [hh1]; exact h.hist) (Or.inl ha1)
    (fun h1 => by rw [ha1] at h1; exact absurd h1 (by simp))
  have ha2 : t2.algo = tb_gc := by rw [post.same.algo, ha1]
  have hpre := h.wf.deactivate_pre h.mems hn
  rw [← ht1] at hpre
  refine ⟨finish t2 .TD, hpre.trans (deactivate_tail_mark ha1 e2 ha2),
    ⟨?_, ?_, ?_, ?_, ?_, ?_⟩, ⟨⟨?_, ?_, ?_⟩, ?_, ?_, ?_⟩⟩
  · simpa using post.wf
  · rw [finish_history, post.same.history, hh1]; exact h.hist
  · simp
  · intro h1; simp [ha2] at h1
  · intro h1; simp [ha2] at h1
  · intro _; rfl
  · rw [finish_history, post.same.history, hh1]
  · rw [finish_algo, post.same.algo, ha1, ha]
  · rw [finish_statistics_file, post.same.stats, ht1]
  · show (finish t2 .TD).toMem.data = _
    rw [finish_toMem]
    show t2.data = _
    rw [post.data, ht1]
    exact Mem.deactivate_data _ _
  · intro q hq
    have hq2 : q ∈ t2.alloc := by
      have : q ∈ (finish t2 .TD).toMem.alloc := hq
      rw [finish_toMem] at this; exact this
    have := post.sub q hq2
    rw [ht1] at this
    have h3 : q ∈ (t.toMem.deactivate n).alloc := this
    rw [Mem.deactivate_alloc] at h3
    exact h3
  · intro f hf
    show anc (finish t2 .TD).toMem.parent t.history f = _
    rw [finish_toMem]
    have := post.hist f hf
    rw [hh1] at this
    show anc t2.parent t.history f = _
    rw [this, ht1]
    show anc (t.toMem.deactivate n).parent t.history f = _
    rw [Mem.deactivate_parent]

theorem add_child_am_ok {t : Tree} {F D : List Nat} (h : Inv t F D) {p c : Nat} (d : Int)
    (hp : p ∈ F) (hc : c ∉ t.alloc) (hc6 : 6 ≤ c) (ha : t.algo = tb_amortized) :
    ∃ t' D', tb_add_child { t with toMem := tb_make_node t.toMem c d } p c = .ok t' ∧
      Inv t' (c :: F) D' ∧ AddOK t t' p c d F := by
  have hpa := h.wf.subF p hp
  have hw0 := h.wf.wf_add_child d hp hc hc6
  have hpre := h.wf.add_child_pre d h.mems hp hc hc6
  have hold : ∀ f ∈ F, anc (t.toMem.add_child p c d).parent t.history f =
      anc t.parent t.history f := fun f hf =>
    h.wf.add_child_hist_old d hc t.history (h.wf.subF f hf)
  have hnew : anc (t.toMem.add_child p c d).parent t.history c =
      c :: anc t.parent (t.history - 1) p := by
    have := h.wf.add_child_hist_new (p := p) d hc (by omega) (t.history - 1) hpa
    rw [Nat.sub_add_cancel h.hist] at this
    exact this
  obtain ⟨ham1, ham2, ham3⟩ := h.am ha
  by_cases hcnd : 2 * t.last_gc_node_count ≤ t.node_count + 1
  · obtain ⟨t1, ht1⟩ : ∃ t1 : Tree, t1 =
      { t with toMem := t.toMem.add_child p c d, node_count := t.node_count + 1,
               mems := 11 + 2 } := ⟨_, rfl⟩
    have hw1 : Wf t1.toMem (c :: F) D := by rw [ht1]; exact hw0
    have hh1 : t1.history = t.history := by rw [ht1]
    have ha1 : t1.algo = tb_amortized := by rw [ht1]; exact ha
    obtain ⟨t2, e2, post⟩ := gc_ok hw1 (by rw [hh1]; exact h.hist) (Or.inr ha1)
      (fun _ => by
        rw [ht1]
        show t.node_count + 1 = (((c :: t.alloc).length : Nat) : Int)
        rw [ham1]; simp)
    have ha2 : t2.algo = tb_amortized := by rw [post.same.algo, ha1]
    have hcl : 0 < t2.alloc.length := List.length_pos_of_mem (post.wf.subF c (by simp))
    obtain ⟨hp1, hp2⟩ := post.am ha1
    refine ⟨finish (print_statistic t2 (.S 1)) .TA, [],
      hpre.trans (add_child_tail_am_gc (t := { t with toMem := t.toMem.add_child p c d, mems := 11 })
        ha hcnd (by rw [← ht1]; exact e2)),
      ⟨?_, ?_, ?_, ?_, ?_, ?_⟩, ⟨⟨?_, ?_, ?_⟩, ?_, ?_, ?_, ?_⟩⟩
    · simpa using post.wf
    · rw [finish_history, print_statistic_history, post.same.history, hh1]; exact h.hist
    · simp
    · intro h1; simp [ha2] at h1
    · intro _
      simp only [finish_node_count, print_statistic_node_count, finish_toMem,
        print_statistic_toMem, finish_last_gc_node_count, print_statistic_last_gc_node_count]
      refine ⟨hp1, ?_, ?_⟩
      · rw [hp2, hp1]
        have : t2.toMem.alloc.length = t2.alloc.length := rfl
        omega
      · rw [hp2, hp1]
        have : t2.toMem.alloc.length = t2.alloc.length := rfl
        omega
    · intro h1; simp [ha2] at h1
    · rw [finish_history, print_statistic_history, post.same.history, hh1]
    · rw [finish_algo, print_statistic_algo, post.same.algo, ha1, ha]
    · rw [finish_statistics_file, print_statistic_statistics_file, post.same.stats, ht1]
    · show (finish (print_statistic t2 (.S 1)) .TA).toMem.data = _
      rw [finish_toMem, print_statistic_toMem]
      show t2.data = _
      rw [post.data, ht1]
      exact Mem.add_child_data _ _ _ _
    · intro q hq
      have hq2 : q ∈ t2.alloc := by
        have : q ∈ (finish (print_statistic t2 (.S 1)) .TA).toMem.alloc := hq
        rw [finish_toMem, print_statistic_toMem] at this; exact this
      have := post.sub q hq2
      rw [ht1] at this
      have h3 : q ∈ c :: t.alloc := this
      simpa using h3
    · intro f hf
      show anc (finish (print_statistic t2 (.S 1)) .TA).toMem.parent t.history f = _
      rw [finish_toMem, print_statistic_toMem]
      have := post.hist f (List.mem_cons_of_mem _ hf)
      rw [hh1] at this
      show anc t2.parent t.history f = _
      rw [this, ht1]
      exact hold f hf
    · show anc (finish (print_statistic t2 (.S 1)) .TA).toMem.parent t.history c = _
      rw [finish_toMem, print_statistic_toMem]
      have := post.hist c (by simp)
      rw [hh1] at this
      show anc t2.parent t.history c = _
      rw [this, ht1]
      exact hnew
  · refine ⟨_, D,
      hpre.trans (add_child_tail_am_no (t := { t with toMem := t.toMem.add_child p c d, mems := 11 })
        ha hcnd),
      ⟨?_, ?_, ?_, ?_, ?_, ?_⟩, ⟨⟨?_, ?_, ?_⟩, ?_, ?_, ?_, ?_⟩⟩
    · simpa using hw0
    · simpa using h.hist
    · simp
    · intro h1; simp [ha] at h1
    · intro _
      simp only [finish_node_count, print_statistic_node_count, finish_toMem,
        print_statistic_toMem, finish_last_gc_node_count, print_statistic_last_gc_node_count]
      refine ⟨?_, ham2, ?_⟩
      · show t.node_count + 1 = (((c :: t.alloc).length : Nat) : Int)
        rw [ham1]; simp
      · show t.node_count + 1 < 2 * t.last_gc_node_count
        omega
    · intro h1; simp [ha] at h1
    · simp
    · simp
    · simp
    · simp [Mem.add_child_data]
    · intro q hq
      have : q ∈ c :: t.alloc := by simpa [Mem.add_child_alloc] using hq
      simpa using this
    · intro f hf
      simpa using hold f hf
    · simpa using hnew

/-! ## `tb_initialize`, `tb_history` and the enumeration of the frontier -/

theorem init_ok {H : Nat} {a : algo} {r : Nat} {d : Int} {t : Tree} (hH : 0 < H) (hr : 6 ≤ r)
    (h : tb_initialize H a r (tb_make_node Mem.empty r d) = .ok t) :
    Inv t [r] [] ∧ t.history = H ∧ t.algo = a ∧ t.alloc = [r] ∧ t.parent r = 0 ∧
      t.data = upd Mem.empty.data r d := by
  have hv : valid (tb_make_node Mem.empty r d) r := Or.inl (by simp [tb_make_node])
  have hr0 : r ≠ 0 := by omega
  have hr1 : r ≠ 1 := by omega
  have hr2 : r ≠ 2 := by omega
  have h1r : (1 : Nat) ≠ r := by omega
  have h2r : (2 : Nat) ≠ r := by omega
  simp only [ tb_initialize, c_assert, hr0, hH, hv, bind, Except.bind, pure, Except.pure,
    ne_eq, not_false_eq_true, if_true, gt_iff_lt, not_true_eq_false, if_false] at h
  simp only [tb_make_node, upd_same, upd_apply, if_true] at h
  simp only [if_true, Except.ok.injEq] at h
  subst h
  refine ⟨⟨?_, hH, rfl, ?_, ?_, fun _ => rfl⟩, rfl, rfl, rfl, ?_, ?_⟩
  · refine
      { dllF := ⟨by simp; omega, ?_⟩
        dllD := DLL.nil (by simp [upd_apply]) (by simp [upd_apply])
        nodup := by simp [Mem.empty]
        node := fun p hp => by
          have : p = r := by simpa [Mem.empty] using hp
          omega
        subF := fun p hp => by simpa [Mem.empty] using hp
        act := fun p hp => by
          have : p = r := by simpa [Mem.empty] using hp
          subst this
          simp [upd_apply]
        del := fun p => by
          constructor
          · intro hp; simp at hp
          · rintro ⟨hp, h2, -⟩
            have : p = r := by simpa [Mem.empty] using hp
            subst this
            simp [upd_apply] at h2
        single := fun p hp h1 _ => by
          have : p = r := by simpa [Mem.empty] using hp
          exact absurd (by simp [this]) h1
        par := fun p hp => by
          have : p = r := by simpa [Mem.empty] using hp
          subst this
          left; simp [upd_apply]
        cnt := fun p hp => by
          have : p = r := by simpa [Mem.empty] using hp
          subst this
          simp [nchildren, upd_apply, Mem.empty, hr0, Ne.symm hr0]
        seen := fun p hp => by
          have : p = r := by simpa [Mem.empty] using hp
          subst this
          simp [upd_apply]
        acyc := ⟨fun _ => 0, fun p hp h0 => by
          have : p = r := by simpa [Mem.empty] using hp
          subst this
          simp [upd_apply] at h0⟩ }
    simp [Linked, upd_apply, hr1, hr2, h1r, h2r]
  · intro _
    refine
      { leaf := fun p hp _ => by
          have : p = r := by simpa [Mem.empty] using hp
          subst this
          right; simp [upd_apply]
        depth_nonneg := fun p hp _ => by
          have : p = r := by simpa [Mem.empty] using hp
          subst this
          simp [upd_apply]
        depth_parent := fun p hp _ h0 => by
          have : p = r := by simpa [Mem.empty] using hp
          subst this
          simp [upd_apply] at h0
        rep_self := fun p hp _ _ => by
          have : p = r := by simpa [Mem.empty] using hp
          subst this
          simp [upd_apply]
        rep_parent := fun p hp _ h0 => by
          have : p = r := by simpa [Mem.empty] using hp
          subst this
          simp [upd_apply] at h0
        count := fun p hp _ => by
          have : p = r := by simpa [Mem.empty] using hp
          subst this
          simp [upd_apply] }
  · intro _
    simp [Mem.empty]
  · simp [upd_apply]
  · rfl

theorem M_M (j k : Int) (t : Tree) : M j (M k t) = M (k + j) t := by
  simp [M, add_assoc]

theorem history_loop_spec {t0 : Tree}
    (hpar : ∀ p ∈ t0.alloc, t0.parent p = 0 ∨ t0.parent p ∈ t0.alloc) :
    ∀ (h : Nat) (k : Int) (p : Nat), p = 0 ∨ p ∈ t0.alloc →
      ∃ k', history_loop h (M k t0) p = .ok (M k' t0, anc t0.parent h p)
  | 0, k, p, _ => ⟨k, rfl⟩
  | h + 1, k, p, hp => by
    by_cases hp0 : p = 0
    · exact ⟨k, by simp [history_loop, hp0, anc_null, pure, Except.pure]⟩
    · have hpa : p ∈ t0.alloc := hp.resolve_left hp0
      have hv : valid (M k t0).toMem p := Or.inl hpa
      obtain ⟨k', e'⟩ := history_loop_spec hpar h (k + 2) (t0.parent p)
        (hpar p hpa)
      refine ⟨k', ?_⟩
      have e'' : history_loop h (M 2 (M k t0)) (t0.parent p) =
          .ok (M k' t0, anc t0.parent h (t0.parent p)) := by rw [M_M]; exact e'
      have e3 : history_loop h (M 2 (M k t0)) ((M k t0).parent p) =
          .ok (M k' t0, anc t0.parent h (t0.parent p)) := e''
      rw [history_loop, if_neg hp0, anc_cons hp0]
      simp only [deref, hv, if_true, bind, Except.bind, e3, pure, Except.pure]

/-- On a well-formed tree `tb_history` returns the chain of the ancestors. -/
theorem history_ok {t : Tree} {F D : List Nat} (h : Inv t F D) {n : Nat} (hn : n ∈ F) :
    ∃ t', tb_history t n = .ok (t', anc t.parent t.history n ++ [0]) ∧ Inv t' F D ∧
      t'.toMem = t.toMem ∧ Same t t' := by
  have hna := h.wf.subF n hn
  have hv : valid t.toMem n := Or.inl hna
  have hact := (h.wf.act n hna).2 hn
  obtain ⟨k, e⟩ := history_loop_spec h.wf.par t.history 1 n (Or.inr hna)
  refine ⟨{ print_statistic (M 1 (M k t)) (.TH (M 1 (M k t)).mems) with mems := 0 }, ?_,
    ⟨?_, ?_, rfl, ?_, ?_, ?_⟩, ?_, ⟨?_, ?_, ?_⟩⟩
  · simp only [tb_history, c_assert, h.mems, deref, hv, hact, if_true, bind, Except.bind, e,
      pure, Except.pure]
  · show Wf (print_statistic (M 1 (M k t)) (.TH (M 1 (M k t)).mems)).toMem F D
    rw [print_statistic_toMem]; exact h.wf
  · show 0 < (print_statistic (M 1 (M k t)) (.TH (M 1 (M k t)).mems)).history
    rw [print_statistic_history]; exact h.hist
  · intro ha
    show RT (print_statistic (M 1 (M k t)) (.TH (M 1 (M k t)).mems)).toMem
      (print_statistic (M 1 (M k t)) (.TH (M 1 (M k t)).mems)).history F 0
    rw [print_statistic_toMem, print_statistic_history]
    exact h.rt (by
      have : (print_statistic (M 1 (M k t)) (.TH (M 1 (M k t)).mems)).algo = tb_real_time := ha
      rw [print_statistic_algo] at this; exact this)
  · intro ha
    have ha' : (print_statistic (M 1 (M k t)) (.TH (M 1 (M k t)).mems)).algo = tb_amortized := ha
    rw [print_statistic_algo] at ha'
    show (print_statistic (M 1 (M k t)) (.TH (M 1 (M k t)).mems)).node_count =
        ((print_statistic (M 1 (M k t)) (.TH (M 1 (M k t)).mems)).toMem.alloc.length : Int) ∧
      1 ≤ (print_statistic (M 1 (M k t)) (.TH (M 1 (M k t)).mems)).last_gc_node_count ∧
      (print_statistic (M 1 (M k t)) (.TH (M 1 (M k t)).mems)).node_count <
        2 * (print_statistic (M 1 (M k t)) (.TH (M 1 (M k t)).mems)).last_gc_node_count
    rw [print_statistic_toMem, print_statistic_node_count, print_statistic_last_gc_node_count]
    exact h.am ha'
  · intro ha
    have ha' : (print_statistic (M 1 (M k t)) (.TH (M 1 (M k t)).mems)).algo = tb_gc := ha
    rw [print_statistic_algo] at ha'
    exact h.mark ha'
  · show (print_statistic (M 1 (M k t)) (.TH (M 1 (M k t)).mems)).toMem = _
    rw [print_statistic_toMem]; rfl
  · show (print_statistic (M 1 (M k t)) (.TH (M 1 (M k t)).mems)).history = _
    rw [print_statistic_history]; rfl
  · show (print_statistic (M 1 (M k t)) (.TH (M 1 (M k t)).mems)).algo = _
    rw [print_statistic_algo]; rfl
  · show (print_statistic (M 1 (M k t)) (.TH (M 1 (M k t)).mems)).statistics_file = _
    rw [print_statistic_statistics_file]; rfl

theorem frontier_from_spec {t : Tree} {F D : List Nat} (hw : Wf t.toMem F D) :
    ∀ (rest pre : List Nat) (x : Nat) (fuel : Nat), F = pre ++ x :: rest → rest.length + 1 < fuel →
      frontier_from fuel t x = .ok (x :: rest)
  | [], pre, x, fuel, hF, hf => by
    have hx : x ∈ F := by rw [hF]; simp
    have hxa := hw.subF x hx
    have hx6 := hw.node x hxa
    have hv : valid t.toMem x := Or.inl hxa
    have hact := (hw.act x hxa).2 hx
    have hrl : t.rl x = s_active := by
      have := hw.dllF; rw [hF] at this; exact this.rl_next
    obtain ⟨f1, rfl⟩ : ∃ f1, fuel = f1 + 1 := ⟨fuel - 1, by omega⟩
    obtain ⟨f2, rfl⟩ : ∃ f2, f1 = f2 + 1 := ⟨f1 - 1, by simp at hf; omega⟩
    have hx0 : x ≠ 0 := by omega
    simp [frontier_from, tb_next_active, c_assert, deref, hv, hact, hrl, hx0, bind, Except.bind,
      pure, Except.pure]
  | y :: rest, pre, x, fuel, hF, hf => by
    have hx : x ∈ F := by rw [hF]; simp
    have hxa := hw.subF x hx
    have hx6 := hw.node x hxa
    have hv : valid t.toMem x := Or.inl hxa
    have hact := (hw.act x hxa).2 hx
    have hrl : t.rl x = y := by
      have := hw.dllF; rw [hF] at this; exact this.rl_next
    have hy : y ∈ F := by rw [hF]; simp
    have hy6 := hw.node y (hw.subF y hy)
    have hy1 : y ≠ s_active := by simp; omega
    obtain ⟨f1, rfl⟩ : ∃ f1, fuel = f1 + 1 := ⟨fuel - 1, by omega⟩
    have ih := frontier_from_spec hw rest (pre ++ [x]) y f1 (by simp [hF])
      (by simp at hf ⊢; omega)
    have hx0 : x ≠ 0 := by omega
    rw [frontier_from, if_neg hx0]
    simp only [tb_next_active, c_assert, deref, hv, hact, hrl, hx0, hy1, bind, Except.bind, pure,
      Except.pure, ne_eq, not_false_eq_true, if_true, if_false, ih]

/-- The client enumerates the nodes of the frontier, in the order of the list. -/
theorem frontier_ok {t : Tree} {F D : List Nat} (hw : Wf t.toMem F D) : frontier t = .ok F := by
  unfold frontier tb_active
  cases F with
  | nil =>
    have : t.rl s_active = s_active := hw.dllF.rl_head
    simp [this, frontier_from, pure, Except.pure]
  | cons x rest =>
    have h1 : t.rl s_active = x := hw.dllF.rl_head
    have hx6 := hw.node x (hw.subF x (by simp))
    have hx1 : x ≠ s_active := by simp; omega
    rw [h1, if_neg hx1]
    refine frontier_from_spec hw rest [] x _ rfl ?_
    have := length_le_of_nodup_subset hw.F_nodup hw.subF
    simp at this ⊢
    omega

/-- Every tree a client can build is well formed. -/
theorem Reach.inv {t : Tree} {F : List Nat} (h : Reach t F) : ∃ D, Inv t F D := by
  induction h with
  | init hH hr he => exact ⟨[], (init_ok hH hr he).1⟩
  | @add_child t t' F p c d _ hp hc hc6 he ih =>
    obtain ⟨D, hi⟩ := ih
    cases ha : t.algo with
    | tb_naive =>
      obtain ⟨t1, e1, h1, -⟩ := add_child_naive_ok hi d hp hc hc6 ha
      rw [e1] at he; cases he
      exact ⟨_, h1⟩
    | tb_gc =>
      obtain ⟨t1, e1, h1, -⟩ := add_child_mark_ok hi d hp hc hc6 ha
      rw [e1] at he; cases he
      exact ⟨_, h1⟩
    | tb_amortized =>
      obtain ⟨t1, D1, e1, h1, -⟩ := add_child_am_ok hi d hp hc hc6 ha
      rw [e1] at he; cases he
      exact ⟨_, h1⟩
    | tb_real_time =>
      obtain ⟨t1, e1, h1, -⟩ := add_child_rt_ok hi d hp hc hc6 ha
      rw [e1] at he; cases he
      exact ⟨_, h1⟩
  | @deactivate t t' F n _ hn he ih =>
    obtain ⟨D, hi⟩ := ih
    cases ha : t.algo with
    | tb_naive =>
      obtain ⟨t1, e1, h1, -⟩ := deactivate_naive_ok hi hn ha
      rw [e1] at he; cases he
      exact ⟨_, h1⟩
    | tb_gc =>
      obtain ⟨t1, e1, h1, -⟩ := deactivate_mark_ok hi hn ha
      rw [e1] at he; cases he
      exact ⟨_, h1⟩
    | tb_amortized =>
      obtain ⟨t1, e1, h1, -⟩ := deactivate_am_ok hi hn ha
      rw [e1] at he; cases he
      exact ⟨_, h1⟩
    | tb_real_time =>
      obtain ⟨t1, e1, h1, -⟩ := deactivate_rt_ok hi hn ha
      rw [e1] at he; cases he
      exact ⟨_, h1⟩
  | @history t t' F n out _ hn he ih =>
    obtain ⟨D, hi⟩ := ih
    obtain ⟨t1, e1, h1, -⟩ := history_ok hi hn
    rw [e1] at he; cases he
    exact ⟨_, h1⟩
  | @start t t' F _ he ih =>
    obtain ⟨D, hi⟩ := ih
    refine ⟨D, ?_⟩
    by_cases hs : t.statistics_file = false
    · simp [tb_start_collecting_statistics, c_assert, hs, bind, Except.bind, pure,
        Except.pure] at he
      subst he
      exact ⟨hi.wf, hi.hist, hi.mems, hi.rt, hi.am, hi.mark⟩
    · simp [tb_start_collecting_statistics, c_assert, hs, bind, Except.bind] at he
  | stop _ ih =>
    obtain ⟨D, hi⟩ := ih
    exact ⟨D, ⟨hi.wf, hi.hist, hi.mems, hi.rt, hi.am, hi.mark⟩⟩

/-! ## The chain of the ancestors -/

theorem anc_length_le {par : Nat → Nat} : ∀ (h p : Nat), (anc par h p).length ≤ h
  | 0, _ => by simp [anc]
  | h + 1, p => by
    by_cases hp : p = 0
    · rw [hp, anc_null]; simp
    · rw [anc_cons hp]
      have := @anc_length_le par h (par p)
      simp only [List.length_cons]
      omega

theorem anc_get {par : Nat → Nat} : ∀ (h p k : Nat), k < (anc par h p).length →
    (anc par h p)[k]? = some (par^[k] p) ∧ par^[k] p ≠ 0
  | 0, p, k, hk => by simp [anc] at hk
  | h + 1, p, k, hk => by
    by_cases hp : p = 0
    · rw [hp, anc_null] at hk; simp at hk
    · rw [anc_cons hp] at hk ⊢
      cases k with
      | zero => simp [hp]
      | succ k =>
        have := @anc_get par h (par p) k (by simpa using hk)
        simpa using this

theorem anc_stop {par : Nat → Nat} : ∀ (h p : Nat),
    (anc par h p).length = h ∨ par^[(anc par h p).length] p = 0
  | 0, _ => by simp [anc]
  | h + 1, p => by
    by_cases hp : p = 0
    · right; rw [hp, anc_null]; simp
    · rw [anc_cons hp]
      rcases @anc_stop par h (par p) with h1 | h1
      · left; simp [h1]
      · right; simpa using h1

theorem anc_pos {par : Nat → Nat} {h p : Nat} (hh : 0 < h) (hp : p ≠ 0) :
    0 < (anc par h p).length := by
  obtain ⟨h', rfl⟩ : ∃ h', h = h' + 1 := ⟨h - 1, by omega⟩
  rw [anc_cons hp]; simp

/-- The chain of a node `d` edges below the root has `min h (d + 1)` nodes. -/
theorem anc_length_dist {par : Nat → Nat} {n d : Nat} (hd : IsDist par n d) (h : Nat) :
    (anc par h n).length = min h (d + 1) := by
  have h1 := @anc_length_le par h n
  have h2 := @anc_get par h n
  have hlt : (anc par h n).length ≤ d + 1 := by
    by_contra hc
    exact (h2 (d + 1) (by omega)).2 hd.2
  rcases @anc_stop par h n with h3 | h3
  · omega
  · have : d < (anc par h n).length := by
      by_contra hc
      exact hd.1 _ (by omega) h3
    omega

theorem anc_take {par : Nat → Nat} : ∀ (h p : Nat), (anc par (h + 1) p).take h = anc par h p
  | 0, p => by simp [anc]
  | h + 1, p => by
    by_cases hp : p = 0
    · rw [hp, anc_null, anc_null]; simp
    · rw [anc_cons hp, anc_cons hp, List.take_succ_cons, anc_take h (par p)]

theorem anc_pred_congr {par par' : Nat → Nat} {h p : Nat} (hh : 0 < h)
    (he : anc par' h p = anc par h p) : anc par' (h - 1) p = anc par (h - 1) p := by
  obtain ⟨h', rfl⟩ : ∃ h', h = h' + 1 := ⟨h - 1, by omega⟩
  simp only [Nat.add_sub_cancel]
  rw [← anc_take, ← @anc_take par, he]

/-! ## The operations under every algorithm -/

theorem algo_cases (a : algo) :
    a = tb_naive ∨ a = tb_gc ∨ a = tb_amortized ∨ a = tb_real_time := by
  cases a <;> simp

theorem add_child_ok {t : Tree} {F D : List Nat} (h : Inv t F D) {p c : Nat} (d : Int)
    (hp : p ∈ F) (hc : c ∉ t.alloc) (hc6 : 6 ≤ c) :
    ∃ t' D', tb_add_child { t with toMem := tb_make_node t.toMem c d } p c = .ok t' ∧
      Inv t' (c :: F) D' ∧ AddOK t t' p c d F := by
  rcases algo_cases t.algo with ha | ha | ha | ha
  · obtain ⟨t1, e1, h1, h2⟩ := add_child_naive_ok h d hp hc hc6 ha
    exact ⟨t1, _, e1, h1, h2⟩
  · obtain ⟨t1, e1, h1, h2⟩ := add_child_mark_ok h d hp hc hc6 ha
    exact ⟨t1, _, e1, h1, h2⟩
  · exact add_child_am_ok h d hp hc hc6 ha
  · obtain ⟨t1, e1, h1, h2⟩ := add_child_rt_ok h d hp hc hc6 ha
    exact ⟨t1, _, e1, h1, h2⟩

theorem deactivate_ok {t : Tree} {F D : List Nat} (h : Inv t F D) {n : Nat} (hn : n ∈ F) :
    ∃ t' D', tb_deactivate t n = .ok t' ∧ Inv t' (F.erase n) D' ∧ DeactOK t t' n F := by
  rcases algo_cases t.algo with ha | ha | ha | ha
  · obtain ⟨t1, e1, h1, h2⟩ := deactivate_naive_ok h hn ha
    exact ⟨t1, _, e1, h1, h2⟩
  · obtain ⟨t1, e1, h1, h2⟩ := deactivate_mark_ok h hn ha
    exact ⟨t1, _, e1, h1, h2⟩
  · obtain ⟨t1, e1, h1, h2⟩ := deactivate_am_ok h hn ha
    exact ⟨t1, _, e1, h1, h2⟩
  · obtain ⟨t1, e1, h1, h2⟩ := deactivate_rt_ok h hn ha
    exact ⟨t1, _, e1, h1, h2⟩

/-- The naive algorithm frees nothing. -/
theorem add_child_naive_alloc {t : Tree} {F D : List Nat} (h : Inv t F D) {p c : Nat} (d : Int)
    (hp : p ∈ F) (hc : c ∉ t.alloc) (hc6 : 6 ≤ c) (ha : t.algo = tb_naive) :
    ∃ t', tb_add_child { t with toMem := tb_make_node t.toMem c d } p c = .ok t' ∧
      t'.alloc = c :: t.alloc :=
  ⟨_, (h.wf.add_child_pre d h.mems hp hc hc6).trans (add_child_tail_plain (Or.inl ha)), by
    show (finish _ _).toMem.alloc = _
    rw [finish_toMem, print_statistic_toMem]
    rfl⟩

theorem deactivate_naive_alloc {t : Tree} {F D : List Nat} (h : Inv t F D) {n : Nat}
    (hn : n ∈ F) (ha : t.algo = tb_naive) :
    ∃ t', tb_deactivate t n = .ok t' ∧ t'.alloc = t.alloc :=
  ⟨_, (h.wf.deactivate_pre h.mems hn).trans (deactivate_tail_plain (Or.inl ha)), by
    show (finish _ _).toMem.alloc = _
    rw [finish_toMem]
    exact Mem.deactivate_alloc _ _⟩

/-! ## Two algorithms side by side -/

theorem Sim.init {H : Nat} {a : algo} {r : Nat} {d : Int} {tn ta : Tree} (hH : 0 < H)
    (hr : 6 ≤ r) (hn : tb_initialize H tb_naive r (tb_make_node Mem.empty r d) = .ok tn)
    (ha : tb_initialize H a r (tb_make_node Mem.empty r d) = .ok ta) :
    Sim tn ta [r] [r] := by
  obtain ⟨i1, h1, a1, l1, p1, d1⟩ := init_ok hH hr hn
  obtain ⟨i2, h2, a2, l2, p2, d2⟩ := init_ok hH hr ha
  have hr0 : r ≠ 0 := by omega
  obtain ⟨H', rfl⟩ : ∃ H', H = H' + 1 := ⟨H - 1, by omega⟩
  refine ⟨⟨_, i1⟩, ⟨_, i2⟩, a1, by rw [h1, h2], ?_, ?_, ?_, ?_⟩
  · rw [d1, d2]
  · intro f hf
    have : f = r := by simpa using hf
    subst this
    rw [h1, anc_cons hr0, anc_cons hr0, p1, p2, anc_null, anc_null]
  · intro q hq; rw [l2] at hq; rw [l1]; exact hq
  · intro q; rw [l1]

/-! ## Two algorithms side by side: the operations -/

theorem Sim.sim_add_child {tn ta : Tree} {F U : List Nat} (h : Sim tn ta F U) {p c : Nat} (d : Int)
    (hp : p ∈ F) (hc : c ∉ U) (hc6 : 6 ≤ c) :
    ∃ tn' ta' b, step tn (.add_child p c d) = .ok (tn', b) ∧
      step ta (.add_child p c d) = .ok (ta', b) ∧ Sim tn' ta' (c :: F) (c :: U) ∧
      tn'.history = tn.history := by
  obtain ⟨Dn, hin⟩ := h.invn
  obtain ⟨Da, hia⟩ := h.inva
  have hcn : c ∉ tn.alloc := fun hm => hc ((h.ids c).1 hm)
  have hca : c ∉ ta.alloc := fun hm => hcn (h.sub c hm)
  obtain ⟨tn', en, hin', okn⟩ := add_child_naive_ok hin d hp hcn hc6 h.naive
  obtain ⟨tn'', en', han⟩ := add_child_naive_alloc hin d hp hcn hc6 h.naive
  rw [en] at en'; cases en'
  obtain ⟨ta', Da', ea, hia', oka⟩ := add_child_ok hia d hp hca hc6
  have hH := hin.hist
  refine ⟨tn', ta', ⟨[], [], c :: F⟩, ?_, ?_, ⟨⟨_, hin'⟩, ⟨_, hia'⟩, ?_, ?_, ?_, ?_, ?_, ?_⟩,
    okn.same.history⟩
  · simp only [step, en, frontier_ok hin'.wf, bind, Except.bind, pure, Except.pure]
  · simp only [step, ea, frontier_ok hia'.wf, bind, Except.bind, pure, Except.pure]
  · rw [okn.same.algo]; exact h.naive
  · rw [oka.same.history, okn.same.history]; exact h.hist
  · rw [oka.data, okn.data, h.data]
  · intro f hf
    rw [okn.same.history]
    rcases List.mem_cons.1 hf with rfl | hf
    · have h1 := oka.hist_new
      rw [h.hist] at h1
      rw [h1, okn.hist_new]
      congr 1
      exact anc_pred_congr hH (h.chain p hp)
    · have h1 := oka.hist_old f hf
      rw [h.hist] at h1
      rw [h1, okn.hist_old f hf]
      exact h.chain f hf
  · intro q hq
    rw [han]
    rcases oka.sub q hq with h1 | h1
    · simp [h1]
    · exact List.mem_cons_of_mem _ (h.sub q h1)
  · intro q
    rw [han]
    simp only [List.mem_cons, h.ids q]

theorem Sim.sim_deactivate {tn ta : Tree} {F U : List Nat} (h : Sim tn ta F U) {n : Nat}
    (hn : n ∈ F) :
    ∃ tn' ta' b, step tn (.deactivate n) = .ok (tn', b) ∧
      step ta (.deactivate n) = .ok (ta', b) ∧ Sim tn' ta' (F.erase n) U ∧
      tn'.history = tn.history := by
  obtain ⟨Dn, hin⟩ := h.invn
  obtain ⟨Da, hia⟩ := h.inva
  obtain ⟨tn', en, hin', okn⟩ := deactivate_naive_ok hin hn h.naive
  obtain ⟨tn'', en', han⟩ := deactivate_naive_alloc hin hn h.naive
  rw [en] at en'; cases en'
  obtain ⟨ta', Da', ea, hia', oka⟩ := deactivate_ok hia hn
  refine ⟨tn', ta', ⟨[], [], F.erase n⟩, ?_, ?_, ⟨⟨_, hin'⟩, ⟨_, hia'⟩, ?_, ?_, ?_, ?_, ?_, ?_⟩,
    okn.same.history⟩
  · simp only [step, en, frontier_ok hin'.wf, bind, Except.bind, pure, Except.pure]
  · simp only [step, ea, frontier_ok hia'.wf, bind, Except.bind, pure, Except.pure]
  · rw [okn.same.algo]; exact h.naive
  · rw [oka.same.history, okn.same.history]; exact h.hist
  · rw [oka.data, okn.data, h.data]
  · intro f hf
    rw [okn.same.history]
    have h1 := oka.hist f hf
    rw [h.hist] at h1
    rw [h1, okn.hist f hf]
    exact h.chain f (List.mem_of_mem_erase hf)
  · intro q hq
    rw [han]
    exact h.sub q (oka.sub q hq)
  · intro q
    rw [han]
    exact h.ids q

theorem Sim.history {tn ta : Tree} {F U : List Nat} (h : Sim tn ta F U) {n : Nat}
    (hn : n ∈ F) :
    ∃ tn' ta' b, step tn (.history n) = .ok (tn', b) ∧
      step ta (.history n) = .ok (ta', b) ∧ Sim tn' ta' F U ∧
      tn'.history = tn.history := by
  obtain ⟨Dn, hin⟩ := h.invn
  obtain ⟨Da, hia⟩ := h.inva
  obtain ⟨tn', en, hin', hmn, hsn⟩ := history_ok hin hn
  obtain ⟨ta', ea, hia', hma, hsa⟩ := history_ok hia hn
  have hout : anc ta.parent ta.history n = anc tn.parent tn.history n := by
    rw [h.hist]; exact h.chain n hn
  have hdn : tn'.data = tn.data := by show tn'.toMem.data = _; rw [hmn]
  have hda : ta'.data = ta.data := by show ta'.toMem.data = _; rw [hma]
  have hpn : tn'.parent = tn.parent := by show tn'.toMem.parent = _; rw [hmn]
  have hpa : ta'.parent = ta.parent := by show ta'.toMem.parent = _; rw [hma]
  have han : tn'.alloc = tn.alloc := by show tn'.toMem.alloc = _; rw [hmn]
  have haa : ta'.alloc = ta.alloc := by show ta'.toMem.alloc = _; rw [hma]
  refine ⟨tn', ta', ⟨anc tn.parent tn.history n ++ [0],
    (anc tn.parent tn.history n ++ [0]).dropLast.map tn.data, F⟩, ?_, ?_,
    ⟨⟨_, hin'⟩, ⟨_, hia'⟩, ?_, ?_, ?_, ?_, ?_, ?_⟩, hsn.history⟩
  · simp only [step, en, frontier_ok hin'.wf, bind, Except.bind, pure, Except.pure,
      tb_get_data, hmn]
    rfl
  · simp only [step, ea, frontier_ok hia'.wf, bind, Except.bind, pure, Except.pure,
      tb_get_data, hma, hout]
    show Except.ok (ta', (⟨_, List.map ta.data _, F⟩ : Obs)) = _
    rw [h.data]
  · rw [hsn.algo]; exact h.naive
  · rw [hsa.history, hsn.history]; exact h.hist
  · rw [hda, hdn, h.data]
  · intro f hf
    rw [hpa, hpn, hsn.history]
    exact h.chain f hf
  · intro q hq
    rw [han]; rw [haa] at hq
    exact h.sub q hq
  · intro q
    rw [han]
    exact h.ids q

/-- Run under the naive algorithm and under another one, a sequence of
operations gives the same observations. -/
theorem run_sim : ∀ (os : List Op) (tn ta : Tree) (F U : List Nat), Sim tn ta F U →
    respects F U os = true →
    ∃ tn' ta' obs, run tn os = .ok (tn', obs) ∧ run ta os = .ok (ta', obs) ∧
      Sim tn' ta' (live F os) (used U os) ∧ tn'.history = tn.history
  | [], tn, ta, F, U, h, _ => ⟨tn, ta, [], rfl, rfl, h, rfl⟩
  | .add_child p c d :: os, tn, ta, F, U, h, hv => by
    simp only [respects, Bool.and_eq_true, decide_eq_true_eq] at hv
    obtain ⟨⟨⟨hp, hc⟩, hc6⟩, hv'⟩ := hv
    obtain ⟨tn1, ta1, b, e1, e2, h1, hh⟩ := h.sim_add_child d hp hc hc6
    obtain ⟨tn2, ta2, bs, e3, e4, h2, hh2⟩ := run_sim os tn1 ta1 _ _ h1 hv'
    exact ⟨tn2, ta2, b :: bs, by simp only [run, e1, e3, bind, Except.bind, pure, Except.pure],
      by simp only [run, e2, e4, bind, Except.bind, pure, Except.pure], h2, hh2.trans hh⟩
  | .deactivate n :: os, tn, ta, F, U, h, hv => by
    simp only [respects, Bool.and_eq_true, decide_eq_true_eq] at hv
    obtain ⟨hn, hv'⟩ := hv
    obtain ⟨tn1, ta1, b, e1, e2, h1, hh⟩ := h.sim_deactivate hn
    obtain ⟨tn2, ta2, bs, e3, e4, h2, hh2⟩ := run_sim os tn1 ta1 _ _ h1 hv'
    exact ⟨tn2, ta2, b :: bs, by simp only [run, e1, e3, bind, Except.bind, pure, Except.pure],
      by simp only [run, e2, e4, bind, Except.bind, pure, Except.pure], h2, hh2.trans hh⟩
  | .history n :: os, tn, ta, F, U, h, hv => by
    simp only [respects, Bool.and_eq_true, decide_eq_true_eq] at hv
    obtain ⟨hn, hv'⟩ := hv
    obtain ⟨tn1, ta1, b, e1, e2, h1, hh⟩ := h.history hn
    obtain ⟨tn2, ta2, bs, e3, e4, h2, hh2⟩ := run_sim os tn1 ta1 _ _ h1 hv'
    exact ⟨tn2, ta2, b :: bs, by simp only [run, e1, e3, bind, Except.bind, pure, Except.pure],
      by simp only [run, e2, e4, bind, Except.bind, pure, Except.pure], h2, hh2.trans hh⟩

/-- The same for a sequence of operations on a fresh tree. -/
theorem script_sim {H : Nat} (a : algo) {r : Nat} (d : Int) (os : List Op) (hH : 0 < H)
    (hr : 6 ≤ r) (hv : respects [r] [r] os = true) :
    ∃ tn ta obs, script H tb_naive r d os = .ok (tn, obs) ∧
      script H a r d os = .ok (ta, obs) ∧ Sim tn ta (live [r] os) (used [r] os) ∧
      tn.history = H := by
  have hi : ∀ b : algo, ∃ t, tb_initialize H b r (tb_make_node Mem.empty r d) = .ok t := by
    intro b
    have hv : valid (tb_make_node Mem.empty r d) r := Or.inl (by simp [tb_make_node])
    have hr0 : r ≠ 0 := by omega
    exact ⟨_, by
      simp only [ tb_initialize, c_assert, hr0, hH, hv, bind, Except.bind, pure, Except.pure,
        ne_eq, not_false_eq_true, if_true, gt_iff_lt, not_true_eq_false, if_false]
      simp only [tb_make_node, upd_same, upd_apply, if_true]
      rfl⟩
  obtain ⟨tn0, en⟩ := hi tb_naive
  obtain ⟨ta0, ea⟩ := hi a
  obtain ⟨tn, ta, obs, e1, e2, h, hh⟩ := run_sim os tn0 ta0 _ _ (Sim.init hH hr en ea) hv
  exact ⟨tn, ta, obs, by simp only [script, en, e1, bind, Except.bind],
    by simp only [script, ea, e2, bind, Except.bind], h, hh.trans (init_ok hH hr en).2.1⟩

/-! ## What `gc` keeps, and where the inner nodes hang -/

theorem deactivate_mark_kept {t : Tree} {F D : List Nat} (h : Inv t F D) {n : Nat}
    (hn : n ∈ F) (ha : t.algo = tb_gc) :
    ∃ t', tb_deactivate t n = .ok t' ∧
      ∀ q, q ∈ t'.alloc ↔ ∃ f ∈ F.erase n, q ∈ anc t.parent (max (t.history - 1) 1 + 1) f := by
  obtain ⟨t1, ht1⟩ : ∃ t1 : Tree, t1 =
    { t with toMem := t.toMem.deactivate n, mems := if t.children n = 0 then 18 else 9 } :=
    ⟨_, rfl⟩
  have hw1 : Wf t1.toMem (F.erase n) (deact_D t.toMem n D) := by
    rw [ht1]; exact h.wf.wf_deactivate hn
  have hh1 : t1.history = t.history := by rw [ht1]
  have ha1 : t1.algo = tb_gc := by rw [ht1]; exact ha
  have hp1 : t1.parent = t.parent := by rw [ht1]; exact Mem.deactivate_parent _ _
  obtain ⟨t2, e2, post⟩ := gc_ok hw1 (by rw [hh1]; exact h.hist) (Or.inl ha1)
    (fun h1 => by rw [ha1] at h1; exact absurd h1 (by simp))
  have ha2 : t2.algo = tb_gc := by rw [post.same.algo, ha1]
  have hpre := h.wf.deactivate_pre h.mems hn
  rw [← ht1] at hpre
  refine ⟨finish t2 .TD, hpre.trans (deactivate_tail_mark ha1 e2 ha2), fun q => ?_⟩
  have := post.kept q
  rw [hh1, hp1] at this
  rw [← this]
  show q ∈ (finish t2 .TD).toMem.alloc ↔ _
  rw [finish_toMem]

theorem gc_kept {t : Tree} {F D : List Nat} (h : Inv t F D)
    (ha : t.algo = tb_gc ∨ t.algo = tb_amortized) :
    ∃ t', gc t = .ok t' ∧
      ∀ q, q ∈ t'.alloc ↔ ∃ f ∈ F, q ∈ anc t.parent (max (t.history - 1) 1 + 1) f := by
  obtain ⟨t', e, post⟩ := gc_ok h.wf h.hist ha (fun h1 => (h.am h1).1)
  exact ⟨t', e, post.kept⟩

theorem Wf.mem_F_iff {m : Mem} {F D : List Nat} (h : Wf m F D) (f : Nat) :
    f ∈ F ↔ (f ∈ m.alloc ∧ m.active f = true) :=
  ⟨fun hf => ⟨h.subF f hf, (h.act f (h.subF f hf)).2 hf⟩, fun hf => (h.act f hf.1).1 hf.2⟩

/-- Every live node lies above a node of the frontier or of `t->to_delete`. -/
theorem Wf.hangs {m : Mem} {F D : List Nat} (h : Wf m F D) :
    ∀ p ∈ m.alloc, ∃ f ∈ F ++ D, ∃ k, m.parent^[k] f = p := by
  obtain ⟨rk, hrk⟩ := h.acyc
  obtain ⟨B, hB⟩ := exists_bound rk m.alloc
  have key : ∀ n p, p ∈ m.alloc → B + 1 ≤ rk p + n → ∃ f ∈ F ++ D, ∃ k, m.parent^[k] f = p := by
    intro n
    induction n with
    | zero => intro p hp hle; have := hB p hp; omega
    | succ n ih =>
      intro p hp hle
      by_cases hF : p ∈ F
      · exact ⟨p, by simp [hF], 0, rfl⟩
      by_cases hD : p ∈ D
      · exact ⟨p, by simp [hD], 0, rfl⟩
      have hact : m.active p = false := by
        by_contra hc
        exact hF ((h.act p hp).1 (by simpa using hc))
      have hc : m.children p ≠ 0 := fun hc => hD ((h.del p).2 ⟨hp, hact, hc⟩)
      have hpos : 0 < nchildren m p := by
        have := h.cnt p hp
        omega
      obtain ⟨c, hca, hpc⟩ := List.countP_pos_iff.1 hpos
      have hpc : m.parent c = p := by simpa using hpc
      have hp6 := h.node p hp
      have hlt := hrk c hca (by rw [hpc]; omega)
      rw [hpc] at hlt
      obtain ⟨f, hf, k, hk⟩ := ih c hca (by omega)
      exact ⟨f, hf, k + 1, by rw [Function.iterate_succ_apply', hk, hpc]⟩
  intro p hp
  exact key (B + 1) p hp (by omega)

/-! ## The trees of the examples -/

theorem nx0_reach : Reach nx0 [10] :=
  Reach.init (H := 3) (a := tb_naive) (d := 0) (by decide) (by decide) rfl

theorem nx1_reach : Reach nx1 [11, 10] :=
  Reach.add_child (p := 10) (d := 0) nx0_reach (by decide) (by decide) (by decide) rfl

theorem nx2_reach : Reach nx2 [12, 11, 10] :=
  Reach.add_child (p := 11) (d := 0) nx1_reach (by decide) (by decide) (by decide) rfl

theorem hx0_reach : Reach hx0 [10] :=
  Reach.init (H := 1) (a := tb_naive) (d := 0) (by decide) (by decide) rfl

theorem hx1_reach : Reach hx1 [11, 10] :=
  Reach.add_child (p := 10) (d := 0) hx0_reach (by decide) (by decide) (by decide) rfl

theorem gx0_reach : Reach gx0 [10] :=
  Reach.init (H := 1) (a := tb_gc) (d := 0) (by decide) (by decide) rfl

theorem gx1_reach : Reach gx1 [11, 10] :=
  Reach.add_child (p := 10) (d := 0) gx0_reach (by decide) (by decide) (by decide) rfl

theorem ax0_reach : Reach ax0 [10] :=
  Reach.init (H := 1) (a := tb_amortized) (d := 0) (by decide) (by decide) rfl

theorem rx0_reach : Reach rx0 [10] :=
  Reach.init (H := 4) (a := tb_real_time) (d := 0) (by decide) (by decide) rfl

theorem rx1_reach : Reach rx1 [11, 10] :=
  Reach.add_child (p := 10) (d := 0) rx0_reach (by decide) (by decide) (by decide) rfl

theorem rx2_reach : Reach rx2 [12, 11, 10] :=
  Reach.add_child (p := 10) (d := 0) rx1_reach (by decide) (by decide) (by decide) rfl

theorem rx3_reach : Reach rx3 [13, 12, 11, 10] :=
  Reach.add_child (p := 10) (d := 0) rx2_reach (by decide) (by decide) (by decide) rfl

theorem rx4_reach : Reach rx4 [13, 12, 11] :=
  Reach.deactivate (n := 10) rx3_reach (by decide) rfl

theorem ux0_reach : Reach ux0 [10] :=
  Reach.init (H := 2) (a := tb_real_time) (d := 0) (by decide) (by decide) rfl

theorem ux1_reach : Reach ux1 [11, 10] :=
  Reach.add_child (p := 10) (d := 0) ux0_reach (by decide) (by decide) (by decide) rfl

theorem ux2_reach : Reach ux2 [10] :=
  Reach.deactivate (n := 11) ux1_reach (by decide) rfl

/-- The naive tree with the chain `10 - 11 - 12` and history 3: the history of
`12` is `12, 11, 10`. -/
theorem nx2_history : (tb_history nx2 12).map (fun r => r.2) = .ok [12, 11, 10, 0] := rfl

/-- The naive tree with the chain `10 - 11` and history 1: the history of `11`
is `11` alone. -/
theorem hx1_history : (tb_history hx1 11).map (fun r => r.2) = .ok [11, 0] := rfl

/-- On the real-time tree with the root `10`, `tb_expand` with the nodes `11`,
`12`, `13` leaves the frontier `13, 12, 11`. -/
theorem rx0_expand : (tb_expand rx0_made 10 [11, 12, 13, 0]).bind frontier = .ok [13, 12, 11] :=
  rfl

/-! ## The claims -/

/-- C1: on every reachable tree, under each of the four algorithms, `tb_history`
returns for every active node `n`. It writes a sequence `L` of nodes and then
`0`; `L` has at least one and at most `history` nodes, starts with `n`, its
`k`-th node is the `k`-th parent of `n`, and it ends when `history` nodes are
written or when the node written last has no parent. -/
theorem tb_history_chain (t : Tree) (n : Nat) (hr : Reachable t) (hn : n ∈ t.alloc)
    (ha : t.active n = true) :
    ∃ t' L, tb_history t n = .ok (t', L ++ [0]) ∧ 0 < L.length ∧ L.length ≤ t.history ∧
      L[0]? = some n ∧
      (∀ k, k < L.length → L[k]? = some (t.parent^[k] n) ∧ t.parent^[k] n ≠ 0) ∧
      (L.length = t.history ∨ t.parent^[L.length] n = 0) := by
  obtain ⟨F, hF⟩ := hr
  obtain ⟨D, hi⟩ := hF.inv
  have hnF : n ∈ F := (hi.wf.mem_F_iff n).2 ⟨hn, ha⟩
  obtain ⟨t', e, -⟩ := history_ok hi hnF
  have hn0 : n ≠ 0 := by have := hi.wf.node n hn; omega
  have hpos := @anc_pos t.parent _ _ hi.hist hn0
  exact ⟨t', _, e, hpos, anc_length_le _ _, by simpa using (anc_get _ _ 0 hpos).1,
    anc_get _ _, anc_stop _ _⟩

theorem tb_history_chain_witness :
    (12 ∈ nx2.alloc ∧ nx2.active 12 = true) ∧
    ∃ t' L, tb_history nx2 12 = .ok (t', L ++ [0]) ∧ 0 < L.length ∧ L.length ≤ nx2.history ∧
      L[0]? = some 12 ∧
      (∀ k, k < L.length → L[k]? = some (nx2.parent^[k] 12) ∧ nx2.parent^[k] 12 ≠ 0) ∧
      (L.length = nx2.history ∨ nx2.parent^[L.length] 12 = 0) :=
  ⟨⟨by decide, by decide⟩, tb_history_chain nx2 12 ⟨_, nx2_reach⟩ (by decide) (by decide)⟩

/-- C2: for every history `H > 0` and every sequence of operations that respects
the preconditions, the run under each algorithm `a` returns, as the run under
the naive algorithm does, and the client observes the same: out of every
`tb_history` the same nodes with the same data, and after every operation the
same enumeration of the frontier. -/
theorem algorithms_agree (H : Nat) (a : algo) (r : Nat) (d : Int) (os : List Op) (hH : 0 < H)
    (hr : 6 ≤ r) (hv : respects [r] [r] os = true) :
    ∃ tn ta obs, script H tb_naive r d os = .ok (tn, obs) ∧
      script H a r d os = .ok (ta, obs) := by
  obtain ⟨tn, ta, obs, e1, e2, -, -⟩ := script_sim a d os hH hr hv
  exact ⟨tn, ta, obs, e1, e2⟩

theorem algorithms_agree_witness :
    (∃ tn ta obs, script 2 tb_naive 10 0 [.add_child 10 11 0, .add_child 11 12 0,
        .deactivate 10, .deactivate 11, .history 12] = .ok (tn, obs) ∧
      script 2 tb_gc 10 0 [.add_child 10 11 0, .add_child 11 12 0,
        .deactivate 10, .deactivate 11, .history 12] = .ok (ta, obs)) ∧
    (∃ tn ta obs, script 2 tb_naive 10 0 [.add_child 10 11 0, .add_child 11 12 0,
        .deactivate 10, .deactivate 11, .history 12] = .ok (tn, obs) ∧
      script 2 tb_amortized 10 0 [.add_child 10 11 0, .add_child 11 12 0,
        .deactivate 10, .deactivate 11, .history 12] = .ok (ta, obs)) ∧
    (∃ tn ta obs, script 2 tb_naive 10 0 [.add_child 10 11 0, .add_child 11 12 0,
        .deactivate 10, .deactivate 11, .history 12] = .ok (tn, obs) ∧
      script 2 tb_real_time 10 0 [.add_child 10 11 0, .add_child 11 12 0,
        .deactivate 10, .deactivate 11, .history 12] = .ok (ta, obs)) :=
  ⟨algorithms_agree 2 tb_gc 10 0 _ (by decide) (by decide) (by decide),
   algorithms_agree 2 tb_amortized 10 0 _ (by decide) (by decide) (by decide),
   algorithms_agree 2 tb_real_time 10 0 _ (by decide) (by decide) (by decide)⟩

/-- C3, as stated, fails: on the naive tree with history 1 and the chain
`10 - 11`, the node `11` lies one edge below the root and `tb_history` writes
one node, not `min (1 + 1) (1 + 1) = 2`. -/
theorem history_length_counterexample :
    ¬ (∀ (t : Tree) (n d : Nat), Reachable t → n ∈ t.alloc → t.active n = true →
        IsDist t.parent n d →
        ∃ t' L, tb_history t n = .ok (t', L ++ [0]) ∧ L.length = min (1 + t.history) (d + 1)) := by
  intro h
  obtain ⟨t', L, e, hl⟩ := h hx1 11 1 ⟨_, hx1_reach⟩ (by decide) (by decide)
    ⟨by decide, by decide⟩
  have h1 := hx1_history
  rw [e] at h1
  have h2 : L ++ [0] = [11, 0] := by
    simpa [Except.map] using h1
  have h3 : (L ++ [0]).length = 2 := by rw [h2]; rfl
  have h4 : hx1.history = 1 := by decide
  rw [h4] at hl
  have h5 : L = [11] := by
    have : L ++ [0] = [11] ++ [0] := h2
    exact List.append_cancel_right this
  rw [h5] at hl
  simp at hl

/-- C3, amended: for every history `H > 0`, every sequence of operations that
respects the preconditions and each of the four algorithms, for every node `n`
that is active in the end and lies `d` edges below the root (in the tree of the
naive run, which holds every node added), `tb_history` returns a sequence of
`min H (d + 1)` nodes: `n` and up to `H - 1` ancestors. -/
theorem history_length (H : Nat) (a : algo) (r : Nat) (d0 : Int) (os : List Op) (hH : 0 < H)
    (hr : 6 ≤ r) (hv : respects [r] [r] os = true) :
    ∃ tn ta obs, script H tb_naive r d0 os = .ok (tn, obs) ∧
      script H a r d0 os = .ok (ta, obs) ∧ ta.history = H ∧
      ∀ n d, n ∈ live [r] os → IsDist tn.parent n d →
        ∃ t' L, tb_history ta n = .ok (t', L ++ [0]) ∧ L.length = min H (d + 1) := by
  obtain ⟨tn, ta, obs, e1, e2, hs, hHn⟩ := script_sim a d0 os hH hr hv
  obtain ⟨Da, hia⟩ := hs.inva
  have hHa : ta.history = H := hs.hist.trans hHn
  refine ⟨tn, ta, obs, e1, e2, hHa, fun n d hn hd => ?_⟩
  obtain ⟨t', e, -⟩ := history_ok hia hn
  refine ⟨t', _, e, ?_⟩
  have := hs.chain n hn
  rw [hs.hist, this, ← hs.hist, hHa]
  exact anc_length_dist hd H

theorem history_length_witness :
    ∃ tn ta obs, script 1 tb_naive 10 0 [.add_child 10 11 0, .add_child 11 12 0] = .ok (tn, obs) ∧
      script 1 tb_gc 10 0 [.add_child 10 11 0, .add_child 11 12 0] = .ok (ta, obs) ∧
      ta.history = 1 ∧
      ∀ n d, n ∈ live [10] [.add_child 10 11 0, .add_child 11 12 0] → IsDist tn.parent n d →
        ∃ t' L, tb_history ta n = .ok (t', L ++ [0]) ∧ L.length = min 1 (d + 1) :=
  history_length 1 tb_gc 10 0 _ (by decide) (by decide) (by decide)

/-- C4, as stated, fails: under the mark algorithm with history 1, after
`initialize` with the root `10`, `add_child 10 11` and `deactivate 10`, the
node `10` has not been freed, though it lies one edge above the frontier. -/
theorem gc_frees_counterexample :
    Reachable gx1 ∧ gx1.algo = tb_gc ∧ gx1.history = 1 ∧ gx1.parent 11 = 10 ∧
      ∃ t', tb_deactivate gx1 10 = .ok t' ∧ 10 ∈ t'.alloc := by
  obtain ⟨D, hi⟩ := gx1_reach.inv
  obtain ⟨t', e, hk⟩ := deactivate_mark_kept hi (n := 10) (by decide) (by decide)
  exact ⟨⟨_, gx1_reach⟩, by decide, by decide, by decide, t', e,
    (hk 10).2 ⟨11, by decide, by decide⟩⟩

/-- C4, amended: on every reachable tree of the mark or the amortized
algorithm `gc` returns, and the nodes owned after it are the nodes at most
`max (history - 1) 1` parent edges above a node of the frontier
(`q ∈ anc parent (k + 1) f` says that `q` lies at most `k` edges above `f`);
every other node, the nodes of `t->to_delete` among them, has been freed. The
same holds of the `gc` that ends `tb_deactivate` under the mark algorithm. -/
theorem gc_keeps (t : Tree) (hr : Reachable t) (ha : t.algo = tb_gc ∨ t.algo = tb_amortized) :
    (∃ t', gc t = .ok t' ∧ ∀ q, q ∈ t'.alloc ↔
        ∃ f, f ∈ t.alloc ∧ t.active f = true ∧
          q ∈ anc t.parent (max (t.history - 1) 1 + 1) f) ∧
    (t.algo = tb_gc → ∀ n, n ∈ t.alloc → t.active n = true →
      ∃ t', tb_deactivate t n = .ok t' ∧ ∀ q, q ∈ t'.alloc ↔
        ∃ f, f ∈ t.alloc ∧ t.active f = true ∧ f ≠ n ∧
          q ∈ anc t.parent (max (t.history - 1) 1 + 1) f) := by
  obtain ⟨F, hF⟩ := hr
  obtain ⟨D, hi⟩ := hF.inv
  constructor
  · obtain ⟨t', e, hk⟩ := gc_kept hi ha
    refine ⟨t', e, fun q => ?_⟩
    rw [hk q]
    constructor
    · rintro ⟨f, hf, hq⟩
      exact ⟨f, ((hi.wf.mem_F_iff f).1 hf).1, ((hi.wf.mem_F_iff f).1 hf).2, hq⟩
    · rintro ⟨f, h1, h2, hq⟩
      exact ⟨f, (hi.wf.mem_F_iff f).2 ⟨h1, h2⟩, hq⟩
  · intro hg n hn hact
    obtain ⟨t', e, hk⟩ := deactivate_mark_kept hi ((hi.wf.mem_F_iff n).2 ⟨hn, hact⟩) hg
    refine ⟨t', e, fun q => ?_⟩
    rw [hk q]
    constructor
    · rintro ⟨f, hf, hq⟩
      have hf' := (hi.wf.F_nodup.mem_erase_iff).1 hf
      exact ⟨f, ((hi.wf.mem_F_iff f).1 hf'.2).1, ((hi.wf.mem_F_iff f).1 hf'.2).2, hf'.1, hq⟩
    · rintro ⟨f, h1, h2, h3, hq⟩
      exact ⟨f, (hi.wf.F_nodup.mem_erase_iff).2 ⟨h3, (hi.wf.mem_F_iff f).2 ⟨h1, h2⟩⟩, hq⟩

theorem gc_keeps_witness :
    (gx1.algo = tb_gc ∨ gx1.algo = tb_amortized) ∧
    ((∃ t', gc gx1 = .ok t' ∧ ∀ q, q ∈ t'.alloc ↔
        ∃ f, f ∈ gx1.alloc ∧ gx1.active f = true ∧
          q ∈ anc gx1.parent (max (gx1.history - 1) 1 + 1) f) ∧
    (gx1.algo = tb_gc → ∀ n, n ∈ gx1.alloc → gx1.active n = true →
      ∃ t', tb_deactivate gx1 n = .ok t' ∧ ∀ q, q ∈ t'.alloc ↔
        ∃ f, f ∈ gx1.alloc ∧ gx1.active f = true ∧ f ≠ n ∧
          q ∈ anc gx1.parent (max (gx1.history - 1) 1 + 1) f)) :=
  ⟨by decide, gc_keeps gx1 ⟨_, gx1_reach⟩ (by decide)⟩

/-- C5: `delete` does not free the nodes of a naive tree: on the tree that
`tb_initialize` returns, the assertion `t->algo == tb_real_time` of
`delete_one` fails. On a real-time tree whose node `11` has been deactivated,
`delete` frees `11` and then reads it through the list `t->to_delete`. -/
theorem delete_frees_nothing :
    (Reachable hx0 ∧ hx0.algo = tb_naive ∧ delete hx0 = .error .assertion) ∧
    (Reachable ux2 ∧ ux2.algo = tb_real_time ∧ delete ux2 = .error .bad_pointer) :=
  ⟨⟨⟨_, hx0_reach⟩, by decide, rfl⟩, ⟨⟨_, ux2_reach⟩, by decide, rfl⟩⟩

/-- C6: an assertion fails in `delete`: on the trees that `tb_initialize`
returns for the naive, the mark and the amortized algorithm, `delete_one`
asserts `t->algo == tb_real_time`. -/
theorem delete_assertion_fails :
    (Reachable nx0 ∧ nx0.algo = tb_naive ∧ delete nx0 = .error .assertion) ∧
    (Reachable gx0 ∧ gx0.algo = tb_gc ∧ delete gx0 = .error .assertion) ∧
    (Reachable ax0 ∧ ax0.algo = tb_amortized ∧ delete ax0 = .error .assertion) :=
  ⟨⟨⟨_, nx0_reach⟩, by decide, rfl⟩, ⟨⟨_, gx0_reach⟩, by decide, rfl⟩,
    ⟨⟨_, ax0_reach⟩, by decide, rfl⟩⟩

/-- C7: on every reachable tree the client's loop over `tb_active` and
`tb_next_active` returns, and enumerates the nodes added and not yet
deactivated, each once, the last added first: the list `F` of `Reach t F`,
which `tb_add_child` extends at its head. These are the owned nodes whose flag
`active` is set. -/
theorem frontier_enumeration (t : Tree) (F : List Nat) (hr : Reach t F) :
    frontier t = .ok F ∧ F.Nodup ∧ ∀ p, p ∈ F ↔ (p ∈ t.alloc ∧ t.active p = true) := by
  obtain ⟨D, hi⟩ := hr.inv
  exact ⟨frontier_ok hi.wf, hi.wf.F_nodup, hi.wf.mem_F_iff⟩

theorem frontier_enumeration_witness :
    frontier rx4 = .ok [13, 12, 11] ∧ [13, 12, 11].Nodup ∧
      ∀ p, p ∈ [13, 12, 11] ↔ (p ∈ rx4.alloc ∧ rx4.active p = true) :=
  frontier_enumeration rx4 [13, 12, 11] rx4_reach

/-- C8: for every tree, parent and array `c1, …, ck, 0` of nodes, under each
algorithm, `tb_expand` is `tb_add_child` for `c1`, …, `ck` in turn and then
`tb_deactivate` of the parent: the same fault or the same tree, the lines of
statistics in `output` included. -/
theorem tb_expand_eq (t : Tree) (p : Nat) (cs : List Nat) (hcs : ∀ c ∈ cs, c ≠ 0) :
    tb_expand t p (cs ++ [0]) =
      (cs.foldlM (fun t c => tb_add_child t p c) t) >>= fun t => tb_deactivate t p := by
  induction cs generalizing t with
  | nil => simp [tb_expand]
  | cons c cs ih =>
    have hc : c ≠ 0 := hcs c (by simp)
    have ih' := fun t => ih t (fun x hx => hcs x (List.mem_cons_of_mem _ hx))
    simp only [List.cons_append, tb_expand, hc, if_false, List.foldlM_cons, bind_assoc]
    congr 1
    funext t1
    exact ih' t1

theorem tb_expand_eq_witness :
    (∀ c ∈ [11, 12, 13], c ≠ 0) ∧
    tb_expand rx0_made 10 ([11, 12, 13] ++ [0]) =
      ([11, 12, 13].foldlM (fun t c => tb_add_child t 10 c) rx0_made) >>=
        fun t => tb_deactivate t 10 :=
  ⟨by decide, tb_expand_eq rx0_made 10 [11, 12, 13] (by decide)⟩

/-- C9: in every reachable tree, for every owned node `p`, the field
`p.children` is the number of the owned nodes whose `parent` is `p`. -/
theorem children_count (t : Tree) (hr : Reachable t) (p : Nat) (hp : p ∈ t.alloc) :
    t.children p = ((t.alloc.filter (fun n => decide (t.parent n = p))).length : Nat) ∧
      t.children p = (nchildren t.toMem p : Nat) := by
  obtain ⟨F, hF⟩ := hr
  obtain ⟨D, hi⟩ := hF.inv
  have := hi.wf.cnt p hp
  refine ⟨?_, this⟩
  rw [this, nchildren, List.countP_eq_length_filter]

theorem children_count_witness :
    11 ∈ nx2.alloc ∧
    (nx2.children 11 = ((nx2.alloc.filter (fun n => decide (nx2.parent n = 11))).length : Nat) ∧
      nx2.children 11 = (nchildren nx2.toMem 11 : Nat)) :=
  ⟨by decide, children_count nx2 ⟨_, nx2_reach⟩ 11 (by decide)⟩

/-- C10: in every reachable tree the list `t->active` holds the frontier `F`
and the list `t->to_delete` some nodes `D`, both without a repetition and with
no node in common. Every owned node is of one of three classes: on `F` and
active; on `D` and not active; on neither, not active, with a child, and some
parent links above a node of `F` or `D`. An owned node that is not active and
has no child is on `D`. -/
theorem node_classes (t : Tree) (F : List Nat) (hr : Reach t F) :
    ∃ D, DLL t.ll t.rl s_active F ∧ DLL t.ll t.rl s_to_delete D ∧ F.Nodup ∧ D.Nodup ∧
      (∀ p ∈ F, p ∉ D) ∧
      (∀ p ∈ t.alloc,
        (p ∈ F ∧ p ∉ D ∧ t.active p = true) ∨
        (p ∉ F ∧ p ∈ D ∧ t.active p = false) ∨
        (p ∉ F ∧ p ∉ D ∧ t.active p = false ∧ 0 < t.children p ∧
          ∃ f ∈ F ++ D, ∃ k, t.parent^[k] f = p)) ∧
      (∀ p ∈ t.alloc, t.active p = false → t.children p = 0 → p ∈ D) := by
  obtain ⟨D, hi⟩ := hr.inv
  have hw := hi.wf
  refine ⟨D, hw.dllF, hw.dllD, hw.F_nodup, hw.D_nodup, hw.wf_disj, fun p hp => ?_,
    fun p hp h1 h2 => (hw.del p).2 ⟨hp, h1, h2⟩⟩
  by_cases hF : p ∈ F
  · exact Or.inl ⟨hF, hw.wf_disj p hF, (hw.act p hp).2 hF⟩
  have hact : t.active p = false := by
    by_contra hc
    exact hF ((hw.act p hp).1 (by simpa using hc))
  by_cases hD : p ∈ D
  · exact Or.inr (Or.inl ⟨hF, hD, hact⟩)
  · refine Or.inr (Or.inr ⟨hF, hD, hact, ?_, hw.hangs p hp⟩)
    have h1 : t.children p ≠ 0 := fun hc => hD ((hw.del p).2 ⟨hp, hact, hc⟩)
    have h2 := hw.cnt p hp
    omega

theorem node_classes_witness :
    ∃ D, DLL nx2.ll nx2.rl s_active [12, 11, 10] ∧ DLL nx2.ll nx2.rl s_to_delete D ∧
      [12, 11, 10].Nodup ∧ D.Nodup ∧ (∀ p ∈ [12, 11, 10], p ∉ D) ∧
      (∀ p ∈ nx2.alloc,
        (p ∈ [12, 11, 10] ∧ p ∉ D ∧ nx2.active p = true) ∨
        (p ∉ [12, 11, 10] ∧ p ∈ D ∧ nx2.active p = false) ∨
        (p ∉ [12, 11, 10] ∧ p ∉ D ∧ nx2.active p = false ∧ 0 < nx2.children p ∧
          ∃ f ∈ [12, 11, 10] ++ D, ∃ k, nx2.parent^[k] f = p)) ∧
      (∀ p ∈ nx2.alloc, nx2.active p = false → nx2.children p = 0 → p ∈ D) :=
  node_classes nx2 [12, 11, 10] nx2_reach

/-! ## The heap after an operation of the real-time algorithm -/

theorem add_child_rt_mem {t : Tree} {F D : List Nat} (h : Inv t F D) {p c : Nat} (d : Int)
    (hp : p ∈ F) (hc : c ∉ t.alloc) (hc6 : 6 ≤ c) (ha : t.algo = tb_real_time) :
    ∃ t', tb_add_child { t with toMem := tb_make_node t.toMem c d } p c = .ok t' ∧
      t'.toMem = ((t.toMem.add_child p c d).reclaim D).set_rep t.history p c := by
  have hw1 := h.wf.wf_add_child d hp hc hc6
  have hrt1 := (h.rt ha).rt_add_child h.wf (p := p) d hc hc6
  obtain ⟨t', e, hmem, -⟩ :=
    add_child_tail_rt (t := { t with toMem := t.toMem.add_child p c d, mems := 11 }) hw1 hrt1 ha hp
  exact ⟨t', (h.wf.add_child_pre d h.mems hp hc hc6).trans e, hmem⟩

theorem deactivate_rt_mem {t : Tree} {F D : List Nat} (h : Inv t F D) {n : Nat}
    (hn : n ∈ F) (ha : t.algo = tb_real_time) :
    ∃ t', tb_deactivate t n = .ok t' ∧ t'.toMem = (t.toMem.deactivate n).drop_rep n := by
  have hna := h.wf.subF n hn
  have hq0 : ∀ q ∈ t.alloc, q ≠ 0 := fun q hq => (h.wf.wf_ne_sentinel hq).1
  have hX := h.wf.toX (e := 0) (fun hm => hq0 0 (h.wf.wf_subD 0 hm) rfl)
  have hr := ((h.rt ha).rep_alloc hX hna (hq0 n hna)).1
  have hw1 := h.wf.wf_deactivate hn
  obtain ⟨t', e, hmem, -⟩ := deactivate_tail_rt
    (t := { t with toMem := t.toMem.deactivate n, mems := if t.children n = 0 then 18 else 9 })
    hw1 ha (by simpa [Mem.deactivate_alloc] using hna)
    (by simpa [Mem.deactivate_alloc, Mem.deactivate_representant] using hr)
  exact ⟨t', (h.wf.deactivate_pre h.mems hn).trans e, hmem⟩

theorem Mem.reclaim_alloc (m : Mem) (D : List Nat) :
    (m.reclaim D).alloc = match D with
      | [] => m.alloc
      | x :: _ => m.alloc.erase x := by
  cases D with
  | nil => rfl
  | cons x D => simp [Mem.reclaim, Mem.delete_one_alloc]

/-- The amortized algorithm frees nothing in `tb_deactivate`. -/
theorem deactivate_am_alloc {t : Tree} {F D : List Nat} (h : Inv t F D) {n : Nat}
    (hn : n ∈ F) (ha : t.algo = tb_amortized) :
    ∃ t', tb_deactivate t n = .ok t' ∧ t'.alloc = t.alloc :=
  ⟨_, (h.wf.deactivate_pre h.mems hn).trans (deactivate_tail_plain (Or.inr ha)), by
    show (finish _ _).toMem.alloc = _
    rw [finish_toMem]
    exact Mem.deactivate_alloc _ _⟩

/-! ## The representant of a node -/

/-- The representant of `p` lies `depth p mod H` parent links above `p`, and
these links are intact. -/
theorem RT.rep_chain {m : Mem} {H : Nat} {F : List Nat} (h : RT m H F 0)
    (hpar : ∀ p ∈ m.alloc, m.parent p = 0 ∨ m.parent p ∈ m.alloc)
    (h0 : ∀ p ∈ m.alloc, p ≠ 0) :
    ∀ (j : Nat) (p : Nat), p ∈ m.alloc → Int.tmod (m.depth p) H = j →
      m.parent^[j] p = m.representant p ∧ (∀ i, i < j → m.parent^[i + 1] p ≠ 0) ∧
      m.depth (m.representant p) = m.depth p - j := by
  intro j
  induction j with
  | zero =>
    intro p hp hj
    have := h.rep_self p hp (h0 p hp) (by simpa using hj)
    exact ⟨by simp [this], fun i hi => by omega, by simp [this]⟩
  | succ j ih =>
    intro p hp hj
    have hne : Int.tmod (m.depth p) H ≠ 0 := by rw [hj]; push_cast; omega
    obtain ⟨hp0, hrep⟩ := h.rep_parent p hp (h0 p hp) hne
    have hpa : m.parent p ∈ m.alloc := (hpar p hp).resolve_left hp0
    have hd := h.depth_parent p hp (h0 p hp) hp0
    have hdn := h.depth_nonneg _ hpa (h0 _ hpa)
    have hpred := tmod_pred (a := m.depth p) (H := H) (by omega) hne
    have hj' : Int.tmod (m.depth (m.parent p)) H = j := by
      have e : m.depth (m.parent p) = m.depth p - 1 := by omega
      rw [e, hpred, hj]; push_cast; omega
    obtain ⟨i1, i2, i3⟩ := ih (m.parent p) hpa hj'
    refine ⟨?_, ?_, ?_⟩
    · rw [Function.iterate_succ_apply, i1, hrep]
    · intro i hi
      cases i with
      | zero => simpa using hp0
      | succ i =>
        rw [Function.iterate_succ_apply]
        exact i2 i (by omega)
    · rw [hrep, i3, hd]; push_cast; omega

/-! ## The memory references of the real-time algorithm -/

theorem cut_mems_le (m : Mem) (y : Nat) : 2 ≤ cut_mems m y ∧ cut_mems m y ≤ 13 := by
  unfold cut_mems
  split
  · omega
  · split
    · omega
    · split <;> omega

theorem finish_output (t : Tree) (l : Int → Line) (hs : t.statistics_file = true) :
    (finish t l).output = t.output ++ [l t.mems] := by
  simp [finish, print_statistic, hs]

theorem print_statistic_output (t : Tree) (l : Line) (hs : t.statistics_file = true) :
    (print_statistic t l).output = t.output ++ [l] := by
  simp [print_statistic, hs]

theorem delete_one_rt_cost {t : Tree} {F D : List Nat} (h : Wf t.toMem F D)
    (ha : t.algo = tb_real_time) :
    ∃ t', delete_one t = .ok t' ∧ t'.toMem = t.toMem.reclaim D ∧ Same t t' ∧
      t'.mems ≤ t.mems + 25 := by
  cases D with
  | nil => exact ⟨_, delete_one_nil h, rfl, ⟨rfl, rfl, rfl⟩, by show t.mems + 3 ≤ _; omega⟩
  | cons x D =>
    have hc := cut_mems_le (t.toMem.unlink x) x
    refine ⟨_, delete_one_cons h ha, ?_, ⟨?_, ?_, ?_⟩, ?_⟩
    · simp [Mem.reclaim]
    · simp
    · simp
    · simp
    · rw [print_statistic_mems]
      show t.mems + 12 + cut_mems (t.toMem.unlink x) x ≤ _
      omega

/-- What `tb_add_child` counts under the real-time algorithm after its common part. -/
theorem add_child_tail_rt_cost {t : Tree} {F D : List Nat} {p c : Nat}
    (hw : Wf t.toMem (c :: F) D) (hrt : RT t.toMem t.history (c :: F) c)
    (ha : t.algo = tb_real_time) (hp : p ∈ F) :
    ∃ tX, add_child_tail t p c = .ok (finish (print_statistic tX (.S 1)) .TA) ∧
      tX.mems ≤ t.mems + 33 ∧ tX.statistics_file = t.statistics_file := by
  obtain ⟨t2, hdel, hmem, hsame, hm2⟩ := delete_one_rt_cost hw ha
  have hw2 : Wf t2.toMem (c :: F) (reclaim_D t.toMem D) := hmem ▸ hw.wf_reclaim
  have hrt2 : RT t2.toMem t.history (c :: F) c := hmem ▸ hrt.rt_reclaim hw
  have hc2 : c ∈ t2.alloc := hw2.subF c (by simp)
  have hp2 : p ∈ t2.alloc := hw2.subF p (by simp [hp])
  have hpc : p ≠ c := fun e => (List.nodup_cons.1 hw.F_nodup).1 (e ▸ hp)
  have hrp := (hrt2.rep_alloc (hw2.toX (e := 0) (fun hm => by
    have := hw2.node 0 (hw2.wf_subD 0 hm); omega)) hp2 hpc).1
  have e : add_child_tail t p c = .ok (finish (print_statistic
      { t2 with toMem := t2.toMem.set_rep t2.history p c,
                mems := t2.mems + (if Int.tmod (t2.depth p + 1) t2.history = 0 then 7 else 8) }
      (.S 1)) .TA) := by
    by_cases h0 : Int.tmod (t2.depth p + 1) t2.history = 0
    · simp [add_child_tail, ha, hdel, deref, valid, hc2, hp2, bind, Except.bind, pure, Except.pure,
        M, upd_apply, h0, finish, Mem.set_rep]
      ring_nf
    · simp [add_child_tail, ha, hdel, deref, valid, hc2, hp2, bind, Except.bind, pure, Except.pure,
        M, upd_apply, h0, finish, hrp, Mem.set_rep]
      ring_nf
  refine ⟨_, e, ?_, hsame.stats⟩
  show t2.mems + (if Int.tmod (t2.depth p + 1) t2.history = 0 then 7 else 8) ≤ _
  split <;> omega

/-- What `tb_deactivate` counts under the real-time algorithm after its common part. -/
theorem deactivate_tail_rt_cost {t : Tree} {F D : List Nat} {n : Nat} (hw : Wf t.toMem F D)
    (ha : t.algo = tb_real_time) (hn : n ∈ t.alloc) (hr : t.representant n ∈ t.alloc) :
    ∃ tX, deactivate_tail t n = .ok (finish tX .TD) ∧ tX.mems ≤ t.mems + 15 ∧
      tX.statistics_file = t.statistics_file ∧ tX.output = t.output := by
  have hr0 : t.representant n ≠ 0 := (hw.wf_ne_sentinel hr).1
  have h1 : Wf { t.toMem with active_count := (upd t.active_count (t.representant n)
      (t.active_count (t.representant n) - 1)) } F D := hw.wf_of_eq rfl rfl rfl rfl rfl rfl rfl
  by_cases h0 : t.active_count (t.representant n) - 1 = 0
  · have hcut := Wf.wf_cut_parent_eq (t := { t with
        active_count := (upd t.active_count (t.representant n)
          (t.active_count (t.representant n) - 1)), mems := t.mems + 2 }) h1 hr
    have e1 : deactivate_tail t n = (do
        let t ← cut_parent { t with
          active_count := (upd t.active_count (t.representant n)
            (t.active_count (t.representant n) - 1)), mems := t.mems + 2 } (t.representant n)
        pure (finish t .TD)) := by
      simp [deactivate_tail, ha, deref, valid, hn, hr, hr0, c_assert, bind, Except.bind, pure,
        Except.pure, M, h0, finish]
    rw [e1, hcut]
    refine ⟨_, rfl, ?_, rfl, rfl⟩
    have hc := cut_mems_le ({ t with
        active_count := (upd t.active_count (t.representant n)
          (t.active_count (t.representant n) - 1)), mems := t.mems + 2 } : Tree).toMem
      (t.representant n)
    show t.mems + 2 + cut_mems _ _ ≤ _
    omega
  · have e1 : deactivate_tail t n = .ok (finish { t with
          active_count := (upd t.active_count (t.representant n)
            (t.active_count (t.representant n) - 1)), mems := t.mems + 2 } .TD) := by
      simp [deactivate_tail, ha, deref, valid, hn, hr, hr0, c_assert, bind, Except.bind, pure,
        Except.pure, M, h0, finish]
    rw [e1]
    refine ⟨_, rfl, ?_, rfl, rfl⟩
    show t.mems + 2 ≤ _
    omega

theorem history_loop_cost {t0 : Tree}
    (hpar : ∀ p ∈ t0.alloc, t0.parent p = 0 ∨ t0.parent p ∈ t0.alloc) :
    ∀ (h : Nat) (k : Int) (p : Nat), p = 0 ∨ p ∈ t0.alloc →
      history_loop h (M k t0) p =
        .ok (M (k + 2 * ((anc t0.parent h p).length : Nat)) t0, anc t0.parent h p)
  | 0, k, p, _ => by simp [history_loop, anc, pure, Except.pure]
  | h + 1, k, p, hp => by
    by_cases hp0 : p = 0
    · simp [history_loop, hp0, anc_null, pure, Except.pure]
    · have hpa : p ∈ t0.alloc := hp.resolve_left hp0
      have hv : valid (M k t0).toMem p := Or.inl hpa
      have e' := history_loop_cost hpar h (k + 2) (t0.parent p) (hpar p hpa)
      have e3 : history_loop h (M 2 (M k t0)) ((M k t0).parent p) =
          .ok (M (k + 2 + 2 * ((anc t0.parent h (t0.parent p)).length : Nat)) t0,
            anc t0.parent h (t0.parent p)) := by rw [M_M]; exact e'
      rw [history_loop, if_neg hp0, anc_cons hp0]
      simp only [deref, hv, if_true, bind, Except.bind, e3, pure, Except.pure, List.length_cons]
      congr 3
      push_cast
      ring

/-! ## What an operation reports -/

theorem add_child_rt_cost {t : Tree} {F D : List Nat} (h : Inv t F D) {p c : Nat} (d : Int)
    (hp : p ∈ F) (hc : c ∉ t.alloc) (hc6 : 6 ≤ c) (ha : t.algo = tb_real_time)
    (hs : t.statistics_file = true) :
    ∃ t' pre m, tb_add_child { t with toMem := tb_make_node t.toMem c d } p c = .ok t' ∧
      t'.output = pre ++ [.TA m] ∧ m ≤ 44 := by
  have hw1 := h.wf.wf_add_child d hp hc hc6
  have hrt1 := (h.rt ha).rt_add_child h.wf (p := p) d hc hc6
  obtain ⟨tX, e, hm, hst⟩ :=
    add_child_tail_rt_cost (t := { t with toMem := t.toMem.add_child p c d, mems := 11 })
      hw1 hrt1 ha hp
  have hsX : tX.statistics_file = true := by rw [hst]; exact hs
  refine ⟨_, tX.output ++ [.S 1], tX.mems, (h.wf.add_child_pre d h.mems hp hc hc6).trans e, ?_, ?_⟩
  · rw [finish_output _ _ (by rw [print_statistic_statistics_file]; exact hsX),
      print_statistic_output _ _ hsX, print_statistic_mems]
  · have : tX.mems ≤ 11 + 33 := hm
    omega

theorem deactivate_rt_cost {t : Tree} {F D : List Nat} (h : Inv t F D) {n : Nat}
    (hn : n ∈ F) (ha : t.algo = tb_real_time) (hs : t.statistics_file = true) :
    ∃ t' pre m, tb_deactivate t n = .ok t' ∧ t'.output = pre ++ [.TD m] ∧ m ≤ 33 := by
  have hna := h.wf.subF n hn
  have hq0 : ∀ q ∈ t.alloc, q ≠ 0 := fun q hq => (h.wf.wf_ne_sentinel hq).1
  have hX := h.wf.toX (e := 0) (fun hm => hq0 0 (h.wf.wf_subD 0 hm) rfl)
  have hr := ((h.rt ha).rep_alloc hX hna (hq0 n hna)).1
  have hw1 := h.wf.wf_deactivate hn
  obtain ⟨tX, e, hm, hst, -⟩ := deactivate_tail_rt_cost
    (t := { t with toMem := t.toMem.deactivate n, mems := if t.children n = 0 then 18 else 9 })
    hw1 ha (by simpa [Mem.deactivate_alloc] using hna)
    (by simpa [Mem.deactivate_alloc, Mem.deactivate_representant] using hr)
  have hsX : tX.statistics_file = true := by rw [hst]; exact hs
  refine ⟨_, tX.output, tX.mems, (h.wf.deactivate_pre h.mems hn).trans e, finish_output _ _ hsX, ?_⟩
  have : tX.mems ≤ (if t.children n = 0 then 18 else 9) + 15 := hm
  split at this <;> omega

theorem history_cost {t : Tree} {F D : List Nat} (h : Inv t F D) {n : Nat} (hn : n ∈ F)
    (hs : t.statistics_file = true) :
    ∃ t' out pre m, tb_history t n = .ok (t', out) ∧ t'.output = pre ++ [.TH m] ∧
      m ≤ 2 * (t.history : Int) + 2 := by
  have hna := h.wf.subF n hn
  have hv : valid t.toMem n := Or.inl hna
  have hact := (h.wf.act n hna).2 hn
  have e := history_loop_cost h.wf.par t.history 1 n (Or.inr hna)
  have hlen := @anc_length_le t.parent t.history n
  refine ⟨{ print_statistic (M 1 (M (1 + 2 * ((anc t.parent t.history n).length : Nat)) t))
      (.TH (M 1 (M (1 + 2 * ((anc t.parent t.history n).length : Nat)) t)).mems) with mems := 0 },
    anc t.parent t.history n ++ [0], t.output,
    t.mems + (1 + 2 * ((anc t.parent t.history n).length : Nat)) + 1, ?_, ?_, ?_⟩
  · simp only [tb_history, c_assert, h.mems, deref, hv, hact, if_true, bind, Except.bind, e,
      pure, Except.pure]
  · simp [print_statistic, hs, M]
  · rw [h.mems]
    have : ((anc t.parent t.history n).length : Int) ≤ t.history := by exact_mod_cast hlen
    omega

/-! ## The nodes that are freed have no child -/

theorem gc_node_children {fuel : Nat} {t t' : Tree} {x : Nat} (h : gc_node fuel t x = .ok t') :
    t.children x = 0 ∧ t.seen x = false ∧ t.active x = false := by
  cases fuel with
  | zero => simp [gc_node] at h
  | succ fuel =>
    rw [gc_node] at h
    by_cases h0 : x ≠ 0
    · by_cases hv : valid t.toMem x
      · by_cases h1 : t.seen x = false
        · by_cases h2 : t.active x = false
          · by_cases h3 : t.children x = 0
            · exact ⟨h3, h1, h2⟩
            · simp [c_assert, deref, h0, hv, h1, h2, h3, bind, Except.bind] at h
          · simp [c_assert, deref, h0, hv, h1, h2, bind, Except.bind] at h
        · simp [c_assert, deref, h0, hv, h1, bind, Except.bind] at h
      · simp [c_assert, deref, h0, hv, bind, Except.bind] at h
    · simp [c_assert, h0, bind, Except.bind] at h

/-! ## The naive algorithm and `tb_expand` -/

theorem make_nodes_mem (d : Int) : ∀ (cs : List Nat) (m : Mem) (q : Nat),
    q ∈ (make_nodes m d cs).alloc ↔ q ∈ cs ∨ q ∈ m.alloc
  | [], m, q => by simp [make_nodes]
  | c :: cs, m, q => by
    rw [make_nodes, make_nodes_mem d cs]
    simp [tb_make_node]
    tauto

theorem make_nodes_alloc (d : Int) : ∀ (cs : List Nat) (m : Mem),
    (make_nodes m d cs).alloc = cs.reverse ++ m.alloc
  | [], m => by simp [make_nodes]
  | c :: cs, m => by
    rw [make_nodes, make_nodes_alloc d cs]
    simp [tb_make_node]

theorem make_nodes_frame (d : Int) : ∀ (cs : List Nat) (m : Mem) (q : Nat), q ∉ cs →
    (make_nodes m d cs).parent q = m.parent q ∧ (make_nodes m d cs).ll q = m.ll q ∧
      (make_nodes m d cs).rl q = m.rl q ∧ (make_nodes m d cs).active q = m.active q
  | [], m, q, _ => by simp [make_nodes]
  | c :: cs, m, q, hq => by
    simp only [List.mem_cons, not_or] at hq
    obtain ⟨h1, h2, h3, h4⟩ := make_nodes_frame d cs (tb_make_node m c d) q hq.2
    rw [make_nodes, h1, h2, h3, h4]
    simp [tb_make_node, upd_apply, hq.1]

/-- Under the naive algorithm `tb_expand` returns when the parent is on the
frontier and the children are live nodes that are not: it frees no node and
changes the parent link of the children only. -/
theorem expand_naive_run : ∀ (cs F : List Nat) (t : Tree) (p : Nat),
    t.algo = tb_naive → t.mems = 0 → DLL t.ll t.rl s_active F → (∀ f ∈ F, f ∈ t.alloc) →
    (∀ f ∈ t.alloc, 6 ≤ f) → p ∈ F → t.active p = true → cs.Nodup →
    (∀ c ∈ cs, c ∈ t.alloc ∧ c ∉ F) → valid t.toMem (t.rl s_to_delete) →
    p ≠ t.rl s_to_delete →
    ∃ t', tb_expand t p (cs ++ [0]) = .ok t' ∧ t'.alloc = t.alloc ∧
      ∀ q, q ∉ cs → t'.parent q = t.parent q
  | [], F, t, p, ha, hm, hF, hsub, h6, hp, hact, _, _, hd, hnd => by
    have hpa := hsub p hp
    have hp6 := h6 p hpa
    have hl := hF.dll_ll_mem p (List.mem_cons_of_mem _ hp)
    have hr := hF.dll_rl_mem p (List.mem_cons_of_mem _ hp)
    have hv : ∀ q ∈ s_active :: F, valid t.toMem q := fun q hq => by
      rcases List.mem_cons.1 hq with h1 | h1
      · right; rw [h1]; decide
      · left; exact hsub q h1
    have hld : t.ll p ≠ 2 := fun e => by
      rw [e] at hl
      rcases List.mem_cons.1 hl with h1 | h1
      · exact absurd h1 (by decide)
      · have := h6 _ (hsub _ h1); omega
    have e := tb_deactivate_eq hm hpa (by omega) (by omega) hact (hv _ hl) (hv _ hr) hd hnd hld
    obtain ⟨t1, ht1⟩ : ∃ t1 : Tree, t1 = finish
      { t with toMem := t.toMem.deactivate p, mems := if t.children p = 0 then 18 else 9 } .TD :=
      ⟨_, rfl⟩
    have hmem : t1.toMem = t.toMem.deactivate p := by rw [ht1, finish_toMem]
    refine ⟨t1, ?_, ?_, fun q _ => ?_⟩
    · show tb_expand t p [0] = _
      rw [tb_expand, if_pos rfl, e, ht1]
      exact deactivate_tail_plain (Or.inl ha)
    · rw [hmem]; exact Mem.deactivate_alloc _ _
    · rw [hmem, Mem.deactivate_parent]
  | c :: cs, F, t, p, ha, hm, hF, hsub, h6, hp, hact, hnd, hcs, hd, hpd => by
    have hpa := hsub p hp
    have hp6 := h6 p hpa
    obtain ⟨hca, hcF⟩ := hcs c (by simp)
    have hc6 := h6 c hca
    have hr := hF.dll_rl_mem s_active (by simp)
    have hcF1 : c ∉ s_active :: F := by
      simp only [List.mem_cons, not_or]
      exact ⟨by simp; omega, hcF⟩
    have hv : valid t.toMem (t.rl s_active) := by
      rcases List.mem_cons.1 hr with h1 | h1
      · right; rw [h1]; decide
      · left; exact hsub _ h1
    have hcr : c ≠ t.rl s_active := fun e => hcF1 (e ▸ hr)
    have e := tb_add_child_eq hm hpa hca (by omega) (by omega) hv hcr
    obtain ⟨t1, ht1⟩ : ∃ t1 : Tree, t1 = finish (print_statistic
      { t with toMem := t.toMem.link_child p c, mems := 11 } (.S 1)) .TA := ⟨_, rfl⟩
    have e1 : tb_add_child t p c = .ok t1 := by
      rw [e, ht1]; exact add_child_tail_plain (Or.inl ha)
    have hmem : t1.toMem = t.toMem.link_child p c := by
      rw [ht1, finish_toMem, print_statistic_toMem]
    have hal : t1.alloc = t.alloc := by rw [hmem]; rfl
    have hrl2 : t1.rl s_to_delete = t.rl s_to_delete := by
      rw [hmem]
      have h1 : (2 : Nat) ≠ c := by omega
      simp [Mem.link_child, Mem.push, upd_apply, h1]
    have hpc : p ≠ c := fun e => hcF (e ▸ hp)
    obtain ⟨t', e2, a2, p2⟩ := expand_naive_run cs (c :: F) t1 p
      (by rw [ht1, finish_algo, print_statistic_algo]; exact ha)
      (by rw [ht1, finish_mems])
      (by rw [hmem]; simpa [Mem.link_child, Mem.push] using hF.push hcF1)
      (fun f hf => by
        rw [hal]
        rcases List.mem_cons.1 hf with h1 | h1
        · rw [h1]; exact hca
        · exact hsub f h1)
      (fun f hf => h6 f (hal ▸ hf))
      (List.mem_cons_of_mem _ hp)
      (by rw [hmem]; simpa [Mem.link_child, Mem.push] using hact)
      (List.nodup_cons.1 hnd).2
      (fun x hx => by
        obtain ⟨h1, h2⟩ := hcs x (List.mem_cons_of_mem _ hx)
        refine ⟨hal ▸ h1, ?_⟩
        simp only [List.mem_cons, not_or]
        exact ⟨fun e => (List.nodup_cons.1 hnd).1 (e ▸ hx), h2⟩)
      (by
        rw [hrl2]
        rcases hd with h1 | h1
        · left; rw [hal]; exact h1
        · right; exact h1)
      (by rw [hrl2]; exact hpd)
    refine ⟨t', ?_, a2.trans hal, fun q hq => ?_⟩
    · show tb_expand t p (c :: (cs ++ [0])) = _
      rw [tb_expand, if_neg (by omega), e1]
      exact e2
    · simp only [List.mem_cons, not_or] at hq
      rw [p2 q hq.2, hmem]
      simp [Mem.link_child, Mem.push, upd_apply, hq.1]

/-! ## More lemmas for the claims -/

theorem sx0_reach : Reach sx0 [10] := Reach.start rx0_reach rfl

theorem ax1_reach : Reach ax1 [11, 10] :=
  Reach.add_child (p := 10) (d := 0) ax0_reach (by decide) (by decide) (by decide) rfl

theorem iterate_alloc {m : Mem} (hpar : ∀ p ∈ m.alloc, m.parent p = 0 ∨ m.parent p ∈ m.alloc)
    {n : Nat} (hn : n ∈ m.alloc) :
    ∀ i, (∀ k, k < i → m.parent^[k + 1] n ≠ 0) → m.parent^[i] n ∈ m.alloc
  | 0, _ => hn
  | i + 1, h => by
    have ih := iterate_alloc hpar hn i (fun k hk => h k (by omega))
    have := h i (by omega)
    rw [Function.iterate_succ_apply'] at this ⊢
    exact (hpar _ ih).resolve_left this

theorem anc_mem_iterate {par : Nat → Nat} : ∀ (h f q : Nat), q ∈ anc par h f → ∃ i, par^[i] f = q
  | 0, f, q, hq => by simp [anc] at hq
  | h + 1, f, q, hq => by
    by_cases hf : f = 0
    · rw [hf, anc_null] at hq; simp at hq
    · rw [anc_cons hf] at hq
      rcases List.mem_cons.1 hq with h1 | h1
      · exact ⟨0, h1.symm⟩
      · obtain ⟨i, hi⟩ := anc_mem_iterate h (par f) q h1
        exact ⟨i + 1, by rw [Function.iterate_succ_apply]; exact hi⟩

theorem add_child_naive_mem {t : Tree} {F D : List Nat} (h : Inv t F D) {p c : Nat} (d : Int)
    (hp : p ∈ F) (hc : c ∉ t.alloc) (hc6 : 6 ≤ c) (ha : t.algo = tb_naive) :
    ∃ t', tb_add_child { t with toMem := tb_make_node t.toMem c d } p c = .ok t' ∧
      t'.toMem = t.toMem.add_child p c d :=
  ⟨_, (h.wf.add_child_pre d h.mems hp hc hc6).trans (add_child_tail_plain (Or.inl ha)), by
    rw [finish_toMem, print_statistic_toMem]⟩

theorem deactivate_naive_mem {t : Tree} {F D : List Nat} (h : Inv t F D) {n : Nat}
    (hn : n ∈ F) (ha : t.algo = tb_naive) :
    ∃ t', tb_deactivate t n = .ok t' ∧ t'.toMem = t.toMem.deactivate n :=
  ⟨_, (h.wf.deactivate_pre h.mems hn).trans (deactivate_tail_plain (Or.inl ha)), by
    rw [finish_toMem]⟩

/-- The head of `t->to_delete`, read off the sentinel. -/
theorem Wf.D_head {m : Mem} {F D : List Nat} (h : Wf m F D) :
    (m.rl s_to_delete = s_to_delete → D = []) ∧
    (m.rl s_to_delete ≠ s_to_delete → ∃ D', D = m.rl s_to_delete :: D') := by
  have hh := h.dllD.rl_head
  cases D with
  | nil => exact ⟨fun _ => rfl, fun hne => absurd hh hne⟩
  | cons x D' =>
    have hx : x ≠ s_to_delete := fun e => by
      have := (List.nodup_cons.1 h.dllD.1).1
      exact this (by simp [e])
    have hh' : m.rl s_to_delete = x := hh
    exact ⟨fun e => absurd (hh'.symm.trans e) hx, fun _ => ⟨D', by rw [hh']⟩⟩

/-- What `tb_add_child` frees under the real-time algorithm. -/
theorem add_child_rt_alloc {t : Tree} {F D : List Nat} (h : Inv t F D) {p c : Nat} (d : Int)
    (hp : p ∈ F) (hc : c ∉ t.alloc) (hc6 : 6 ≤ c) (ha : t.algo = tb_real_time) :
    ∃ t', tb_add_child { t with toMem := tb_make_node t.toMem c d } p c = .ok t' ∧
      (D = [] → t'.alloc = c :: t.alloc) ∧
      (∀ x D', D = x :: D' → t'.alloc = c :: t.alloc.erase x) := by
  obtain ⟨t', e, hmem⟩ := add_child_rt_mem h d hp hc hc6 ha
  refine ⟨t', e, fun hD => ?_, fun x D' hD => ?_⟩
  · rw [hmem, Mem.set_rep_alloc, Mem.reclaim_alloc, hD]; rfl
  · rw [hmem, Mem.set_rep_alloc, Mem.reclaim_alloc, hD]
    show (c :: t.alloc).erase x = _
    have hx : x ∈ t.alloc := h.wf.wf_subD x (by rw [hD]; simp)
    have hcx : c ≠ x := fun e => hc (e ▸ hx)
    rw [List.erase_cons_tail (by simpa using hcx)]

/-! ## The claims on the representants, the costs and the reclamation -/

/-- C11: in every reachable real-time tree with history `H`, for every active
node `n`, the field `n.representant` is not null and is an owned node, its
depth is `n.depth / H * H`, its `active_count` is positive, and it is reached
from `n` by `n.depth mod H` parent steps, each over a link to an owned node;
it is `n` itself when `H` divides `n.depth`. -/
theorem representant_spec (t : Tree) (hr : Reachable t) (ha : t.algo = tb_real_time) (n : Nat)
    (hn : n ∈ t.alloc) (hact : t.active n = true) :
    t.representant n ≠ 0 ∧ t.representant n ∈ t.alloc ∧
      t.depth (t.representant n) = t.depth n / t.history * t.history ∧
      0 < t.active_count (t.representant n) ∧
      t.parent^[(t.depth n % t.history).toNat] n = t.representant n ∧
      (∀ i, i < (t.depth n % t.history).toNat →
        t.parent^[i + 1] n ≠ 0 ∧ t.parent^[i + 1] n ∈ t.alloc) ∧
      (t.depth n % t.history = 0 → t.representant n = n) := by
  obtain ⟨F, hF⟩ := hr
  obtain ⟨D, hi⟩ := hF.inv
  have hnF : n ∈ F := (hi.wf.mem_F_iff n).2 ⟨hn, hact⟩
  have hrt := hi.rt ha
  have hq0 : ∀ q ∈ t.alloc, q ≠ 0 := fun q hq => (hi.wf.wf_ne_sentinel hq).1
  have hX := hi.wf.toX (e := 0) (fun hm => hq0 0 (hi.wf.wf_subD 0 hm) rfl)
  have hd0 := hrt.depth_nonneg n hn (hq0 n hn)
  have hH : (0 : Int) < t.history := by exact_mod_cast hi.hist
  have hmod0 : 0 ≤ t.depth n % t.history := Int.emod_nonneg _ (by omega)
  have hj : Int.tmod (t.depth n) t.history = ((t.depth n % t.history).toNat : Nat) := by
    rw [Int.tmod_eq_emod hd0 (by omega), Int.toNat_of_nonneg hmod0]
  obtain ⟨c1, c2, c3⟩ := hrt.rep_chain hi.wf.par hq0 _ n hn hj
  obtain ⟨r1, r2, -⟩ := hrt.rep_alloc hX hn (hq0 n hn)
  refine ⟨hq0 _ r1, r1, ?_, ?_, c1, fun i hi' => ?_, fun h0 => ?_⟩
  · rw [c3, Int.toNat_of_nonneg hmod0]
    have := Int.emod_add_ediv (t.depth n) t.history
    have e2 : t.depth n / (t.history : Int) * t.history =
      (t.history : Int) * (t.depth n / t.history) := mul_comm _ _
    linarith
  · rw [hrt.count _ r1 r2]
    have : 0 < F.countP (fun f => decide (t.representant f = t.representant n)) :=
      List.countP_pos_iff.2 ⟨n, hnF, by simp⟩
    exact_mod_cast this
  · exact ⟨c2 i hi', iterate_alloc hi.wf.par hn (i + 1) (fun k hk => c2 k (by omega))⟩
  · have e0 : (t.depth n % t.history).toNat = 0 := by rw [h0]; rfl
    rw [e0] at c1
    exact c1.symm

theorem representant_spec_witness :
    (11 ∈ rx4.alloc ∧ rx4.active 11 = true) ∧
    (rx4.representant 11 ≠ 0 ∧ rx4.representant 11 ∈ rx4.alloc ∧
      rx4.depth (rx4.representant 11) = rx4.depth 11 / rx4.history * rx4.history ∧
      0 < rx4.active_count (rx4.representant 11) ∧
      rx4.parent^[(rx4.depth 11 % rx4.history).toNat] 11 = rx4.representant 11 ∧
      (∀ i, i < (rx4.depth 11 % rx4.history).toNat →
        rx4.parent^[i + 1] 11 ≠ 0 ∧ rx4.parent^[i + 1] 11 ∈ rx4.alloc) ∧
      (rx4.depth 11 % rx4.history = 0 → rx4.representant 11 = 11)) :=
  ⟨⟨by decide, by decide⟩,
    representant_spec rx4 ⟨_, rx4_reach⟩ (by decide) 11 (by decide) (by decide)⟩

/-- C12: for every history `H` the number `op_bound H = 2 * H + 44` bounds the
memory references every operation reports on a reachable real-time tree with
history `H` that writes statistics, whatever the number of owned nodes, the
frontier and the list `t->to_delete` are: `tb_add_child`, `tb_deactivate` and
`tb_history` return, and the line `TA m`, `TD m` or `TH m` they write last has
`m ≤ op_bound H`. -/
theorem op_mems_bounded (t : Tree) (F : List Nat) (hr : Reach t F) (ha : t.algo = tb_real_time)
    (hs : t.statistics_file = true) :
    (∀ p c d, p ∈ F → c ∉ t.alloc → 6 ≤ c →
      ∃ t' pre m, tb_add_child { t with toMem := tb_make_node t.toMem c d } p c = .ok t' ∧
        t'.output = pre ++ [.TA m] ∧ m ≤ op_bound t.history) ∧
    (∀ n, n ∈ F →
      ∃ t' pre m, tb_deactivate t n = .ok t' ∧ t'.output = pre ++ [.TD m] ∧
        m ≤ op_bound t.history) ∧
    (∀ n, n ∈ F →
      ∃ t' out pre m, tb_history t n = .ok (t', out) ∧ t'.output = pre ++ [.TH m] ∧
        m ≤ op_bound t.history) := by
  obtain ⟨D, hi⟩ := hr.inv
  have hH : (0 : Int) ≤ t.history := Int.ofNat_nonneg _
  refine ⟨fun p c d hp hc hc6 => ?_, fun n hn => ?_, fun n hn => ?_⟩
  · obtain ⟨t', pre, m, e, ho, hm⟩ := add_child_rt_cost hi d hp hc hc6 ha hs
    exact ⟨t', pre, m, e, ho, by unfold op_bound; omega⟩
  · obtain ⟨t', pre, m, e, ho, hm⟩ := deactivate_rt_cost hi hn ha hs
    exact ⟨t', pre, m, e, ho, by unfold op_bound; omega⟩
  · obtain ⟨t', out, pre, m, e, ho, hm⟩ := history_cost hi hn hs
    exact ⟨t', out, pre, m, e, ho, by unfold op_bound; omega⟩

theorem op_mems_bounded_witness :
    (sx0.algo = tb_real_time ∧ sx0.statistics_file = true) ∧
    ((∀ p c d, p ∈ [10] → c ∉ sx0.alloc → 6 ≤ c →
      ∃ t' pre m, tb_add_child { sx0 with toMem := tb_make_node sx0.toMem c d } p c = .ok t' ∧
        t'.output = pre ++ [.TA m] ∧ m ≤ op_bound sx0.history) ∧
    (∀ n, n ∈ [10] →
      ∃ t' pre m, tb_deactivate sx0 n = .ok t' ∧ t'.output = pre ++ [.TD m] ∧
        m ≤ op_bound sx0.history) ∧
    (∀ n, n ∈ [10] →
      ∃ t' out pre m, tb_history sx0 n = .ok (t', out) ∧ t'.output = pre ++ [.TH m] ∧
        m ≤ op_bound sx0.history)) :=
  ⟨⟨by decide, by decide⟩, op_mems_bounded sx0 [10] sx0_reach (by decide) (by decide)⟩

/-- C14: on every reachable naive tree the operations free no node and set no
parent link of an owned node to null. `tb_add_child` returns with the owned
nodes of before and the child, `tb_deactivate` and `tb_history` return with
the same owned nodes, `tb_expand` on children made by the client returns with
the owned nodes of before and the children; the parent link of every node
owned before is as it was. -/
theorem naive_never_reclaims (t : Tree) (F : List Nat) (hr : Reach t F) (ha : t.algo = tb_naive) :
    (∀ p c d, p ∈ F → c ∉ t.alloc → 6 ≤ c →
      ∃ t', tb_add_child { t with toMem := tb_make_node t.toMem c d } p c = .ok t' ∧
        t'.alloc = c :: t.alloc ∧ ∀ q ∈ t.alloc, t'.parent q = t.parent q) ∧
    (∀ n, n ∈ F →
      ∃ t', tb_deactivate t n = .ok t' ∧ t'.alloc = t.alloc ∧
        ∀ q ∈ t.alloc, t'.parent q = t.parent q) ∧
    (∀ n, n ∈ F →
      ∃ t' out, tb_history t n = .ok (t', out) ∧ t'.alloc = t.alloc ∧
        ∀ q ∈ t.alloc, t'.parent q = t.parent q) ∧
    (∀ p cs d, p ∈ F → cs.Nodup → (∀ c ∈ cs, c ∉ t.alloc ∧ 6 ≤ c) →
      ∃ t', tb_expand { t with toMem := make_nodes t.toMem d cs } p (cs ++ [0]) = .ok t' ∧
        t'.alloc = cs.reverse ++ t.alloc ∧ ∀ q ∈ t.alloc, t'.parent q = t.parent q) := by
  obtain ⟨D, hi⟩ := hr.inv
  have hw := hi.wf
  refine ⟨fun p c d hp hc hc6 => ?_, fun n hn => ?_, fun n hn => ?_, fun p cs d hp hnd hcs => ?_⟩
  · obtain ⟨t', e, hmem⟩ := add_child_naive_mem hi d hp hc hc6 ha
    refine ⟨t', e, by rw [hmem]; rfl, fun q hq => ?_⟩
    rw [hmem, Mem.add_child_parent]
    exact upd_ne _ _ (fun e => hc (e ▸ hq))
  · obtain ⟨t', e, hmem⟩ := deactivate_naive_mem hi hn ha
    exact ⟨t', e, by rw [hmem, Mem.deactivate_alloc], fun q _ => by
      rw [hmem, Mem.deactivate_parent]⟩
  · obtain ⟨t', e, -, hmem, -⟩ := history_ok hi hn
    exact ⟨t', _, e, by rw [hmem], fun q _ => by rw [hmem]⟩
  · have hfr : ∀ q, q ∈ t.alloc ∨ q ≤ 5 → q ∉ cs := fun q hq hm => by
      obtain ⟨h1, h2⟩ := hcs q hm
      rcases hq with h3 | h3
      · exact h1 h3
      · omega
    have hpa := hw.subF p hp
    have hd := hw.dllD.dll_rl_mem s_to_delete (by simp)
    have hrl2 : (make_nodes t.toMem d cs).rl s_to_delete = t.rl s_to_delete :=
      (make_nodes_frame d cs t.toMem _ (hfr _ (Or.inr (by decide)))).2.2.1
    obtain ⟨t', e, hal, hpar⟩ := expand_naive_run cs F
      { t with toMem := make_nodes t.toMem d cs } p ha hi.mems
      (hw.dllF.dll_congr
        (fun q hq => (make_nodes_frame d cs t.toMem q (hfr q (by
          rcases List.mem_cons.1 hq with h1 | h1
          · right; rw [h1]; decide
          · left; exact hw.subF q h1))).2.2.1)
        (fun q hq => (make_nodes_frame d cs t.toMem q (hfr q (by
          rcases List.mem_cons.1 hq with h1 | h1
          · right; rw [h1]; decide
          · left; exact hw.subF q h1))).2.1))
      (fun f hf => (make_nodes_mem d cs t.toMem f).2 (Or.inr (hw.subF f hf)))
      (fun f hf => by
        rcases (make_nodes_mem d cs t.toMem f).1 hf with h1 | h1
        · exact (hcs f h1).2
        · exact hw.node f h1)
      hp
      (by
        show (make_nodes t.toMem d cs).active p = true
        rw [(make_nodes_frame d cs t.toMem p (hfr p (Or.inl hpa))).2.2.2]
        exact (hw.act p hpa).2 hp)
      hnd
      (fun c hc => ⟨(make_nodes_mem d cs t.toMem c).2 (Or.inl hc),
        fun hcF => (hcs c hc).1 (hw.subF c hcF)⟩)
      (by
        show valid (make_nodes t.toMem d cs) ((make_nodes t.toMem d cs).rl s_to_delete)
        rw [hrl2]
        rcases hw.valid_D _ hd with h1 | h1
        · left; exact (make_nodes_mem d cs t.toMem _).2 (Or.inr h1)
        · right; exact h1)
      (by
        show p ≠ (make_nodes t.toMem d cs).rl s_to_delete
        rw [hrl2]
        intro e
        rw [← e] at hd
        rcases List.mem_cons.1 hd with h1 | h1
        · have := hw.node p hpa; rw [h1] at this; simp at this
        · exact hw.wf_disj p hp h1)
    refine ⟨t', e, ?_, fun q hq => ?_⟩
    · rw [hal]; exact make_nodes_alloc d cs t.toMem
    · rw [hpar q (hfr q (Or.inl hq))]
      exact (make_nodes_frame d cs t.toMem q (hfr q (Or.inl hq))).1

theorem naive_never_reclaims_witness :
    nx2.algo = tb_naive ∧
    ((∀ p c d, p ∈ [12, 11, 10] → c ∉ nx2.alloc → 6 ≤ c →
      ∃ t', tb_add_child { nx2 with toMem := tb_make_node nx2.toMem c d } p c = .ok t' ∧
        t'.alloc = c :: nx2.alloc ∧ ∀ q ∈ nx2.alloc, t'.parent q = nx2.parent q) ∧
    (∀ n, n ∈ [12, 11, 10] →
      ∃ t', tb_deactivate nx2 n = .ok t' ∧ t'.alloc = nx2.alloc ∧
        ∀ q ∈ nx2.alloc, t'.parent q = nx2.parent q) ∧
    (∀ n, n ∈ [12, 11, 10] →
      ∃ t' out, tb_history nx2 n = .ok (t', out) ∧ t'.alloc = nx2.alloc ∧
        ∀ q ∈ nx2.alloc, t'.parent q = nx2.parent q) ∧
    (∀ p cs d, p ∈ [12, 11, 10] → cs.Nodup → (∀ c ∈ cs, c ∉ nx2.alloc ∧ 6 ≤ c) →
      ∃ t', tb_expand { nx2 with toMem := make_nodes nx2.toMem d cs } p (cs ++ [0]) = .ok t' ∧
        t'.alloc = cs.reverse ++ nx2.alloc ∧ ∀ q ∈ nx2.alloc, t'.parent q = nx2.parent q)) :=
  ⟨by decide, naive_never_reclaims nx2 [12, 11, 10] nx2_reach (by decide)⟩

/-- C15: on every reachable real-time tree `tb_add_child` returns and frees at
most one node: none when `t->to_delete` is empty on entry, and the node
`t->to_delete->rl`, the head of the list, when it is not; `tb_deactivate` and
`tb_history` return and free no node. -/
theorem real_time_frees_one (t : Tree) (F : List Nat) (hr : Reach t F)
    (ha : t.algo = tb_real_time) :
    (∀ p c d, p ∈ F → c ∉ t.alloc → 6 ≤ c →
      ∃ t', tb_add_child { t with toMem := tb_make_node t.toMem c d } p c = .ok t' ∧
        (t.rl s_to_delete = s_to_delete → t'.alloc = c :: t.alloc) ∧
        (t.rl s_to_delete ≠ s_to_delete → t.rl s_to_delete ∈ t.alloc ∧
          t'.alloc = c :: t.alloc.erase (t.rl s_to_delete))) ∧
    (∀ n, n ∈ F → ∃ t', tb_deactivate t n = .ok t' ∧ t'.alloc = t.alloc) ∧
    (∀ n, n ∈ F → ∃ t' out, tb_history t n = .ok (t', out) ∧ t'.alloc = t.alloc) := by
  obtain ⟨D, hi⟩ := hr.inv
  refine ⟨fun p c d hp hc hc6 => ?_, fun n hn => ?_, fun n hn => ?_⟩
  · obtain ⟨t', e, h1, h2⟩ := add_child_rt_alloc hi d hp hc hc6 ha
    refine ⟨t', e, fun he => h1 (hi.wf.D_head.1 he), fun hne => ?_⟩
    obtain ⟨D', hD⟩ := hi.wf.D_head.2 hne
    exact ⟨hi.wf.wf_subD _ (by rw [hD]; simp), h2 _ D' hD⟩
  · obtain ⟨t', e, hmem⟩ := deactivate_rt_mem hi hn ha
    exact ⟨t', e, by rw [hmem, Mem.drop_rep_alloc, Mem.deactivate_alloc]⟩
  · obtain ⟨t', e, -, hmem, -⟩ := history_ok hi hn
    exact ⟨t', _, e, by rw [hmem]⟩

theorem real_time_frees_one_witness :
    ux2.algo = tb_real_time ∧
    ((∀ p c d, p ∈ [10] → c ∉ ux2.alloc → 6 ≤ c →
      ∃ t', tb_add_child { ux2 with toMem := tb_make_node ux2.toMem c d } p c = .ok t' ∧
        (ux2.rl s_to_delete = s_to_delete → t'.alloc = c :: ux2.alloc) ∧
        (ux2.rl s_to_delete ≠ s_to_delete → ux2.rl s_to_delete ∈ ux2.alloc ∧
          t'.alloc = c :: ux2.alloc.erase (ux2.rl s_to_delete))) ∧
    (∀ n, n ∈ [10] → ∃ t', tb_deactivate ux2 n = .ok t' ∧ t'.alloc = ux2.alloc) ∧
    (∀ n, n ∈ [10] → ∃ t' out, tb_history ux2 n = .ok (t', out) ∧ t'.alloc = ux2.alloc)) :=
  ⟨by decide, real_time_frees_one ux2 [10] ux2_reach (by decide)⟩

/-- C16, as stated, fails under the amortized and the real-time algorithm: on
the tree that `tb_initialize` returns for the root `10`, the only node,
`tb_deactivate` of `10` returns and `10` is still an owned node. -/
theorem deactivate_reclaims_counterexample :
    (Reachable ax0 ∧ ax0.algo = tb_amortized ∧ ax0.alloc = [10] ∧ ax0.active 10 = true ∧
      ∃ t', tb_deactivate ax0 10 = .ok t' ∧ 10 ∈ t'.alloc) ∧
    (Reachable ux0 ∧ ux0.algo = tb_real_time ∧ ux0.alloc = [10] ∧ ux0.active 10 = true ∧
      ∃ t', tb_deactivate ux0 10 = .ok t' ∧ 10 ∈ t'.alloc) := by
  obtain ⟨Da, hia⟩ := ax0_reach.inv
  obtain ⟨Du, hiu⟩ := ux0_reach.inv
  obtain ⟨ta, ea, ha⟩ := deactivate_am_alloc hia (n := 10) (by decide) (by decide)
  obtain ⟨tu, eu, hu⟩ := deactivate_rt_mem hiu (n := 10) (by decide) (by decide)
  refine ⟨⟨⟨_, ax0_reach⟩, by decide, by decide, by decide, ta, ea, ?_⟩,
    ⟨⟨_, ux0_reach⟩, by decide, by decide, by decide, tu, eu, ?_⟩⟩
  · rw [ha]; decide
  · show 10 ∈ tu.toMem.alloc
    rw [hu, Mem.drop_rep_alloc, Mem.deactivate_alloc]; decide

/-- C16, amended: on every reachable tree `tb_deactivate` of an active node `n`
returns. Under the mark algorithm, when no other active node has `n` among its
ancestors, `n` is no longer owned on return. Under the amortized and the
real-time algorithm `tb_deactivate` frees no node: `n` is still owned on
return. -/
theorem deactivate_reclaims (t : Tree) (hr : Reachable t) (n : Nat) (hn : n ∈ t.alloc)
    (hact : t.active n = true) :
    (t.algo = tb_gc →
      (∀ f k, f ∈ t.alloc → t.active f = true → f ≠ n → t.parent^[k] f ≠ n) →
      ∃ t', tb_deactivate t n = .ok t' ∧ n ∉ t'.alloc) ∧
    (t.algo = tb_amortized ∨ t.algo = tb_real_time →
      ∃ t', tb_deactivate t n = .ok t' ∧ t'.alloc = t.alloc ∧ n ∈ t'.alloc) := by
  obtain ⟨F, hF⟩ := hr
  obtain ⟨D, hi⟩ := hF.inv
  have hnF : n ∈ F := (hi.wf.mem_F_iff n).2 ⟨hn, hact⟩
  refine ⟨fun ha hdesc => ?_, fun ha => ?_⟩
  · obtain ⟨t', e, hk⟩ := deactivate_mark_kept hi hnF ha
    refine ⟨t', e, fun hm => ?_⟩
    obtain ⟨f, hf, hq⟩ := (hk n).1 hm
    have hf' := (hi.wf.F_nodup.mem_erase_iff).1 hf
    obtain ⟨i, hi'⟩ := anc_mem_iterate _ _ _ hq
    exact hdesc f i ((hi.wf.mem_F_iff f).1 hf'.2).1 ((hi.wf.mem_F_iff f).1 hf'.2).2 hf'.1 hi'
  · rcases ha with ha | ha
    · obtain ⟨t', e, hal⟩ := deactivate_am_alloc hi hnF ha
      exact ⟨t', e, hal, hal ▸ hn⟩
    · obtain ⟨t', e, hmem⟩ := deactivate_rt_mem hi hnF ha
      have hal : t'.alloc = t.alloc := by rw [hmem, Mem.drop_rep_alloc, Mem.deactivate_alloc]
      exact ⟨t', e, hal, hal ▸ hn⟩

theorem deactivate_reclaims_witness :
    (11 ∈ gx1.alloc ∧ gx1.active 11 = true) ∧
    ((gx1.algo = tb_gc →
      (∀ f k, f ∈ gx1.alloc → gx1.active f = true → f ≠ 11 → gx1.parent^[k] f ≠ 11) →
      ∃ t', tb_deactivate gx1 11 = .ok t' ∧ 11 ∉ t'.alloc) ∧
    (gx1.algo = tb_amortized ∨ gx1.algo = tb_real_time →
      ∃ t', tb_deactivate gx1 11 = .ok t' ∧ t'.alloc = gx1.alloc ∧ 11 ∈ t'.alloc)) :=
  ⟨⟨by decide, by decide⟩, deactivate_reclaims gx1 ⟨_, gx1_reach⟩ 11 (by decide) (by decide)⟩

/-- C17: on every reachable tree of the mark or the amortized algorithm `gc`
returns: no assertion of `gc`, `gc_node` and `gc_parent` fails, and no pointer
is bad. So do the operations that call `gc`, `tb_deactivate` under the mark
algorithm and `tb_add_child` under the amortized one. Every call of `gc_node`
that returns was made on a node that is not seen, not active and has no
child. -/
theorem gc_assertions_hold (t : Tree) (F : List Nat) (hr : Reach t F)
    (ha : t.algo = tb_gc ∨ t.algo = tb_amortized) :
    (∃ t', gc t = .ok t') ∧
    (t.algo = tb_gc → ∀ n, n ∈ F → ∃ t', tb_deactivate t n = .ok t') ∧
    (t.algo = tb_amortized → ∀ p c d, p ∈ F → c ∉ t.alloc → 6 ≤ c →
      ∃ t', tb_add_child { t with toMem := tb_make_node t.toMem c d } p c = .ok t') ∧
    (∀ fuel s x s', gc_node fuel s x = .ok s' →
      s.seen x = false ∧ s.active x = false ∧ s.children x = 0) := by
  obtain ⟨D, hi⟩ := hr.inv
  refine ⟨?_, fun _ n hn => ?_, fun _ p c d hp hc hc6 => ?_, fun fuel s x s' h => ?_⟩
  · obtain ⟨t', e, -⟩ := gc_ok hi.wf hi.hist ha (fun h1 => (hi.am h1).1)
    exact ⟨t', e⟩
  · obtain ⟨t', -, e, -⟩ := deactivate_ok hi hn
    exact ⟨t', e⟩
  · obtain ⟨t', -, e, -⟩ := add_child_ok hi d hp hc hc6
    exact ⟨t', e⟩
  · obtain ⟨h1, h2, h3⟩ := gc_node_children h
    exact ⟨h2, h3, h1⟩

theorem gc_assertions_hold_witness :
    (gx1.algo = tb_gc ∨ gx1.algo = tb_amortized) ∧
    ((∃ t', gc gx1 = .ok t') ∧
    (gx1.algo = tb_gc → ∀ n, n ∈ [11, 10] → ∃ t', tb_deactivate gx1 n = .ok t') ∧
    (gx1.algo = tb_amortized → ∀ p c d, p ∈ [11, 10] → c ∉ gx1.alloc → 6 ≤ c →
      ∃ t', tb_add_child { gx1 with toMem := tb_make_node gx1.toMem c d } p c = .ok t') ∧
    (∀ fuel s x s', gc_node fuel s x = .ok s' →
      s.seen x = false ∧ s.active x = false ∧ s.children x = 0)) :=
  ⟨by decide, gc_assertions_hold gx1 [11, 10] gx1_reach (by decide)⟩

/-- C18: on every reachable tree of the mark or the amortized algorithm, with
the frontier `F` and `K = max (history - 1) 1`, `gc` returns and: a node is
owned after it if and only if it lies at most `K` parent edges above a node of
`F` (a node of `F` lies `0` edges above itself), along the parent links of
before; an owned node that lies less than `K` edges above some node of `F`
keeps its parent link, every other owned node has the parent link null; and the
list `t->to_delete` is empty. -/
theorem gc_survivors (t : Tree) (F : List Nat) (hr : Reach t F)
    (ha : t.algo = tb_gc ∨ t.algo = tb_amortized) :
    ∃ t', gc t = .ok t' ∧
      (∀ q, q ∈ t'.alloc ↔ ∃ f ∈ F, q ∈ anc t.parent (max (t.history - 1) 1 + 1) f) ∧
      (∀ q ∈ t'.alloc, (∃ f ∈ F, q ∈ anc t.parent (max (t.history - 1) 1) f) →
        t'.parent q = t.parent q) ∧
      (∀ q ∈ t'.alloc, (∀ f ∈ F, q ∉ anc t.parent (max (t.history - 1) 1) f) →
        t'.parent q = 0) ∧
      t'.rl s_to_delete = s_to_delete ∧ t'.ll s_to_delete = s_to_delete := by
  obtain ⟨D, hi⟩ := hr.inv
  obtain ⟨t', e, post⟩ := gc_ok hi.wf hi.hist ha (fun h1 => (hi.am h1).1)
  exact ⟨t', e, post.kept, post.keep, post.cut, post.wf.dllD.2.1, post.wf.dllD.2.2⟩

theorem gc_survivors_witness :
    (gx1.algo = tb_gc ∨ gx1.algo = tb_amortized) ∧
    ∃ t', gc gx1 = .ok t' ∧
      (∀ q, q ∈ t'.alloc ↔ ∃ f ∈ [11, 10], q ∈ anc gx1.parent (max (gx1.history - 1) 1 + 1) f) ∧
      (∀ q ∈ t'.alloc, (∃ f ∈ [11, 10], q ∈ anc gx1.parent (max (gx1.history - 1) 1) f) →
        t'.parent q = gx1.parent q) ∧
      (∀ q ∈ t'.alloc, (∀ f ∈ [11, 10], q ∉ anc gx1.parent (max (gx1.history - 1) 1) f) →
        t'.parent q = 0) ∧
      t'.rl s_to_delete = s_to_delete ∧ t'.ll s_to_delete = s_to_delete :=
  ⟨by decide, gc_survivors gx1 [11, 10] gx1_reach (by decide)⟩

/-- C19: in every reachable tree, under each algorithm, the parent link of
every owned node is null or refers to an owned node; `tb_history` on an active
node returns and writes owned nodes only; every call of `gc_node` that returns,
hence every `free` of the mark and the amortized algorithm, was made on a node
whose `children` is `0`; and a node that `tb_add_child` frees under the
real-time algorithm has `children == 0` and is not active. -/
theorem parents_owned (t : Tree) (F : List Nat) (hr : Reach t F) :
    (∀ p ∈ t.alloc, t.parent p = 0 ∨ t.parent p ∈ t.alloc) ∧
    (∀ n, n ∈ F → ∃ t' L, tb_history t n = .ok (t', L ++ [0]) ∧ ∀ q ∈ L, q ∈ t.alloc) ∧
    (∀ fuel s x s', gc_node fuel s x = .ok s' → s.children x = 0) ∧
    (t.algo = tb_real_time → ∀ p c d, p ∈ F → c ∉ t.alloc → 6 ≤ c →
      ∃ t', tb_add_child { t with toMem := tb_make_node t.toMem c d } p c = .ok t' ∧
        ∀ q ∈ t.alloc, q ∉ t'.alloc → t.children q = 0 ∧ t.active q = false) := by
  obtain ⟨D, hi⟩ := hr.inv
  refine ⟨hi.wf.par, fun n hn => ?_, fun fuel s x s' h => (gc_node_children h).1,
    fun ha p c d hp hc hc6 => ?_⟩
  · obtain ⟨t', e, -⟩ := history_ok hi hn
    exact ⟨t', _, e, fun q hq => hi.wf.anc_alloc (hi.wf.subF n hn) hq⟩
  · obtain ⟨t', e, h1, h2⟩ := add_child_rt_alloc hi d hp hc hc6 ha
    refine ⟨t', e, fun q hq hq' => ?_⟩
    cases hD : D with
    | nil =>
      rw [h1 hD] at hq'
      exact absurd (List.mem_cons_of_mem _ hq) hq'
    | cons x D' =>
      rw [h2 x D' hD] at hq'
      have hqx : q = x := by
        by_contra hne
        exact hq' (List.mem_cons_of_mem _ ((List.mem_erase_of_ne hne).2 hq))
      have := (hi.wf.del q).1 (by rw [hD, hqx]; simp)
      exact ⟨this.2.2, this.2.1⟩

theorem parents_owned_witness :
    (∀ p ∈ ux2.alloc, ux2.parent p = 0 ∨ ux2.parent p ∈ ux2.alloc) ∧
    (∀ n, n ∈ [10] → ∃ t' L, tb_history ux2 n = .ok (t', L ++ [0]) ∧ ∀ q ∈ L, q ∈ ux2.alloc) ∧
    (∀ fuel s x s', gc_node fuel s x = .ok s' → s.children x = 0) ∧
    (ux2.algo = tb_real_time → ∀ p c d, p ∈ [10] → c ∉ ux2.alloc → 6 ≤ c →
      ∃ t', tb_add_child { ux2 with toMem := tb_make_node ux2.toMem c d } p c = .ok t' ∧
        ∀ q ∈ ux2.alloc, q ∉ t'.alloc → ux2.children q = 0 ∧ ux2.active q = false) :=
  parents_owned ux2 [10] ux2_reach

/-- C20: `delete` reads a node it has freed. On the real-time tree with
history 2 in which `11` was added below the root `10` and then deactivated,
`10` is active and is the parent of `11`, which is on `t->to_delete`. `delete`
puts the frontier in front of the list, so `delete_one` frees `10` first, and
`cut_parent` for `11` then decrements `children` of the freed `10`. -/
theorem delete_reads_freed_node :
    Reachable ux2 ∧ ux2.algo = tb_real_time ∧ ux2.history = 2 ∧ ux2.alloc = [11, 10] ∧
      ux2.parent 11 = 10 ∧ ux2.active 10 = true ∧ ux2.active 11 = false ∧
      ux2.rl s_to_delete = 11 ∧ ux2.rl s_active = 10 ∧
      delete ux2 = .error .bad_pointer :=
  ⟨⟨_, ux2_reach⟩, by decide, by decide, by decide, by decide, by decide, by decide, by decide,
    by decide, rfl⟩

/-- C21: in every reachable tree of the amortized algorithm `node_count` is the
number of owned nodes, `last_gc_node_count` is at least `1`, and `node_count`
is less than twice `last_gc_node_count`. -/
theorem amortized_counters (t : Tree) (hr : Reachable t) (ha : t.algo = tb_amortized) :
    t.alloc.Nodup ∧ t.node_count = (t.alloc.length : Nat) ∧ 1 ≤ t.last_gc_node_count ∧
      t.node_count < 2 * t.last_gc_node_count := by
  obtain ⟨F, hF⟩ := hr
  obtain ⟨D, hi⟩ := hF.inv
  exact ⟨hi.wf.nodup, hi.am ha⟩

theorem amortized_counters_witness :
    ax1.algo = tb_amortized ∧
    (ax1.alloc.Nodup ∧ ax1.node_count = (ax1.alloc.length : Nat) ∧ 1 ≤ ax1.last_gc_node_count ∧
      ax1.node_count < 2 * ax1.last_gc_node_count) :=
  ⟨by decide, amortized_counters ax1 ⟨_, ax1_reach⟩ (by decide)⟩

/-! ## The chain workload under the real-time algorithm -/

theorem add_child_rt_both {t : Tree} {F D : List Nat} (h : Inv t F D) {p c : Nat} (d : Int)
    (hp : p ∈ F) (hc : c ∉ t.alloc) (hc6 : 6 ≤ c) (ha : t.algo = tb_real_time) :
    ∃ t', tb_add_child { t with toMem := tb_make_node t.toMem c d } p c = .ok t' ∧
      Inv t' (c :: F) (reclaim_D (t.toMem.add_child p c d) D) ∧
      t'.toMem = ((t.toMem.add_child p c d).reclaim D).set_rep t.history p c ∧
      t'.algo = t.algo ∧ t'.history = t.history := by
  obtain ⟨t1, e1, hinv, hok⟩ := add_child_rt_ok h d hp hc hc6 ha
  obtain ⟨t2, e2, hmem⟩ := add_child_rt_mem h d hp hc hc6 ha
  rw [e1] at e2
  cases e2
  exact ⟨t1, e1, hinv, hmem, hok.same.algo, hok.same.history⟩

theorem deactivate_rt_both {t : Tree} {F D : List Nat} (h : Inv t F D) {n : Nat}
    (hn : n ∈ F) (ha : t.algo = tb_real_time) :
    ∃ t', tb_deactivate t n = .ok t' ∧
      Inv t' (F.erase n) (drop_D (t.toMem.deactivate n) n (deact_D t.toMem n D)) ∧
      t'.toMem = (t.toMem.deactivate n).drop_rep n ∧
      t'.algo = t.algo ∧ t'.history = t.history := by
  obtain ⟨t1, e1, hinv, hok⟩ := deactivate_rt_ok h hn ha
  obtain ⟨t2, e2, hmem⟩ := deactivate_rt_mem h hn ha
  rw [e1] at e2
  cases e2
  exact ⟨t1, e1, hinv, hmem, hok.same.algo, hok.same.history⟩

theorem Wf.inactive {m : Mem} {F D : List Nat} (h : Wf m F D) {p : Nat} (hp : p ∈ m.alloc)
    (hF : p ∉ F) : m.active p = false := by
  by_contra hc
  exact hF ((h.act p hp).1 (by simpa using hc))

theorem chain_even_add {b : Nat} {t : Tree} (h : ChainEven b t) :
    ∃ t', exec t (.add_child (b + 4) (b + 5) 0) = .ok t' ∧ ChainEvenMid b t' := by
  have hb : 6 ≤ b := h.inv.wf.node b (by rw [h.alloc]; simp)
  have hb0 : b ≠ 0 := by omega
  have ha0 : t.active b = false := h.inv.wf.inactive (by rw [h.alloc]; simp) (by simp)
  obtain ⟨t', e, hinv, hmem, ha', hh'⟩ := add_child_rt_both h.inv (p := b + 4) (c := b + 5) 0
    (by simp) (by rw [h.alloc]; simp) (by omega) h.algo
  have hD : reclaim_D (t.toMem.add_child (b + 4) (b + 5) 0) [b + 1] = [b] := by
    simp [reclaim_D, cut_D, cut_pushes, Mem.unlink, Mem.add_child, Mem.link_child, Mem.push,
      tb_make_node, upd_apply, h.p1, h.c0, ha0]
    omega
  rw [hD] at hinv
  rw [h.hist] at hmem
  have hd5 : Int.tmod (t.depth (b + 4) + 1) 2 = 1 := by
    rw [Int.tmod_eq_emod (by have := h.dn; omega) (by omega)]
    have := h.dm; omega
  refine ⟨t', e, ⟨hinv, ha'.trans h.algo, hh'.trans h.hist, ?_, ?_, ?_, ?_, ?_, ?_, ?_, ?_, ?_, ?_, ?_,
    ?_, ?_, ?_, ?_, ?_⟩⟩
  · show t'.toMem.alloc = _
    rw [hmem, Mem.set_rep_alloc, Mem.reclaim_alloc, Mem.add_child_alloc, h.alloc]
    simp
  · show t'.toMem.parent _ = _
    rw [hmem, Mem.set_rep_parent]
    simp [Mem.reclaim, Mem.delete_one_parent, Mem.add_child_parent, upd_apply]
  · show t'.toMem.parent _ = _
    rw [hmem, Mem.set_rep_parent]
    simp [Mem.reclaim, Mem.delete_one_parent, Mem.add_child_parent, upd_apply, h.p4]
  · show t'.toMem.parent _ = _
    rw [hmem, Mem.set_rep_parent]
    simp [Mem.reclaim, Mem.delete_one_parent, Mem.add_child_parent, upd_apply, h.p3]
  · show t'.toMem.parent _ = _
    rw [hmem, Mem.set_rep_parent]
    simp [Mem.reclaim, Mem.delete_one_parent, Mem.add_child_parent, upd_apply, h.p2]
  · show t'.toMem.parent _ = _
    rw [hmem, Mem.set_rep_parent]
    simp [Mem.reclaim, Mem.delete_one_parent, Mem.add_child_parent, upd_apply, h.p0]
  · show t'.toMem.children _ = _
    rw [hmem, Mem.set_rep_children]
    simp [Mem.reclaim, Mem.delete_one, Mem.cut_children, Mem.unlink, Mem.add_child,
      Mem.link_child, Mem.push, tb_make_node, upd_apply, h.p1, hb0]
  · show t'.toMem.children _ = _
    rw [hmem, Mem.set_rep_children]
    simp [Mem.reclaim, Mem.delete_one, Mem.cut_children, Mem.unlink, Mem.add_child,
      Mem.link_child, Mem.push, tb_make_node, upd_apply, h.p1, hb0, h.c4]
  · show t'.toMem.children _ = _
    rw [hmem, Mem.set_rep_children]
    simp [Mem.reclaim, Mem.delete_one, Mem.cut_children, Mem.unlink, Mem.add_child,
      Mem.link_child, Mem.push, tb_make_node, upd_apply, h.p1, hb0, h.c3]
  · show t'.toMem.children _ = _
    rw [hmem, Mem.set_rep_children]
    simp [Mem.reclaim, Mem.delete_one, Mem.cut_children, Mem.unlink, Mem.add_child,
      Mem.link_child, Mem.push, tb_make_node, upd_apply, h.p1, hb0, h.c2]
  · show t'.toMem.children _ = _
    rw [hmem, Mem.set_rep_children]
    simp [Mem.reclaim, Mem.delete_one, Mem.cut_children, Mem.unlink, Mem.add_child,
      Mem.link_child, Mem.push, tb_make_node, upd_apply, h.p1, hb0, h.c0]
  · show 0 ≤ t'.toMem.depth _
    rw [hmem]
    have := h.dn
    simp [Mem.set_rep, Mem.reclaim_depth, Mem.reclaim_representant, Mem.reclaim_active_count,
      Mem.add_child, Mem.link_child, Mem.push, tb_make_node, upd_apply, hd5]
    omega
  · show t'.toMem.depth _ % 2 = 1
    rw [hmem]
    have := h.dm
    simp [Mem.set_rep, Mem.reclaim_depth, Mem.reclaim_representant, Mem.reclaim_active_count,
      Mem.add_child, Mem.link_child, Mem.push, tb_make_node, upd_apply, hd5]
    omega
  · show t'.toMem.representant (b + 5) = _
    rw [hmem]
    simp [Mem.set_rep, Mem.reclaim_depth, Mem.reclaim_representant, Mem.reclaim_active_count,
      Mem.add_child, Mem.link_child, Mem.push, tb_make_node, upd_apply, hd5, h.r4]
  · show t'.toMem.representant (b + 4) = _
    rw [hmem]
    simp [Mem.set_rep, Mem.reclaim_depth, Mem.reclaim_representant, Mem.reclaim_active_count,
      Mem.add_child, Mem.link_child, Mem.push, tb_make_node, upd_apply, hd5, h.r4]
  · show t'.toMem.active_count (b + 4) = _
    rw [hmem]
    simp [Mem.set_rep, Mem.reclaim_depth, Mem.reclaim_representant, Mem.reclaim_active_count,
      Mem.add_child, Mem.link_child, Mem.push, tb_make_node, upd_apply, hd5, h.r4, h.n4]

theorem chain_even_deact {b : Nat} {t : Tree} (h : ChainEvenMid b t) :
    ∃ t', exec t (.deactivate (b + 4)) = .ok t' ∧ ChainOdd b t' := by
  have hb : 6 ≤ b := h.inv.wf.node b (by rw [h.alloc]; simp)
  have hb0 : b ≠ 0 := by omega
  obtain ⟨t', e, hinv, hmem, ha', hh'⟩ := deactivate_rt_both h.inv (n := b + 4) (by simp) h.algo
  have hD : drop_D (t.toMem.deactivate (b + 4)) (b + 4) (deact_D t.toMem (b + 4) [b]) = [b] := by
    simp [drop_D, deact_D, Mem.deactivate_representant, Mem.deactivate_active_count, h.c4, h.r4,
      h.n4]
  have hF : [b + 5, b + 4].erase (b + 4) = [b + 5] := by simp
  rw [hD, hF] at hinv
  refine ⟨t', e, ⟨hinv, ha'.trans h.algo, hh'.trans h.hist, ?_, ?_, ?_, ?_, ?_, ?_, ?_, ?_, ?_, ?_, ?_,
    ?_, ?_, ?_, ?_⟩⟩
  all_goals
    first
    | (show t'.toMem.alloc = _
       rw [hmem, Mem.drop_rep_alloc, Mem.deactivate_alloc]; exact h.alloc)
    | (show t'.toMem.parent _ = _
       rw [hmem, Mem.drop_rep_parent]
       simp [Mem.deactivate_representant, Mem.deactivate_active_count, Mem.deactivate_parent,
         h.r4, h.n4, h.p5, h.p4, h.p3, h.p2, h.p0])
    | (show t'.toMem.children _ = _
       rw [hmem]
       simp [Mem.drop_rep, Mem.deactivate_representant, Mem.deactivate_active_count,
         Mem.deactivate_children, h.r4, h.n4, h.c5, h.c4, h.c3, h.c2, h.c0])
    | (show 0 ≤ t'.toMem.depth _
       rw [hmem, Mem.drop_rep_depth, Mem.deactivate_depth]; exact h.dn)
    | (show t'.toMem.depth _ % 2 = 1
       rw [hmem, Mem.drop_rep_depth, Mem.deactivate_depth]; exact h.dm)
    | (show t'.toMem.representant _ = _
       rw [hmem, Mem.drop_rep_representant, Mem.deactivate_representant]; exact h.r5)
    | (show t'.toMem.active_count _ = _
       rw [hmem]
       simp [Mem.drop_rep, Mem.deactivate_representant, Mem.deactivate_active_count,
         h.r4, h.n4])

theorem chain_odd_add {b : Nat} {t : Tree} (h : ChainOdd b t) :
    ∃ t', exec t (.add_child (b + 5) (b + 6) 0) = .ok t' ∧ ChainOddMid b t' := by
  have hb : 6 ≤ b := h.inv.wf.node b (by rw [h.alloc]; simp)
  have hb0 : b ≠ 0 := by omega
  obtain ⟨t', e, hinv, hmem, ha', hh'⟩ := add_child_rt_both h.inv (p := b + 5) (c := b + 6) 0
    (by simp) (by rw [h.alloc]; simp) (by omega) h.algo
  have hD : reclaim_D (t.toMem.add_child (b + 5) (b + 6) 0) [b] = [] := by
    simp [reclaim_D, cut_D, cut_pushes, Mem.unlink, Mem.add_child, Mem.link_child, Mem.push,
      tb_make_node, upd_apply, h.p0]
  rw [hD] at hinv
  rw [h.hist] at hmem
  have hd6 : Int.tmod (t.depth (b + 5) + 1) 2 = 0 := by
    rw [Int.tmod_eq_emod (by have := h.dn; omega) (by omega)]
    have := h.dm; omega
  have hdn := h.dn
  have hdm := h.dm
  refine ⟨t', e, ⟨hinv, ha'.trans h.algo, hh'.trans h.hist, ?_, ?_, ?_, ?_, ?_, ?_, ?_, ?_, ?_, ?_, ?_,
    ?_, ?_, ?_, ?_, ?_, ?_⟩⟩
  all_goals
    first
    | (show t'.toMem.alloc = _
       rw [hmem, Mem.set_rep_alloc, Mem.reclaim_alloc, Mem.add_child_alloc, h.alloc]
       simp)
    | (show t'.toMem.parent _ = _
       rw [hmem, Mem.set_rep_parent]
       simp [Mem.reclaim, Mem.delete_one_parent, Mem.add_child_parent, upd_apply,
         h.p5, h.p4, h.p3, h.p2, h.p0])
    | (show t'.toMem.children _ = _
       rw [hmem, Mem.set_rep_children]
       simp [Mem.reclaim, Mem.delete_one, Mem.cut_children, Mem.unlink, Mem.add_child,
         Mem.link_child, Mem.push, tb_make_node, upd_apply, h.p0, hb0,
         h.c5, h.c4, h.c3, h.c2, h.c0])
    | (show 0 ≤ t'.toMem.depth _
       rw [hmem]
       simp [Mem.set_rep, Mem.reclaim_depth, Mem.reclaim_representant, Mem.reclaim_active_count,
         Mem.add_child, Mem.link_child, Mem.push, tb_make_node, upd_apply, hd6]
       omega)
    | (show t'.toMem.depth _ % 2 = 0
       rw [hmem]
       simp [Mem.set_rep, Mem.reclaim_depth, Mem.reclaim_representant, Mem.reclaim_active_count,
         Mem.add_child, Mem.link_child, Mem.push, tb_make_node, upd_apply, hd6]
       omega)
    | (show t'.toMem.representant _ = _
       rw [hmem]
       simp [Mem.set_rep, Mem.reclaim_depth, Mem.reclaim_representant, Mem.reclaim_active_count,
         Mem.add_child, Mem.link_child, Mem.push, tb_make_node, upd_apply, hd6, h.r5])
    | (show t'.toMem.active_count _ = _
       rw [hmem]
       simp [Mem.set_rep, Mem.reclaim_depth, Mem.reclaim_representant, Mem.reclaim_active_count,
         Mem.add_child, Mem.link_child, Mem.push, tb_make_node, upd_apply, hd6, h.r5, h.n4])

theorem chain_odd_deact {b : Nat} {t : Tree} (h : ChainOddMid b t) :
    ∃ t', exec t (.deactivate (b + 5)) = .ok t' ∧ ChainEven (b + 2) t' := by
  have hb : 6 ≤ b + 2 := h.inv.wf.node (b + 2) (by rw [h.alloc]; simp)
  have ha3 : t.active (b + 3) = false :=
    h.inv.wf.inactive (by rw [h.alloc]; simp) (by simp)
  obtain ⟨t', e, hinv, hmem, ha', hh'⟩ := deactivate_rt_both h.inv (n := b + 5) (by simp) h.algo
  have hD : drop_D (t.toMem.deactivate (b + 5)) (b + 5) (deact_D t.toMem (b + 5) []) =
      [b + 3] := by
    simp [drop_D, deact_D, cut_D, cut_pushes, Mem.deactivate_representant,
      Mem.deactivate_active_count, Mem.deactivate_parent, Mem.deactivate_children,
      Mem.deactivate_active, upd_apply, h.c5, h.r5, h.n4, h.p4, h.c3, ha3]
  have hF : [b + 6, b + 5].erase (b + 5) = [b + 6] := by simp
  rw [hD, hF] at hinv
  refine ⟨t', e, ⟨hinv, ha'.trans h.algo, hh'.trans h.hist, ?_, ?_, ?_, ?_, ?_, ?_, ?_, ?_, ?_, ?_, ?_,
    ?_, ?_, ?_, ?_⟩⟩
  all_goals
    first
    | (show t'.toMem.alloc = [b + 6, b + 5, b + 4, b + 3, b + 2]
       rw [hmem, Mem.drop_rep_alloc, Mem.deactivate_alloc]; exact h.alloc)
    | (show t'.toMem.parent _ = _
       rw [hmem, Mem.drop_rep_parent]
       simp [Mem.deactivate_representant, Mem.deactivate_active_count, Mem.deactivate_parent,
         upd_apply, h.r5, h.n4, h.p6, h.p5, h.p4, h.p3, h.p2])
    | (show t'.toMem.children _ = _
       rw [hmem]
       simp [Mem.drop_rep, Mem.cut_children, Mem.deactivate_representant,
         Mem.deactivate_active_count, Mem.deactivate_parent,
         Mem.deactivate_children, upd_apply, h.r5, h.n4, h.p4, h.c6, h.c5, h.c4, h.c3, h.c2])
    | (show 0 ≤ t'.toMem.depth _
       rw [hmem, Mem.drop_rep_depth, Mem.deactivate_depth]; exact h.dn)
    | (show t'.toMem.depth _ % 2 = 0
       rw [hmem, Mem.drop_rep_depth, Mem.deactivate_depth]; exact h.dm)
    | (show t'.toMem.representant _ = _
       rw [hmem, Mem.drop_rep_representant, Mem.deactivate_representant]; exact h.r6)
    | (show t'.toMem.active_count _ = _
       rw [hmem, Mem.drop_rep_active_count]
       simp [Mem.deactivate_representant, Mem.deactivate_active_count, upd_apply, h.r5, h.n6])

theorem live_counts_step {t t1 t2 t' : Tree} {o1 o2 : Op} {os : List Op} {ls : List Nat}
    (e1 : exec t o1 = .ok t1) (e2 : exec t1 o2 = .ok t2)
    (e3 : live_counts t2 os = .ok (t', ls)) :
    live_counts t (o1 :: o2 :: os) = .ok (t', t1.alloc.length :: t2.alloc.length :: ls) := by
  simp [live_counts, e1, e2, e3, bind, Except.bind, pure, Except.pure]

/-- From a tree of `ChainEven` or `ChainOdd` on, the chain workload runs for any
number of rounds with five owned nodes after every operation. -/
theorem chain_steady : ∀ N : Nat,
    (∀ b t, ChainEven b t → ∃ t' ls, live_counts t (chain (b + 4) N) = .ok (t', ls) ∧
      ls.length = 2 * N ∧ ∀ l ∈ ls, l ≤ 5) ∧
    (∀ b t, ChainOdd b t → ∃ t' ls, live_counts t (chain (b + 5) N) = .ok (t', ls) ∧
      ls.length = 2 * N ∧ ∀ l ∈ ls, l ≤ 5)
  | 0 => ⟨fun _ t _ => ⟨t, [], rfl, rfl, by simp⟩, fun _ t _ => ⟨t, [], rfl, rfl, by simp⟩⟩
  | N + 1 => by
    obtain ⟨ihE, ihO⟩ := chain_steady N
    constructor
    · intro b t h
      obtain ⟨t1, e1, h1⟩ := chain_even_add h
      obtain ⟨t2, e2, h2⟩ := chain_even_deact h1
      obtain ⟨t', ls, e3, hl, hb⟩ := ihO b t2 h2
      refine ⟨t', _, live_counts_step e1 e2 e3, by simp [hl]; omega, ?_⟩
      intro l hl'
      simp only [List.mem_cons] at hl'
      rcases hl' with h3 | h3 | h3
      · rw [h3, h1.alloc]; simp
      · rw [h3, h2.alloc]; simp
      · exact hb l h3
    · intro b t h
      obtain ⟨t1, e1, h1⟩ := chain_odd_add h
      obtain ⟨t2, e2, h2⟩ := chain_odd_deact h1
      obtain ⟨t', ls, e3, hl, hb⟩ := ihE (b + 2) t2 h2
      refine ⟨t', _, live_counts_step e1 e2 e3, by simp [hl]; omega, ?_⟩
      intro l hl'
      simp only [List.mem_cons] at hl'
      rcases hl' with h3 | h3 | h3
      · rw [h3, h1.alloc]; simp
      · rw [h3, h2.alloc]; simp
      · exact hb l h3

theorem live_counts_append : ∀ (as bs : List Op) (t t1 t2 : Tree) (l1 l2 : List Nat),
    live_counts t as = .ok (t1, l1) → live_counts t1 bs = .ok (t2, l2) →
    live_counts t (as ++ bs) = .ok (t2, l1 ++ l2)
  | [], bs, t, t1, t2, l1, l2, e1, e2 => by
    simp only [live_counts, pure, Except.pure, Except.ok.injEq, Prod.mk.injEq] at e1
    obtain ⟨rfl, rfl⟩ := e1
    simpa using e2
  | o :: as, bs, t, t1, t2, l1, l2, e1, e2 => by
    rw [live_counts] at e1
    cases he : exec t o with
    | error f => simp [he, bind, Except.bind] at e1
    | ok ta =>
      cases hl : live_counts ta as with
      | error f => simp [he, hl, bind, Except.bind] at e1
      | ok r =>
        obtain ⟨tb, lb⟩ := r
        simp only [he, hl, bind, Except.bind, pure, Except.pure, Except.ok.injEq,
          Prod.mk.injEq] at e1
        obtain ⟨rfl, rfl⟩ := e1
        have := live_counts_append as bs ta tb t2 lb l2 hl e2
        simp [live_counts, he, this, bind, Except.bind, pure, Except.pure]

theorem chain_append : ∀ (a i c : Nat), chain i (a + c) = chain i a ++ chain (i + a) c
  | 0, i, c => by simp [chain]
  | a + 1, i, c => by
    have e : a + 1 + c = (a + c) + 1 := by omega
    have e2 : i + (a + 1) = i + 1 + a := by omega
    rw [e, chain, chain, chain_append a (i + 1) c, e2]
    simp

/-! ### The first four rounds -/

theorem chain_tree_reach1 : Reach (chain_tree 1) [11, 10] :=
  Reach.add_child (p := 10) (d := 0) ux0_reach (by decide) (by decide) (by decide) rfl

theorem chain_tree_reach2 : Reach (chain_tree 2) [11] :=
  Reach.deactivate (n := 10) chain_tree_reach1 (by decide) rfl

theorem chain_tree_reach3 : Reach (chain_tree 3) [12, 11] :=
  Reach.add_child (p := 11) (d := 0) chain_tree_reach2 (by decide) (by decide) (by decide) rfl

theorem chain_tree_reach4 : Reach (chain_tree 4) [12] :=
  Reach.deactivate (n := 11) chain_tree_reach3 (by decide) rfl

theorem chain_tree_reach5 : Reach (chain_tree 5) [13, 12] :=
  Reach.add_child (p := 12) (d := 0) chain_tree_reach4 (by decide) (by decide) (by decide) rfl

theorem chain_tree_reach6 : Reach (chain_tree 6) [13] :=
  Reach.deactivate (n := 12) chain_tree_reach5 (by decide) rfl

theorem chain_tree_reach7 : Reach (chain_tree 7) [14, 13] :=
  Reach.add_child (p := 13) (d := 0) chain_tree_reach6 (by decide) (by decide) (by decide) rfl

theorem cx4_reach : Reach cx4 [14] :=
  Reach.deactivate (n := 13) chain_tree_reach7 (by decide) rfl

theorem eq_singleton_of_mem {D : List Nat} {x : Nat} (hD : D.Nodup) (h : ∀ p, p ∈ D ↔ p = x) :
    D = [x] :=
  List.perm_singleton.1 ((List.perm_ext_iff_of_nodup hD (List.nodup_singleton x)).2
    (fun a => by simp [h a]))

theorem cx4_even : ChainEven 10 cx4 := by
  obtain ⟨D, hi⟩ := cx4_reach.inv
  have hal : cx4.alloc = [14, 13, 12, 11, 10] := by decide
  have hD : D = [11] := by
    refine eq_singleton_of_mem hi.wf.D_nodup (fun p => ?_)
    rw [hi.wf.del p]
    constructor
    · rintro ⟨h1, h2, h3⟩
      rw [hal] at h1
      simp only [List.mem_cons, List.mem_singleton, List.not_mem_nil, or_false] at h1
      rcases h1 with rfl | rfl | rfl | rfl | rfl
      · exact absurd h2 (by decide)
      · exact absurd h3 (by decide)
      · exact absurd h3 (by decide)
      · rfl
      · exact absurd h3 (by decide)
    · rintro rfl
      exact ⟨by decide, by decide, by decide⟩
  rw [hD] at hi
  exact ⟨hi, by decide, by decide, hal, by decide, by decide, by decide, by decide, by decide,
    by decide, by decide, by decide, by decide, by decide, by decide, by decide, by decide,
    by decide⟩

theorem cx4_counts : ∃ ls, live_counts ux0 (chain 10 4) = .ok (cx4, ls) ∧ ls.length = 8 ∧
    ∀ l ∈ ls, l ≤ 5 := by
  have e1 : exec ux0 (.add_child 10 11 0) = .ok (chain_tree 1) := rfl
  have e2 : exec (chain_tree 1) (.deactivate 10) = .ok (chain_tree 2) := rfl
  have e3 : exec (chain_tree 2) (.add_child 11 12 0) = .ok (chain_tree 3) := rfl
  have e4 : exec (chain_tree 3) (.deactivate 11) = .ok (chain_tree 4) := rfl
  have e5 : exec (chain_tree 4) (.add_child 12 13 0) = .ok (chain_tree 5) := rfl
  have e6 : exec (chain_tree 5) (.deactivate 12) = .ok (chain_tree 6) := rfl
  have e7 : exec (chain_tree 6) (.add_child 13 14 0) = .ok (chain_tree 7) := rfl
  have e8 : exec (chain_tree 7) (.deactivate 13) = .ok cx4 := rfl
  have e0 : live_counts cx4 [] = .ok (cx4, []) := rfl
  refine ⟨_, live_counts_step e1 e2 (live_counts_step e3 e4 (live_counts_step e5 e6
    (live_counts_step e7 e8 e0))), rfl, fun l hl => ?_⟩
  simp only [List.mem_cons, List.mem_singleton, List.not_mem_nil, or_false] at hl
  rcases hl with rfl | rfl | rfl | rfl | rfl | rfl | rfl | rfl <;> decide

theorem chain_counts_eq {N : Nat} {t' : Tree} {ls : List Nat}
    (e : live_counts ux0 (chain 10 N) = .ok (t', ls)) : chain_counts N = .ok ls := by
  have h0 : tb_initialize 2 tb_real_time 10 (tb_make_node Mem.empty 10 0) = .ok ux0 := rfl
  simp [chain_counts, h0, e, bind, Except.bind, pure, Except.pure]

/-- C13: under the real-time algorithm with history 2, for every number `N` of
rounds, the chain workload on a fresh tree returns, and after each of its
`2 * N` operations there are at most `2 * history + 1 = 5` owned nodes: `c = 1`
for every `N`. -/
theorem chain_live_bound (N : Nat) :
    ∃ ls, chain_counts N = .ok ls ∧ ls.length = 2 * N ∧ ∀ l ∈ ls, l ≤ 2 * 2 + 1 := by
  by_cases hN : N < 4
  · interval_cases N
    · exact ⟨[], rfl, rfl, by decide⟩
    · exact ⟨[2, 2], rfl, rfl, by decide⟩
    · exact ⟨[2, 2, 3, 3], rfl, rfl, by decide⟩
    · exact ⟨[2, 2, 3, 3, 4, 4], rfl, rfl, by decide⟩
  · obtain ⟨M, rfl⟩ : ∃ M, N = 4 + M := ⟨N - 4, by omega⟩
    obtain ⟨t', ls, e, hl, hb⟩ := (chain_steady M).1 10 cx4 cx4_even
    obtain ⟨l0, e0, hl0, hb0⟩ := cx4_counts
    have e2 := live_counts_append _ _ _ _ _ _ _ e0 e
    rw [← chain_append 4 10 M] at e2
    refine ⟨_, chain_counts_eq e2, by simp [hl, hl0]; omega, fun l hl' => ?_⟩
    rcases List.mem_append.1 hl' with h1 | h1
    · exact hb0 l h1
    · exact hb l h1

end TreeBuffers
